import Mathlib

/-!
# EasyVDF: a shallow embedding of `EasyVDF.h`

The header `src/EasyVDF.h` implements a tree of named, typed nodes
(`ValveDataObject`), a line-oriented text parser, a chunked binary parser and
the two matching serializers.  This file transcribes those functions into
executable Lean definitions and proves properties about them.

Conventions of the embedding

* A byte is a natural number (`0 .. 255`); `std::string` and stream contents are
  lists of bytes.
* C++ pointers into a buffer are natural-number indices into the list that
  models the buffer (`SkipSpaces`, `ParseString`), or the list of bytes between
  the two cursors (the binary window `[buffer_start, buffer_end)`).
* A C++ function that may throw returns `Except Exn _`.  `Exn.undefined` is not a
  C++ exception: it marks an execution whose behaviour the C++ source does not
  determine (a read outside the buffer, a read of an inactive union member, a
  cursor moved past its end).  `Exn.out_of_fuel` is an artefact of the embedding:
  loops are structurally recursive on a step budget.
* What the C++ implementation leaves to the platform is collected in `Impl`.
-/

namespace EasyVDF

/-- A `std::string` / raw stream content: a list of byte values. -/
abbrev Bytes := List Nat

/-- The text of an exception (`what()`). -/
abbrev Msg := String

/-- Implementation-defined ingredients of the C++ program. -/
structure Impl where
  /-- The function `std::hash<std::string>()`. -/
  hash : Bytes → Nat
  /-- Whether plain `char` is a signed type (it is on x86 and on Apple targets). -/
  charSigned : Bool
  /-- The characters `operator<<(std::ostream&, float)` prints for a 32-bit pattern. -/
  showFloat : Nat → Bytes

/-- The enumeration `enum class ObjectType : int8_t`. -/
inductive ObjectType where
  | None
  | Object
  | String
  | Int32
  | Float
  | Pointer
  | WideString
  | Color
  | UInt64
  | Binary
  | Int64
deriving DecidableEq, Repr

/-- The byte written by `os.write((const char*)&_Obj->_Type, 1)`: the `int8_t`
value of the enumerator (`None = -1` is the byte `0xFF`). -/
def ObjectType.toByte : ObjectType → Nat
  | .None => 255
  | .Object => 0
  | .String => 1
  | .Int32 => 2
  | .Float => 3
  | .Pointer => 4
  | .WideString => 5
  | .Color => 6
  | .UInt64 => 7
  | .Binary => 9
  | .Int64 => 10

/-- The private enumeration `enum class BinaryNodeType : int8_t`. -/
inductive BinaryNodeType where
  | Object
  | String
  | Int32
  | Float
  | Pointer
  | WideString
  | Color
  | UInt64
  | ObjectEnd
  | Binary
  | Int64
  | AlternativeEnd
deriving DecidableEq, Repr

/-- The wire value of a `BinaryNodeType` enumerator. -/
def BinaryNodeType.toByte : BinaryNodeType → Nat
  | .Object => 0
  | .String => 1
  | .Int32 => 2
  | .Float => 3
  | .Pointer => 4
  | .WideString => 5
  | .Color => 6
  | .UInt64 => 7
  | .ObjectEnd => 8
  | .Binary => 9
  | .Int64 => 10
  | .AlternativeEnd => 11

/-- Outcomes other than a normal return. -/
inductive Exn where
  /-- The exception `std::invalid_argument(what)`. -/
  | invalid_argument (what : Msg)
  /-- The exception `std::runtime_error(what)`. -/
  | runtime_error (what : Msg)
  /-- The exception `EasyVDF::ParserException(what)`. -/
  | ParserException (what : Msg)
  /-- The exception `EasyVDF::SerializeException(what)`. -/
  | SerializeException (what : Msg)
  /-- Not an exception: the C++ source does not determine what happens. -/
  | undefined
  /-- Not an exception: the step budget of the embedding ran out. -/
  | out_of_fuel
deriving DecidableEq, Repr

/-- The anonymous union `_U` of `Data_t`, remembering which member was written
last.  `uninit` is the state left by `Data_t()`, which initialises no member.
The scalar members hold: `_Int32`, `_Int64` a signed integer, `_Pointer.value`,
`_Color.value`, `_UInt64` an unsigned integer, `_Float` the 32-bit pattern of
the `float`. -/
inductive Payload (α : Type) where
  | uninit
  | _String (s : Bytes)
  | _Collection (c : List α)
  | _Int32 (v : Int)
  | _Float (bits : Nat)
  | _Pointer (v : Nat)
  | _Color (v : Nat)
  | _Int64 (v : Int)
  | _UInt64 (v : Nat)

/-- A node: `ValveDataObject` together with the `Data_t` it owns
(`_Name`, `_NameHash`, `_U`, `_Type`). -/
inductive ValveDataObject where
  | mk (_Name : Bytes) (_NameHash : Nat) (_U : Payload ValveDataObject) (_Type : ObjectType)

/-- The type `ValveCollection = std::vector<ValveDataObject>`. -/
abbrev ValveCollection := List ValveDataObject

namespace ValveDataObject

/-- Field `_Obj->_Name`. -/
def _Name : ValveDataObject → Bytes
  | mk n _ _ _ => n

/-- Field `_Obj->_NameHash`. -/
def _NameHash : ValveDataObject → Nat
  | mk _ h _ _ => h

/-- Field `_Obj->_U`. -/
def _U : ValveDataObject → Payload ValveDataObject
  | mk _ _ u _ => u

/-- Field `_Obj->_Type`. -/
def _Type : ValveDataObject → ObjectType
  | mk _ _ _ t => t

end ValveDataObject

/-- Constructor `ValveDataObject()`: `Data_t()` gives the empty name, its hash and
type `None`; no union member is initialised. -/
def ValveDataObject.new (I : Impl) : ValveDataObject :=
  .mk [] (I.hash []) .uninit .None

/-- Constructor `ValveDataObject(std::string const& key)`: an empty object. -/
def ValveDataObject.new_object (I : Impl) (key : Bytes) : ValveDataObject :=
  .mk key (I.hash key) (._Collection []) .Object

/-- Constructor `ValveDataObject(std::string const& key, std::string const& value)`
(and its `std::string&&` twin). -/
def ValveDataObject.new_string (I : Impl) (key value : Bytes) : ValveDataObject :=
  .mk key (I.hash key) (._String value) .String

/-- Constructor `ValveDataObject(std::string const& key, int32_t value)`. -/
def ValveDataObject.new_int32 (I : Impl) (key : Bytes) (value : Int) : ValveDataObject :=
  .mk key (I.hash key) (._Int32 value) .Int32

/-- Constructor `ValveDataObject(std::string const& key, float value)`. -/
def ValveDataObject.new_float (I : Impl) (key : Bytes) (value : Nat) : ValveDataObject :=
  .mk key (I.hash key) (._Float value) .Float

/-- Constructor `ValveDataObject(std::string const& key, pointer_t value)`. -/
def ValveDataObject.new_pointer (I : Impl) (key : Bytes) (value : Nat) : ValveDataObject :=
  .mk key (I.hash key) (._Pointer value) .Pointer

/-- Constructor `ValveDataObject(std::string const& key, color_t value)`. -/
def ValveDataObject.new_color (I : Impl) (key : Bytes) (value : Nat) : ValveDataObject :=
  .mk key (I.hash key) (._Color value) .Color

/-- Constructor `ValveDataObject(std::string const& key, int64_t value)`. -/
def ValveDataObject.new_int64 (I : Impl) (key : Bytes) (value : Int) : ValveDataObject :=
  .mk key (I.hash key) (._Int64 value) .Int64

/-- Constructor `ValveDataObject(std::string const& key, uint64_t value)`. -/
def ValveDataObject.new_uint64 (I : Impl) (key : Bytes) (value : Nat) : ValveDataObject :=
  .mk key (I.hash key) (._UInt64 value) .UInt64

/-- Method `Name() const`. -/
def ValveDataObject.Name (o : ValveDataObject) : Bytes := o._Name

/-- Method `Type() const`. -/
def ValveDataObject.Type (o : ValveDataObject) : ObjectType := o._Type

/-- Method `Empty() const`. -/
def ValveDataObject.Empty (o : ValveDataObject) : Bool := o._Type == .None

/-- The text of the exception thrown by `String()`. -/
def what_String : Msg := "Attempted to read a String from a non String type."

/-- The text of the exception thrown by `Collection()`. -/
def what_Collection : Msg := "Attempted to get a Collection from non Collection type."

/-- The text of the exception thrown by `Int32()`. -/
def what_Int32 : Msg := "Attempted to get an Int32 from non Int32 type."

/-- The text of the exception thrown by `Float()`. -/
def what_Float : Msg := "Attempted to get a Float from non Float type."

/-- The text of the exception thrown by `Pointer()` and, as the source has it,
by `Color()`. -/
def what_Pointer : Msg := "Attempted to get a Pointer from non Pointer type."

/-- The text of the exception thrown by `Int64()`. -/
def what_Int64 : Msg := "Attempted to get an Int64 from non Int64 type."

/-- The text of the exception thrown by `UInt64()`. -/
def what_UInt64 : Msg := "Attempted to get an UInt64 from non UInt64 type."

/-- Method `String()`: `*_Obj->_U._String` after the type check. -/
def ValveDataObject.String (o : ValveDataObject) : Except Exn Bytes :=
  if o._Type ≠ .String then .error (.invalid_argument what_String)
  else match o._U with
    | ._String s => .ok s
    | _ => .error .undefined

/-- Method `Collection()`: `*_Obj->_U._Collection` after the type check. -/
def ValveDataObject.Collection (o : ValveDataObject) : Except Exn ValveCollection :=
  if o._Type ≠ .Object then .error (.invalid_argument what_Collection)
  else match o._U with
    | ._Collection c => .ok c
    | _ => .error .undefined

/-- Method `Int32() const`. -/
def ValveDataObject.Int32 (o : ValveDataObject) : Except Exn Int :=
  if o._Type ≠ .Int32 then .error (.invalid_argument what_Int32)
  else match o._U with
    | ._Int32 v => .ok v
    | _ => .error .undefined

/-- Method `Float() const` (the result is the bit pattern of the `float`). -/
def ValveDataObject.Float (o : ValveDataObject) : Except Exn Nat :=
  if o._Type ≠ .Float then .error (.invalid_argument what_Float)
  else match o._U with
    | ._Float v => .ok v
    | _ => .error .undefined

/-- Method `Pointer() const` (the result is `pointer_t::value`). -/
def ValveDataObject.Pointer (o : ValveDataObject) : Except Exn Nat :=
  if o._Type ≠ .Pointer then .error (.invalid_argument what_Pointer)
  else match o._U with
    | ._Pointer v => .ok v
    | _ => .error .undefined

/-- Method `Color() const` (the result is `color_t::value`). -/
def ValveDataObject.Color (o : ValveDataObject) : Except Exn Nat :=
  if o._Type ≠ .Color then .error (.invalid_argument what_Pointer)
  else match o._U with
    | ._Color v => .ok v
    | _ => .error .undefined

/-- Method `Int64() const`. -/
def ValveDataObject.Int64 (o : ValveDataObject) : Except Exn Int :=
  if o._Type ≠ .Int64 then .error (.invalid_argument what_Int64)
  else match o._U with
    | ._Int64 v => .ok v
    | _ => .error .undefined

/-- Method `UInt64() const`. -/
def ValveDataObject.UInt64 (o : ValveDataObject) : Except Exn Nat :=
  if o._Type ≠ .UInt64 then .error (.invalid_argument what_UInt64)
  else match o._U with
    | ._UInt64 v => .ok v
    | _ => .error .undefined

/-- Method `_ResetValue()`: the owned string or collection is deleted (the union
keeps the dangling member) and the type becomes `None`. -/
def ValveDataObject._ResetValue (o : ValveDataObject) : ValveDataObject :=
  .mk o._Name o._NameHash o._U .None

/-- Method `Name(std::string const& value)` (and its `std::string&&` twin). -/
def ValveDataObject.set_Name (I : Impl) (o : ValveDataObject) (value : Bytes) : ValveDataObject :=
  .mk value (I.hash value) o._U o._Type

/-- The operator `operator=(std::nullptr_t)`. -/
def ValveDataObject.assign_nullptr (o : ValveDataObject) : ValveDataObject :=
  o._ResetValue

/-- The operator `operator=(std::string const& value)` (and its `std::string&&` twin). -/
def ValveDataObject.assign_string (o : ValveDataObject) (value : Bytes) : ValveDataObject :=
  let o := o._ResetValue
  .mk o._Name o._NameHash (._String value) .String

/-- The operator `operator=(int32_t value)`. -/
def ValveDataObject.assign_int32 (o : ValveDataObject) (value : Int) : ValveDataObject :=
  let o := o._ResetValue
  .mk o._Name o._NameHash (._Int32 value) .Int32

/-- The operator `operator=(pointer_t value)`: the source stores `_U._Pointer` and
sets `_Type = ObjectType::Int32`. -/
def ValveDataObject.assign_pointer (o : ValveDataObject) (value : Nat) : ValveDataObject :=
  let o := o._ResetValue
  .mk o._Name o._NameHash (._Pointer value) .Int32

/-- The operator `operator=(color_t value)`: the source stores `_U._Color` and
sets `_Type = ObjectType::Int32`. -/
def ValveDataObject.assign_color (o : ValveDataObject) (value : Nat) : ValveDataObject :=
  let o := o._ResetValue
  .mk o._Name o._NameHash (._Color value) .Int32

/-- The operator `operator=(float value)`. -/
def ValveDataObject.assign_float (o : ValveDataObject) (value : Nat) : ValveDataObject :=
  let o := o._ResetValue
  .mk o._Name o._NameHash (._Float value) .Float

/-- The operator `operator=(int64_t value)`. -/
def ValveDataObject.assign_int64 (o : ValveDataObject) (value : Int) : ValveDataObject :=
  let o := o._ResetValue
  .mk o._Name o._NameHash (._Int64 value) .Int64

/-- The operator `operator=(uint64_t value)`. -/
def ValveDataObject.assign_uint64 (o : ValveDataObject) (value : Nat) : ValveDataObject :=
  let o := o._ResetValue
  .mk o._Name o._NameHash (._UInt64 value) .UInt64

/-- The operator `operator=(ValveDataObject&& value)` on two distinct nodes: the
pair is `(*this, value)` after the call.  Type and union are exchanged, the
names and name hashes stay. -/
def ValveDataObject.assign_move (self value : ValveDataObject) :
    ValveDataObject × ValveDataObject :=
  let type := value._Type
  let v := value._U
  let value := ValveDataObject.mk value._Name value._NameHash self._U self._Type
  let self := ValveDataObject.mk self._Name self._NameHash v type
  (self, value)

/-- The loop `for (auto& item : c)` of `operator[]`: `r` collects a reference to
every item whose `_NameHash` equals `key_hash`. -/
def ValveDataObject.subscript.loop (key_hash : Nat) :
    List ValveDataObject → List ValveDataObject → List ValveDataObject
  | [], r => r
  | item :: c, r =>
    if item._NameHash = key_hash then ValveDataObject.subscript.loop key_hash c (r ++ [item])
    else ValveDataObject.subscript.loop key_hash c r

/-- The operator `operator[](std::string const& key)` (both the const and the
non-const overload, and through them the `const char*` overloads).  The
references of the result are modelled by the nodes they refer to. -/
def ValveDataObject.subscript (I : Impl) (o : ValveDataObject) (key : Bytes) :
    Except Exn (List ValveDataObject) :=
  match o.Collection with
  | .error x => .error x
  | .ok c =>
    let key_hash := I.hash key
    .ok (ValveDataObject.subscript.loop key_hash c [])

/-! ## Streams and the byte-window primitives of `namespace Details` -/

/-- The part of a `std::istream` the parsers depend on: the bytes not yet
extracted and the `failbit`.  (`eofbit` alone never changes what the parsers do:
every extraction that follows it finds no byte and sets `failbit`.) -/
structure istream where
  data : Bytes
  fail : Bool

/-- The call `is.read(p, n)`: the bytes stored (their number is `is.gcount()`) and
the stream afterwards.  A failed stream extracts nothing; fewer than `n`
available bytes set `failbit`. -/
def istream.read (is : istream) (n : Nat) : Bytes × istream :=
  if is.fail then ([], is)
  else if n ≤ is.data.length then (is.data.take n, ⟨is.data.drop n, false⟩)
  else (is.data, ⟨[], true⟩)

/-- The function `Details::is_cr(char)`. -/
def Details.is_cr (c : Nat) : Bool := c == 13

/-- The function `Details::is_lf(char)`. -/
def Details.is_lf (c : Nat) : Bool := c == 10

/-- The loop of `Details::getline` on a stream that has not failed: `data` is what
the stream still holds, `buffer` what has been pushed so far. -/
def Details.getline.loop : Bytes → Bytes → Bytes × istream
  | [], buffer => (buffer, ⟨[], true⟩)
  | c :: data, buffer =>
    let buffer := buffer ++ [c]
    if Details.is_cr c then
      match data with
      | [] => (buffer, ⟨[], false⟩)
      | c2 :: data2 =>
        if Details.is_lf c2 then (buffer ++ [c2], ⟨data2, false⟩)
        else (buffer, ⟨data, false⟩)
    else if Details.is_lf c then (buffer, ⟨data, false⟩)
    else Details.getline.loop data buffer

/-- The function `Details::getline(is, buffer)`: the new content of `buffer` and
the stream, whose state is the value the caller tests. -/
def Details.getline (is : istream) : Bytes × istream :=
  if is.fail then ([], is) else Details.getline.loop is.data []

/-- First loop of `Details::SkipSpaces`: advance `s` over spaces and tabs. -/
def Details.SkipSpaces.front (buf : Bytes) (e : Nat) : Nat → Nat → Nat
  | 0, s => s
  | fuel + 1, s =>
    if s = e then s
    else
      let c := buf.getD s 0
      if c ≠ 32 ∧ c ≠ 9 then s
      else Details.SkipSpaces.front buf e fuel (s + 1)

/-- Second loop of `Details::SkipSpaces`: `while ((e-1) != s)` move `e` back over
`\n` and `\r`.  The argument is `e`; at `e = 0` the read `*(e-1)` lies before
the buffer. -/
def Details.SkipSpaces.back (buf : Bytes) (s : Nat) : Nat → Except Exn Nat
  | 0 => .error .undefined
  | e + 1 =>
    if e = s then .ok (e + 1)
    else
      let c := buf.getD e 0
      if c ≠ 10 ∧ c ≠ 13 then .ok (e + 1)
      else Details.SkipSpaces.back buf s e

/-- The function `Details::SkipSpaces(s, e)` on cursors into `buf`; the result is
the new pair `(s, e)`.  Cursors that are out of order or outside the buffer
leave the behaviour undetermined. -/
def Details.SkipSpaces (buf : Bytes) (s e : Nat) : Except Exn (Nat × Nat) :=
  if e < s ∨ buf.length < e then .error .undefined
  else
    let s := Details.SkipSpaces.front buf e (e - s) s
    match Details.SkipSpaces.back buf s e with
    | .error x => .error x
    | .ok e => .ok (s, e)

/-- First loop of `Details::ParseString`: look for the opening quote.  The result
is `(b, has_escape, string_start)`, with `none` for `nullptr`. -/
def Details.ParseString.first (buf : Bytes) (e : Nat) :
    Nat → Nat → Bool → Nat × Bool × Option Nat
  | 0, b, has_escape => (b, has_escape, none)
  | fuel + 1, b, has_escape =>
    if b = e then (b, has_escape, none)
    else
      let c := buf.getD b 0
      let b := b + 1
      if has_escape then Details.ParseString.first buf e fuel b false
      else if c = 92 then Details.ParseString.first buf e fuel b true
      else if c = 34 then (b, has_escape, some b)
      else Details.ParseString.first buf e fuel b has_escape

/-- Second loop of `Details::ParseString` and the code after it, for a non-null
`string_start`.  The result is `(return value, b, str)`.  A cursor beyond `e`
never meets the loop condition `b != e` again. -/
def Details.ParseString.second (buf : Bytes) (e string_start : Nat) (str : Bytes) :
    Nat → Nat → Bool → Except Exn (Int × Nat × Bytes)
  | 0, b, _ =>
    if b = e then .ok (-2, b, str)
    else if e < b then .error .undefined
    else .error .out_of_fuel
  | fuel + 1, b, has_escape =>
    if b = e then .ok (-2, b, str)
    else if e < b then .error .undefined
    else
      let c := buf.getD b 0
      let b := b + 1
      if c < 0x80 then
        if c = 92 then Details.ParseString.second buf e string_start str fuel b true
        else if has_escape then Details.ParseString.second buf e string_start str fuel b false
        else if c = 34 then
          .ok (0, b, (buf.drop string_start).take (b - 1 - string_start))
        else Details.ParseString.second buf e string_start str fuel b has_escape
      else if c >>> 5 = 0x6 then
        if b = e then .ok (-3, b, str)
        else Details.ParseString.second buf e string_start str fuel (b + 1) has_escape
      else if c >>> 4 = 0xe then
        if b + 1 = e then .ok (-3, b, str)
        else Details.ParseString.second buf e string_start str fuel (b + 2) has_escape
      else if c >>> 3 = 0x1e then
        if b + 2 = e then .ok (-3, b, str)
        else Details.ParseString.second buf e string_start str fuel (b + 3) has_escape
      else Details.ParseString.second buf e string_start str fuel b has_escape

/-- The function `Details::ParseString(b, e, str)` on cursors into `buf`; the
result is `(return value, b, str)`. -/
def Details.ParseString (buf : Bytes) (b e : Nat) (str : Bytes) :
    Except Exn (Int × Nat × Bytes) :=
  if e < b ∨ buf.length < e then .error .undefined
  else
    match Details.ParseString.first buf e (e - b) b false with
    | (b, _, none) => .ok (-1, b, str)
    | (b, has_escape, some string_start) =>
      Details.ParseString.second buf e string_start str (e - b) b has_escape

/-- Loop of `Details::ParseBinaryString` over the window from the cursor `b` to
`e`; `n` is `b - string_start`.  The result is the return value together with
the final `b - string_start`.  With a signed `char` a byte above `0x7f` is
negative, so that neither `c < 0x80u` nor one of the shifted comparisons
holds.  A cursor moved beyond `e` never meets the loop condition `b != e`
again. -/
def Details.ParseBinaryString.loop (charSigned : Bool) : Nat → Bytes → Nat → Except Exn (Int × Nat)
  | _, [], n => .ok (-1, n)
  | 0, _ :: _, _ => .error .out_of_fuel
  | fuel + 1, c :: rest, n =>
    if c < 0x80 then
      if c = 0 then .ok (0, n + 1)
      else Details.ParseBinaryString.loop charSigned fuel rest (n + 1)
    else if charSigned then Details.ParseBinaryString.loop charSigned fuel rest (n + 1)
    else if c >>> 5 = 0x6 then
      if rest.length = 0 then .ok (-2, n + 1)
      else Details.ParseBinaryString.loop charSigned fuel (rest.drop 1) (n + 2)
    else if c >>> 4 = 0xe then
      if rest.length = 1 then .ok (-2, n + 1)
      else if rest.length < 2 then .error .undefined
      else Details.ParseBinaryString.loop charSigned fuel (rest.drop 2) (n + 3)
    else if c >>> 3 = 0x1e then
      if rest.length = 2 then .ok (-2, n + 1)
      else if rest.length < 3 then .error .undefined
      else Details.ParseBinaryString.loop charSigned fuel (rest.drop 3) (n + 4)
    else Details.ParseBinaryString.loop charSigned fuel rest (n + 1)

/-- The function `Details::ParseBinaryString(b, e, str)` on the window `win` of
the bytes from `b` to `e`; the result is `(return value, window left, str)`.
Both the complete (`0`) and the partial (`-1`) exit append the bytes from
`string_start` to `b - 1`; for an empty window `b - 1` precedes
`string_start`. -/
def Details.ParseBinaryString (I : Impl) (win str : Bytes) : Except Exn (Int × Bytes × Bytes) :=
  match Details.ParseBinaryString.loop I.charSigned win.length win 0 with
  | .error x => .error x
  | .ok (code, n) =>
    if code = -2 then .ok (-2, win.drop n, str)
    else if n = 0 then .error .undefined
    else .ok (code, win.drop n, str ++ win.take (n - 1))

/-- The function `Details::ReadBinaryBytes(b, e, buffer, max_size)` on the window
`win`; the result is `(window left, buffer)`. -/
def Details.ReadBinaryBytes (win buffer : Bytes) (max_size : Nat) : Except Exn (Bytes × Bytes) :=
  if max_size < buffer.length then .error .undefined
  else
    let left_count :=
      if win.length < max_size - buffer.length then win.length else max_size - buffer.length
    .ok (win.drop left_count, buffer ++ win.take left_count)

/-- The unsigned integer stored little-endian in a byte sequence. -/
def le_decode : Bytes → Nat
  | [] => 0
  | b :: bs => b + 256 * le_decode bs

/-- The `n` little-endian bytes of an unsigned integer (reduced modulo `256 ^ n`). -/
def le_encode : Nat → Nat → Bytes
  | 0, _ => []
  | n + 1, v => v % 256 :: le_encode n (v / 256)

/-- The read `*reinterpret_cast<const int32_t*>(p)`: two's complement on 32 bits. -/
def as_int32 (bytes : Bytes) : Int :=
  let v := le_decode bytes
  if v < 2 ^ 31 then (v : Int) else (v : Int) - 2 ^ 32

/-- The read `*reinterpret_cast<const int64_t*>(p)`: two's complement on 64 bits. -/
def as_int64 (bytes : Bytes) : Int :=
  let v := le_decode bytes
  if v < 2 ^ 63 then (v : Int) else (v : Int) - 2 ^ 64

/-! ## The text parser -/

/-- A `ParserException` whose text ends with `std::to_string(line_num)`. -/
def at_line (what : Msg) (line_num : Nat) : Exn :=
  .ParserException (what ++ toString line_num)

mutual

/-- The function `ValveDataObject::_ParseTextObject(is, name, buffer, line_num, o)`.
The result is the node `o` (all four of its fields are overwritten), the stream
and `line_num`. -/
def _ParseTextObject (I : Impl) :
    Nat → istream → Bytes → Nat → Except Exn (ValveDataObject × istream × Nat)
  | 0, _, _, _ => .error .out_of_fuel
  | fuel + 1, is, name, line_num =>
    match _ParseTextObject.loop I fuel is line_num [] false [] with
    | .error x => .error x
    | .ok (c, is, line_num) =>
      .ok (.mk name (I.hash name) (._Collection c) .Object, is, line_num)

/-- The `while (getline(is, buffer))` loop of `_ParseTextObject`; `c` is the
collection of `o`, `is_object` and `object_name` the locals of that name. -/
def _ParseTextObject.loop (I : Impl) :
    Nat → istream → Nat → ValveCollection → Bool → Bytes →
      Except Exn (ValveCollection × istream × Nat)
  | 0, _, _, _, _, _ => .error .out_of_fuel
  | fuel + 1, is, line_num, c, is_object, object_name =>
    match Details.getline is with
    | (buffer, is) =>
      if is.fail then .ok (c, is, line_num)
      else
        let line_num := (line_num + 1) % 2 ^ 32
        match Details.SkipSpaces buffer 0 buffer.length with
        | .error x => .error x
        | .ok (line_start, line_end) =>
          if line_start = line_end then
            _ParseTextObject.loop I fuel is line_num c is_object object_name
          else if buffer.getD line_start 0 = 125 then .ok (c, is, line_num)
          else if !is_object then
            match Details.ParseString buffer line_start line_end object_name with
            | .error x => .error x
            | .ok (error, line_start, object_name) =>
              if error = -1 then .error (at_line "Expected item key start at line " line_num)
              else if error = -2 then .error (at_line "Expected item key end at line " line_num)
              else if error = -3 then .error (at_line "Invalid codepoint at line " line_num)
              else
                match Details.SkipSpaces buffer line_start line_end with
                | .error x => .error x
                | .ok (line_start, line_end) =>
                  if buffer.getD line_start 0 = 34 then
                    match Details.ParseString buffer line_start line_end [] with
                    | .error x => .error x
                    | .ok (error, line_start, tmp) =>
                      if error = -1 then
                        .error (at_line "Expected item value start at line " line_num)
                      else if error = -2 then
                        .error (at_line "Expected item value end at line " line_num)
                      else if error = -3 then
                        .error (at_line "Invalid codepoint at line " line_num)
                      else
                        match Details.SkipSpaces buffer line_start line_end with
                        | .error x => .error x
                        | .ok (line_start, line_end) =>
                          if line_start ≠ line_end then
                            .error (at_line "Got datas after item value at line " line_num)
                          else
                            _ParseTextObject.loop I fuel is line_num
                              (c ++ [ValveDataObject.new_string I object_name tmp])
                              is_object object_name
                  else if line_start ≠ line_end then
                    .error (at_line "Got datas after item key at line " line_num)
                  else _ParseTextObject.loop I fuel is line_num c true object_name
          else
            if buffer.getD line_start 0 ≠ 123 then
              .error (at_line "Expected object start at line " line_num)
            else
              match Details.SkipSpaces buffer (line_start + 1) line_end with
              | .error x => .error x
              | .ok (line_start, line_end) =>
                if line_start ≠ line_end then
                  .error (at_line "Got datas after object start at line " line_num)
                else
                  match _ParseTextObject I fuel is object_name line_num with
                  | .error x => .error x
                  | .ok (child, is, line_num) =>
                    _ParseTextObject.loop I fuel is line_num (c ++ [child]) false []

end

/-- The text branch of `ValveDataObject::ParseObject`: its
`while (getline(is, buffer))` loop.  The nested `_ParseTextObject` gets a step
budget that covers the rest of the stream. -/
def ParseObject.text (I : Impl) :
    Nat → istream → Nat → Bytes → ValveDataObject → Except Exn ValveDataObject
  | 0, _, _, _, _ => .error .out_of_fuel
  | fuel + 1, is, line_num, object_name, parsed_object =>
    match Details.getline is with
    | (buffer, is) =>
      if is.fail then .ok parsed_object
      else
        let line_num := (line_num + 1) % 2 ^ 32
        match Details.SkipSpaces buffer 0 buffer.length with
        | .error x => .error x
        | .ok (buffer_start, buffer_end) =>
          if buffer_start = buffer_end then
            ParseObject.text I fuel is line_num object_name parsed_object
          else if object_name.isEmpty then
            match Details.ParseString buffer buffer_start buffer_end object_name with
            | .error x => .error x
            | .ok (error, buffer_start, object_name) =>
              if error = -1 then .error (at_line "Expected object key start at line " line_num)
              else if error = -2 then .error (at_line "Expected object key end at line " line_num)
              else if error = -3 then .error (at_line "Invalid codepoint at line " line_num)
              else
                match Details.SkipSpaces buffer buffer_start buffer_end with
                | .error x => .error x
                | .ok (buffer_start, buffer_end) =>
                  if buffer_start ≠ buffer_end then
                    .error (at_line "Got datas after object key at line " line_num)
                  else ParseObject.text I fuel is line_num object_name parsed_object
          else
            if buffer.getD buffer_start 0 ≠ 123 then
              .error (at_line "Expected object start at line " line_num)
            else
              match Details.SkipSpaces buffer (buffer_start + 1) buffer_end with
              | .error x => .error x
              | .ok (buffer_start, buffer_end) =>
                if buffer_start ≠ buffer_end then
                  .error (at_line "Got datas after object start at line " line_num)
                else
                  match _ParseTextObject I (2 * is.data.length + 2) is object_name line_num with
                  | .error x => .error x
                  | .ok (o, is, line_num) => ParseObject.text I fuel is line_num [] o

/-! ## The binary parser -/

/-- The text of the exception for return value `-2` of `ParseBinaryString`. -/
def what_codepoint : Msg := "Invalid codepoint while parsing binary string"

mutual

/-- The function `ValveDataObject::_ParseBinaryObject(is, name, object_end, buffer,
buffer_start, buffer_end, o)`; `chunk` is `buffer.length()` and `win` the bytes
from `buffer_start` to `buffer_end`.  The result is the node `o` (all four of
its fields are overwritten), the stream and the window. -/
def _ParseBinaryObject (I : Impl) (object_end : BinaryNodeType) (chunk : Nat) :
    Nat → istream → Bytes → Bytes → Except Exn (ValveDataObject × istream × Bytes)
  | 0, _, _, _ => .error .out_of_fuel
  | fuel + 1, is, name, win =>
    if !is.fail ∨ win ≠ [] then
      match _ParseBinaryObject.loop I object_end chunk fuel is win [] 0 false false [] [] with
      | .error x => .error x
      | .ok (c, is, win) => .ok (.mk name (I.hash name) (._Collection c) .Object, is, win)
    else .ok (.mk name (I.hash name) (._Collection []) .Object, is, win)

/-- The body of `while (is || buffer_start != buffer_end)` in
`_ParseBinaryObject`, one step at a time: on an empty window the inner loop is
over, the buffer is refilled and the outer condition is tested; otherwise one
iteration of the inner loop runs.  `c` is the collection of `o`; `state`,
`parsed_item_key`, `type_read`, `item_key`, `tmp1` are the locals of that name
(`state` holds the raw tag byte). -/
def _ParseBinaryObject.loop (I : Impl) (object_end : BinaryNodeType) (chunk : Nat) :
    Nat → istream → Bytes → ValveCollection → Nat → Bool → Bool → Bytes → Bytes →
      Except Exn (ValveCollection × istream × Bytes)
  | 0, _, _, _, _, _, _, _, _ => .error .out_of_fuel
  | fuel + 1, is, win, c, state, parsed_item_key, type_read, item_key, tmp1 =>
    match win with
    | [] =>
      match is.read chunk with
      | (win, is) =>
        if !is.fail ∨ win ≠ [] then
          _ParseBinaryObject.loop I object_end chunk fuel is win c state parsed_item_key
            type_read item_key tmp1
        else .ok (c, is, win)
    | b0 :: rest =>
      if !type_read then
        _ParseBinaryObject.loop I object_end chunk fuel is rest c b0 parsed_item_key true [] tmp1
      else if state = BinaryNodeType.ObjectEnd.toByte
          ∨ state = BinaryNodeType.AlternativeEnd.toByte then
        .ok (c, is, win)
      else if !parsed_item_key then
        match Details.ParseBinaryString I win item_key with
        | .error x => .error x
        | .ok (error, win, item_key) =>
          if error = -2 then .error (.ParserException what_codepoint)
          else
            _ParseBinaryObject.loop I object_end chunk fuel is win c state (error == 0)
              type_read item_key tmp1
      else if state = BinaryNodeType.Object.toByte then
        match _ParseBinaryObject I object_end chunk fuel is item_key win with
        | .error x => .error x
        | .ok (child, is, win) =>
          _ParseBinaryObject.loop I object_end chunk fuel is win (c ++ [child]) state false
            false [] []
      else if state = BinaryNodeType.String.toByte then
        match Details.ParseBinaryString I win tmp1 with
        | .error x => .error x
        | .ok (error, win, tmp1) =>
          if error = -2 then .error (.ParserException what_codepoint)
          else if error = 0 then
            _ParseBinaryObject.loop I object_end chunk fuel is win
              (c ++ [ValveDataObject.new_string I item_key tmp1]) state false false [] []
          else
            _ParseBinaryObject.loop I object_end chunk fuel is win c state parsed_item_key
              type_read item_key tmp1
      else if state = BinaryNodeType.Int32.toByte then
        match Details.ReadBinaryBytes win tmp1 4 with
        | .error x => .error x
        | .ok (win, tmp1) =>
          if tmp1.length = 4 then
            _ParseBinaryObject.loop I object_end chunk fuel is win
              (c ++ [ValveDataObject.new_int32 I item_key (as_int32 tmp1)]) state false false
              [] []
          else
            _ParseBinaryObject.loop I object_end chunk fuel is win c state parsed_item_key
              type_read item_key tmp1
      else if state = BinaryNodeType.Float.toByte then
        match Details.ReadBinaryBytes win tmp1 4 with
        | .error x => .error x
        | .ok (win, tmp1) =>
          if tmp1.length = 4 then
            _ParseBinaryObject.loop I object_end chunk fuel is win
              (c ++ [ValveDataObject.new_float I item_key (le_decode tmp1)]) state false false
              [] []
          else
            _ParseBinaryObject.loop I object_end chunk fuel is win c state parsed_item_key
              type_read item_key tmp1
      else if state = BinaryNodeType.Pointer.toByte then
        match Details.ReadBinaryBytes win tmp1 4 with
        | .error x => .error x
        | .ok (win, tmp1) =>
          if tmp1.length = 4 then
            _ParseBinaryObject.loop I object_end chunk fuel is win
              (c ++ [ValveDataObject.new_pointer I item_key (le_decode tmp1)]) state false false
              [] []
          else
            _ParseBinaryObject.loop I object_end chunk fuel is win c state parsed_item_key
              type_read item_key tmp1
      else if state = BinaryNodeType.Color.toByte then
        match Details.ReadBinaryBytes win tmp1 4 with
        | .error x => .error x
        | .ok (win, tmp1) =>
          if tmp1.length = 4 then
            _ParseBinaryObject.loop I object_end chunk fuel is win
              (c ++ [ValveDataObject.new_color I item_key (le_decode tmp1)]) state false false
              [] []
          else
            _ParseBinaryObject.loop I object_end chunk fuel is win c state parsed_item_key
              type_read item_key tmp1
      else if state = BinaryNodeType.Int64.toByte then
        match Details.ReadBinaryBytes win tmp1 8 with
        | .error x => .error x
        | .ok (win, tmp1) =>
          if tmp1.length = 8 then
            _ParseBinaryObject.loop I object_end chunk fuel is win
              (c ++ [ValveDataObject.new_int64 I item_key (as_int64 tmp1)]) state false false
              [] []
          else
            _ParseBinaryObject.loop I object_end chunk fuel is win c state parsed_item_key
              type_read item_key tmp1
      else if state = BinaryNodeType.UInt64.toByte then
        match Details.ReadBinaryBytes win tmp1 8 with
        | .error x => .error x
        | .ok (win, tmp1) =>
          if tmp1.length = 8 then
            _ParseBinaryObject.loop I object_end chunk fuel is win
              (c ++ [ValveDataObject.new_uint64 I item_key (le_decode tmp1)]) state false false
              [] []
          else
            _ParseBinaryObject.loop I object_end chunk fuel is win c state parsed_item_key
              type_read item_key tmp1
      else .error (.runtime_error "Unhandled VDF type")

end

/-- The loop `while (is.read(&buffer[0], chunk_size) || is.gcount() != 0)` of the
binary branch of `ParseObject`.  The nested `_ParseBinaryObject` gets a step
budget that covers the rest of the stream; `object_name` is empty after it has
been moved into the node. -/
def ParseObject.binary_loop (I : Impl) (chunk_size : Nat) (binary_root_end : BinaryNodeType) :
    Nat → istream → Bytes → ValveDataObject → Except Exn ValveDataObject
  | 0, _, _, _ => .error .out_of_fuel
  | fuel + 1, is, object_name, parsed_object =>
    match is.read chunk_size with
    | (win, is) =>
      if !is.fail ∨ win.length ≠ 0 then
        match Details.ParseBinaryString I win object_name with
        | .error x => .error x
        | .ok (error, win, object_name) =>
          if error = -2 then .error (.ParserException what_codepoint)
          else if error = 0 then
            match _ParseBinaryObject I binary_root_end chunk_size
                (3 * (is.data.length + win.length) + 3) is object_name win with
            | .error x => .error x
            | .ok (o, is, _) => ParseObject.binary_loop I chunk_size binary_root_end fuel is [] o
          else
            ParseObject.binary_loop I chunk_size binary_root_end fuel is object_name
              parsed_object
      else .ok parsed_object

/-- The binary branch of `ValveDataObject::ParseObject`, entered with the stream
positioned on the tag of the root. -/
def ParseObject.binary (I : Impl) (chunk_size : Nat) (binary_root_end : BinaryNodeType)
    (is : istream) : Except Exn ValveDataObject :=
  match is.read 1 with
  | (buffer, is) =>
    if is.fail ∨ buffer.length ≠ 1 then
      .error (.ParserException "Premature end of file while parsing root binary object")
    else if buffer.getD 0 0 ≠ BinaryNodeType.Object.toByte then
      .error (.ParserException "Binary root item type is not an object")
    else
      ParseObject.binary_loop I chunk_size binary_root_end (is.data.length + 1) is []
        (ValveDataObject.new I)

/-- The bytes of `BinaryVDFMagic = 0x564B4256` in memory (little-endian): `VBKV`. -/
def BinaryVDFMagic : Bytes := [0x56, 0x42, 0x4B, 0x56]

/-- The function `ValveDataObject::ParseObject(is, chunk_size)` on a stream that
holds `input`.  The four sniffed bytes are read through `&buffer[0]` whatever
`chunk_size` is: for a `chunk_size` below 4 they land in the internal storage
of the short string, as they do with the common standard libraries, and the
model reads them back from there. -/
def ParseObject (I : Impl) (input : Bytes) (chunk_size : Nat) : Except Exn ValveDataObject :=
  if input.length < 4 then .error (.ParserException "Failed to read stream.")
  else if input.take 4 = BinaryVDFMagic then
    ParseObject.binary I chunk_size .AlternativeEnd ⟨input.drop 8, false⟩
  else if input.getD 0 0 = 0 then
    ParseObject.binary I chunk_size .ObjectEnd ⟨input, false⟩
  else
    ParseObject.text I (input.length + 1) ⟨input, false⟩ 0 [] (ValveDataObject.new I)

/-! ## The serializers -/

/-- The first `n` bytes of the object representation of the union (what
`os.write((const char*)&_Obj->_U._X, n)` writes), where the member written last
determines them: a scalar member fixes as many bytes as it is wide, a pointer
to a string or collection and an uninitialised union fix none. -/
def Payload.raw {α : Type} (n : Nat) : Payload α → Except Exn Bytes
  | ._Int32 v => if n ≤ 4 then .ok (le_encode n (v % 2 ^ 32).toNat) else .error .undefined
  | ._Float v => if n ≤ 4 then .ok (le_encode n v) else .error .undefined
  | ._Pointer v => if n ≤ 4 then .ok (le_encode n v) else .error .undefined
  | ._Color v => if n ≤ 4 then .ok (le_encode n v) else .error .undefined
  | ._Int64 v => if n ≤ 8 then .ok (le_encode n (v % 2 ^ 64).toNat) else .error .undefined
  | ._UInt64 v => if n ≤ 8 then .ok (le_encode n v) else .error .undefined
  | _ => .error .undefined

mutual

/-- The function `ValveDataObject::_SerializeAsBinary(os, object_end, crc)`: the
bytes written to `os`. -/
def _SerializeAsBinary (object_end : BinaryNodeType) : ValveDataObject → Except Exn Bytes
  | .mk _Name _ _U _Type =>
    let head := [_Type.toByte] ++ (_Name ++ [0])
    match _Type with
    | .Object =>
      match _U with
      | ._Collection c =>
        match _SerializeAsBinary.items object_end c with
        | .error x => .error x
        | .ok body => .ok (head ++ body ++ [object_end.toByte])
      | _ => .error .undefined
    | .Pointer =>
      match _U.raw 4 with
      | .error x => .error x
      | .ok bytes => .ok (head ++ bytes)
    | .Color =>
      match _U.raw 4 with
      | .error x => .error x
      | .ok bytes => .ok (head ++ bytes)
    | .Float =>
      match _U.raw 4 with
      | .error x => .error x
      | .ok bytes => .ok (head ++ bytes)
    | .Int32 =>
      match _U.raw 4 with
      | .error x => .error x
      | .ok bytes => .ok (head ++ bytes)
    | .Int64 =>
      match _U.raw 8 with
      | .error x => .error x
      | .ok bytes => .ok (head ++ bytes)
    | .UInt64 =>
      match _U.raw 8 with
      | .error x => .error x
      | .ok bytes => .ok (head ++ bytes)
    | .String =>
      match _U with
      | ._String s => .ok (head ++ (s ++ [0]))
      | _ => .error .undefined
    | _ => .ok head

/-- The loop `for (auto const& item : *_Obj->_U._Collection)` of
`_SerializeAsBinary`. -/
def _SerializeAsBinary.items (object_end : BinaryNodeType) : List ValveDataObject → Except Exn Bytes
  | [] => .ok []
  | item :: rest =>
    match _SerializeAsBinary object_end item with
    | .error x => .error x
    | .ok b1 =>
      match _SerializeAsBinary.items object_end rest with
      | .error x => .error x
      | .ok b2 => .ok (b1 ++ b2)

end

/-- The text of the `SerializeException`. -/
def what_serialize : Msg := "Can't serialize ValveDataObject, it needs to be an Object type."

/-- The function `ValveDataObject::SerializeAsBinary(version)`. -/
def SerializeAsBinary (o : ValveDataObject) (version : Int) : Except Exn Bytes :=
  if o._Type ≠ .Object then .error (.SerializeException what_serialize)
  else
    let crc : Nat := 0
    let object_end := if version ≤ 1 then BinaryNodeType.ObjectEnd else BinaryNodeType.AlternativeEnd
    let header := if version > 1 then BinaryVDFMagic ++ le_encode 4 crc else []
    match _SerializeAsBinary object_end o with
    | .error x => .error x
    | .ok body => .ok (header ++ body)

/-- The decimal digits of `n`, most significant first, in front of `acc`. -/
def put_digits : Nat → Nat → Bytes → Bytes
  | 0, _, acc => acc
  | fuel + 1, n, acc =>
    if n < 10 then (48 + n) :: acc
    else put_digits fuel (n / 10) ((48 + n % 10) :: acc)

/-- The characters `os << v` prints for an unsigned integer. -/
def put_unsigned (v : Nat) : Bytes := put_digits (v + 1) v []

/-- The characters `os << v` prints for a signed integer. -/
def put_signed (v : Int) : Bytes :=
  if v < 0 then 45 :: put_unsigned (-v).toNat else put_unsigned v.toNat

/-- The characters of `std::string(depth, '\t')`. -/
def indent (depth : Nat) : Bytes := List.replicate depth 9

mutual

/-- The function `ValveDataObject::_SerializeAsText(os, depth)`: the bytes written
to `os`. -/
def _SerializeAsText (I : Impl) : ValveDataObject → Nat → Except Exn Bytes
  | .mk _Name _ _U _Type, depth =>
    let head := indent depth ++ [34] ++ _Name ++ [34]
    match _Type with
    | .Object =>
      match _U with
      | ._Collection c =>
        match _SerializeAsText.items I c (depth + 1) with
        | .error x => .error x
        | .ok body =>
          .ok (head ++ [10] ++ indent depth ++ [123, 10] ++ body ++ indent depth ++ [125, 10])
      | _ => .error .undefined
    | .Pointer =>
      match _U with
      | ._Pointer v => .ok (head ++ [9, 9, 34] ++ put_unsigned v ++ [34, 10])
      | _ => .error .undefined
    | .Color =>
      match _U with
      | ._Color v => .ok (head ++ [9, 9, 34] ++ put_unsigned v ++ [34, 10])
      | _ => .error .undefined
    | .Float =>
      match _U with
      | ._Float v => .ok (head ++ [9, 9, 34] ++ I.showFloat v ++ [34, 10])
      | _ => .error .undefined
    | .Int32 =>
      match _U with
      | ._Int32 v => .ok (head ++ [9, 9, 34] ++ put_signed v ++ [34, 10])
      | _ => .error .undefined
    | .Int64 =>
      match _U with
      | ._Int64 v => .ok (head ++ [9, 9, 34] ++ put_signed v ++ [34, 10])
      | _ => .error .undefined
    | .UInt64 =>
      match _U with
      | ._UInt64 v => .ok (head ++ [9, 9, 34] ++ put_unsigned v ++ [34, 10])
      | _ => .error .undefined
    | .String =>
      match _U with
      | ._String s => .ok (head ++ [9, 9, 34] ++ s ++ [34, 10])
      | _ => .error .undefined
    | _ => .ok head

/-- The loop `for (auto const& item : *_Obj->_U._Collection)` of
`_SerializeAsText`. -/
def _SerializeAsText.items (I : Impl) : List ValveDataObject → Nat → Except Exn Bytes
  | [], _ => .ok []
  | item :: rest, depth =>
    match _SerializeAsText I item depth with
    | .error x => .error x
    | .ok b1 =>
      match _SerializeAsText.items I rest depth with
      | .error x => .error x
      | .ok b2 => .ok (b1 ++ b2)

end

/-- The function `ValveDataObject::SerializeAsText()`. -/
def SerializeAsText (I : Impl) (o : ValveDataObject) : Except Exn Bytes :=
  if o._Type ≠ .Object then .error (.SerializeException what_serialize)
  else _SerializeAsText I o 0

/-! ## Evaluation on concrete inputs -/

/-- An implementation used where a definition is evaluated on a concrete input:
the hash reads the name as a little-endian number, `char` is signed, and a
`float` prints as `?`.  Statements that hold for every implementation quantify
over `Impl` instead. -/
def Impl.sample : Impl := ⟨le_decode, true, fun _ => [63]⟩

/-! ## Predicates on trees used in the statements -/

mutual

/-- The node and all its descendants are in a state the public interface builds
from object, string and scalar values: the stored hash is the hash of the name,
the type is one of `Object`, `String`, `Int32`, `Float`, `Pointer`, `Color`,
`UInt64`, `Int64`, the union member written last is the one of that type, and a
scalar lies in the range of its C++ type. -/
def ValveDataObject.valid (I : Impl) : ValveDataObject → Bool
  | .mk _Name _NameHash _U _Type =>
    decide (_NameHash = I.hash _Name) &&
    match _Type, _U with
    | .Object, ._Collection c => ValveDataObject.valid.items I c
    | .String, ._String _ => true
    | .Int32, ._Int32 v => decide (-(2 : Int) ^ 31 ≤ v ∧ v < 2 ^ 31)
    | .Float, ._Float v => decide (v < 2 ^ 32)
    | .Pointer, ._Pointer v => decide (v < 2 ^ 32)
    | .Color, ._Color v => decide (v < 2 ^ 32)
    | .Int64, ._Int64 v => decide (-(2 : Int) ^ 63 ≤ v ∧ v < 2 ^ 63)
    | .UInt64, ._UInt64 v => decide (v < 2 ^ 64)
    | _, _ => false

/-- The predicate `valid` on every item of a collection. -/
def ValveDataObject.valid.items (I : Impl) : List ValveDataObject → Bool
  | [] => true
  | item :: rest => ValveDataObject.valid I item && ValveDataObject.valid.items I rest

end

mutual

/-- Every name and every string value of the node and of its descendants
satisfies `p`. -/
def ValveDataObject.all_strings (p : Bytes → Bool) : ValveDataObject → Bool
  | .mk _Name _ _U _ =>
    p _Name &&
    match _U with
    | ._Collection c => ValveDataObject.all_strings.items p c
    | ._String s => p s
    | _ => true

/-- The predicate `all_strings` on every item of a collection. -/
def ValveDataObject.all_strings.items (p : Bytes → Bool) : List ValveDataObject → Bool
  | [] => true
  | item :: rest =>
    ValveDataObject.all_strings p item && ValveDataObject.all_strings.items p rest

end

/-- The bytes are ASCII characters other than NUL. -/
def ascii_no_nul (s : Bytes) : Bool := s.all (fun b => decide (0 < b ∧ b < 128))

/-- The bytes of an ASCII literal. -/
def ascii (s : String) : Bytes := s.data.map Char.toNat

/-- The tree of the binary test (`binary.vdf`, and the commented sample at the end
of `tests.cpp`), built with the constructors; the root is named `RootObject`,
the `float` is the pattern of `3.1415f`. -/
def sample_tree (I : Impl) : ValveDataObject :=
  .mk (ascii "RootObject") (I.hash (ascii "RootObject"))
    (._Collection
      [.mk (ascii "ObjectKey") (I.hash (ascii "ObjectKey"))
          (._Collection
            [ValveDataObject.new_string I (ascii "ObjectKeyValue") (ascii "ObjectStringValue")])
          .Object,
        ValveDataObject.new_string I (ascii "StringKey") (ascii "StringValue"),
        ValveDataObject.new_int32 I (ascii "Int32Key") (-1337),
        ValveDataObject.new_float I (ascii "FloatKey") 0x40490E56,
        ValveDataObject.new_pointer I (ascii "PointerKey") 0x90807060,
        ValveDataObject.new_color I (ascii "ColorKey") 0x99887766,
        ValveDataObject.new_uint64 I (ascii "UInt64Key") 0xfedcba9876543210,
        ValveDataObject.new_int64 I (ascii "Int64Key") (-99999999999991337)])
    .Object

/-- The bytes are ASCII characters other than the quote, the backslash, CR and LF. -/
def text_safe (s : Bytes) : Bool :=
  s.all (fun b => decide (b < 128 ∧ b ≠ 34 ∧ b ≠ 92 ∧ b ≠ 10 ∧ b ≠ 13))

mutual

/-- The node as the text form shows it: an object keeps its children (each one
taken the same way), a string is kept, and a scalar becomes the string of the
characters `_SerializeAsText` prints for it. -/
def ValveDataObject.text_image (I : Impl) : ValveDataObject → ValveDataObject
  | .mk _Name _NameHash _U _Type =>
    match _Type, _U with
    | .Object, ._Collection c =>
      .mk _Name _NameHash (._Collection (ValveDataObject.text_image.items I c)) .Object
    | .Pointer, ._Pointer v => .mk _Name _NameHash (._String (put_unsigned v)) .String
    | .Color, ._Color v => .mk _Name _NameHash (._String (put_unsigned v)) .String
    | .Float, ._Float v => .mk _Name _NameHash (._String (I.showFloat v)) .String
    | .Int32, ._Int32 v => .mk _Name _NameHash (._String (put_signed v)) .String
    | .Int64, ._Int64 v => .mk _Name _NameHash (._String (put_signed v)) .String
    | .UInt64, ._UInt64 v => .mk _Name _NameHash (._String (put_unsigned v)) .String
    | _, _ => .mk _Name _NameHash _U _Type

/-- The function `text_image` on every item of a collection. -/
def ValveDataObject.text_image.items (I : Impl) : List ValveDataObject → List ValveDataObject
  | [] => []
  | item :: rest => ValveDataObject.text_image I item :: ValveDataObject.text_image.items I rest

end

/-- What one iteration of a `while (getline(is, buffer))` loop of the text parser
decides after the line has been trimmed: throw, leave the loop (`break`), go on
with the next line, or parse a nested object and then go on. -/
inductive LineAction where
  | throw (x : Exn)
  | stop
  | next (c : ValveCollection) (is_object : Bool) (object_name : Bytes)
  | descend (object_name : Bytes)

/-- The body of the loop of `_ParseTextObject` from the test `line_start ==
line_end` on, as a function of the line: the same tests and calls as in
`_ParseTextObject.loop`, with the recursive calls replaced by the action that
names them.  It serves to state that the body does not depend on the bytes
that end the line. -/
def _ParseTextObject.line (I : Impl) (buffer : Bytes) (line_num : Nat) (c : ValveCollection)
    (is_object : Bool) (object_name : Bytes) (line_start line_end : Nat) : LineAction :=
  if line_start = line_end then .next c is_object object_name
  else if buffer.getD line_start 0 = 125 then .stop
  else if !is_object then
    match Details.ParseString buffer line_start line_end object_name with
    | .error x => .throw x
    | .ok (error, line_start, object_name) =>
      if error = -1 then .throw (at_line "Expected item key start at line " line_num)
      else if error = -2 then .throw (at_line "Expected item key end at line " line_num)
      else if error = -3 then .throw (at_line "Invalid codepoint at line " line_num)
      else
        match Details.SkipSpaces buffer line_start line_end with
        | .error x => .throw x
        | .ok (line_start, line_end) =>
          if buffer.getD line_start 0 = 34 then
            match Details.ParseString buffer line_start line_end [] with
            | .error x => .throw x
            | .ok (error, line_start, tmp) =>
              if error = -1 then
                .throw (at_line "Expected item value start at line " line_num)
              else if error = -2 then
                .throw (at_line "Expected item value end at line " line_num)
              else if error = -3 then
                .throw (at_line "Invalid codepoint at line " line_num)
              else
                match Details.SkipSpaces buffer line_start line_end with
                | .error x => .throw x
                | .ok (line_start, line_end) =>
                  if line_start ≠ line_end then
                    .throw (at_line "Got datas after item value at line " line_num)
                  else
                    .next (c ++ [ValveDataObject.new_string I object_name tmp]) is_object
                      object_name
          else if line_start ≠ line_end then
            .throw (at_line "Got datas after item key at line " line_num)
          else .next c true object_name
  else
    if buffer.getD line_start 0 ≠ 123 then
      .throw (at_line "Expected object start at line " line_num)
    else
      match Details.SkipSpaces buffer (line_start + 1) line_end with
      | .error x => .throw x
      | .ok (line_start, line_end) =>
        if line_start ≠ line_end then
          .throw (at_line "Got datas after object start at line " line_num)
        else .descend object_name

/-- The body of the loop of the text branch of `ParseObject` from the test
`buffer_start == buffer_end` on, as a function of the line (see
`_ParseTextObject.line`); the collection of a `next` is not used. -/
def ParseObject.text_line (buffer : Bytes) (line_num : Nat) (object_name : Bytes)
    (buffer_start buffer_end : Nat) : LineAction :=
  if buffer_start = buffer_end then .next [] false object_name
  else if object_name.isEmpty then
    match Details.ParseString buffer buffer_start buffer_end object_name with
    | .error x => .throw x
    | .ok (error, buffer_start, object_name) =>
      if error = -1 then .throw (at_line "Expected object key start at line " line_num)
      else if error = -2 then .throw (at_line "Expected object key end at line " line_num)
      else if error = -3 then .throw (at_line "Invalid codepoint at line " line_num)
      else
        match Details.SkipSpaces buffer buffer_start buffer_end with
        | .error x => .throw x
        | .ok (buffer_start, buffer_end) =>
          if buffer_start ≠ buffer_end then
            .throw (at_line "Got datas after object key at line " line_num)
          else .next [] false object_name
  else
    if buffer.getD buffer_start 0 ≠ 123 then
      .throw (at_line "Expected object start at line " line_num)
    else
      match Details.SkipSpaces buffer (buffer_start + 1) buffer_end with
      | .error x => .throw x
      | .ok (buffer_start, buffer_end) =>
        if buffer_start ≠ buffer_end then
          .throw (at_line "Got datas after object start at line " line_num)
        else .descend object_name

/-- The three line endings: `\n`, `\r` and `\r\n`. -/
def is_eol (eol : Bytes) : Bool := eol == [10] || eol == [13] || eol == [13, 10]

/-- No line holds a CR or an LF. -/
def lines_ok (lines : List Bytes) : Bool :=
  lines.all (fun line => line.all (fun b => decide (b ≠ 10 ∧ b ≠ 13)))

/-- The document whose lines are `lines`, each one terminated by `eol`. -/
def terminate_lines (eol : Bytes) : List Bytes → Bytes
  | [] => []
  | line :: lines => line ++ eol ++ terminate_lines eol lines

/-- Two results of a text-parsing function on the same lines terminated in two ways
agree: both are the same failure, or both return the same value and line
number and leave streams that hold the same remaining lines (at most `n` of
them), each terminated in its way, with the same `failbit`. -/
def text_results_agree {α : Type} (eol1 eol2 : Bytes) (n : Nat)
    (r1 r2 : Except Exn (α × istream × Nat)) : Prop :=
  (∃ x, r1 = .error x ∧ r2 = .error x)
  ∨ (∃ a ln ls fl, ls.length ≤ n ∧ lines_ok ls = true
      ∧ r1 = .ok (a, ⟨terminate_lines eol1 ls, fl⟩, ln)
      ∧ r2 = .ok (a, ⟨terminate_lines eol2 ls, fl⟩, ln))

/-- The binary document `00 "Root" 00  01 "Key" 00 "Val" 00  08`: the root object
`Root` with the string `Key = Val`, in the legacy form. -/
def doc_root_key_val : Bytes :=
  [0, 82, 111, 111, 116, 0, 1, 75, 101, 121, 0, 86, 97, 108, 0, 8]

/-! ## Copy and move construction, and the name-hash invariant -/

mutual

/-- Copy constructor `ValveDataObject(ValveDataObject const& other)`: the new node.
Name, hash and type are copied; a `String` copies `*other._U._String`, an
`Object` copies `*other._U._Collection` (every item through this constructor),
any other type copies the union as it is. -/
def ValveDataObject.copy : ValveDataObject → Except Exn ValveDataObject
  | .mk _Name _NameHash _U _Type =>
    match _Type with
    | .String =>
      match _U with
      | ._String s => .ok (.mk _Name _NameHash (._String s) .String)
      | _ => .error .undefined
    | .Object =>
      match _U with
      | ._Collection c =>
        match ValveDataObject.copy.items c with
        | .error x => .error x
        | .ok c => .ok (.mk _Name _NameHash (._Collection c) .Object)
      | _ => .error .undefined
    | _ => .ok (.mk _Name _NameHash _U _Type)

/-- The copy of a `ValveCollection`, item by item. -/
def ValveDataObject.copy.items : List ValveDataObject → Except Exn (List ValveDataObject)
  | [] => .ok []
  | item :: rest =>
    match ValveDataObject.copy item with
    | .error x => .error x
    | .ok item =>
      match ValveDataObject.copy.items rest with
      | .error x => .error x
      | .ok rest => .ok (item :: rest)

end

/-- Move constructor `ValveDataObject(ValveDataObject&& other)`: the pair is the new
node and `other` afterwards.  The new node starts as `Data_t()`, takes a copy
of the name and of the hash, and then exchanges type and union with `other`. -/
def ValveDataObject.move (other : ValveDataObject) : ValveDataObject × ValveDataObject :=
  ValveDataObject.assign_move (.mk other._Name other._NameHash .uninit .None) other

/-- The operator `operator=(ValveDataObject const& value)`, which is
`*this = ValveDataObject(value)`: the temporary copy is moved in and destroyed. -/
def ValveDataObject.assign_copy (self value : ValveDataObject) : Except Exn ValveDataObject :=
  match value.copy with
  | .error x => .error x
  | .ok tmp => .ok (self.assign_move tmp).1

/-- Constructor `ValveDataObject(std::string const& key, ValveDataObject const& other)`:
an object holding a copy of `other`. -/
def ValveDataObject.new_object_copy (I : Impl) (key : Bytes) (other : ValveDataObject) :
    Except Exn ValveDataObject :=
  match other.copy with
  | .error x => .error x
  | .ok item => .ok (.mk key (I.hash key) (._Collection [item]) .Object)

/-- Constructor `ValveDataObject(std::string const& key, ValveDataObject&& other)`:
an object holding the node move-constructed from `other`; the pair is the new
node and `other` afterwards. -/
def ValveDataObject.new_object_move (I : Impl) (key : Bytes) (other : ValveDataObject) :
    ValveDataObject × ValveDataObject :=
  (.mk key (I.hash key) (._Collection [other.move.1]) .Object, other.move.2)

mutual

/-- The name-hash invariant: the stored hash of the node is the hash of its name,
and so it is for every item of the collection of an object, recursively. -/
def ValveDataObject.hash_in_sync (I : Impl) : ValveDataObject → Bool
  | .mk _Name _NameHash _U _Type =>
    decide (_NameHash = I.hash _Name) &&
    match _Type, _U with
    | .Object, ._Collection c => ValveDataObject.hash_in_sync.items I c
    | _, _ => true

/-- The name-hash invariant on every item of a collection. -/
def ValveDataObject.hash_in_sync.items (I : Impl) : List ValveDataObject → Bool
  | [] => true
  | item :: rest =>
    ValveDataObject.hash_in_sync I item && ValveDataObject.hash_in_sync.items I rest

end

/-- The node is a leaf as the constructors for a string or a scalar build it: the
hash is the hash of the name and the union member is the one of the type. -/
def ValveDataObject.is_leaf (I : Impl) : ValveDataObject → Bool
  | .mk _Name _NameHash _U _Type =>
    decide (_NameHash = I.hash _Name) &&
    match _Type, _U with
    | .String, ._String _ => true
    | .Int32, ._Int32 _ => true
    | .Float, ._Float _ => true
    | .Pointer, ._Pointer _ => true
    | .Color, ._Color _ => true
    | .Int64, ._Int64 _ => true
    | .UInt64, ._UInt64 _ => true
    | _, _ => false

/-! ## The serialized forms as the specification describes them -/

mutual

/-- The node and all its descendants have one of the types `Object`, `String`,
`Int32`, `Float`, `Pointer`, `Color`, `UInt64`, `Int64`, and the union member
written last is the one of that type. -/
def ValveDataObject.well_typed : ValveDataObject → Bool
  | .mk _ _ _U _Type =>
    match _Type, _U with
    | .Object, ._Collection c => ValveDataObject.well_typed.items c
    | .String, ._String _ => true
    | .Int32, ._Int32 _ => true
    | .Float, ._Float _ => true
    | .Pointer, ._Pointer _ => true
    | .Color, ._Color _ => true
    | .Int64, ._Int64 _ => true
    | .UInt64, ._UInt64 _ => true
    | _, _ => false

/-- The predicate `well_typed` on every item of a collection. -/
def ValveDataObject.well_typed.items : List ValveDataObject → Bool
  | [] => true
  | item :: rest => ValveDataObject.well_typed item && ValveDataObject.well_typed.items rest

end

mutual

/-- The union member written last is the one the type names, for the node and for
all its descendants; a node of type `None` (or of a type no constructor sets)
may hold anything. -/
def ValveDataObject.coherent : ValveDataObject → Bool
  | .mk _ _ _U _Type =>
    match _Type, _U with
    | .Object, ._Collection c => ValveDataObject.coherent.items c
    | .String, ._String _ => true
    | .Int32, ._Int32 _ => true
    | .Float, ._Float _ => true
    | .Pointer, ._Pointer _ => true
    | .Color, ._Color _ => true
    | .Int64, ._Int64 _ => true
    | .UInt64, ._UInt64 _ => true
    | .None, _ => true
    | .WideString, _ => true
    | .Binary, _ => true
    | _, _ => false

/-- The predicate `coherent` on every item of a collection. -/
def ValveDataObject.coherent.items : List ValveDataObject → Bool
  | [] => true
  | item :: rest => ValveDataObject.coherent item && ValveDataObject.coherent.items rest

end

mutual

/-- The binary encoding of a node as the specification words it: the one-byte tag
(`Object=0, String=1, Int32=2, Float=3, Pointer=4, Color=6, UInt64=7,
Int64=10`), the name and one NUL, then the payload: 4 little-endian bytes for
`Int32`, `Float`, `Pointer`, `Color`, 8 for `Int64`, `UInt64`, the string and
one NUL for `String`, and for `Object` the encodings of the children in order
followed by the terminator byte. -/
def wire_encoding (terminator : Nat) : ValveDataObject → Bytes
  | .mk _Name _ _U _Type =>
    match _Type, _U with
    | .Object, ._Collection c =>
      [0] ++ _Name ++ [0] ++ wire_encoding.items terminator c ++ [terminator]
    | .String, ._String s => [1] ++ _Name ++ [0] ++ s ++ [0]
    | .Int32, ._Int32 v => [2] ++ _Name ++ [0] ++ le_encode 4 (v % 2 ^ 32).toNat
    | .Float, ._Float v => [3] ++ _Name ++ [0] ++ le_encode 4 v
    | .Pointer, ._Pointer v => [4] ++ _Name ++ [0] ++ le_encode 4 v
    | .Color, ._Color v => [6] ++ _Name ++ [0] ++ le_encode 4 v
    | .UInt64, ._UInt64 v => [7] ++ _Name ++ [0] ++ le_encode 8 v
    | .Int64, ._Int64 v => [10] ++ _Name ++ [0] ++ le_encode 8 (v % 2 ^ 64).toNat
    | _, _ => []

/-- The encodings of the children, concatenated in child order. -/
def wire_encoding.items (terminator : Nat) : List ValveDataObject → Bytes
  | [] => []
  | item :: rest => wire_encoding terminator item ++ wire_encoding.items terminator rest

end

/-- The bytes `"s"`. -/
def quoted (s : Bytes) : Bytes := [34] ++ s ++ [34]

mutual

/-- The lines of the text form of a node at depth `depth` as the specification
words it, each with its nesting depth and without its tabs and its `\n`: a
leaf is the one line `"name"<TAB><TAB>"value"` at its depth (the value being
the raw string or the decimal rendering), an object is the line `"name"`, the
line `{`, the lines of the children one level deeper, and the line `}`. -/
def text_lines (I : Impl) : ValveDataObject → Nat → List (Nat × Bytes)
  | .mk _Name _ _U _Type, depth =>
    match _Type, _U with
    | .Object, ._Collection c =>
      [(depth, quoted _Name), (depth, [123])] ++ text_lines.items I c (depth + 1)
        ++ [(depth, [125])]
    | .String, ._String s => [(depth, quoted _Name ++ [9, 9] ++ quoted s)]
    | .Int32, ._Int32 v => [(depth, quoted _Name ++ [9, 9] ++ quoted (put_signed v))]
    | .Int64, ._Int64 v => [(depth, quoted _Name ++ [9, 9] ++ quoted (put_signed v))]
    | .UInt64, ._UInt64 v => [(depth, quoted _Name ++ [9, 9] ++ quoted (put_unsigned v))]
    | .Pointer, ._Pointer v => [(depth, quoted _Name ++ [9, 9] ++ quoted (put_unsigned v))]
    | .Color, ._Color v => [(depth, quoted _Name ++ [9, 9] ++ quoted (put_unsigned v))]
    | .Float, ._Float v => [(depth, quoted _Name ++ [9, 9] ++ quoted (I.showFloat v))]
    | _, _ => []

/-- The lines of the children, in child order. -/
def text_lines.items (I : Impl) : List ValveDataObject → Nat → List (Nat × Bytes)
  | [], _ => []
  | item :: rest, depth => text_lines I item depth ++ text_lines.items I rest depth

end

/-- The text made of the given lines: each one is written as its tabs, its
content and `\n`. -/
def render_lines : List (Nat × Bytes) → Bytes
  | [] => []
  | (depth, body) :: rest => indent depth ++ body ++ [10] ++ render_lines rest

/-- The lines of a text, cut after every `\n` (which is dropped); `cur` is the
beginning of the current line.  Bytes after the last `\n` make a last line. -/
def split_lines.go : Bytes → Bytes → List Bytes
  | [], cur => if cur.isEmpty then [] else [cur]
  | b :: rest, cur =>
    if b = 10 then cur :: split_lines.go rest [] else split_lines.go rest (cur ++ [b])

/-- The lines of a text. -/
def split_lines (s : Bytes) : List Bytes := split_lines.go s []

/-- The number of tabs a line starts with. -/
def leading_tabs (line : Bytes) : Nat := (line.takeWhile (fun b => b == 9)).length

/-- The bytes hold no `\n`. -/
def no_lf (s : Bytes) : Bool := s.all (fun b => decide (b ≠ 10))

/-- The root `r` holding the string `k` whose value is `a\nb`. -/
def tree_with_lf (I : Impl) : ValveDataObject :=
  .mk [114] (I.hash [114]) (._Collection [ValveDataObject.new_string I [107] [97, 10, 98]]) .Object

/-! ## Strings that survive the text form -/

/-- What one iteration of the second loop of `Details::ParseString` decides from
the byte read and `has_escape`: `none` when the byte is the closing quote,
`some (j, has_escape)` when the scan goes on `j` bytes further.  The same tests
as in `Details.ParseString.second`, in the same order; it serves to compare
two runs of the loop. -/
def Details.ParseString.advance (c : Nat) (has_escape : Bool) : Option (Nat × Bool) :=
  if c < 0x80 then
    if c = 92 then some (1, true)
    else if has_escape then some (1, false)
    else if c = 34 then none
    else some (1, has_escape)
  else if c >>> 5 = 0x6 then some (2, has_escape)
  else if c >>> 4 = 0xe then some (3, has_escape)
  else if c >>> 3 = 0x1e then some (4, has_escape)
  else some (1, has_escape)

/-- The string is read back by `Details::ParseString` from between two quotes:
on the bytes `"s"` the function returns 0, the cursor after the second quote,
and `s`. -/
def quotable (s : Bytes) : Bool :=
  match Details.ParseString (34 :: (s ++ [34])) 0 (s.length + 2) [] with
  | .ok (code, b, str) => code == 0 && b == s.length + 2 && str == s
  | .error _ => false

/-- The string is `quotable` and holds neither CR nor LF, so that it comes back
from a line of text. -/
def reparsable (s : Bytes) : Bool :=
  quotable s && s.all (fun b => decide (b ≠ 10 ∧ b ≠ 13))

mutual

/-- The node is a tree as the text parser builds them: objects and strings only,
every stored hash the hash of the name, every name and every string value
`reparsable`. -/
def ValveDataObject.text_tree (I : Impl) : ValveDataObject → Bool
  | .mk _Name _NameHash _U _Type =>
    decide (_NameHash = I.hash _Name) && reparsable _Name &&
    match _Type, _U with
    | .Object, ._Collection c => ValveDataObject.text_tree.items I c
    | .String, ._String s => reparsable s
    | _, _ => false

/-- The predicate `text_tree` on every item of a collection. -/
def ValveDataObject.text_tree.items (I : Impl) : List ValveDataObject → Bool
  | [] => true
  | item :: rest => ValveDataObject.text_tree I item && ValveDataObject.text_tree.items I rest

end

/-- The bytes are spaces and tabs only, the blanks `Details::SkipSpaces` skips at
the front of its window. -/
def blanks (w : Bytes) : Bool := w.all (fun b => b == 32 || b == 9)

/-- The texts of the exceptions of the text parser, each of which is followed by
`std::to_string(line_num)`. -/
def what_text_errors : List Msg :=
  ["Expected item key start at line ", "Expected item key end at line ",
    "Invalid codepoint at line ", "Expected item value start at line ",
    "Expected item value end at line ", "Got datas after item value at line ",
    "Got datas after item key at line ", "Expected object start at line ",
    "Got datas after object start at line ", "Expected object key start at line ",
    "Expected object key end at line ", "Got datas after object key at line "]

/-- If the outcome is a `ParserException`, its text is one of the texts of the text
parser followed by the number `n`. -/
def reports_line (x : Exn) (n : Nat) : Prop :=
  ∀ m, x = .ParserException m → ∃ what ∈ what_text_errors, m = what ++ toString n

/-- The document made of the given lines, each one a pair of its text and of the
bytes that end it. -/
def join_lines : List (Bytes × Bytes) → Bytes
  | [] => []
  | (l, eol) :: ps => l ++ eol ++ join_lines ps

/-- The pairs are the lines `getline` cuts the document `join_lines ps ++ tail`
into: no text holds a CR or an LF, every line ending is `\n`, `\r` or `\r\n`, a
line ending `\r` is not followed by `\n`, and `tail`, the bytes after the last
line ending, holds no CR and no LF. -/
def lines_wf : List (Bytes × Bytes) → Bytes → Bool
  | [], tail => tail.all (fun b => decide (b ≠ 10 ∧ b ≠ 13))
  | (l, eol) :: ps, tail =>
    l.all (fun b => decide (b ≠ 10 ∧ b ≠ 13)) && is_eol eol
      && (eol != [13] || (join_lines ps ++ tail).head? != some 10)
      && lines_wf ps tail

/-- The text document of the nine lines `"r"`, `{`, `"k" "v"`, `"o"`, `{`,
`"a" "b"`, `x`, `}`, `}`, each ended by `\n`: its seventh line, inside the nested
object `o`, starts no key. -/
def doc_bad_line_7 : Bytes :=
  ascii "\"r\"\n\x7b\n\"k\" \"v\"\n\"o\"\n\x7b\n\"a\" \"b\"\nx\n\x7d\n\x7d\n"

mutual

/-- The node and all its descendants are objects and strings: an `Object` that
holds a collection of such nodes, or a `String` that holds a string. -/
def ValveDataObject.objects_and_strings : ValveDataObject → Bool
  | .mk _ _ _U _Type =>
    match _Type, _U with
    | .Object, ._Collection c => ValveDataObject.objects_and_strings.items c
    | .String, ._String _ => true
    | _, _ => false

/-- The predicate `objects_and_strings` on every item of a collection. -/
def ValveDataObject.objects_and_strings.items : List ValveDataObject → Bool
  | [] => true
  | item :: rest =>
    ValveDataObject.objects_and_strings item && ValveDataObject.objects_and_strings.items rest

end

/-- What it means in the embedding that a run of the binary decoder, started on the
stream `is` and the window `win`, has stopped: the step budget was enough; a
stream and a window that are returned hold no more than the run was given (a byte
of the stream counted 3 times, a byte of the window twice); and when `defined`
holds, the cursor has not left the window. -/
def run_stops {α : Type} (is : istream) (win : Bytes) (defined : Prop)
    (r : Except Exn (α × istream × Bytes)) : Prop :=
  r ≠ .error .out_of_fuel
    ∧ (∀ a is2 win2, r = .ok (a, is2, win2) →
        3 * is2.data.length + 2 * win2.length ≤ 3 * is.data.length + 2 * win.length)
    ∧ (defined → r ≠ .error .undefined)

/-- The implementation `Impl.sample` with an unsigned plain `char`, as it is on ARM
and PowerPC Linux targets. -/
def Impl.sample_unsigned : Impl := ⟨le_decode, false, fun _ => [63]⟩

/-- The legacy binary document `00 "R" 00  01 "€" 00 "v" 00  08`: the root object
`R` with the string `€ = v`, whose name is the three UTF-8 bytes `E2 82 AC`. -/
def doc_euro : Bytes := [0, 82, 0, 1, 0xE2, 0x82, 0xAC, 0, 0x76, 0, 8]

/-- The root `r` holding the string `k` with the value `s`. -/
def tree_with_string (I : Impl) (s : Bytes) : ValveDataObject :=
  .mk [114] (I.hash [114]) (._Collection [ValveDataObject.new_string I [107] s]) .Object

/-- The root `r€` (the letter, then the three bytes `E2 82 AC` of the euro sign)
holding the string named `k`, backslash, `n` whose value is `a€`, backslash,
quote, `b`: UTF-8 sequences, a backslash inside a name and an escaped quote. -/
def tree_utf8_backslash (I : Impl) : ValveDataObject :=
  .mk [114, 0xE2, 0x82, 0xAC] (I.hash [114, 0xE2, 0x82, 0xAC])
    (._Collection
      [ValveDataObject.new_string I [107, 92, 110] [97, 0xE2, 0x82, 0xAC, 92, 34, 98]])
    .Object

/-- The lines of a text document with `n + 3` lines, each ended by `\n`: `"r"`,
`{`, then `n` times the item `"k" "v"`, then the line `x`, which starts no
key. -/
def lines_bad_after (n : Nat) : List (Bytes × Bytes) :=
  (ascii "\"r\"", [10]) :: ([123], [10])
    :: (List.replicate n (ascii "\"k\" \"v\"", [10]) ++ [([120], [10])])

/-- The lines of `lines_bad_after n` without the last one. -/
def lines_items (n : Nat) : List (Bytes × Bytes) :=
  (ascii "\"r\"", [10]) :: ([123], [10]) :: List.replicate n (ascii "\"k\" \"v\"", [10])

/-- The string is read back by `Details::ParseBinaryString` from in front of its
terminator: on the window of the bytes `s 00` the function returns 0, uses up
the window and appends `s`.  The scan goes one byte at a time, and where `char`
is unsigned 2, 3 or 4 bytes at once from a UTF-8 lead byte; the string is
`nul_readable` when no byte the scan looks at inside `s` is NUL and no step
passes the last byte of `s`. -/
def nul_readable (I : Impl) (s : Bytes) : Bool :=
  match Details.ParseBinaryString I (s ++ [0]) [] with
  | .ok (code, win, str) => code == 0 && win == [] && str == s
  | .error _ => false

/-- The root `R` holding the string `€ = a€`, where `€` is the three bytes
`E2 82 AC`. -/
def tree_euro (I : Impl) : ValveDataObject :=
  .mk [82] (I.hash [82])
    (._Collection [ValveDataObject.new_string I [0xE2, 0x82, 0xAC] [97, 0xE2, 0x82, 0xAC]])
    .Object

/-! # Theorems -/

/-! ## Typed accessors and assignments -/

/-- C5: each typed accessor returns a value exactly when the type of the node is
the accessor's own type, and that value is the member stored for this type; on
every other type it throws `std::invalid_argument` and returns nothing. -/
theorem accessor_succeeds_iff_type_matches (o : ValveDataObject) :
    (∀ s, o.String = .ok s ↔ (o._Type = .String ∧ o._U = ._String s))
    ∧ (o._Type ≠ .String → o.String = .error (.invalid_argument what_String))
    ∧ (∀ v, o.Int32 = .ok v ↔ (o._Type = .Int32 ∧ o._U = ._Int32 v))
    ∧ (o._Type ≠ .Int32 → o.Int32 = .error (.invalid_argument what_Int32))
    ∧ (∀ v, o.Float = .ok v ↔ (o._Type = .Float ∧ o._U = ._Float v))
    ∧ (o._Type ≠ .Float → o.Float = .error (.invalid_argument what_Float))
    ∧ (∀ v, o.Pointer = .ok v ↔ (o._Type = .Pointer ∧ o._U = ._Pointer v))
    ∧ (o._Type ≠ .Pointer → o.Pointer = .error (.invalid_argument what_Pointer))
    ∧ (∀ v, o.Color = .ok v ↔ (o._Type = .Color ∧ o._U = ._Color v))
    ∧ (o._Type ≠ .Color → o.Color = .error (.invalid_argument what_Pointer))
    ∧ (∀ v, o.Int64 = .ok v ↔ (o._Type = .Int64 ∧ o._U = ._Int64 v))
    ∧ (o._Type ≠ .Int64 → o.Int64 = .error (.invalid_argument what_Int64))
    ∧ (∀ v, o.UInt64 = .ok v ↔ (o._Type = .UInt64 ∧ o._U = ._UInt64 v))
    ∧ (o._Type ≠ .UInt64 → o.UInt64 = .error (.invalid_argument what_UInt64))
    ∧ (∀ c, o.Collection = .ok c ↔ (o._Type = .Object ∧ o._U = ._Collection c))
    ∧ (o._Type ≠ .Object → o.Collection = .error (.invalid_argument what_Collection)) := by
  obtain ⟨n, h, u, t⟩ := o
  refine ⟨?_, ?_, ?_, ?_, ?_, ?_, ?_, ?_, ?_, ?_, ?_, ?_, ?_, ?_, ?_, ?_⟩
  all_goals
    first
    | (intro v
       cases t <;> cases u <;>
         simp [ValveDataObject.String, ValveDataObject.Int32, ValveDataObject.Float,
           ValveDataObject.Pointer, ValveDataObject.Color, ValveDataObject.Int64,
           ValveDataObject.UInt64, ValveDataObject.Collection, ValveDataObject._Type,
           ValveDataObject._U]
       done)
    | (intro ht
       simp only [ValveDataObject._Type] at ht
       simp [ValveDataObject.String, ValveDataObject.Int32, ValveDataObject.Float,
           ValveDataObject.Pointer, ValveDataObject.Color, ValveDataObject.Int64,
           ValveDataObject.UInt64, ValveDataObject.Collection, ValveDataObject._Type, ht])

/-- Witness of C5 on a `String` node: `String()` returns the text, and `Int32()`,
`Int64()`, `UInt64()`, `Pointer()` throw. -/
theorem accessor_succeeds_iff_type_matches_witness :
    (ValveDataObject.new_string Impl.sample [107] [56]).String = .ok [56]
    ∧ (ValveDataObject.new_string Impl.sample [107] [56]).Int32
        = .error (.invalid_argument what_Int32)
    ∧ (ValveDataObject.new_string Impl.sample [107] [56]).Int64
        = .error (.invalid_argument what_Int64)
    ∧ (ValveDataObject.new_string Impl.sample [107] [56]).UInt64
        = .error (.invalid_argument what_UInt64)
    ∧ (ValveDataObject.new_string Impl.sample [107] [56]).Pointer
        = .error (.invalid_argument what_Pointer) :=
  have h := accessor_succeeds_iff_type_matches (ValveDataObject.new_string Impl.sample [107] [56])
  ⟨(h.1 [56]).2 ⟨rfl, rfl⟩, h.2.2.2.1 (by decide), h.2.2.2.2.2.2.2.2.2.2.2.1 (by decide),
    h.2.2.2.2.2.2.2.2.2.2.2.2.2.1 (by decide), h.2.2.2.2.2.2.2.1 (by decide)⟩

/-- C6: after an assignment from an `int32_t`, `float`, `int64_t`, `uint64_t` or
`std::string` the type is the kind assigned, the accessor of that kind returns
the value assigned, every other typed accessor throws, and the name is the one
the node had before. -/
theorem assign_scalar_sets_type_and_value (o : ValveDataObject) :
    (∀ x : Int,
      (o.assign_int32 x).Type = .Int32 ∧ (o.assign_int32 x).Int32 = .ok x
      ∧ (o.assign_int32 x).Name = o.Name
      ∧ (o.assign_int32 x).String = .error (.invalid_argument what_String)
      ∧ (o.assign_int32 x).Float = .error (.invalid_argument what_Float)
      ∧ (o.assign_int32 x).Pointer = .error (.invalid_argument what_Pointer)
      ∧ (o.assign_int32 x).Color = .error (.invalid_argument what_Pointer)
      ∧ (o.assign_int32 x).Int64 = .error (.invalid_argument what_Int64)
      ∧ (o.assign_int32 x).UInt64 = .error (.invalid_argument what_UInt64)
      ∧ (o.assign_int32 x).Collection = .error (.invalid_argument what_Collection))
    ∧ (∀ x : Nat,
      (o.assign_float x).Type = .Float ∧ (o.assign_float x).Float = .ok x
      ∧ (o.assign_float x).Name = o.Name
      ∧ (o.assign_float x).String = .error (.invalid_argument what_String)
      ∧ (o.assign_float x).Int32 = .error (.invalid_argument what_Int32)
      ∧ (o.assign_float x).Pointer = .error (.invalid_argument what_Pointer)
      ∧ (o.assign_float x).Color = .error (.invalid_argument what_Pointer)
      ∧ (o.assign_float x).Int64 = .error (.invalid_argument what_Int64)
      ∧ (o.assign_float x).UInt64 = .error (.invalid_argument what_UInt64)
      ∧ (o.assign_float x).Collection = .error (.invalid_argument what_Collection))
    ∧ (∀ x : Int,
      (o.assign_int64 x).Type = .Int64 ∧ (o.assign_int64 x).Int64 = .ok x
      ∧ (o.assign_int64 x).Name = o.Name
      ∧ (o.assign_int64 x).String = .error (.invalid_argument what_String)
      ∧ (o.assign_int64 x).Int32 = .error (.invalid_argument what_Int32)
      ∧ (o.assign_int64 x).Float = .error (.invalid_argument what_Float)
      ∧ (o.assign_int64 x).Pointer = .error (.invalid_argument what_Pointer)
      ∧ (o.assign_int64 x).Color = .error (.invalid_argument what_Pointer)
      ∧ (o.assign_int64 x).UInt64 = .error (.invalid_argument what_UInt64)
      ∧ (o.assign_int64 x).Collection = .error (.invalid_argument what_Collection))
    ∧ (∀ x : Nat,
      (o.assign_uint64 x).Type = .UInt64 ∧ (o.assign_uint64 x).UInt64 = .ok x
      ∧ (o.assign_uint64 x).Name = o.Name
      ∧ (o.assign_uint64 x).String = .error (.invalid_argument what_String)
      ∧ (o.assign_uint64 x).Int32 = .error (.invalid_argument what_Int32)
      ∧ (o.assign_uint64 x).Float = .error (.invalid_argument what_Float)
      ∧ (o.assign_uint64 x).Pointer = .error (.invalid_argument what_Pointer)
      ∧ (o.assign_uint64 x).Color = .error (.invalid_argument what_Pointer)
      ∧ (o.assign_uint64 x).Int64 = .error (.invalid_argument what_Int64)
      ∧ (o.assign_uint64 x).Collection = .error (.invalid_argument what_Collection))
    ∧ (∀ x : Bytes,
      (o.assign_string x).Type = .String ∧ (o.assign_string x).String = .ok x
      ∧ (o.assign_string x).Name = o.Name
      ∧ (o.assign_string x).Int32 = .error (.invalid_argument what_Int32)
      ∧ (o.assign_string x).Float = .error (.invalid_argument what_Float)
      ∧ (o.assign_string x).Pointer = .error (.invalid_argument what_Pointer)
      ∧ (o.assign_string x).Color = .error (.invalid_argument what_Pointer)
      ∧ (o.assign_string x).Int64 = .error (.invalid_argument what_Int64)
      ∧ (o.assign_string x).UInt64 = .error (.invalid_argument what_UInt64)
      ∧ (o.assign_string x).Collection = .error (.invalid_argument what_Collection)) := by
  obtain ⟨n, h, u, t⟩ := o
  refine ⟨fun x => ?_, fun x => ?_, fun x => ?_, fun x => ?_, fun x => ?_⟩ <;>
    simp [ValveDataObject.assign_int32, ValveDataObject.assign_float,
      ValveDataObject.assign_int64, ValveDataObject.assign_uint64,
      ValveDataObject.assign_string, ValveDataObject._ResetValue, ValveDataObject.Type,
      ValveDataObject.Name, ValveDataObject.String, ValveDataObject.Int32,
      ValveDataObject.Float, ValveDataObject.Pointer, ValveDataObject.Color,
      ValveDataObject.Int64, ValveDataObject.UInt64, ValveDataObject.Collection,
      ValveDataObject._Type, ValveDataObject._U, ValveDataObject._Name,
      ValveDataObject._NameHash]

/-- C7, what the code does: after an assignment from a `pointer_t` or a `color_t`
the type of the node is `Int32`, not `Pointer` or `Color`, so that `Pointer()`
and `Color()` throw instead of returning the value assigned. -/
theorem assign_pointer_color_set_type_int32 (o : ValveDataObject) (p c : Nat) :
    (o.assign_pointer p).Type = .Int32
    ∧ (o.assign_pointer p).Pointer = .error (.invalid_argument what_Pointer)
    ∧ (o.assign_pointer p)._U = ._Pointer p
    ∧ (o.assign_color c).Type = .Int32
    ∧ (o.assign_color c).Color = .error (.invalid_argument what_Pointer)
    ∧ (o.assign_color c)._U = ._Color c := by
  obtain ⟨n, h, u, t⟩ := o
  simp [ValveDataObject.assign_pointer, ValveDataObject.assign_color,
    ValveDataObject._ResetValue, ValveDataObject.Type, ValveDataObject.Pointer,
    ValveDataObject.Color, ValveDataObject._Type, ValveDataObject._U]

/-! ## Lookup by key -/

/-- The loop of `operator[]` appends to `r` the items with the hash looked for. -/
theorem subscript_loop_eq_filter (key_hash : Nat) (c r : List ValveDataObject) :
    ValveDataObject.subscript.loop key_hash c r
      = r ++ c.filter (fun item => decide (item._NameHash = key_hash)) := by
  induction c generalizing r with
  | nil => simp [ValveDataObject.subscript.loop]
  | cons item c ih =>
    by_cases h : item._NameHash = key_hash <;>
      simp [ValveDataObject.subscript.loop, h, ih]

/-- C8: on an object `operator[]` returns exactly the children whose stored name
hash equals the hash of the key, in child order: the result is a subsequence of
the children, a child belongs to it if and only if its hash matches (with its
multiplicity), it is empty when no hash matches, and every child carrying the
hash of its own name and named `key` is returned. -/
theorem subscript_returns_all_hash_matches (I : Impl) (o : ValveDataObject) (key : Bytes)
    (c : List ValveDataObject) (hT : o._Type = .Object) (hU : o._U = ._Collection c) :
    ∃ r, o.subscript I key = .ok r
      ∧ r = c.filter (fun item => decide (item._NameHash = I.hash key))
      ∧ r.Sublist c
      ∧ (∀ item, item ∈ r ↔ (item ∈ c ∧ item._NameHash = I.hash key))
      ∧ ((∀ item ∈ c, item._NameHash ≠ I.hash key) → r = [])
      ∧ (∀ item ∈ c, item._NameHash = I.hash item._Name → item._Name = key → item ∈ r) := by
  refine ⟨c.filter (fun item => decide (item._NameHash = I.hash key)), ?_, rfl,
    List.filter_sublist _, ?_, ?_, ?_⟩
  · obtain ⟨n, h, u, t⟩ := o
    simp only [ValveDataObject._Type, ValveDataObject._U] at hT hU
    subst hT hU
    simp [ValveDataObject.subscript, ValveDataObject.Collection, ValveDataObject._Type,
      ValveDataObject._U, subscript_loop_eq_filter]
  · intro item
    simp [List.mem_filter]
  · intro hno
    simp only [List.filter_eq_nil_iff, decide_eq_true_eq]
    exact hno
  · intro item hmem hhash hname
    simp only [List.mem_filter, decide_eq_true_eq]
    exact ⟨hmem, by rw [hhash, hname]⟩

/-- Witness of C8: two children named `k` around a child named `x`; the lookup of
`k` returns the two, in order. -/
theorem subscript_returns_all_hash_matches_witness :
    ∃ r,
      (ValveDataObject.mk [114] (Impl.sample.hash [114])
        (._Collection [ValveDataObject.new_string Impl.sample [107] [49],
          ValveDataObject.new_string Impl.sample [120] [50],
          ValveDataObject.new_string Impl.sample [107] [51]]) .Object).subscript
          Impl.sample [107] = .ok r
      ∧ r = [ValveDataObject.new_string Impl.sample [107] [49],
          ValveDataObject.new_string Impl.sample [107] [51]] := by
  obtain ⟨r, h1, h2, -⟩ := subscript_returns_all_hash_matches Impl.sample
    (ValveDataObject.mk [114] (Impl.sample.hash [114])
        (._Collection [ValveDataObject.new_string Impl.sample [107] [49],
          ValveDataObject.new_string Impl.sample [120] [50],
          ValveDataObject.new_string Impl.sample [107] [51]]) .Object) [107] _ rfl rfl
  refine ⟨r, h1, ?_⟩
  rw [h2]
  rfl

/-- C9: on a node whose type is not `Object`, `operator[]` throws the
`std::invalid_argument` of `Collection()` and returns no sequence. -/
theorem subscript_throws_on_non_object (I : Impl) (o : ValveDataObject) (key : Bytes)
    (hT : o._Type ≠ .Object) :
    o.subscript I key = .error (.invalid_argument what_Collection) := by
  simp [ValveDataObject.subscript, ValveDataObject.Collection, hT]

/-- Witness of C9 on a `String` node and on the empty node. -/
theorem subscript_throws_on_non_object_witness :
    (ValveDataObject.new_string Impl.sample [107] [56]).subscript Impl.sample [107]
        = .error (.invalid_argument what_Collection)
    ∧ (ValveDataObject.new Impl.sample).subscript Impl.sample [107]
        = .error (.invalid_argument what_Collection) :=
  ⟨subscript_throws_on_non_object Impl.sample _ [107] (by decide),
    subscript_throws_on_non_object Impl.sample _ [107] (by decide)⟩

/-! ## Move assignment -/

/-- C10: the move assignment exchanges type and payload of the two nodes and
leaves name and name hash of both alone; done twice it restores both nodes. -/
theorem assign_move_exchanges_payload (a b : ValveDataObject) :
    (a.assign_move b).1._Type = b._Type ∧ (a.assign_move b).1._U = b._U
    ∧ (a.assign_move b).2._Type = a._Type ∧ (a.assign_move b).2._U = a._U
    ∧ (a.assign_move b).1._Name = a._Name ∧ (a.assign_move b).1._NameHash = a._NameHash
    ∧ (a.assign_move b).2._Name = b._Name ∧ (a.assign_move b).2._NameHash = b._NameHash
    ∧ (a.assign_move b).1.assign_move (a.assign_move b).2 = (a, b) := by
  obtain ⟨n1, h1, u1, t1⟩ := a
  obtain ⟨n2, h2, u2, t2⟩ := b
  simp [ValveDataObject.assign_move, ValveDataObject._Type, ValveDataObject._U,
    ValveDataObject._Name, ValveDataObject._NameHash]

/-! ## Evaluations that settle claims about the parsers -/

/-- C3, what the code does: the document `doc_root_key_val` read in one chunk of
64 bytes gives the root `Root` with the string `Key = Val`; read in chunks of 4
bytes it gives `Roo` with `Ky = Vl`, and in chunks of 1 byte every name and
string is empty: the partial exit of `ParseBinaryString` drops the last byte of
each window. -/
theorem binary_chunk_boundary_drops_bytes (I : Impl) :
    ParseObject I doc_root_key_val 64
      = .ok (.mk [82, 111, 111, 116] (I.hash [82, 111, 111, 116])
          (._Collection [.mk [75, 101, 121] (I.hash [75, 101, 121]) (._String [86, 97, 108])
            .String]) .Object)
    ∧ ParseObject I doc_root_key_val 4
      = .ok (.mk [82, 111, 111] (I.hash [82, 111, 111])
          (._Collection [.mk [75, 121] (I.hash [75, 121]) (._String [86, 108]) .String])
          .Object)
    ∧ ParseObject I doc_root_key_val 1
      = .ok (.mk [] (I.hash [])
          (._Collection [.mk [] (I.hash []) (._String []) .String]) .Object)
    ∧ (ParseObject I doc_root_key_val 4).map ValveDataObject.Name
      ≠ (ParseObject I doc_root_key_val 64).map ValveDataObject.Name
    ∧ (ParseObject I doc_root_key_val 1).map ValveDataObject.Name
      ≠ (ParseObject I doc_root_key_val 64).map ValveDataObject.Name := by
  have h64 : ParseObject I doc_root_key_val 64
      = .ok (.mk [82, 111, 111, 116] (I.hash [82, 111, 111, 116])
          (._Collection [.mk [75, 101, 121] (I.hash [75, 101, 121]) (._String [86, 97, 108])
            .String]) .Object) := by rfl
  have h4 : ParseObject I doc_root_key_val 4
      = .ok (.mk [82, 111, 111] (I.hash [82, 111, 111])
          (._Collection [.mk [75, 121] (I.hash [75, 121]) (._String [86, 108]) .String])
          .Object) := by rfl
  have h1 : ParseObject I doc_root_key_val 1
      = .ok (.mk [] (I.hash [])
          (._Collection [.mk [] (I.hash []) (._String []) .String]) .Object) := by rfl
  refine ⟨h64, h4, h1, ?_, ?_⟩
  · rw [h4, h64]
    simp [Except.map, ValveDataObject.Name, ValveDataObject._Name]
  · rw [h1, h64]
    simp [Except.map, ValveDataObject.Name, ValveDataObject._Name]

/-- C1 as stated fails: the empty object with the empty name serializes (version
0) to the three bytes `00 00 08`, which `ParseObject` rejects, for it wants four
bytes to sniff; a root `R` holding a string whose name `a\0b` contains a NUL
serializes to a document on which `ParseObject` throws; where `char` is
unsigned, a root `R` holding the string `v` under the name `E2`, a lone UTF-8
lead byte, serializes to a document in which the scan of the name steps over
its terminator, and `ParseObject` returns `R` without the child; and the
document of the root `Root` with the string `Key = Val`, 16 bytes, read in
chunks of 4 bytes comes back as `Roo` with `Ky = Vl`. -/
theorem binary_round_trip_counterexample :
    SerializeAsBinary (ValveDataObject.new_object Impl.sample []) 0 = .ok [0, 0, 8]
    ∧ ParseObject Impl.sample [0, 0, 8] (10 * 1024)
        = .error (.ParserException "Failed to read stream.")
    ∧ SerializeAsBinary
        (.mk [82] (Impl.sample.hash [82])
          (._Collection [ValveDataObject.new_string Impl.sample [97, 0, 98] [118]]) .Object) 0
        = .ok [0, 82, 0, 1, 97, 0, 98, 0, 118, 0, 8]
    ∧ ParseObject Impl.sample [0, 82, 0, 1, 97, 0, 98, 0, 118, 0, 8] (10 * 1024)
        = .error (.runtime_error "Unhandled VDF type")
    ∧ SerializeAsBinary
        (.mk [82] (Impl.sample_unsigned.hash [82])
          (._Collection [ValveDataObject.new_string Impl.sample_unsigned [0xE2] [118]])
          .Object) 0
        = .ok [0, 82, 0, 1, 0xE2, 0, 118, 0, 8]
    ∧ ParseObject Impl.sample_unsigned [0, 82, 0, 1, 0xE2, 0, 118, 0, 8] (10 * 1024)
        = .ok (ValveDataObject.new_object Impl.sample_unsigned [82])
    ∧ SerializeAsBinary
        (.mk [82, 111, 111, 116] (Impl.sample.hash [82, 111, 111, 116])
          (._Collection [ValveDataObject.new_string Impl.sample [75, 101, 121] [86, 97, 108]])
          .Object) 0
        = .ok doc_root_key_val
    ∧ ParseObject Impl.sample doc_root_key_val 4
        = .ok (.mk [82, 111, 111] (Impl.sample.hash [82, 111, 111])
            (._Collection [ValveDataObject.new_string Impl.sample [75, 121] [86, 108]])
            .Object) := by
  refine ⟨by rfl, by rfl, by rfl, by rfl, by rfl, by rfl, by rfl, by rfl⟩

/-- C2 as stated fails: the root `r` with the `Int32` child `k = 5` serializes to
the text `"r" { "k" "5" }`, which parses to a root whose child `k` is the
`String` `5`: the text form carries no types.  Nor does every name or string
come back: the text of a root with the empty name is refused at its second
line, and so is the text of the root `r` holding the string `k` when the value
is `a"b` (a quote), `a\` (a backslash before the closing quote), `a\nb` (a line
feed) or `a\xC3`, `a\xE2` (a UTF-8 lead byte before the closing quote). -/
theorem text_round_trip_counterexample :
    SerializeAsText Impl.sample
        (.mk [114] (Impl.sample.hash [114])
          (._Collection [ValveDataObject.new_int32 Impl.sample [107] 5]) .Object)
      = .ok [34, 114, 34, 10, 123, 10, 9, 34, 107, 34, 9, 9, 34, 53, 34, 10, 125, 10]
    ∧ ParseObject Impl.sample
        [34, 114, 34, 10, 123, 10, 9, 34, 107, 34, 9, 9, 34, 53, 34, 10, 125, 10] (10 * 1024)
      = .ok (.mk [114] (Impl.sample.hash [114])
          (._Collection [ValveDataObject.new_string Impl.sample [107] [53]]) .Object)
    ∧ (ValveDataObject.new_string Impl.sample [107] [53]).Type
      ≠ (ValveDataObject.new_int32 Impl.sample [107] 5).Type
    ∧ (SerializeAsText Impl.sample (ValveDataObject.new_object Impl.sample [])).bind
        (fun bytes => ParseObject Impl.sample bytes (10 * 1024))
      = .error (.ParserException "Expected object key start at line 2")
    ∧ (SerializeAsText Impl.sample (tree_with_string Impl.sample [97, 34, 98])).bind
        (fun bytes => ParseObject Impl.sample bytes (10 * 1024))
      = .error (.ParserException "Got datas after item value at line 3")
    ∧ (SerializeAsText Impl.sample (tree_with_string Impl.sample [97, 92])).bind
        (fun bytes => ParseObject Impl.sample bytes (10 * 1024))
      = .error (.ParserException "Expected item value end at line 3")
    ∧ (SerializeAsText Impl.sample (tree_with_string Impl.sample [97, 10, 98])).bind
        (fun bytes => ParseObject Impl.sample bytes (10 * 1024))
      = .error (.ParserException "Expected item value end at line 3")
    ∧ (SerializeAsText Impl.sample (tree_with_string Impl.sample [97, 0xC3])).bind
        (fun bytes => ParseObject Impl.sample bytes (10 * 1024))
      = .error (.ParserException "Expected item value end at line 3")
    ∧ (SerializeAsText Impl.sample (tree_with_string Impl.sample [97, 0xE2])).bind
        (fun bytes => ParseObject Impl.sample bytes (10 * 1024))
      = .error (.ParserException "Invalid codepoint at line 3") := by
  refine ⟨by rfl, by rfl, by decide, by rfl, by rfl, by rfl, by rfl, by rfl, by rfl⟩

/-- C4 as stated fails.  The lines `00 41` and `00 08` are sniffed as a binary
document, whose root name takes in the line ending: `A\n`, `A\r` and `A\r\n`.
The single line `""` gives three bytes with `\n` or `\r`, which `ParseObject`
rejects, and four bytes with `\r\n`, which it accepts.  And on the lines `"r"`,
`{`, `"k\xE0`, `}` the 3-byte lead byte `E0` is the last byte of its line:
`Details::ParseString` moves its cursor past the end of the line and reads on
behind it, so that the source fixes no outcome for any of the three documents
(the model marks this `undefined`). -/
theorem eol_independence_counterexample :
    (ParseObject Impl.sample (terminate_lines [10] [[0, 65], [0, 8]]) (10 * 1024)).map
        ValveDataObject.Name = .ok [65, 10]
    ∧ (ParseObject Impl.sample (terminate_lines [13] [[0, 65], [0, 8]]) (10 * 1024)).map
        ValveDataObject.Name = .ok [65, 13]
    ∧ (ParseObject Impl.sample (terminate_lines [13, 10] [[0, 65], [0, 8]]) (10 * 1024)).map
        ValveDataObject.Name = .ok [65, 13, 10]
    ∧ ParseObject Impl.sample (terminate_lines [10] [[34, 34]]) (10 * 1024)
        = .error (.ParserException "Failed to read stream.")
    ∧ ParseObject Impl.sample (terminate_lines [13] [[34, 34]]) (10 * 1024)
        = .error (.ParserException "Failed to read stream.")
    ∧ ParseObject Impl.sample (terminate_lines [13, 10] [[34, 34]]) (10 * 1024)
        = .ok (ValveDataObject.new Impl.sample)
    ∧ ParseObject Impl.sample
        (terminate_lines [10] [[34, 114, 34], [123], [34, 107, 0xE0], [125]]) (10 * 1024)
        = .error .undefined
    ∧ ParseObject Impl.sample
        (terminate_lines [13] [[34, 114, 34], [123], [34, 107, 0xE0], [125]]) (10 * 1024)
        = .error .undefined
    ∧ ParseObject Impl.sample
        (terminate_lines [13, 10] [[34, 114, 34], [123], [34, 107, 0xE0], [125]]) (10 * 1024)
        = .error .undefined := by
  refine ⟨by rfl, by rfl, by rfl, by rfl, by rfl, by rfl, by rfl, by rfl, by rfl⟩

/-! ## The binary round trip -/

theorem ascii_no_nul_cons (b : Nat) (s : Bytes) :
    ascii_no_nul (b :: s) = true ↔ (0 < b ∧ b < 128) ∧ ascii_no_nul s = true := by
  simp [ascii_no_nul]

theorem ParseBinaryString_loop_ascii (cs : Bool) (s rest : Bytes) (n fuel : Nat)
    (hs : ascii_no_nul s = true) (hf : s.length < fuel) :
    Details.ParseBinaryString.loop cs fuel (s ++ 0 :: rest) n = .ok (0, n + s.length + 1) := by
  induction s generalizing n fuel with
  | nil =>
    obtain ⟨f, rfl⟩ : ∃ f, fuel = f + 1 := ⟨fuel - 1, by simp at hf; omega⟩
    rw [List.nil_append, Details.ParseBinaryString.loop]
    simp
  | cons b s ih =>
    obtain ⟨⟨hb0, hb1⟩, hs⟩ := (ascii_no_nul_cons b s).1 hs
    have hb0' : b ≠ 0 := by omega
    obtain ⟨f, rfl⟩ : ∃ f, fuel = f + 1 := ⟨fuel - 1, by simp at hf; omega⟩
    rw [List.cons_append, Details.ParseBinaryString.loop]
    simp only [hb1, if_true, hb0', if_false]
    rw [ih _ _ hs (by simp at hf; omega)]
    simp only [List.length_cons]
    congr 2
    omega

theorem ParseBinaryString_ascii (I : Impl) (s rest str : Bytes) (hs : ascii_no_nul s = true) :
    Details.ParseBinaryString I (s ++ 0 :: rest) str = .ok (0, rest, str ++ s) := by
  have h := ParseBinaryString_loop_ascii I.charSigned s rest 0 (s ++ 0 :: rest).length hs
    (by simp)
  rw [Details.ParseBinaryString, h]
  simp

theorem ReadBinaryBytes_all (bytes rest : Bytes) (k : Nat) (hk : bytes.length = k) :
    Details.ReadBinaryBytes (bytes ++ rest) [] k = .ok (rest, bytes) := by
  subst hk
  simp [Details.ReadBinaryBytes]

theorem length_le_encode (n v : Nat) : (le_encode n v).length = n := by
  induction n generalizing v with
  | zero => rfl
  | succ n ih => simp [le_encode, ih]

theorem le_decode_le_encode (n v : Nat) : le_decode (le_encode n v) = v % 256 ^ n := by
  induction n generalizing v with
  | zero => simp [le_encode, le_decode, Nat.mod_one]
  | succ n ih =>
    simp only [le_encode, le_decode, ih]
    rw [pow_succ, Nat.mul_comm (256 ^ n) 256, Nat.mod_mul]

theorem as_int32_le_encode (v : Int) (h1 : -(2 : Int) ^ 31 ≤ v) (h2 : v < 2 ^ 31) :
    as_int32 (le_encode 4 (v % 2 ^ 32).toNat) = v := by
  have hm : (v % 2 ^ 32).toNat % 256 ^ 4 = (v % 2 ^ 32).toNat := by
    apply Nat.mod_eq_of_lt
    have : v % 2 ^ 32 < 2 ^ 32 := Int.emod_lt_of_pos _ (by norm_num)
    have : 0 ≤ v % 2 ^ 32 := Int.emod_nonneg _ (by norm_num)
    omega
  simp only [as_int32, le_decode_le_encode, hm]
  have h0 : 0 ≤ v % 2 ^ 32 := Int.emod_nonneg _ (by norm_num)
  split
  · rename_i h
    omega
  · rename_i h
    omega

theorem as_int64_le_encode (v : Int) (h1 : -(2 : Int) ^ 63 ≤ v) (h2 : v < 2 ^ 63) :
    as_int64 (le_encode 8 (v % 2 ^ 64).toNat) = v := by
  have hm : (v % 2 ^ 64).toNat % 256 ^ 8 = (v % 2 ^ 64).toNat := by
    apply Nat.mod_eq_of_lt
    have : v % 2 ^ 64 < 2 ^ 64 := Int.emod_lt_of_pos _ (by norm_num)
    have : 0 ≤ v % 2 ^ 64 := Int.emod_nonneg _ (by norm_num)
    omega
  simp only [as_int64, le_decode_le_encode, hm]
  have h0 : 0 ≤ v % 2 ^ 64 := Int.emod_nonneg _ (by norm_num)
  split
  · rename_i h
    omega
  · rename_i h
    omega

theorem loop_step_type (I : Impl) (oe : BinaryNodeType) (chunk f : Nat) (is : istream)
    (b0 : Nat) (rest : Bytes) (c : ValveCollection) (state : Nat) (pk : Bool) (ik tmp : Bytes) :
    _ParseBinaryObject.loop I oe chunk (f + 1) is (b0 :: rest) c state pk false ik tmp
      = _ParseBinaryObject.loop I oe chunk f is rest c b0 pk true [] tmp := by
  rw [_ParseBinaryObject.loop]
  simp

theorem loop_step_key (I : Impl) (oe : BinaryNodeType) (chunk f : Nat) (is : istream)
    (key rest : Bytes) (c : ValveCollection) (state : Nat) (tmp : Bytes)
    (hk : ascii_no_nul key = true) (h8 : state ≠ 8) (h11 : state ≠ 11) :
    _ParseBinaryObject.loop I oe chunk (f + 1) is (key ++ 0 :: rest) c state false true [] tmp
      = _ParseBinaryObject.loop I oe chunk f is rest c state true true key tmp := by
  have hne : ∃ b0 w, key ++ 0 :: rest = b0 :: w := by
    cases key with
    | nil => exact ⟨0, rest, rfl⟩
    | cons b k => exact ⟨b, k ++ 0 :: rest, rfl⟩
  obtain ⟨b0, w, hw⟩ := hne
  have hp := ParseBinaryString_ascii I key rest [] hk
  rw [hw] at hp ⊢
  rw [_ParseBinaryObject.loop]
  simp [BinaryNodeType.toByte, h8, h11, hp]

theorem loop_step_string (I : Impl) (oe : BinaryNodeType) (chunk f : Nat) (is : istream)
    (key s rest : Bytes) (c : ValveCollection)
    (hs : ascii_no_nul s = true) :
    _ParseBinaryObject.loop I oe chunk (f + 1) is (s ++ 0 :: rest) c 1 true true key []
      = _ParseBinaryObject.loop I oe chunk f is rest (c ++ [ValveDataObject.new_string I key s])
          1 false false [] [] := by
  have hne : ∃ b0 w, s ++ 0 :: rest = b0 :: w := by
    cases s with
    | nil => exact ⟨0, rest, rfl⟩
    | cons b k => exact ⟨b, k ++ 0 :: rest, rfl⟩
  obtain ⟨b0, w, hw⟩ := hne
  have hp := ParseBinaryString_ascii I s rest [] hs
  rw [hw] at hp ⊢
  rw [_ParseBinaryObject.loop]
  simp [BinaryNodeType.toByte, hp]

theorem ValveDataObject.induction_on {P : ValveDataObject → Prop}
    (step : ∀ name hash u ty, (∀ c, u = Payload._Collection c → ∀ x ∈ c, P x) →
      P (.mk name hash u ty)) (t : ValveDataObject) : P t := by
  refine @ValveDataObject.rec P
    (fun u => ∀ c, u = Payload._Collection c → ∀ x ∈ c, P x)
    (fun l => ∀ x ∈ l, P x) ?_ ?_ ?_ ?_ ?_ ?_ ?_ ?_ ?_ ?_ ?_ ?_ t
  · intro name hash u ty hu
    exact step name hash u ty hu
  · intro c h; cases h
  · intro s c h; cases h
  · intro c hc c2 h
    cases h
    exact hc
  · intro v c h; cases h
  · intro v c h; cases h
  · intro v c h; cases h
  · intro v c h; cases h
  · intro v c h; cases h
  · intro v c h; cases h
  · intro x hx; cases hx
  · intro hd tl h1 h2 x hx
    rcases List.mem_cons.1 hx with rfl | hx
    · exact h1
    · exact h2 x hx

theorem loop_step_fixed (I : Impl) (oe : BinaryNodeType) (chunk f : Nat) (is : istream)
    (key bytes rest : Bytes) (c : ValveCollection) :
    (bytes.length = 4 →
      _ParseBinaryObject.loop I oe chunk (f + 1) is (bytes ++ rest) c 2 true true key []
        = _ParseBinaryObject.loop I oe chunk f is rest
            (c ++ [ValveDataObject.new_int32 I key (as_int32 bytes)]) 2 false false [] [])
    ∧ (bytes.length = 4 →
      _ParseBinaryObject.loop I oe chunk (f + 1) is (bytes ++ rest) c 3 true true key []
        = _ParseBinaryObject.loop I oe chunk f is rest
            (c ++ [ValveDataObject.new_float I key (le_decode bytes)]) 3 false false [] [])
    ∧ (bytes.length = 4 →
      _ParseBinaryObject.loop I oe chunk (f + 1) is (bytes ++ rest) c 4 true true key []
        = _ParseBinaryObject.loop I oe chunk f is rest
            (c ++ [ValveDataObject.new_pointer I key (le_decode bytes)]) 4 false false [] [])
    ∧ (bytes.length = 4 →
      _ParseBinaryObject.loop I oe chunk (f + 1) is (bytes ++ rest) c 6 true true key []
        = _ParseBinaryObject.loop I oe chunk f is rest
            (c ++ [ValveDataObject.new_color I key (le_decode bytes)]) 6 false false [] [])
    ∧ (bytes.length = 8 →
      _ParseBinaryObject.loop I oe chunk (f + 1) is (bytes ++ rest) c 10 true true key []
        = _ParseBinaryObject.loop I oe chunk f is rest
            (c ++ [ValveDataObject.new_int64 I key (as_int64 bytes)]) 10 false false [] [])
    ∧ (bytes.length = 8 →
      _ParseBinaryObject.loop I oe chunk (f + 1) is (bytes ++ rest) c 7 true true key []
        = _ParseBinaryObject.loop I oe chunk f is rest
            (c ++ [ValveDataObject.new_uint64 I key (le_decode bytes)]) 7 false false [] []) := by
  refine ⟨?_, ?_, ?_, ?_, ?_, ?_⟩ <;>
  · intro hl
    have hp := ReadBinaryBytes_all bytes rest _ hl
    obtain ⟨b0, w, hw⟩ : ∃ b0 w, bytes ++ rest = b0 :: w := by
      cases bytes with
      | nil => simp at hl
      | cons b k => exact ⟨b, k ++ rest, rfl⟩
    rw [hw] at hp ⊢
    rw [_ParseBinaryObject.loop]
    simp [BinaryNodeType.toByte, hp, hl]

theorem loop_step_object (I : Impl) (oe : BinaryNodeType) (chunk f : Nat) (is : istream)
    (key : Bytes) (b0 : Nat) (w : Bytes) (c : ValveCollection) :
    _ParseBinaryObject.loop I oe chunk (f + 1) is (b0 :: w) c 0 true true key []
      = match _ParseBinaryObject I oe chunk f is key (b0 :: w) with
        | .error x => .error x
        | .ok (child, is, win) =>
          _ParseBinaryObject.loop I oe chunk f is win (c ++ [child]) 0 false false [] [] := by
  rw [_ParseBinaryObject.loop]
  simp [BinaryNodeType.toByte]

theorem loop_end (I : Impl) (oe : BinaryNodeType) (chunk f : Nat)
    (e : Nat) (he : e = 8 ∨ e = 11) (rest : Bytes) (c : ValveCollection) (state : Nat)
    (ik : Bytes) :
    _ParseBinaryObject.loop I oe chunk (f + 2) ⟨[], true⟩ (e :: rest) c state false false ik []
      = .ok (c, ⟨[], true⟩, rest) := by
  rw [loop_step_type]
  cases rest with
  | nil =>
    rw [_ParseBinaryObject.loop]
    simp [istream.read]
  | cons b0 w =>
    rw [_ParseBinaryObject.loop]
    rcases he with rfl | rfl <;> simp [BinaryNodeType.toByte]

theorem length_SerializeAsBinary_ge (oe : BinaryNodeType) (t : ValveDataObject) (bytes : Bytes)
    (h : _SerializeAsBinary oe t = .ok bytes) : 2 ≤ bytes.length := by
  obtain ⟨n, hh, u, ty⟩ := t
  cases ty <;> cases u <;> simp only [_SerializeAsBinary, Payload.raw] at h <;>
    (try split at h) <;>
    first
    | (simp at h
       done)
    | (simp only [Except.ok.injEq] at h
       subst h
       simp only [List.length_append, List.length_cons, List.length_nil]
       omega)

theorem length_items_ge (oe : BinaryNodeType) (cs : List ValveDataObject) (bytes : Bytes)
    (h : _SerializeAsBinary.items oe cs = .ok bytes) : 2 * cs.length ≤ bytes.length := by
  induction cs generalizing bytes with
  | nil => simp
  | cons t cs ih =>
    rw [_SerializeAsBinary.items] at h
    split at h
    · exact absurd h (by simp)
    · rename_i b1 hb1
      split at h
      · exact absurd h (by simp)
      · rename_i b2 hb2
        simp only [Except.ok.injEq] at h
        subst h
        have := length_SerializeAsBinary_ge oe t b1 hb1
        have := ih b2 hb2
        simp only [List.length_append, List.length_cons]
        omega

theorem parse_items_of (I : Impl) (oe : BinaryNodeType) (chunk : Nat)
    (cs : List ValveDataObject)
    (IH : ∀ x ∈ cs, ∀ bytes, x.valid I = true → x.all_strings ascii_no_nul = true →
        _SerializeAsBinary oe x = .ok bytes → ∀ f, 3 * bytes.length ≤ f + 3 →
        ∀ rest c state ik,
          _ParseBinaryObject.loop I oe chunk (f + 3) ⟨[], true⟩ (bytes ++ rest) c state false
              false ik []
            = _ParseBinaryObject.loop I oe chunk f ⟨[], true⟩ rest (c ++ [x]) x._Type.toByte
                false false [] [])
    (bytes : Bytes) (hv : ValveDataObject.valid.items I cs = true)
    (hs : ValveDataObject.all_strings.items ascii_no_nul cs = true)
    (hb : _SerializeAsBinary.items oe cs = .ok bytes) (f : Nat)
    (hf : 3 * bytes.length ≤ f + 3 * cs.length)
    (rest : Bytes) (c : ValveCollection) (state : Nat) (ik : Bytes) :
    ∃ state' ik',
      _ParseBinaryObject.loop I oe chunk (f + 3 * cs.length) ⟨[], true⟩ (bytes ++ rest) c state
          false false ik []
        = _ParseBinaryObject.loop I oe chunk f ⟨[], true⟩ rest (c ++ cs) state' false false
            ik' [] := by
  induction cs generalizing bytes c state ik with
  | nil =>
    simp only [_SerializeAsBinary.items, Except.ok.injEq] at hb
    subst hb
    exact ⟨state, ik, by simp⟩
  | cons t cs ih =>
    rw [_SerializeAsBinary.items] at hb
    split at hb
    · simp at hb
    · rename_i b1 hb1
      split at hb
      · simp at hb
      · rename_i b2 hb2
        simp only [Except.ok.injEq] at hb
        subst hb
        simp only [ValveDataObject.valid.items, ValveDataObject.all_strings.items,
          Bool.and_eq_true] at hv hs
        have hl1 := length_SerializeAsBinary_ge oe t b1 hb1
        simp only [List.length_append, List.length_cons] at hf
        have h1 := IH t (List.mem_cons_self _ _) b1 hv.1 hs.1 hb1 (f + 3 * cs.length)
          (by omega) (b2 ++ rest) c state ik
        obtain ⟨state', ik', h2⟩ := ih (fun x hx => IH x (List.mem_cons_of_mem _ hx)) b2 hv.2
          hs.2 hb2 (by omega) (c ++ [t]) t._Type.toByte []
        refine ⟨state', ik', ?_⟩
        have e1 : f + 3 * (t :: cs).length = f + 3 * cs.length + 3 := by
          simp only [List.length_cons]; omega
        rw [e1, List.append_assoc, h1, h2]
        simp

theorem parse_object_body (I : Impl) (oe : BinaryNodeType) (chunk : Nat)
    (hoe : oe.toByte = 8 ∨ oe.toByte = 11) (cs : List ValveDataObject)
    (IH : ∀ x ∈ cs, ∀ bytes, x.valid I = true → x.all_strings ascii_no_nul = true →
        _SerializeAsBinary oe x = .ok bytes → ∀ f, 3 * bytes.length ≤ f + 3 →
        ∀ rest c state ik,
          _ParseBinaryObject.loop I oe chunk (f + 3) ⟨[], true⟩ (bytes ++ rest) c state false
              false ik []
            = _ParseBinaryObject.loop I oe chunk f ⟨[], true⟩ rest (c ++ [x]) x._Type.toByte
                false false [] [])
    (body : Bytes) (hv : ValveDataObject.valid.items I cs = true)
    (hs : ValveDataObject.all_strings.items ascii_no_nul cs = true)
    (hb : _SerializeAsBinary.items oe cs = .ok body) (f : Nat)
    (hf : 3 * body.length + 3 ≤ f) (name rest : Bytes) :
    _ParseBinaryObject I oe chunk f ⟨[], true⟩ name (body ++ oe.toByte :: rest)
      = .ok (.mk name (I.hash name) (._Collection cs) .Object, ⟨[], true⟩, rest) := by
  have hl := length_items_ge oe cs body hb
  obtain ⟨g, rfl⟩ : ∃ g, f = (g + 2 + 3 * cs.length) + 1 :=
    ⟨f - 3 - 3 * cs.length, by omega⟩
  rw [_ParseBinaryObject]
  obtain ⟨state', ik', h⟩ := parse_items_of I oe chunk cs IH body hv hs hb (g + 2) (by omega)
    (oe.toByte :: rest) [] 0 []
  rw [h, loop_end I oe chunk g _ hoe]
  simp

theorem parse_item (I : Impl) (oe : BinaryNodeType) (chunk : Nat)
    (hoe : oe.toByte = 8 ∨ oe.toByte = 11) (t : ValveDataObject) :
    ∀ bytes, t.valid I = true → t.all_strings ascii_no_nul = true →
        _SerializeAsBinary oe t = .ok bytes → ∀ f, 3 * bytes.length ≤ f + 3 →
        ∀ rest c state ik,
          _ParseBinaryObject.loop I oe chunk (f + 3) ⟨[], true⟩ (bytes ++ rest) c state false
              false ik []
            = _ParseBinaryObject.loop I oe chunk f ⟨[], true⟩ rest (c ++ [t]) t._Type.toByte
                false false [] [] := by
  induction t using ValveDataObject.induction_on with
  | step name hash u ty IH =>
    intro bytes hv hs hser f hf rest c state ik
    cases ty <;> cases u <;>
      simp only [ValveDataObject.valid, Bool.and_eq_true, decide_eq_true_eq, Bool.false_eq_true,
        and_false] at hv
    all_goals obtain ⟨hh, hv⟩ := hv
    all_goals subst hh
    all_goals simp only [ValveDataObject.all_strings, Bool.and_eq_true] at hs
    all_goals simp only [_SerializeAsBinary, Payload.raw] at hser
    case step.Object._Collection.intro cs =>
      split at hser
      · simp at hser
      · rename_i body hbody
        simp only [Except.ok.injEq] at hser
        subst hser
        have e : [ObjectType.Object.toByte] ++ (name ++ [0]) ++ body ++ [oe.toByte] ++ rest
            = 0 :: (name ++ 0 :: (body ++ oe.toByte :: rest)) := by
          simp [ObjectType.toByte]
        simp only [List.length_append, List.length_cons, List.length_nil] at hf
        obtain ⟨b0, w, hw⟩ : ∃ b0 w, body ++ oe.toByte :: rest = b0 :: w := by
          cases body with
          | nil => exact ⟨_, _, rfl⟩
          | cons b k => exact ⟨b, k ++ oe.toByte :: rest, rfl⟩
        have hchild := parse_object_body I oe chunk hoe cs (IH cs rfl) body hv hs.2 hbody f
          (by omega) name rest
        rw [e, loop_step_type, loop_step_key I oe chunk _ _ name _ _ 0 _ hs.1 (by decide)
          (by decide), hw, loop_step_object, ← hw, hchild]
        simp [ValveDataObject._Type, ObjectType.toByte]
    case step.String._String.intro s =>
      simp only [Except.ok.injEq] at hser
      subst hser
      have e : [ObjectType.String.toByte] ++ (name ++ [0]) ++ (s ++ [0]) ++ rest
          = 1 :: (name ++ 0 :: (s ++ 0 :: rest)) := by
        simp [ObjectType.toByte]
      rw [e, loop_step_type, loop_step_key I oe chunk _ _ name _ _ 1 _ hs.1 (by decide)
        (by decide), loop_step_string I oe chunk _ _ name s rest _ hs.2]
      simp [ValveDataObject._Type, ObjectType.toByte, ValveDataObject.new_string]
    all_goals simp only [le_refl, if_true, Except.ok.injEq] at hser
    all_goals subst hser
    case step.Int32._Int32.intro v =>
      have e : [ObjectType.Int32.toByte] ++ (name ++ [0]) ++ le_encode 4 (v % 2 ^ 32).toNat
          ++ rest = 2 :: (name ++ 0 :: (le_encode 4 (v % 2 ^ 32).toNat ++ rest)) := by
        simp [ObjectType.toByte]
      rw [e, loop_step_type, loop_step_key I oe chunk _ _ name _ _ 2 _ hs.1 (by decide)
        (by decide), (loop_step_fixed I oe chunk _ _ name _ rest _).1 (length_le_encode _ _),
        as_int32_le_encode v hv.1 hv.2]
      simp [ValveDataObject._Type, ObjectType.toByte, ValveDataObject.new_int32]
    case step.Float._Float.intro v =>
      have e : [ObjectType.Float.toByte] ++ (name ++ [0]) ++ le_encode 4 v
          ++ rest = 3 :: (name ++ 0 :: (le_encode 4 v ++ rest)) := by
        simp [ObjectType.toByte]
      rw [e, loop_step_type, loop_step_key I oe chunk _ _ name _ _ 3 _ hs.1 (by decide)
        (by decide), (loop_step_fixed I oe chunk _ _ name _ rest _).2.1 (length_le_encode _ _),
        le_decode_le_encode, Nat.mod_eq_of_lt (show v < 256 ^ 4 from by norm_num; exact hv)]
      simp [ValveDataObject._Type, ObjectType.toByte, ValveDataObject.new_float]
    case step.Pointer._Pointer.intro v =>
      have e : [ObjectType.Pointer.toByte] ++ (name ++ [0]) ++ le_encode 4 v
          ++ rest = 4 :: (name ++ 0 :: (le_encode 4 v ++ rest)) := by
        simp [ObjectType.toByte]
      rw [e, loop_step_type, loop_step_key I oe chunk _ _ name _ _ 4 _ hs.1 (by decide)
        (by decide), (loop_step_fixed I oe chunk _ _ name _ rest _).2.2.1 (length_le_encode _ _),
        le_decode_le_encode, Nat.mod_eq_of_lt (show v < 256 ^ 4 from by norm_num; exact hv)]
      simp [ValveDataObject._Type, ObjectType.toByte, ValveDataObject.new_pointer]
    case step.Color._Color.intro v =>
      have e : [ObjectType.Color.toByte] ++ (name ++ [0]) ++ le_encode 4 v
          ++ rest = 6 :: (name ++ 0 :: (le_encode 4 v ++ rest)) := by
        simp [ObjectType.toByte]
      rw [e, loop_step_type, loop_step_key I oe chunk _ _ name _ _ 6 _ hs.1 (by decide)
        (by decide), (loop_step_fixed I oe chunk _ _ name _ rest _).2.2.2.1 (length_le_encode _ _),
        le_decode_le_encode, Nat.mod_eq_of_lt (show v < 256 ^ 4 from by norm_num; exact hv)]
      simp [ValveDataObject._Type, ObjectType.toByte, ValveDataObject.new_color]
    case step.UInt64._UInt64.intro v =>
      have e : [ObjectType.UInt64.toByte] ++ (name ++ [0]) ++ le_encode 8 v
          ++ rest = 7 :: (name ++ 0 :: (le_encode 8 v ++ rest)) := by
        simp [ObjectType.toByte]
      rw [e, loop_step_type, loop_step_key I oe chunk _ _ name _ _ 7 _ hs.1 (by decide)
        (by decide), (loop_step_fixed I oe chunk _ _ name _ rest _).2.2.2.2.2 (length_le_encode _ _),
        le_decode_le_encode, Nat.mod_eq_of_lt (show v < 256 ^ 8 from by norm_num; exact hv)]
      simp [ValveDataObject._Type, ObjectType.toByte, ValveDataObject.new_uint64]
    case step.Int64._Int64.intro v =>
      have e : [ObjectType.Int64.toByte] ++ (name ++ [0]) ++ le_encode 8 (v % 2 ^ 64).toNat
          ++ rest = 10 :: (name ++ 0 :: (le_encode 8 (v % 2 ^ 64).toNat ++ rest)) := by
        simp [ObjectType.toByte]
      rw [e, loop_step_type, loop_step_key I oe chunk _ _ name _ _ 10 _ hs.1 (by decide)
        (by decide), (loop_step_fixed I oe chunk _ _ name _ rest _).2.2.2.2.1 (length_le_encode _ _),
        as_int64_le_encode v hv.1 hv.2]
      simp [ValveDataObject._Type, ObjectType.toByte, ValveDataObject.new_int64]

theorem ParseObject_binary_of_serialized (I : Impl) (oe : BinaryNodeType) (chunk : Nat)
    (hoe : oe.toByte = 8 ∨ oe.toByte = 11) (t : ValveDataObject) (doc : Bytes)
    (hT : t._Type = .Object) (hv : t.valid I = true)
    (hs : t.all_strings ascii_no_nul = true)
    (hser : _SerializeAsBinary oe t = .ok doc) (hc : doc.length ≤ chunk) :
    ParseObject.binary I chunk oe ⟨doc, false⟩ = .ok t := by
  obtain ⟨name, hash, u, ty⟩ := t
  simp only [ValveDataObject._Type] at hT
  subst hT
  cases u <;>
    simp only [ValveDataObject.valid, Bool.and_eq_true, decide_eq_true_eq, Bool.false_eq_true,
      and_false] at hv
  rename_i cs
  obtain ⟨hh, hv⟩ := hv
  subst hh
  simp only [ValveDataObject.all_strings, Bool.and_eq_true] at hs
  simp only [_SerializeAsBinary] at hser
  split at hser
  · simp at hser
  · rename_i body hbody
    simp only [Except.ok.injEq] at hser
    have e : doc = 0 :: (name ++ 0 :: (body ++ [oe.toByte])) := by
      rw [← hser]; simp [ObjectType.toByte]
    subst e
    have hchild := parse_object_body I oe chunk hoe cs
      (fun x _ => parse_item I oe chunk hoe x) body hv hs.2 hbody
      (3 * (body.length + 1) + 3) (by omega) name []
    have hname := ParseBinaryString_ascii I name (body ++ [oe.toByte]) [] hs.1
    rw [List.nil_append] at hname
    have hneg : ¬ ((0 : Int) = -2) := by decide
    have hread : istream.read ⟨name ++ 0 :: (body ++ [oe.toByte]), false⟩ chunk
        = (name ++ 0 :: (body ++ [oe.toByte]), ⟨[], true⟩) := by
      have : ¬ chunk ≤ (name ++ 0 :: (body ++ [oe.toByte])).length := by
        simp only [List.length_cons] at hc; omega
      simp only [istream.read, Bool.false_eq_true, if_false, this]
    generalize hw : name ++ 0 :: (body ++ [oe.toByte]) = w at hname hread hc
    have hwl : 1 ≤ w.length := by
      rw [← hw]; simp only [List.length_cons, List.length_append, List.length_nil]; omega
    have h1 : istream.read ⟨0 :: w, false⟩ 1 = ([0], ⟨w, false⟩) := by
      simp [istream.read]
    have hobj : BinaryNodeType.Object.toByte = 0 := rfl
    obtain ⟨k, hk⟩ : ∃ k, w.length = k + 1 := ⟨w.length - 1, by omega⟩
    rw [ParseObject.binary, h1]
    simp only [Bool.false_eq_true, List.length_singleton, ne_eq, not_true_eq_false, or_self,
      if_false, List.getD_cons_zero, hobj, hk]
    rw [ParseObject.binary_loop, hread]
    simp only [hname, Bool.not_true, Bool.false_eq_true, ne_eq, false_or, hk,
      Nat.succ_ne_zero, not_false_eq_true, if_true, List.length_nil, zero_add,
      List.length_append, List.length_singleton, hneg, hchild]
    rw [ParseObject.binary_loop]
    simp [istream.read]

theorem SerializeAsBinary_items_ok (oe : BinaryNodeType) (cs : List ValveDataObject)
    (h : ∀ x ∈ cs, ∃ bytes, _SerializeAsBinary oe x = .ok bytes) :
    ∃ bytes, _SerializeAsBinary.items oe cs = .ok bytes := by
  induction cs with
  | nil => exact ⟨[], rfl⟩
  | cons t cs ih =>
    obtain ⟨b1, h1⟩ := h t (List.mem_cons_self _ _)
    obtain ⟨b2, h2⟩ := ih (fun x hx => h x (List.mem_cons_of_mem _ hx))
    exact ⟨b1 ++ b2, by rw [_SerializeAsBinary.items, h1, h2]⟩

theorem valid_items_mem (I : Impl) (cs : List ValveDataObject)
    (h : ValveDataObject.valid.items I cs = true) : ∀ x ∈ cs, x.valid I = true := by
  induction cs with
  | nil => intro x hx; cases hx
  | cons t cs ih =>
    simp only [ValveDataObject.valid.items, Bool.and_eq_true] at h
    intro x hx
    rcases List.mem_cons.1 hx with rfl | hx
    · exact h.1
    · exact ih h.2 x hx

theorem SerializeAsBinary_ok_of_valid (I : Impl) (oe : BinaryNodeType) (t : ValveDataObject) :
    t.valid I = true → ∃ bytes, _SerializeAsBinary oe t = .ok bytes := by
  induction t using ValveDataObject.induction_on with
  | step name hash u ty IH =>
    intro hv
    cases ty <;> cases u <;>
      simp only [ValveDataObject.valid, Bool.and_eq_true, decide_eq_true_eq, Bool.false_eq_true,
        and_false] at hv
    case step.Object._Collection cs =>
      obtain ⟨body, hb⟩ := SerializeAsBinary_items_ok oe cs
        (fun x hx => IH cs rfl x hx (valid_items_mem I cs hv.2 x hx))
      exact ⟨_, by simp only [_SerializeAsBinary, hb]; rfl⟩
    all_goals exact ⟨_, by simp only [_SerializeAsBinary, Payload.raw, le_refl, if_true]; rfl⟩

theorem SerializeAsBinary_object_head (oe : BinaryNodeType) (t : ValveDataObject) (doc : Bytes)
    (hT : t._Type = .Object) (h : _SerializeAsBinary oe t = .ok doc) :
    ∃ w, doc = 0 :: w := by
  obtain ⟨name, hash, u, ty⟩ := t
  simp only [ValveDataObject._Type] at hT
  subst hT
  cases u <;> simp only [_SerializeAsBinary] at h <;> (try split at h) <;>
    first
    | (simp at h
       done)
    | (simp only [Except.ok.injEq] at h
       exact ⟨_, by rw [← h]; simp [ObjectType.toByte]; rfl⟩)

/-! ## Strings that survive the binary form -/

/-- The scan of `ParseBinaryString` that ends on the terminator of `s` in the
window `s 00` ends there in every window that begins with `s 00`. -/
theorem ParseBinaryString_loop_readable (cs : Bool) (fuel : Nat) :
    ∀ (s : Bytes) (n : Nat),
      Details.ParseBinaryString.loop cs fuel (s ++ [0]) n = .ok (0, n + s.length + 1) →
      ∀ (f2 : Nat) (rest : Bytes), s.length < f2 →
        Details.ParseBinaryString.loop cs f2 (s ++ 0 :: rest) n = .ok (0, n + s.length + 1) := by
  induction fuel with
  | zero =>
    intro s n h
    cases s <;> simp [Details.ParseBinaryString.loop] at h
  | succ fuel ih =>
    intro s n h f2 rest hf2
    obtain ⟨g, rfl⟩ : ∃ g, f2 = g + 1 := ⟨f2 - 1, by omega⟩
    cases s with
    | nil =>
      rw [List.nil_append, Details.ParseBinaryString.loop]
      simp
    | cons c s =>
      simp only [List.length_cons] at hf2 h ⊢
      rw [List.cons_append, Details.ParseBinaryString.loop] at h
      rw [List.cons_append, Details.ParseBinaryString.loop]
      have e1 : n + (s.length + 1) + 1 = n + 1 + s.length + 1 := by omega
      by_cases c1 : c < 0x80
      · rw [if_pos c1] at h ⊢
        by_cases c0 : c = 0
        · rw [if_pos c0] at h
          simp only [Except.ok.injEq, Prod.mk.injEq, true_and] at h
          omega
        · rw [if_neg c0] at h ⊢
          rw [e1] at h ⊢
          exact ih s (n + 1) h g rest (by omega)
      rw [if_neg c1] at h ⊢
      cases cs
      · simp only [Bool.false_eq_true, if_false] at h ⊢
        by_cases c2 : c >>> 5 = 0x6
        · rw [if_pos c2] at h ⊢
          cases s with
          | nil =>
            simp [Details.ParseBinaryString.loop] at h
          | cons x s =>
            simp only [List.cons_append, List.length_cons, Nat.succ_ne_zero, if_false,
              List.drop_succ_cons, List.drop_zero] at h ⊢
            have e2 : n + (s.length + 1 + 1) + 1 = n + 2 + s.length + 1 := by omega
            rw [e2] at h ⊢
            exact ih s (n + 2) h g rest (by simp only [List.length_cons] at hf2; omega)
        rw [if_neg c2] at h ⊢
        by_cases c3 : c >>> 4 = 0xe
        · rw [if_pos c3] at h ⊢
          cases s with
          | nil => simp at h
          | cons x s =>
            cases s with
            | nil =>
              simp [Details.ParseBinaryString.loop] at h
            | cons y s =>
              have l1 : ¬ (x :: y :: s ++ [0]).length = 1 := by simp
              have l2 : ¬ (x :: y :: s ++ [0]).length < 2 := by simp
              have l3 : ¬ (x :: y :: s ++ 0 :: rest).length = 1 := by simp
              have l4 : ¬ (x :: y :: s ++ 0 :: rest).length < 2 := by simp
              rw [if_neg l1, if_neg l2] at h
              rw [if_neg l3, if_neg l4]
              simp only [List.cons_append, List.length_cons, List.drop_succ_cons,
                List.drop_zero] at h ⊢
              have e2 : n + (s.length + 1 + 1 + 1) + 1 = n + 3 + s.length + 1 := by omega
              rw [e2] at h ⊢
              exact ih s (n + 3) h g rest (by simp only [List.length_cons] at hf2; omega)
        rw [if_neg c3] at h ⊢
        by_cases c4 : c >>> 3 = 0x1e
        · rw [if_pos c4] at h ⊢
          cases s with
          | nil => simp at h
          | cons x s =>
            cases s with
            | nil => simp at h
            | cons y s =>
              cases s with
              | nil =>
                simp [Details.ParseBinaryString.loop] at h
              | cons z s =>
                have l1 : ¬ (x :: y :: z :: s ++ [0]).length = 2 := by simp
                have l2 : ¬ (x :: y :: z :: s ++ [0]).length < 3 := by simp
                have l3 : ¬ (x :: y :: z :: s ++ 0 :: rest).length = 2 := by simp
                have l4 : ¬ (x :: y :: z :: s ++ 0 :: rest).length < 3 := by simp
                rw [if_neg l1, if_neg l2] at h
                rw [if_neg l3, if_neg l4]
                simp only [List.cons_append, List.length_cons, List.drop_succ_cons,
                  List.drop_zero] at h ⊢
                have e2 : n + (s.length + 1 + 1 + 1 + 1) + 1 = n + 4 + s.length + 1 := by omega
                rw [e2] at h ⊢
                exact ih s (n + 4) h g rest (by simp only [List.length_cons] at hf2; omega)
        rw [if_neg c4] at h ⊢
        rw [e1] at h ⊢
        exact ih s (n + 1) h g rest (by omega)
      · simp only [if_true] at h ⊢
        rw [e1] at h ⊢
        exact ih s (n + 1) h g rest (by omega)

theorem nul_readable_loop (I : Impl) (s : Bytes) (h : nul_readable I s = true) :
    Details.ParseBinaryString.loop I.charSigned (s ++ [0]).length (s ++ [0]) 0
      = .ok (0, 0 + s.length + 1) := by
  unfold nul_readable at h
  rw [Details.ParseBinaryString] at h
  cases hL : Details.ParseBinaryString.loop I.charSigned (s ++ [0]).length (s ++ [0]) 0 with
  | error x => rw [hL] at h; simp at h
  | ok p =>
    obtain ⟨code, n⟩ := p
    rw [hL] at h
    simp only [] at h
    by_cases c2 : code = -2
    · rw [if_pos c2] at h
      simp only [Bool.and_eq_true, beq_iff_eq] at h
      omega
    rw [if_neg c2] at h
    by_cases n0 : n = 0
    · rw [if_pos n0] at h; simp at h
    rw [if_neg n0] at h
    simp only [Bool.and_eq_true, beq_iff_eq, List.nil_append] at h
    obtain ⟨⟨hc, hd⟩, ht⟩ := h
    have h1 : (s ++ [0]).length ≤ n := List.drop_eq_nil_iff.1 hd
    have h2 := congrArg List.length ht
    simp only [List.length_take, List.length_append, List.length_singleton] at h1 h2
    have hn : n = s.length + 1 := by omega
    rw [hc, hn, Nat.zero_add]

/-- A `nul_readable` string is read back from in front of its terminator, whatever
follows in the window. -/
theorem ParseBinaryString_readable (I : Impl) (s rest str : Bytes)
    (hs : nul_readable I s = true) :
    Details.ParseBinaryString I (s ++ 0 :: rest) str = .ok (0, rest, str ++ s) := by
  have h := ParseBinaryString_loop_readable I.charSigned _ s 0 (nul_readable_loop I s hs)
    (s ++ 0 :: rest).length rest (by simp)
  rw [Details.ParseBinaryString, h]
  simp

/-- ASCII text without NUL is `nul_readable`. -/
theorem nul_readable_of_ascii (I : Impl) (s : Bytes) (hs : ascii_no_nul s = true) :
    nul_readable I s = true := by
  unfold nul_readable
  rw [ParseBinaryString_ascii I s [] [] hs]
  simp

/-- The loop of `_ParseBinaryObject` reads a `nul_readable` key. -/
theorem loop_step_key_readable (I : Impl) (oe : BinaryNodeType) (chunk f : Nat) (is : istream)
    (key rest : Bytes) (c : ValveCollection) (state : Nat) (tmp : Bytes)
    (hk : nul_readable I key = true) (h8 : state ≠ 8) (h11 : state ≠ 11) :
    _ParseBinaryObject.loop I oe chunk (f + 1) is (key ++ 0 :: rest) c state false true [] tmp
      = _ParseBinaryObject.loop I oe chunk f is rest c state true true key tmp := by
  have hne : ∃ b0 w, key ++ 0 :: rest = b0 :: w := by
    cases key with
    | nil => exact ⟨0, rest, rfl⟩
    | cons b k => exact ⟨b, k ++ 0 :: rest, rfl⟩
  obtain ⟨b0, w, hw⟩ := hne
  have hp := ParseBinaryString_readable I key rest [] hk
  rw [hw] at hp ⊢
  rw [_ParseBinaryObject.loop]
  simp [BinaryNodeType.toByte, h8, h11, hp]

/-- The loop of `_ParseBinaryObject` reads a `nul_readable` string value. -/
theorem loop_step_string_readable (I : Impl) (oe : BinaryNodeType) (chunk f : Nat) (is : istream)
    (key s rest : Bytes) (c : ValveCollection)
    (hs : nul_readable I s = true) :
    _ParseBinaryObject.loop I oe chunk (f + 1) is (s ++ 0 :: rest) c 1 true true key []
      = _ParseBinaryObject.loop I oe chunk f is rest (c ++ [ValveDataObject.new_string I key s])
          1 false false [] [] := by
  have hne : ∃ b0 w, s ++ 0 :: rest = b0 :: w := by
    cases s with
    | nil => exact ⟨0, rest, rfl⟩
    | cons b k => exact ⟨b, k ++ 0 :: rest, rfl⟩
  obtain ⟨b0, w, hw⟩ := hne
  have hp := ParseBinaryString_readable I s rest [] hs
  rw [hw] at hp ⊢
  rw [_ParseBinaryObject.loop]
  simp [BinaryNodeType.toByte, hp]

theorem parse_items_readable (I : Impl) (oe : BinaryNodeType) (chunk : Nat)
    (cs : List ValveDataObject)
    (IH : ∀ x ∈ cs, ∀ bytes, x.valid I = true → x.all_strings (nul_readable I) = true →
        _SerializeAsBinary oe x = .ok bytes → ∀ f, 3 * bytes.length ≤ f + 3 →
        ∀ rest c state ik,
          _ParseBinaryObject.loop I oe chunk (f + 3) ⟨[], true⟩ (bytes ++ rest) c state false
              false ik []
            = _ParseBinaryObject.loop I oe chunk f ⟨[], true⟩ rest (c ++ [x]) x._Type.toByte
                false false [] [])
    (bytes : Bytes) (hv : ValveDataObject.valid.items I cs = true)
    (hs : ValveDataObject.all_strings.items (nul_readable I) cs = true)
    (hb : _SerializeAsBinary.items oe cs = .ok bytes) (f : Nat)
    (hf : 3 * bytes.length ≤ f + 3 * cs.length)
    (rest : Bytes) (c : ValveCollection) (state : Nat) (ik : Bytes) :
    ∃ state' ik',
      _ParseBinaryObject.loop I oe chunk (f + 3 * cs.length) ⟨[], true⟩ (bytes ++ rest) c state
          false false ik []
        = _ParseBinaryObject.loop I oe chunk f ⟨[], true⟩ rest (c ++ cs) state' false false
            ik' [] := by
  induction cs generalizing bytes c state ik with
  | nil =>
    simp only [_SerializeAsBinary.items, Except.ok.injEq] at hb
    subst hb
    exact ⟨state, ik, by simp⟩
  | cons t cs ih =>
    rw [_SerializeAsBinary.items] at hb
    split at hb
    · simp at hb
    · rename_i b1 hb1
      split at hb
      · simp at hb
      · rename_i b2 hb2
        simp only [Except.ok.injEq] at hb
        subst hb
        simp only [ValveDataObject.valid.items, ValveDataObject.all_strings.items,
          Bool.and_eq_true] at hv hs
        have hl1 := length_SerializeAsBinary_ge oe t b1 hb1
        simp only [List.length_append, List.length_cons] at hf
        have h1 := IH t (List.mem_cons_self _ _) b1 hv.1 hs.1 hb1 (f + 3 * cs.length)
          (by omega) (b2 ++ rest) c state ik
        obtain ⟨state', ik', h2⟩ := ih (fun x hx => IH x (List.mem_cons_of_mem _ hx)) b2 hv.2
          hs.2 hb2 (by omega) (c ++ [t]) t._Type.toByte []
        refine ⟨state', ik', ?_⟩
        have e1 : f + 3 * (t :: cs).length = f + 3 * cs.length + 3 := by
          simp only [List.length_cons]; omega
        rw [e1, List.append_assoc, h1, h2]
        simp

theorem parse_object_body_readable (I : Impl) (oe : BinaryNodeType) (chunk : Nat)
    (hoe : oe.toByte = 8 ∨ oe.toByte = 11) (cs : List ValveDataObject)
    (IH : ∀ x ∈ cs, ∀ bytes, x.valid I = true → x.all_strings (nul_readable I) = true →
        _SerializeAsBinary oe x = .ok bytes → ∀ f, 3 * bytes.length ≤ f + 3 →
        ∀ rest c state ik,
          _ParseBinaryObject.loop I oe chunk (f + 3) ⟨[], true⟩ (bytes ++ rest) c state false
              false ik []
            = _ParseBinaryObject.loop I oe chunk f ⟨[], true⟩ rest (c ++ [x]) x._Type.toByte
                false false [] [])
    (body : Bytes) (hv : ValveDataObject.valid.items I cs = true)
    (hs : ValveDataObject.all_strings.items (nul_readable I) cs = true)
    (hb : _SerializeAsBinary.items oe cs = .ok body) (f : Nat)
    (hf : 3 * body.length + 3 ≤ f) (name rest : Bytes) :
    _ParseBinaryObject I oe chunk f ⟨[], true⟩ name (body ++ oe.toByte :: rest)
      = .ok (.mk name (I.hash name) (._Collection cs) .Object, ⟨[], true⟩, rest) := by
  have hl := length_items_ge oe cs body hb
  obtain ⟨g, rfl⟩ : ∃ g, f = (g + 2 + 3 * cs.length) + 1 :=
    ⟨f - 3 - 3 * cs.length, by omega⟩
  rw [_ParseBinaryObject]
  obtain ⟨state', ik', h⟩ := parse_items_readable I oe chunk cs IH body hv hs hb (g + 2) (by omega)
    (oe.toByte :: rest) [] 0 []
  rw [h, loop_end I oe chunk g _ hoe]
  simp

theorem parse_item_readable (I : Impl) (oe : BinaryNodeType) (chunk : Nat)
    (hoe : oe.toByte = 8 ∨ oe.toByte = 11) (t : ValveDataObject) :
    ∀ bytes, t.valid I = true → t.all_strings (nul_readable I) = true →
        _SerializeAsBinary oe t = .ok bytes → ∀ f, 3 * bytes.length ≤ f + 3 →
        ∀ rest c state ik,
          _ParseBinaryObject.loop I oe chunk (f + 3) ⟨[], true⟩ (bytes ++ rest) c state false
              false ik []
            = _ParseBinaryObject.loop I oe chunk f ⟨[], true⟩ rest (c ++ [t]) t._Type.toByte
                false false [] [] := by
  induction t using ValveDataObject.induction_on with
  | step name hash u ty IH =>
    intro bytes hv hs hser f hf rest c state ik
    cases ty <;> cases u <;>
      simp only [ValveDataObject.valid, Bool.and_eq_true, decide_eq_true_eq, Bool.false_eq_true,
        and_false] at hv
    all_goals obtain ⟨hh, hv⟩ := hv
    all_goals subst hh
    all_goals simp only [ValveDataObject.all_strings, Bool.and_eq_true] at hs
    all_goals simp only [_SerializeAsBinary, Payload.raw] at hser
    case step.Object._Collection.intro cs =>
      split at hser
      · simp at hser
      · rename_i body hbody
        simp only [Except.ok.injEq] at hser
        subst hser
        have e : [ObjectType.Object.toByte] ++ (name ++ [0]) ++ body ++ [oe.toByte] ++ rest
            = 0 :: (name ++ 0 :: (body ++ oe.toByte :: rest)) := by
          simp [ObjectType.toByte]
        simp only [List.length_append, List.length_cons, List.length_nil] at hf
        obtain ⟨b0, w, hw⟩ : ∃ b0 w, body ++ oe.toByte :: rest = b0 :: w := by
          cases body with
          | nil => exact ⟨_, _, rfl⟩
          | cons b k => exact ⟨b, k ++ oe.toByte :: rest, rfl⟩
        have hchild := parse_object_body_readable I oe chunk hoe cs (IH cs rfl) body hv hs.2 hbody f
          (by omega) name rest
        rw [e, loop_step_type, loop_step_key_readable I oe chunk _ _ name _ _ 0 _ hs.1 (by decide)
          (by decide), hw, loop_step_object, ← hw, hchild]
        simp [ValveDataObject._Type, ObjectType.toByte]
    case step.String._String.intro s =>
      simp only [Except.ok.injEq] at hser
      subst hser
      have e : [ObjectType.String.toByte] ++ (name ++ [0]) ++ (s ++ [0]) ++ rest
          = 1 :: (name ++ 0 :: (s ++ 0 :: rest)) := by
        simp [ObjectType.toByte]
      rw [e, loop_step_type, loop_step_key_readable I oe chunk _ _ name _ _ 1 _ hs.1 (by decide)
        (by decide), loop_step_string_readable I oe chunk _ _ name s rest _ hs.2]
      simp [ValveDataObject._Type, ObjectType.toByte, ValveDataObject.new_string]
    all_goals simp only [le_refl, if_true, Except.ok.injEq] at hser
    all_goals subst hser
    case step.Int32._Int32.intro v =>
      have e : [ObjectType.Int32.toByte] ++ (name ++ [0]) ++ le_encode 4 (v % 2 ^ 32).toNat
          ++ rest = 2 :: (name ++ 0 :: (le_encode 4 (v % 2 ^ 32).toNat ++ rest)) := by
        simp [ObjectType.toByte]
      rw [e, loop_step_type, loop_step_key_readable I oe chunk _ _ name _ _ 2 _ hs.1 (by decide)
        (by decide), (loop_step_fixed I oe chunk _ _ name _ rest _).1 (length_le_encode _ _),
        as_int32_le_encode v hv.1 hv.2]
      simp [ValveDataObject._Type, ObjectType.toByte, ValveDataObject.new_int32]
    case step.Float._Float.intro v =>
      have e : [ObjectType.Float.toByte] ++ (name ++ [0]) ++ le_encode 4 v
          ++ rest = 3 :: (name ++ 0 :: (le_encode 4 v ++ rest)) := by
        simp [ObjectType.toByte]
      rw [e, loop_step_type, loop_step_key_readable I oe chunk _ _ name _ _ 3 _ hs.1 (by decide)
        (by decide), (loop_step_fixed I oe chunk _ _ name _ rest _).2.1 (length_le_encode _ _),
        le_decode_le_encode, Nat.mod_eq_of_lt (show v < 256 ^ 4 from by norm_num; exact hv)]
      simp [ValveDataObject._Type, ObjectType.toByte, ValveDataObject.new_float]
    case step.Pointer._Pointer.intro v =>
      have e : [ObjectType.Pointer.toByte] ++ (name ++ [0]) ++ le_encode 4 v
          ++ rest = 4 :: (name ++ 0 :: (le_encode 4 v ++ rest)) := by
        simp [ObjectType.toByte]
      rw [e, loop_step_type, loop_step_key_readable I oe chunk _ _ name _ _ 4 _ hs.1 (by decide)
        (by decide), (loop_step_fixed I oe chunk _ _ name _ rest _).2.2.1 (length_le_encode _ _),
        le_decode_le_encode, Nat.mod_eq_of_lt (show v < 256 ^ 4 from by norm_num; exact hv)]
      simp [ValveDataObject._Type, ObjectType.toByte, ValveDataObject.new_pointer]
    case step.Color._Color.intro v =>
      have e : [ObjectType.Color.toByte] ++ (name ++ [0]) ++ le_encode 4 v
          ++ rest = 6 :: (name ++ 0 :: (le_encode 4 v ++ rest)) := by
        simp [ObjectType.toByte]
      rw [e, loop_step_type, loop_step_key_readable I oe chunk _ _ name _ _ 6 _ hs.1 (by decide)
        (by decide), (loop_step_fixed I oe chunk _ _ name _ rest _).2.2.2.1 (length_le_encode _ _),
        le_decode_le_encode, Nat.mod_eq_of_lt (show v < 256 ^ 4 from by norm_num; exact hv)]
      simp [ValveDataObject._Type, ObjectType.toByte, ValveDataObject.new_color]
    case step.UInt64._UInt64.intro v =>
      have e : [ObjectType.UInt64.toByte] ++ (name ++ [0]) ++ le_encode 8 v
          ++ rest = 7 :: (name ++ 0 :: (le_encode 8 v ++ rest)) := by
        simp [ObjectType.toByte]
      rw [e, loop_step_type, loop_step_key_readable I oe chunk _ _ name _ _ 7 _ hs.1 (by decide)
        (by decide), (loop_step_fixed I oe chunk _ _ name _ rest _).2.2.2.2.2 (length_le_encode _ _),
        le_decode_le_encode, Nat.mod_eq_of_lt (show v < 256 ^ 8 from by norm_num; exact hv)]
      simp [ValveDataObject._Type, ObjectType.toByte, ValveDataObject.new_uint64]
    case step.Int64._Int64.intro v =>
      have e : [ObjectType.Int64.toByte] ++ (name ++ [0]) ++ le_encode 8 (v % 2 ^ 64).toNat
          ++ rest = 10 :: (name ++ 0 :: (le_encode 8 (v % 2 ^ 64).toNat ++ rest)) := by
        simp [ObjectType.toByte]
      rw [e, loop_step_type, loop_step_key_readable I oe chunk _ _ name _ _ 10 _ hs.1 (by decide)
        (by decide), (loop_step_fixed I oe chunk _ _ name _ rest _).2.2.2.2.1 (length_le_encode _ _),
        as_int64_le_encode v hv.1 hv.2]
      simp [ValveDataObject._Type, ObjectType.toByte, ValveDataObject.new_int64]

/-- The binary branch of `ParseObject` reads back, in one chunk, the bytes
`_SerializeAsBinary` writes for a valid tree with `nul_readable` names and
strings. -/
theorem ParseObject_binary_of_readable (I : Impl) (oe : BinaryNodeType) (chunk : Nat)
    (hoe : oe.toByte = 8 ∨ oe.toByte = 11) (t : ValveDataObject) (doc : Bytes)
    (hT : t._Type = .Object) (hv : t.valid I = true)
    (hs : t.all_strings (nul_readable I) = true)
    (hser : _SerializeAsBinary oe t = .ok doc) (hc : doc.length ≤ chunk) :
    ParseObject.binary I chunk oe ⟨doc, false⟩ = .ok t := by
  obtain ⟨name, hash, u, ty⟩ := t
  simp only [ValveDataObject._Type] at hT
  subst hT
  cases u <;>
    simp only [ValveDataObject.valid, Bool.and_eq_true, decide_eq_true_eq, Bool.false_eq_true,
      and_false] at hv
  rename_i cs
  obtain ⟨hh, hv⟩ := hv
  subst hh
  simp only [ValveDataObject.all_strings, Bool.and_eq_true] at hs
  simp only [_SerializeAsBinary] at hser
  split at hser
  · simp at hser
  · rename_i body hbody
    simp only [Except.ok.injEq] at hser
    have e : doc = 0 :: (name ++ 0 :: (body ++ [oe.toByte])) := by
      rw [← hser]; simp [ObjectType.toByte]
    subst e
    have hchild := parse_object_body_readable I oe chunk hoe cs
      (fun x _ => parse_item_readable I oe chunk hoe x) body hv hs.2 hbody
      (3 * (body.length + 1) + 3) (by omega) name []
    have hname := ParseBinaryString_readable I name (body ++ [oe.toByte]) [] hs.1
    rw [List.nil_append] at hname
    have hneg : ¬ ((0 : Int) = -2) := by decide
    have hread : istream.read ⟨name ++ 0 :: (body ++ [oe.toByte]), false⟩ chunk
        = (name ++ 0 :: (body ++ [oe.toByte]), ⟨[], true⟩) := by
      have : ¬ chunk ≤ (name ++ 0 :: (body ++ [oe.toByte])).length := by
        simp only [List.length_cons] at hc; omega
      simp only [istream.read, Bool.false_eq_true, if_false, this]
    generalize hw : name ++ 0 :: (body ++ [oe.toByte]) = w at hname hread hc
    have hwl : 1 ≤ w.length := by
      rw [← hw]; simp only [List.length_cons, List.length_append, List.length_nil]; omega
    have h1 : istream.read ⟨0 :: w, false⟩ 1 = ([0], ⟨w, false⟩) := by
      simp [istream.read]
    have hobj : BinaryNodeType.Object.toByte = 0 := rfl
    obtain ⟨k, hk⟩ : ∃ k, w.length = k + 1 := ⟨w.length - 1, by omega⟩
    rw [ParseObject.binary, h1]
    simp only [Bool.false_eq_true, List.length_singleton, ne_eq, not_true_eq_false, or_self,
      if_false, List.getD_cons_zero, hobj, hk]
    rw [ParseObject.binary_loop, hread]
    simp only [hname, Bool.not_true, Bool.false_eq_true, ne_eq, false_or, hk,
      Nat.succ_ne_zero, not_false_eq_true, if_true, List.length_nil, zero_add,
      List.length_append, List.length_singleton, hneg, hchild]
    rw [ParseObject.binary_loop]
    simp [istream.read]

/-- C1, amended: for a tree with an `Object` root whose nodes are objects, strings
and scalars in the state the public interface builds, and whose names and
string values are `nul_readable` (read back by `Details::ParseBinaryString`
from in front of their NUL terminator: every string without NUL where `char`
is signed; where it is unsigned, the strings in which the scan, stepping over
2, 3 or 4 bytes at a UTF-8 lead byte, meets no NUL and ends on the last byte),
`SerializeAsBinary` succeeds for every version, and if its output has at least
four bytes and fits into one chunk, `ParseObject` returns the tree itself. -/
theorem binary_round_trip_in_one_chunk (I : Impl) (t : ValveDataObject) (version : Int)
    (chunk_size : Nat) (hT : t._Type = .Object) (hv : t.valid I = true)
    (hs : t.all_strings (nul_readable I) = true) :
    ∃ bytes, SerializeAsBinary t version = .ok bytes
      ∧ (4 ≤ bytes.length → bytes.length ≤ chunk_size →
          ParseObject I bytes chunk_size = .ok t) := by
  by_cases hver : version ≤ 1
  · obtain ⟨doc, hdoc⟩ := SerializeAsBinary_ok_of_valid I .ObjectEnd t hv
    refine ⟨doc, ?_, ?_⟩
    · simp [SerializeAsBinary, hT, hver, hdoc, not_lt.2 hver]
    · intro h4 hc
      obtain ⟨w, rfl⟩ := SerializeAsBinary_object_head _ t doc hT hdoc
      have hp := ParseObject_binary_of_readable I .ObjectEnd chunk_size (Or.inl rfl) t _ hT hv
        hs hdoc hc
      have hm : ¬ ((0 :: w).take 4 = BinaryVDFMagic) := by
        simp [BinaryVDFMagic, List.take_succ_cons]
      simp only [ParseObject, not_lt.2 h4, if_false, hm, List.getD_cons_zero, if_true, hp]
  · obtain ⟨doc, hdoc⟩ := SerializeAsBinary_ok_of_valid I .AlternativeEnd t hv
    refine ⟨BinaryVDFMagic ++ [0, 0, 0, 0] ++ doc, ?_, ?_⟩
    · simp [SerializeAsBinary, hT, hver, hdoc, not_le.1 hver, le_encode]
    · intro h4 hc
      have hp := ParseObject_binary_of_readable I .AlternativeEnd chunk_size (Or.inr rfl) t _
        hT hv hs hdoc (by simp only [List.length_append] at hc; omega)
      have hm : (BinaryVDFMagic ++ [0, 0, 0, 0] ++ doc).take 4 = BinaryVDFMagic := by
        simp [BinaryVDFMagic]
      have hd : (BinaryVDFMagic ++ [0, 0, 0, 0] ++ doc).drop 8 = doc := by
        simp [BinaryVDFMagic]
      simp only [ParseObject, not_lt.2 h4, if_false, hm, if_true, hd, hp]

/-- Witness of the amended C1: the tree of the binary test round-trips in the
legacy form (177 bytes) and in the headered form (185 bytes), and so does,
where `char` is unsigned, the tree `tree_euro`, whose name and string hold a
three-byte UTF-8 sequence (14 bytes). -/
theorem binary_round_trip_in_one_chunk_witness :
    (∃ bytes, SerializeAsBinary (sample_tree Impl.sample) 0 = .ok bytes
      ∧ ParseObject Impl.sample bytes (10 * 1024) = .ok (sample_tree Impl.sample))
    ∧ (∃ bytes, SerializeAsBinary (sample_tree Impl.sample) 2 = .ok bytes
      ∧ ParseObject Impl.sample bytes (10 * 1024) = .ok (sample_tree Impl.sample))
    ∧ (∃ bytes, SerializeAsBinary (tree_euro Impl.sample_unsigned) 0 = .ok bytes
      ∧ ParseObject Impl.sample_unsigned bytes (10 * 1024)
          = .ok (tree_euro Impl.sample_unsigned)) := by
  refine ⟨?_, ?_, ?_⟩
  · obtain ⟨bytes, hser, h⟩ := binary_round_trip_in_one_chunk Impl.sample
      (sample_tree Impl.sample) 0 (10 * 1024) rfl (by rfl) (by rfl)
    have hb : SerializeAsBinary (sample_tree Impl.sample) 0 = .ok bytes → bytes.length = 177 := by
      intro h2
      have := h2.symm.trans (show SerializeAsBinary (sample_tree Impl.sample) 0 = .ok _ from rfl)
      injection this with this
      rw [this]; rfl
    have hl := hb hser
    exact ⟨bytes, hser, h (by omega) (by omega)⟩
  · obtain ⟨bytes, hser, h⟩ := binary_round_trip_in_one_chunk Impl.sample
      (sample_tree Impl.sample) 2 (10 * 1024) rfl (by rfl) (by rfl)
    have hb : SerializeAsBinary (sample_tree Impl.sample) 2 = .ok bytes → bytes.length = 185 := by
      intro h2
      have := h2.symm.trans (show SerializeAsBinary (sample_tree Impl.sample) 2 = .ok _ from rfl)
      injection this with this
      rw [this]; rfl
    have hl := hb hser
    exact ⟨bytes, hser, h (by omega) (by omega)⟩
  · obtain ⟨bytes, hser, h⟩ := binary_round_trip_in_one_chunk Impl.sample_unsigned
      (tree_euro Impl.sample_unsigned) 0 (10 * 1024) rfl (by rfl) (by rfl)
    have hb : SerializeAsBinary (tree_euro Impl.sample_unsigned) 0 = .ok bytes →
        bytes.length = 14 := by
      intro h2
      have := h2.symm.trans
        (show SerializeAsBinary (tree_euro Impl.sample_unsigned) 0 = .ok _ from rfl)
      injection this with this
      rw [this]; rfl
    have hl := hb hser
    exact ⟨bytes, hser, h (by omega) (by omega)⟩

/-! ## The text round trip -/

theorem getD_append_at (l1 l2 : Bytes) (x d : Nat) : (l1 ++ x :: l2).getD l1.length d = x := by
  induction l1 with
  | nil => rfl
  | cons a l1 ih => simpa using ih

theorem text_safe_cons (b : Nat) (s : Bytes) :
    text_safe (b :: s) = true ↔
      (b < 128 ∧ b ≠ 34 ∧ b ≠ 92 ∧ b ≠ 10 ∧ b ≠ 13) ∧ text_safe s = true := by
  simp [text_safe]

theorem getline_loop_line (l R buffer : Bytes) (h10 : 10 ∉ l) (h13 : 13 ∉ l) :
    Details.getline.loop (l ++ 10 :: R) buffer = (buffer ++ l ++ [10], ⟨R, false⟩) := by
  induction l generalizing buffer with
  | nil =>
    rw [Details.getline.loop.eq_def]
    simp [Details.is_cr, Details.is_lf]
  | cons c l ih =>
    have hc10 : c ≠ 10 := fun h => h10 (by simp [h])
    have hc13 : c ≠ 13 := fun h => h13 (by simp [h])
    rw [List.cons_append, Details.getline.loop.eq_def]
    simp only [Details.is_cr, Details.is_lf, beq_iff_eq, hc10, hc13, if_false]
    rw [ih _ (fun h => h10 (List.mem_cons_of_mem _ h)) (fun h => h13 (List.mem_cons_of_mem _ h))]
    simp

theorem getline_line (l R : Bytes) (h10 : 10 ∉ l) (h13 : 13 ∉ l) :
    Details.getline ⟨l ++ 10 :: R, false⟩ = (l ++ [10], ⟨R, false⟩) := by
  simp [Details.getline, getline_loop_line l R [] h10 h13]

theorem SkipSpaces_front_end (buf : Bytes) (e fuel : Nat) :
    Details.SkipSpaces.front buf e fuel e = e := by
  cases fuel <;> simp [Details.SkipSpaces.front]

theorem SkipSpaces_front_tabs (pre post : Bytes) (k x e fuel : Nat) (hx : x ≠ 32 ∧ x ≠ 9)
    (hf : k < fuel) (he : pre.length + k < e) :
    Details.SkipSpaces.front (pre ++ (indent k ++ x :: post)) e fuel pre.length
      = pre.length + k := by
  induction k generalizing pre fuel with
  | zero =>
    obtain ⟨f, rfl⟩ : ∃ f, fuel = f + 1 := ⟨fuel - 1, by omega⟩
    rw [Details.SkipSpaces.front]
    have : pre.length ≠ e := by omega
    simp only [indent, List.replicate_zero, List.nil_append, getD_append_at, this, if_false,
      ne_eq, hx.1, hx.2, not_false_eq_true, and_self, if_true, Nat.add_zero]
  | succ k ih =>
    obtain ⟨f, rfl⟩ : ∃ f, fuel = f + 1 := ⟨fuel - 1, by omega⟩
    rw [Details.SkipSpaces.front]
    have hne : pre.length ≠ e := by omega
    have e1 : pre ++ (indent (k + 1) ++ x :: post) = (pre ++ [9]) ++ (indent k ++ x :: post) := by
      simp [indent, List.replicate_succ]
    have e2 : (pre ++ (indent (k + 1) ++ x :: post)).getD pre.length 0 = 9 := by
      simp only [indent, List.replicate_succ, List.cons_append]
      exact getD_append_at _ _ _ _
    simp only [hne, if_false, e2]
    rw [e1]
    have := ih (pre ++ [9]) f (by omega) (by simp; omega)
    simp only [List.length_append, List.length_singleton] at this
    have h9 : ¬ ((9 : Nat) ≠ 32 ∧ (9 : Nat) ≠ 9) := by decide
    simp only [h9, if_false, this]
    omega

theorem SkipSpaces_back_stop (buf : Bytes) (s e : Nat) (he : 0 < e)
    (hc : buf.getD (e - 1) 0 ≠ 10 ∧ buf.getD (e - 1) 0 ≠ 13) :
    Details.SkipSpaces.back buf s e = .ok e := by
  obtain ⟨e', rfl⟩ : ∃ e', e = e' + 1 := ⟨e - 1, by omega⟩
  rw [Details.SkipSpaces.back]
  simp only [Nat.add_sub_cancel] at hc
  by_cases h : e' = s
  · simp only [h, if_true]
  · simp only [h, if_false, ne_eq, hc.1, hc.2, not_false_eq_true, and_self, if_true]

theorem SkipSpaces_back_lf (body : Bytes) (s : Nat) (hs : s < body.length)
    (hc : body.getD (body.length - 1) 0 ≠ 10 ∧ body.getD (body.length - 1) 0 ≠ 13) :
    Details.SkipSpaces.back (body ++ [10]) s (body ++ [10]).length = .ok body.length := by
  have hl : (body ++ [10]).length = body.length + 1 := by simp
  rw [hl, Details.SkipSpaces.back]
  have h1 : body.length ≠ s := by omega
  have h2 : (body ++ [10]).getD body.length 0 = 10 := getD_append_at _ _ _ _
  simp only [h1, if_false, h2]
  simp only [ne_eq, not_true_eq_false, false_and, if_false]
  apply SkipSpaces_back_stop _ _ _ (by omega)
  have h3 : (body ++ [10]).getD (body.length - 1) 0 = body.getD (body.length - 1) 0 := by
    rw [List.getD_append _ _ _ _ (by omega)]
  rw [h3]
  exact hc

theorem ParseString_second_scan (pre s1 s2 post str : Bytes) (e fuel : Nat)
    (hs : text_safe s2 = true) (he : pre.length + s1.length + s2.length + 1 ≤ e)
    (hf : s2.length < fuel) :
    Details.ParseString.second (pre ++ (s1 ++ (s2 ++ 34 :: post))) e pre.length str fuel
        (pre.length + s1.length) false
      = .ok (0, pre.length + s1.length + s2.length + 1, s1 ++ s2) := by
  induction s2 generalizing s1 fuel with
  | nil =>
    obtain ⟨f, rfl⟩ : ∃ f, fuel = f + 1 := ⟨fuel - 1, by simp at hf; omega⟩
    rw [Details.ParseString.second]
    simp only [List.length_nil, Nat.add_zero] at he
    have h1 : pre.length + s1.length ≠ e := by omega
    have h2 : ¬ e < pre.length + s1.length := by omega
    have h3 : (pre ++ (s1 ++ ([] ++ 34 :: post))).getD (pre.length + s1.length) 0 = 34 := by
      have := getD_append_at (pre ++ s1) post 34 0
      simpa using this
    simp only [h1, h2, if_false, h3]
    have h4 : (List.drop pre.length (pre ++ (s1 ++ ([] ++ 34 :: post)))).take
        (pre.length + s1.length + 1 - 1 - pre.length) = s1 := by
      simp
    simp [h4]
  | cons c s2 ih =>
    obtain ⟨f, rfl⟩ : ∃ f, fuel = f + 1 := ⟨fuel - 1, by simp at hf; omega⟩
    obtain ⟨⟨hc1, hc2, hc3, -, -⟩, hs'⟩ := (text_safe_cons c s2).1 hs
    rw [Details.ParseString.second]
    simp only [List.length_cons] at he hf
    have h1 : pre.length + s1.length ≠ e := by omega
    have h2 : ¬ e < pre.length + s1.length := by omega
    have h3 : (pre ++ (s1 ++ (c :: s2 ++ 34 :: post))).getD (pre.length + s1.length) 0 = c := by
      have := getD_append_at (pre ++ s1) (s2 ++ 34 :: post) c 0
      simpa using this
    have hc1' : c < 0x80 := hc1
    simp only [h1, h2, if_false, h3, hc1', if_true, hc3, hc2, Bool.false_eq_true]
    have e1 : pre ++ (s1 ++ (c :: s2 ++ 34 :: post)) = pre ++ ((s1 ++ [c]) ++ (s2 ++ 34 :: post)) := by
      simp
    have := ih (s1 ++ [c]) f hs' (by simp; omega) (by omega)
    simp only [List.length_append, List.length_singleton] at this
    rw [e1, show pre.length + s1.length + 1 = pre.length + (s1.length + 1) from by omega, this]
    simp
    omega

theorem ParseString_quoted (pre s post str : Bytes) (e : Nat)
    (hs : text_safe s = true) (he : pre.length + s.length + 2 ≤ e)
    (he2 : e ≤ (pre ++ 34 :: (s ++ 34 :: post)).length) :
    Details.ParseString (pre ++ 34 :: (s ++ 34 :: post)) pre.length e str
      = .ok (0, pre.length + s.length + 2, s) := by
  have hlt : ¬ (e < pre.length ∨ (pre ++ 34 :: (s ++ 34 :: post)).length < e) := by omega
  obtain ⟨f, hf⟩ : ∃ f, e - pre.length = f + 1 := ⟨e - pre.length - 1, by omega⟩
  have hfirst : Details.ParseString.first (pre ++ 34 :: (s ++ 34 :: post)) e (f + 1) pre.length
      false = (pre.length + 1, false, some (pre.length + 1)) := by
    rw [Details.ParseString.first]
    have h1 : pre.length ≠ e := by omega
    simp only [h1, if_false, getD_append_at, Bool.false_eq_true]
    simp
  rw [Details.ParseString]
  simp only [hlt, if_false, hf, hfirst]
  have := ParseString_second_scan (pre ++ [34]) [] s post str e (e - (pre.length + 1)) hs
    (by simp; omega) (by omega)
  simp only [List.length_append, List.length_singleton, List.length_nil, Nat.add_zero,
    List.nil_append, List.append_assoc, List.singleton_append] at this
  rw [this]
  simp
  omega

/-! ### Two runs of the string scanner on the same bytes -/

theorem advance_none (c : Nat) (he : Bool) (h : Details.ParseString.advance c he = none) :
    c = 34 ∧ he = false := by
  unfold Details.ParseString.advance at h
  repeat' split at h
  all_goals first
    | (cases h; done)
    | (rename_i h1 h2 h3 h4; exact ⟨h4, by simpa using h3⟩)

theorem advance_some (c : Nat) (he : Bool) (j : Nat) (he2 : Bool)
    (h : Details.ParseString.advance c he = some (j, he2)) : 1 ≤ j ∧ j ≤ 4 := by
  unfold Details.ParseString.advance at h
  repeat' split at h
  all_goals first
    | (cases h; done)
    | (cases h; omega)

/-- One iteration of the second loop of `ParseString`, by `advance`. -/
theorem second_step (buf : Bytes) (e ss : Nat) (str : Bytes) (fuel b : Nat) (he : Bool)
    (hb : b < e) :
    Details.ParseString.second buf e ss str (fuel + 1) b he
      = match Details.ParseString.advance (buf.getD b 0) he with
        | none => .ok (0, b + 1, (buf.drop ss).take (b + 1 - 1 - ss))
        | some (j, he2) =>
          if 2 ≤ j ∧ b + j = e + 1 then .ok (-3, b + 1, str)
          else Details.ParseString.second buf e ss str fuel (b + j) he2 := by
  have h1 : b ≠ e := by omega
  have h2 : ¬ e < b := by omega
  rw [Details.ParseString.second, if_neg h1, if_neg h2]
  unfold Details.ParseString.advance
  simp only []
  generalize buf.getD b 0 = c
  by_cases c1 : c < 0x80
  · simp only [c1, if_true]
    by_cases c2 : c = 92
    · simp [c2]
    · simp only [c2, if_false]
      cases he
      · simp only [Bool.false_eq_true, if_false]
        by_cases c3 : c = 34
        · simp [c3]
        · simp [c3]
      · simp
  · simp only [c1, if_false]
    by_cases c5 : c >>> 5 = 0x6
    · simp only [c5, if_true]
      have : (b + 1 = e) ↔ (b + 2 = e + 1) := by omega
      simp only [this, Nat.le_refl, true_and]
    · simp only [c5, if_false]
      by_cases c4 : c >>> 4 = 0xe
      · simp only [c4, if_true]
        have : (b + 1 + 1 = e) ↔ (b + 3 = e + 1) := by omega
        have h23 : (2 : Nat) ≤ 3 := by decide
        simp only [this, h23, true_and]
      · simp only [c4, if_false]
        by_cases c3 : c >>> 3 = 0x1e
        · simp only [c3, if_true]
          have : (b + 1 + 2 = e) ↔ (b + 4 = e + 1) := by omega
          have h24 : (2 : Nat) ≤ 4 := by decide
          simp only [this, h24, true_and]
        · simp [c3]

/-- A run of the second loop that ends on a closing quote: the cursor has moved,
stays within the window, the byte before it is the quote and the result is the
text between `string_start` and the quote. -/
theorem second_ok (buf : Bytes) (e ss : Nat) (str : Bytes) :
    ∀ (fuel b : Nat) (he : Bool) (b2 : Nat) (r : Bytes),
      Details.ParseString.second buf e ss str fuel b he = .ok (0, b2, r) →
      b < b2 ∧ b2 ≤ e ∧ buf.getD (b2 - 1) 0 = 34 ∧ r = (buf.drop ss).take (b2 - 1 - ss) := by
  intro fuel
  induction fuel with
  | zero =>
    intro b he b2 r h
    rw [Details.ParseString.second] at h
    split at h
    · cases h
    · split at h <;> cases h
  | succ fuel ih =>
    intro b he b2 r h
    by_cases h1 : b = e
    · rw [Details.ParseString.second, if_pos h1] at h; cases h
    by_cases h2 : e < b
    · rw [Details.ParseString.second, if_neg h1, if_pos h2] at h; cases h
    have hb : b < e := by omega
    rw [second_step buf e ss str fuel b he hb] at h
    cases ha : Details.ParseString.advance (buf.getD b 0) he with
    | none =>
      rw [ha] at h
      simp only [Except.ok.injEq, Prod.mk.injEq, true_and] at h
      obtain ⟨hb2, hr⟩ := h
      subst hb2
      refine ⟨by omega, by omega, ?_, hr.symm⟩
      simpa using (advance_none _ _ ha).1
    | some p =>
      obtain ⟨j, he2⟩ := p
      rw [ha] at h
      simp only [] at h
      have hj := advance_some _ _ _ _ ha
      split at h
      · cases h
      · obtain ⟨i1, i2, i3, i4⟩ := ih _ _ _ _ h
        exact ⟨by omega, i2, i3, i4⟩

/-- Two runs of the second loop on buffers that agree from `string_start` to the
closing quote of the first run: the second run ends on the same quote. -/
theorem second_shift (buf1 buf2 : Bytes) (e1 e2 ss1 ss2 : Nat) (str1 str2 : Bytes) (m : Nat)
    (hcommon : ∀ i, i < m → buf1.getD (ss1 + i) 0 = buf2.getD (ss2 + i) 0)
    (he2 : ss2 + m ≤ e2) :
    ∀ (fuel1 fuel2 k : Nat) (he : Bool) (r1 : Bytes), m ≤ fuel2 + k →
      Details.ParseString.second buf1 e1 ss1 str1 fuel1 (ss1 + k) he = .ok (0, ss1 + m, r1) →
      Details.ParseString.second buf2 e2 ss2 str2 fuel2 (ss2 + k) he
        = .ok (0, ss2 + m, (buf2.drop ss2).take (m - 1)) := by
  intro fuel1
  induction fuel1 with
  | zero =>
    intro fuel2 k he r1 _ h
    rw [Details.ParseString.second] at h
    split at h
    · cases h
    · split at h <;> cases h
  | succ fuel1 ih =>
    intro fuel2 k he r1 hf h
    have hk := (second_ok buf1 e1 ss1 str1 _ _ _ _ _ h).1
    have hkm : k < m := by omega
    by_cases h1 : ss1 + k = e1
    · rw [Details.ParseString.second, if_pos h1] at h; cases h
    by_cases h2 : e1 < ss1 + k
    · rw [Details.ParseString.second, if_neg h1, if_pos h2] at h; cases h
    have hb1 : ss1 + k < e1 := by omega
    have hb2 : ss2 + k < e2 := by omega
    obtain ⟨g, rfl⟩ : ∃ g, fuel2 = g + 1 := ⟨fuel2 - 1, by omega⟩
    rw [second_step buf1 e1 ss1 str1 fuel1 _ he hb1] at h
    rw [second_step buf2 e2 ss2 str2 g _ he hb2, ← hcommon k hkm]
    cases ha : Details.ParseString.advance (buf1.getD (ss1 + k) 0) he with
    | none =>
      rw [ha] at h
      simp only [Except.ok.injEq, Prod.mk.injEq, true_and] at h
      obtain ⟨hb3, -⟩ := h
      have hm : m = k + 1 := by omega
      subst hm
      simp only []
      have e : ss2 + k + 1 - 1 - ss2 = k + 1 - 1 := by omega
      rw [e, Nat.add_assoc]
    | some p =>
      obtain ⟨j, he3⟩ := p
      rw [ha] at h
      simp only [] at h ⊢
      have hj := advance_some _ _ _ _ ha
      split at h
      · cases h
      · rw [Nat.add_assoc] at h
        have hk2 := (second_ok buf1 e1 ss1 str1 _ _ _ _ _ h).1
        have hne : ¬ (2 ≤ j ∧ ss2 + k + j = e2 + 1) := by omega
        rw [if_neg hne, Nat.add_assoc]
        exact ih g (k + j) he3 r1 (by omega) h

/-- The first loop of `ParseString` when it finds the opening quote. -/
theorem first_some (buf : Bytes) (e : Nat) :
    ∀ (fuel b : Nat) (he : Bool) (b2 : Nat) (he2 : Bool) (ss : Nat), b ≤ e →
      Details.ParseString.first buf e fuel b he = (b2, he2, some ss) →
      b2 = ss ∧ he2 = false ∧ b < ss ∧ ss ≤ e ∧ buf.getD (ss - 1) 0 = 34 := by
  intro fuel
  induction fuel with
  | zero =>
    intro b he b2 he2 ss _ h
    rw [Details.ParseString.first] at h
    cases h
  | succ fuel ih =>
    intro b he b2 he2 ss hbe h
    rw [Details.ParseString.first] at h
    by_cases h1 : b = e
    · rw [if_pos h1] at h; cases h
    rw [if_neg h1] at h
    simp only [] at h
    have hrec : ∀ he3, Details.ParseString.first buf e fuel (b + 1) he3 = (b2, he2, some ss) →
        b2 = ss ∧ he2 = false ∧ b < ss ∧ ss ≤ e ∧ buf.getD (ss - 1) 0 = 34 := by
      intro he3 h3
      obtain ⟨i1, i2, i3, i4, i5⟩ := ih (b + 1) he3 b2 he2 ss (by omega) h3
      exact ⟨i1, i2, by omega, i4, i5⟩
    cases he
    · rw [if_neg (by simp)] at h
      by_cases c1 : buf.getD b 0 = 92
      · rw [if_pos c1] at h; exact hrec _ h
      rw [if_neg c1] at h
      by_cases c2 : buf.getD b 0 = 34
      · rw [if_pos c2] at h
        simp only [Prod.mk.injEq, Option.some.injEq] at h
        obtain ⟨rfl, rfl, rfl⟩ := h
        exact ⟨rfl, rfl, by omega, by omega, by simpa using c2⟩
      · rw [if_neg c2] at h; exact hrec _ h
    · rw [if_pos rfl] at h; exact hrec _ h

theorem getD_cons_succ (x : Nat) (l : Bytes) (i d : Nat) : (x :: l).getD (i + 1) d = l.getD i d := by
  simp [List.getD]

theorem getD_append_add (l1 l2 : Bytes) (i d : Nat) :
    (l1 ++ l2).getD (l1.length + i) d = l2.getD i d := by
  induction l1 with
  | nil => simp
  | cons a l1 ih =>
    rw [List.cons_append, List.length_cons, Nat.add_right_comm, getD_cons_succ]
    exact ih

/-- A string is `quotable` exactly when the second loop of `ParseString`, started
after the opening quote of `"s"`, ends on the closing one. -/
theorem quotable_iff (s : Bytes) :
    quotable s = true ↔
      Details.ParseString.second (34 :: (s ++ [34])) (s.length + 2) 1 [] (s.length + 1) 1 false
        = .ok (0, s.length + 2, s) := by
  have hc : ¬ (s.length + 2 < 0 ∨ (34 :: (s ++ [34])).length < s.length + 2) := by
    simp
  have hfirst : Details.ParseString.first (34 :: (s ++ [34])) (s.length + 2) (s.length + 2 - 0) 0
      false = (1, false, some 1) := by
    rw [Nat.sub_zero, Details.ParseString.first]
    simp
  unfold quotable
  rw [Details.ParseString, if_neg hc, hfirst]
  simp only [Nat.add_sub_cancel]
  have e1 : s.length + 2 - 1 = s.length + 1 := by omega
  rw [e1]
  cases hr : Details.ParseString.second (34 :: (s ++ [34])) (s.length + 2) 1 [] (s.length + 1) 1
      false with
  | error x => simp
  | ok p =>
    obtain ⟨code, b, str⟩ := p
    simp only [Bool.and_eq_true, beq_iff_eq, Except.ok.injEq, Prod.mk.injEq]
    constructor
    · rintro ⟨⟨h1, h2⟩, h3⟩; exact ⟨h1, h2, h3⟩
    · rintro ⟨h1, h2, h3⟩; exact ⟨⟨h1, h2⟩, h3⟩

/-- A `quotable` string between two quotes, anywhere in a buffer, is what
`ParseString` returns. -/
theorem ParseString_quotable (pre s post str : Bytes) (e : Nat)
    (hs : quotable s = true) (he : pre.length + s.length + 2 ≤ e)
    (he2 : e ≤ (pre ++ 34 :: (s ++ 34 :: post)).length) :
    Details.ParseString (pre ++ 34 :: (s ++ 34 :: post)) pre.length e str
      = .ok (0, pre.length + s.length + 2, s) := by
  have hlt : ¬ (e < pre.length ∨ (pre ++ 34 :: (s ++ 34 :: post)).length < e) := by omega
  obtain ⟨f, hf⟩ : ∃ f, e - pre.length = f + 1 := ⟨e - pre.length - 1, by omega⟩
  have hfirst : Details.ParseString.first (pre ++ 34 :: (s ++ 34 :: post)) e (f + 1) pre.length
      false = (pre.length + 1, false, some (pre.length + 1)) := by
    rw [Details.ParseString.first]
    have h1 : pre.length ≠ e := by omega
    simp only [h1, if_false, getD_append_at, Bool.false_eq_true]
    simp
  rw [Details.ParseString]
  simp only [hlt, if_false, hf, hfirst]
  have hcommon : ∀ i, i < s.length + 1 →
      (34 :: (s ++ [34])).getD (1 + i) 0
        = (pre ++ 34 :: (s ++ 34 :: post)).getD (pre.length + 1 + i) 0 := by
    intro i hi
    have e1 : s ++ 34 :: post = (s ++ [34]) ++ post := by simp
    have hL : (34 :: (s ++ [34])).getD (1 + i) 0 = (s ++ [34]).getD i 0 := by
      rw [Nat.add_comm 1 i, getD_cons_succ]
    have hR : (pre ++ 34 :: (s ++ 34 :: post)).getD (pre.length + 1 + i) 0
        = (s ++ [34]).getD i 0 := by
      rw [Nat.add_assoc, getD_append_add, Nat.add_comm 1 i, getD_cons_succ, e1]
      exact List.getD_append _ _ _ _ (by simp; omega)
    rw [hL, hR]
  have hrun : Details.ParseString.second (34 :: (s ++ [34])) (s.length + 2) 1 []
      (s.length + 1) (1 + 0) false = .ok (0, 1 + (s.length + 1), s) := by
    have := (quotable_iff s).1 hs
    rw [Nat.add_zero, Nat.add_comm 1 (s.length + 1)]
    exact this
  have := second_shift (34 :: (s ++ [34])) (pre ++ 34 :: (s ++ 34 :: post)) (s.length + 2) e 1
    (pre.length + 1) [] str (s.length + 1) hcommon (by omega) (s.length + 1)
    (e - (pre.length + 1)) 0 false s (by omega) hrun
  rw [Nat.add_zero] at this
  rw [this]
  have hd : (List.drop (pre.length + 1) (pre ++ 34 :: (s ++ 34 :: post))).take (s.length + 1 - 1)
      = s := by
    have e2 : pre ++ 34 :: (s ++ 34 :: post) = (pre ++ [34]) ++ (s ++ 34 :: post) := by simp
    have hl : (pre ++ [34]).length = pre.length + 1 := by simp
    rw [e2, ← hl, List.drop_left]
    simp
  rw [hd]
  have e3 : pre.length + 1 + (s.length + 1) = pre.length + s.length + 2 := by omega
  rw [e3]

theorem getD_take_drop (buf : Bytes) (ss n i : Nat) (hi : i < n) :
    ((buf.drop ss).take n).getD i 0 = buf.getD (ss + i) 0 := by
  rw [List.getD_eq_getElem?_getD, List.getD_eq_getElem?_getD, List.getElem?_take_of_lt hi,
    List.getElem?_drop]

/-- What a successful `ParseString` returns: a `quotable` string that lies in the
window, between two quotes. -/
theorem ParseString_ok (buf : Bytes) (b e : Nat) (str : Bytes) (b2 : Nat) (s : Bytes)
    (h : Details.ParseString buf b e str = .ok (0, b2, s)) :
    quotable s = true ∧ b + s.length + 2 ≤ b2 ∧ b2 ≤ e ∧ e ≤ buf.length
      ∧ ∀ x ∈ s, ∃ i, b ≤ i ∧ i < e ∧ buf.getD i 0 = x := by
  rw [Details.ParseString] at h
  by_cases hc : e < b ∨ buf.length < e
  · rw [if_pos hc] at h; cases h
  rw [if_neg hc] at h
  cases hf : Details.ParseString.first buf e (e - b) b false with
  | mk b1 p =>
    obtain ⟨he1, o⟩ := p
    rw [hf] at h
    cases o with
    | none => simp only [] at h; cases h
    | some ss =>
      simp only [] at h
      obtain ⟨rfl, rfl, hlt, hle, hq⟩ := first_some buf e _ _ _ _ _ _ (by omega) hf
      obtain ⟨i1, i2, i3, i4⟩ := second_ok buf e b1 str _ _ _ _ _ h
      have hlen : s.length = b2 - 1 - b1 := by
        rw [i4, List.length_take, List.length_drop]
        omega
      have hcommon : ∀ i, i < s.length + 1 →
          buf.getD (b1 + i) 0 = (34 :: (s ++ [34])).getD (1 + i) 0 := by
        intro i hi
        rw [Nat.add_comm 1 i, getD_cons_succ]
        by_cases hi2 : i < s.length
        · rw [List.getD_append _ _ _ _ hi2]
          conv_rhs => rw [i4]
          rw [getD_take_drop buf b1 _ i (by omega)]
        · have hi3 : i = s.length := by omega
          rw [hi3, getD_append_at, ← i3]
          congr 1
          omega
      have hb2 : b2 = b1 + (s.length + 1) := by omega
      rw [hb2] at h
      have hrun := second_shift buf (34 :: (s ++ [34])) e (s.length + 2) b1 1 str []
        (s.length + 1) hcommon (by omega) (e - b1) (s.length + 1) 0 false s (by omega)
        (by rw [Nat.add_zero]; exact h)
      have hd : (List.drop 1 (34 :: (s ++ [34]))).take (s.length + 1 - 1) = s := by simp
      rw [hd, Nat.add_zero, Nat.add_comm 1 (s.length + 1)] at hrun
      refine ⟨(quotable_iff s).2 hrun, by omega, i2, by omega, ?_⟩
      intro x hx
      obtain ⟨j, hj, rfl⟩ := List.mem_iff_getElem.1 hx
      refine ⟨b1 + j, by omega, by omega, ?_⟩
      have := getD_take_drop buf b1 (b2 - 1 - b1) j (by omega)
      rw [← i4, List.getD_eq_getElem _ _ hj] at this
      exact this.symm

theorem not_mem_indent (d x : Nat) (hx : x ≠ 9) : x ∉ indent d := by
  simp only [indent, List.mem_replicate, not_and]
  intro _ h
  exact hx h

theorem text_safe_not_mem (s : Bytes) (hs : text_safe s = true) :
    10 ∉ s ∧ 13 ∉ s := by
  induction s with
  | nil => simp
  | cons b s ih =>
    obtain ⟨⟨-, -, -, h10, h13⟩, hs'⟩ := (text_safe_cons b s).1 hs
    obtain ⟨i1, i2⟩ := ih hs'
    simp only [List.mem_cons, not_or]
    exact ⟨⟨fun h => h10 h.symm, i1⟩, ⟨fun h => h13 h.symm, i2⟩⟩

theorem reparsable_quotable (s : Bytes) (hs : reparsable s = true) : quotable s = true := by
  unfold reparsable at hs
  rw [Bool.and_eq_true] at hs
  exact hs.1

theorem reparsable_not_mem (s : Bytes) (hs : reparsable s = true) : 10 ∉ s ∧ 13 ∉ s := by
  unfold reparsable at hs
  rw [Bool.and_eq_true, List.all_eq_true] at hs
  constructor
  · intro h; have := hs.2 10 h; simp at this
  · intro h; have := hs.2 13 h; simp at this

theorem reparsable_iff (s : Bytes) :
    reparsable s = true ↔ quotable s = true ∧ 10 ∉ s ∧ 13 ∉ s := by
  constructor
  · intro h; exact ⟨reparsable_quotable s h, reparsable_not_mem s h⟩
  · rintro ⟨h1, h2, h3⟩
    unfold reparsable
    rw [Bool.and_eq_true, List.all_eq_true]
    refine ⟨h1, ?_⟩
    intro x hx
    simp only [decide_eq_true_eq]
    exact ⟨fun h => h2 (h ▸ hx), fun h => h3 (h ▸ hx)⟩

/-- ASCII text without quote, backslash, CR and LF is `reparsable`. -/
theorem reparsable_of_text_safe (s : Bytes) (hs : text_safe s = true) : reparsable s = true := by
  obtain ⟨h10, h13⟩ := text_safe_not_mem s hs
  refine (reparsable_iff s).2 ⟨?_, h10, h13⟩
  have h := ParseString_quoted [] s [] [] (s.length + 2) hs (by simp) (by simp)
  unfold quotable
  simp only [List.nil_append, List.length_nil, Nat.zero_add] at h
  rw [h]
  simp

theorem length_indent (d : Nat) : (indent d).length = d := by simp [indent]

theorem getD_not_eol (A : Bytes) (i : Nat) (hi : i < A.length) (h10 : 10 ∉ A) (h13 : 13 ∉ A) :
    A.getD i 0 ≠ 10 ∧ A.getD i 0 ≠ 13 := by
  have hm : A.getD i 0 ∈ A := by
    rw [List.getD_eq_getElem _ _ hi]
    exact List.getElem_mem _
  exact ⟨fun h => h10 (h ▸ hm), fun h => h13 (h ▸ hm)⟩

theorem getD_line (A : Bytes) (i : Nat) (hi : i < A.length) :
    (A ++ [10]).getD i 0 = A.getD i 0 := by
  rw [List.getD_append _ _ _ _ hi]

/-- Trimming a whole line `A ++ "\n"` whose text `A` starts, after `d` tabs, with a
character that is not blank, leaves the window from `d` to the end of `A`. -/
theorem SkipSpaces_line (A post : Bytes) (d x : Nat) (hA : A = indent d ++ x :: post)
    (hx : x ≠ 32 ∧ x ≠ 9) (h10 : 10 ∉ A) (h13 : 13 ∉ A) :
    Details.SkipSpaces (A ++ [10]) 0 (A ++ [10]).length = .ok (d, A.length) := by
  have hl : A.length = d + post.length + 1 := by rw [hA]; simp [length_indent]; omega
  have hb := SkipSpaces_back_lf A d (by omega)
    (by rw [← getD_line A _ (by omega), getD_line A _ (by omega)]
        exact getD_not_eol A _ (by omega) h10 h13)
  have hf := SkipSpaces_front_tabs [] (post ++ [10]) d x (A ++ [10]).length
    ((A ++ [10]).length - 0) hx (by simp; omega) (by simp; omega)
  have e2 : [] ++ (indent d ++ x :: (post ++ [10])) = A ++ [10] := by rw [hA]; simp
  rw [e2] at hf
  simp only [List.length_nil, Nat.zero_add] at hf
  rw [Details.SkipSpaces]
  simp only [Nat.not_lt_zero, lt_self_iff_false, or_self, if_false, hf, hb]

/-- Trimming inside a line: from the cursor `pre.length`, over `k` tabs, to a
character that is not blank; the end stays at the end of `A`. -/
theorem SkipSpaces_mid (A pre post : Bytes) (k x : Nat) (hA : A = pre ++ (indent k ++ x :: post))
    (hx : x ≠ 32 ∧ x ≠ 9) (h10 : 10 ∉ A) (h13 : 13 ∉ A) :
    Details.SkipSpaces (A ++ [10]) pre.length A.length = .ok (pre.length + k, A.length) := by
  have hl : A.length = pre.length + k + post.length + 1 := by
    rw [hA]; simp [length_indent]; omega
  have hb := SkipSpaces_back_stop (A ++ [10]) (pre.length + k) A.length (by omega)
    (by rw [getD_line A _ (by omega)]
        exact getD_not_eol A _ (by omega) h10 h13)
  have hf := SkipSpaces_front_tabs pre (post ++ [10]) k x A.length
    (A.length - pre.length) hx (by omega) (by omega)
  have e2 : pre ++ (indent k ++ x :: (post ++ [10])) = A ++ [10] := by rw [hA]; simp
  rw [e2] at hf
  rw [Details.SkipSpaces]
  have hc : ¬ (A.length < pre.length ∨ (A ++ [10]).length < A.length) := by
    simp only [List.length_append, List.length_singleton]; omega
  simp only [hc, if_false, hf, hb]

/-- Trimming at the end of the text of a line changes nothing. -/
theorem SkipSpaces_at_end (A : Bytes) (hne : 0 < A.length) (h10 : 10 ∉ A) (h13 : 13 ∉ A) :
    Details.SkipSpaces (A ++ [10]) A.length A.length = .ok (A.length, A.length) := by
  have hb := SkipSpaces_back_stop (A ++ [10]) A.length A.length hne
    (by rw [getD_line A _ (by omega)]
        exact getD_not_eol A _ (by omega) h10 h13)
  rw [Details.SkipSpaces]
  have hc : ¬ (A.length < A.length ∨ (A ++ [10]).length < A.length) := by
    simp only [List.length_append, List.length_singleton]; omega
  simp only [hc, if_false, SkipSpaces_front_end, hb]

theorem getD_line_at (A pre post : Bytes) (x : Nat) (hA : A = pre ++ x :: post) :
    (A ++ [10]).getD pre.length 0 = x := by
  rw [hA, List.append_assoc, List.cons_append]
  exact getD_append_at _ _ _ _

theorem ParseString_line (A pre s post str : Bytes) (hA : A = pre ++ 34 :: (s ++ 34 :: post))
    (hs : reparsable s = true) :
    Details.ParseString (A ++ [10]) pre.length A.length str
      = .ok (0, pre.length + s.length + 2, s) := by
  have hl : A.length = pre.length + s.length + post.length + 2 := by
    rw [hA]; simp; omega
  have := ParseString_quotable pre s (post ++ [10]) str A.length (reparsable_quotable s hs)
    (by omega) (by simp; omega)
  have e2 : pre ++ 34 :: (s ++ 34 :: (post ++ [10])) = A ++ [10] := by rw [hA]; simp
  rw [e2] at this
  exact this

/-- A line `"key"` followed by tabs and `"value"`, as `_SerializeAsText` writes
a leaf, is read as one string item. -/
theorem text_loop_leaf (I : Impl) (f d ln : Nat) (key val R nm : Bytes) (c : ValveCollection)
    (hk : reparsable key = true) (hv : reparsable val = true) :
    _ParseTextObject.loop I (f + 1)
        ⟨indent d ++ [34] ++ key ++ [34] ++ [9, 9, 34] ++ val ++ [34, 10] ++ R, false⟩
        ln c false nm
      = _ParseTextObject.loop I f ⟨R, false⟩ ((ln + 1) % 2 ^ 32)
          (c ++ [ValveDataObject.new_string I key val]) false key := by
  obtain ⟨hk10, hk13⟩ := reparsable_not_mem key hk
  obtain ⟨hv10, hv13⟩ := reparsable_not_mem val hv
  have hi10 := not_mem_indent d 10 (by decide)
  have hi13 := not_mem_indent d 13 (by decide)
  obtain ⟨A, hA⟩ : ∃ A, A = indent d ++ 34 :: (key ++ 34 :: (indent 2 ++ 34 :: (val ++ [34]))) :=
    ⟨_, rfl⟩
  have h10 : 10 ∉ A := by rw [hA]; simp [hk10, hv10, hi10, indent]
  have h13 : 13 ∉ A := by rw [hA]; simp [hk13, hv13, hi13, indent]
  have hl : A.length = d + key.length + val.length + 6 := by
    rw [hA]; simp [length_indent]; omega
  have hin : indent d ++ [34] ++ key ++ [34] ++ [9, 9, 34] ++ val ++ [34, 10] ++ R
      = A ++ 10 :: R := by
    rw [hA]; simp [indent]
  have hg := getline_line A R h10 h13
  have hs1 := SkipSpaces_line A _ d 34 hA (by decide) h10 h13
  have hq1 := getD_line_at A (indent d) _ 34 hA
  have hp1 := ParseString_line A (indent d) key _ nm hA hk
  have hs2 := SkipSpaces_mid A (indent d ++ 34 :: key ++ [34]) (val ++ [34]) 2 34
    (by rw [hA]; simp) (by decide) h10 h13
  have hq2 := getD_line_at A (indent d ++ 34 :: key ++ [34] ++ indent 2) (val ++ [34]) 34
    (by rw [hA]; simp)
  have hp2 := ParseString_line A (indent d ++ 34 :: key ++ [34] ++ indent 2) val [] []
    (by rw [hA]; simp) hv
  have hs3 := SkipSpaces_at_end A (by omega) h10 h13
  have hpl1 : (indent d ++ 34 :: key ++ [34]).length = d + key.length + 2 := by
    simp [length_indent]; omega
  have hpl2 : (indent d ++ 34 :: key ++ [34] ++ indent 2).length = d + key.length + 2 + 2 := by
    simp [length_indent]; omega
  have e3 : d + key.length + 2 + 2 + val.length + 2 = A.length := by omega
  rw [length_indent] at hq1 hp1
  rw [hpl1] at hs2
  rw [hpl2] at hq2 hp2
  rw [e3] at hp2
  rw [hin, _ParseTextObject.loop, hg]
  have hne : d ≠ A.length := by omega
  simp only [Bool.false_eq_true, if_false, hs1, hne, hq1, Nat.reduceEqDiff, Bool.not_false,
    if_true, hp1, hs2, hq2, hp2, hs3, ne_eq, not_true_eq_false]
  simp

/-- A line holding only `"key"` makes the loop expect an object named `key`. -/
theorem text_loop_header (I : Impl) (f d ln : Nat) (key R nm : Bytes) (c : ValveCollection)
    (hk : reparsable key = true) :
    _ParseTextObject.loop I (f + 1) ⟨indent d ++ [34] ++ key ++ [34] ++ [10] ++ R, false⟩
        ln c false nm
      = _ParseTextObject.loop I f ⟨R, false⟩ ((ln + 1) % 2 ^ 32) c true key := by
  obtain ⟨hk10, hk13⟩ := reparsable_not_mem key hk
  have hi10 := not_mem_indent d 10 (by decide)
  have hi13 := not_mem_indent d 13 (by decide)
  obtain ⟨A, hA⟩ : ∃ A, A = indent d ++ 34 :: (key ++ 34 :: []) := ⟨_, rfl⟩
  have h10 : 10 ∉ A := by rw [hA]; simp [hk10, hi10]
  have h13 : 13 ∉ A := by rw [hA]; simp [hk13, hi13]
  have hl : A.length = d + key.length + 2 := by
    rw [hA]; simp [length_indent]; omega
  have hin : indent d ++ [34] ++ key ++ [34] ++ [10] ++ R = A ++ 10 :: R := by
    rw [hA]; simp
  have hg := getline_line A R h10 h13
  have hs1 := SkipSpaces_line A _ d 34 hA (by decide) h10 h13
  have hq1 := getD_line_at A (indent d) _ 34 hA
  have hp1 := ParseString_line A (indent d) key _ nm hA hk
  have hs3 := SkipSpaces_at_end A (by omega) h10 h13
  have hq3 : (A ++ [10]).getD A.length 0 = 10 := getD_append_at _ _ _ _
  simp only [length_indent] at hq1 hp1
  rw [← hl] at hp1
  rw [hin, _ParseTextObject.loop, hg]
  have hne : d ≠ A.length := by omega
  simp only [Bool.false_eq_true, if_false, hs1, hne, hq1, Nat.reduceEqDiff, Bool.not_false,
    if_true, hp1, hs3, hq3, ne_eq, not_true_eq_false]
  simp

/-- A line holding only `{` opens the object announced by the line before. -/
theorem text_loop_open (I : Impl) (f d ln : Nat) (key R : Bytes) (c : ValveCollection) :
    _ParseTextObject.loop I (f + 1) ⟨indent d ++ [123, 10] ++ R, false⟩ ln c true key
      = match _ParseTextObject I f ⟨R, false⟩ key ((ln + 1) % 2 ^ 32) with
        | .error x => .error x
        | .ok (child, is, line_num) =>
          _ParseTextObject.loop I f is line_num (c ++ [child]) false [] := by
  have hi10 := not_mem_indent d 10 (by decide)
  have hi13 := not_mem_indent d 13 (by decide)
  obtain ⟨A, hA⟩ : ∃ A, A = indent d ++ 123 :: [] := ⟨_, rfl⟩
  have h10 : 10 ∉ A := by rw [hA]; simp [hi10]
  have h13 : 13 ∉ A := by rw [hA]; simp [hi13]
  have hl : A.length = d + 1 := by rw [hA]; simp [length_indent]
  have hin : indent d ++ [123, 10] ++ R = A ++ 10 :: R := by rw [hA]; simp
  have hg := getline_line A R h10 h13
  have hs1 := SkipSpaces_line A _ d 123 hA (by decide) h10 h13
  have hq1 := getD_line_at A (indent d) _ 123 hA
  have hs3 := SkipSpaces_at_end A (by omega) h10 h13
  simp only [length_indent] at hq1
  rw [hl] at hs3
  rw [hin, _ParseTextObject.loop, hg]
  have hne : d ≠ A.length := by omega
  have hne2 : d ≠ d + 1 := by omega
  simp only [Bool.false_eq_true, if_false, hs1, hne, hq1, Nat.reduceEqDiff, Bool.not_true,
    if_true, hl, hs3, ne_eq, not_true_eq_false, hne2]

/-- A line holding only `}` ends the loop. -/
theorem text_loop_close (I : Impl) (f d ln : Nat) (R nm : Bytes) (c : ValveCollection)
    (io : Bool) :
    _ParseTextObject.loop I (f + 1) ⟨indent d ++ [125, 10] ++ R, false⟩ ln c io nm
      = .ok (c, ⟨R, false⟩, (ln + 1) % 2 ^ 32) := by
  have hi10 := not_mem_indent d 10 (by decide)
  have hi13 := not_mem_indent d 13 (by decide)
  obtain ⟨A, hA⟩ : ∃ A, A = indent d ++ 125 :: [] := ⟨_, rfl⟩
  have h10 : 10 ∉ A := by rw [hA]; simp [hi10]
  have h13 : 13 ∉ A := by rw [hA]; simp [hi13]
  have hl : A.length = d + 1 := by rw [hA]; simp [length_indent]
  have hin : indent d ++ [125, 10] ++ R = A ++ 10 :: R := by rw [hA]; simp
  have hg := getline_line A R h10 h13
  have hs1 := SkipSpaces_line A _ d 125 hA (by decide) h10 h13
  have hq1 := getD_line_at A (indent d) _ 125 hA
  simp only [length_indent] at hq1
  rw [hin, _ParseTextObject.loop, hg]
  have hne : d ≠ A.length := by omega
  simp only [Bool.false_eq_true, if_false, hs1, hne, hq1, if_true]

theorem text_safe_append (a b : Bytes) :
    text_safe (a ++ b) = true ↔ text_safe a = true ∧ text_safe b = true := by
  simp [text_safe, List.all_append]

theorem text_safe_put_digits (fuel n : Nat) (acc : Bytes) (h : text_safe acc = true) :
    text_safe (put_digits fuel n acc) = true := by
  induction fuel generalizing n acc with
  | zero => simpa [put_digits] using h
  | succ fuel ih =>
    rw [put_digits]
    split
    · rename_i hn
      rw [text_safe_cons]
      exact ⟨by omega, h⟩
    · apply ih
      rw [text_safe_cons]
      exact ⟨by omega, h⟩

theorem text_safe_put_unsigned (v : Nat) : text_safe (put_unsigned v) = true :=
  text_safe_put_digits _ _ _ rfl

theorem text_safe_put_signed (v : Int) : text_safe (put_signed v) = true := by
  rw [put_signed]
  split
  · rw [text_safe_cons]
    exact ⟨by decide, text_safe_put_unsigned _⟩
  · exact text_safe_put_unsigned _

/-- The root line `"name"` of a text document. -/
theorem text_root_name (I : Impl) (f ln : Nat) (name R : Bytes) (po : ValveDataObject)
    (hk : reparsable name = true) :
    ParseObject.text I (f + 1) ⟨[34] ++ name ++ [34] ++ [10] ++ R, false⟩ ln [] po
      = ParseObject.text I f ⟨R, false⟩ ((ln + 1) % 2 ^ 32) name po := by
  obtain ⟨hk10, hk13⟩ := reparsable_not_mem name hk
  obtain ⟨A, hA⟩ : ∃ A, A = indent 0 ++ 34 :: (name ++ 34 :: []) := ⟨_, rfl⟩
  have h10 : 10 ∉ A := by rw [hA]; simp [hk10, indent]
  have h13 : 13 ∉ A := by rw [hA]; simp [hk13, indent]
  have hl : A.length = name.length + 2 := by
    rw [hA]; simp [length_indent]
  have hin : [34] ++ name ++ [34] ++ [10] ++ R = A ++ 10 :: R := by
    rw [hA]; simp [indent]
  have hg := getline_line A R h10 h13
  have hs1 := SkipSpaces_line A _ 0 34 hA (by decide) h10 h13
  have hq1 := getD_line_at A (indent 0) _ 34 hA
  have hp1 := ParseString_line A (indent 0) name _ [] hA hk
  have hs3 := SkipSpaces_at_end A (by omega) h10 h13
  rw [length_indent] at hq1 hp1
  rw [Nat.zero_add, ← hl] at hp1
  rw [hin, ParseObject.text, hg]
  have hne : 0 ≠ A.length := by omega
  simp only [Bool.false_eq_true, if_false, hs1, hne, List.isEmpty_nil, if_true, hp1, hs3,
    ne_eq, not_true_eq_false]
  simp

/-- The line `{` after the root line. -/
theorem text_root_open (I : Impl) (f ln : Nat) (name R : Bytes) (po : ValveDataObject)
    (hne : name ≠ []) :
    ParseObject.text I (f + 1) ⟨[123, 10] ++ R, false⟩ ln name po
      = match _ParseTextObject I (2 * R.length + 2) ⟨R, false⟩ name ((ln + 1) % 2 ^ 32) with
        | .error x => .error x
        | .ok (o, is, line_num) => ParseObject.text I f is line_num [] o := by
  obtain ⟨A, hA⟩ : ∃ A, A = indent 0 ++ 123 :: [] := ⟨_, rfl⟩
  have h10 : 10 ∉ A := by rw [hA]; simp [indent]
  have h13 : 13 ∉ A := by rw [hA]; simp [indent]
  have hl : A.length = 1 := by rw [hA]; simp [length_indent]
  have hin : [123, 10] ++ R = A ++ 10 :: R := by rw [hA]; simp [indent]
  have hg := getline_line A R h10 h13
  have hs1 := SkipSpaces_line A _ 0 123 hA (by decide) h10 h13
  have hq1 := getD_line_at A (indent 0) _ 123 hA
  have hs3 := SkipSpaces_at_end A (by omega) h10 h13
  rw [length_indent] at hq1
  rw [hl] at hs3 hs1
  have hie : name.isEmpty = false := by
    cases name with
    | nil => exact absurd rfl hne
    | cons a l => rfl
  rw [hin, ParseObject.text, hg]
  simp only [Bool.false_eq_true, if_false, hs1, hie, hq1, Nat.zero_add, hs3, ne_eq,
    not_true_eq_false, zero_ne_one]

/-- At the end of the stream the loop of the text branch returns the node. -/
theorem text_root_end (I : Impl) (f ln : Nat) (nm : Bytes) (po : ValveDataObject) :
    ParseObject.text I (f + 1) ⟨[], false⟩ ln nm po = .ok po := by
  rw [ParseObject.text]
  simp [Details.getline, Details.getline.loop]

theorem all_strings_items_mem (p : Bytes → Bool) (cs : List ValveDataObject)
    (h : ValveDataObject.all_strings.items p cs = true) :
    ∀ x ∈ cs, x.all_strings p = true := by
  induction cs with
  | nil => intro x hx; cases hx
  | cons t cs ih =>
    simp only [ValveDataObject.all_strings.items, Bool.and_eq_true] at h
    intro x hx
    rcases List.mem_cons.1 hx with rfl | hx
    · exact h.1
    · exact ih h.2 x hx

theorem text_tree_items_mem (I : Impl) (cs : List ValveDataObject)
    (h : ValveDataObject.text_tree.items I cs = true) : ∀ x ∈ cs, x.text_tree I = true := by
  induction cs with
  | nil => intro x hx; cases hx
  | cons t cs ih =>
    simp only [ValveDataObject.text_tree.items, Bool.and_eq_true] at h
    intro x hx
    rcases List.mem_cons.1 hx with rfl | hx
    · exact h.1
    · exact ih h.2 x hx

theorem text_items_of (I : Impl) (d : Nat) (cs : List ValveDataObject)
    (IH : ∀ x ∈ cs, ∀ bytes, x.valid I = true → x.all_strings reparsable = true →
        _SerializeAsText I x d = .ok bytes →
        ∃ k, 1 ≤ k ∧ k ≤ bytes.length ∧ ∀ f, bytes.length ≤ f + k → ∀ R ln c nm, ∃ ln' nm',
          _ParseTextObject.loop I (f + k) ⟨bytes ++ R, false⟩ ln c false nm
            = _ParseTextObject.loop I f ⟨R, false⟩ ln' (c ++ [x.text_image I]) false nm')
    (bytes : Bytes) (hv : ValveDataObject.valid.items I cs = true)
    (hs : ValveDataObject.all_strings.items reparsable cs = true)
    (hb : _SerializeAsText.items I cs d = .ok bytes) :
    ∃ n, n ≤ bytes.length ∧ ∀ f, bytes.length ≤ f + n → ∀ R ln c nm, ∃ ln' nm',
      _ParseTextObject.loop I (f + n) ⟨bytes ++ R, false⟩ ln c false nm
        = _ParseTextObject.loop I f ⟨R, false⟩ ln'
            (c ++ ValveDataObject.text_image.items I cs) false nm' := by
  induction cs generalizing bytes with
  | nil =>
    simp only [_SerializeAsText.items, Except.ok.injEq] at hb
    subst hb
    exact ⟨0, le_refl _, fun f _ R ln c nm => ⟨ln, nm, by
      simp [ValveDataObject.text_image.items]⟩⟩
  | cons t cs ih =>
    rw [_SerializeAsText.items] at hb
    split at hb
    · simp at hb
    · rename_i b1 hb1
      split at hb
      · simp at hb
      · rename_i b2 hb2
        simp only [Except.ok.injEq] at hb
        subst hb
        simp only [ValveDataObject.valid.items, ValveDataObject.all_strings.items,
          Bool.and_eq_true] at hv hs
        obtain ⟨k, hk1, hk2, hP⟩ := IH t (List.mem_cons_self _ _) b1 hv.1 hs.1 hb1
        obtain ⟨n, hn, hQ⟩ := ih (fun x hx => IH x (List.mem_cons_of_mem _ hx)) b2 hv.2 hs.2 hb2
        refine ⟨n + k, by simp only [List.length_append]; omega, ?_⟩
        intro f hf R ln c nm
        simp only [List.length_append] at hf
        obtain ⟨ln1, nm1, h1⟩ := hP (f + n) (by omega) (b2 ++ R) ln c nm
        obtain ⟨ln2, nm2, h2⟩ := hQ f (by omega) R ln1 (c ++ [t.text_image I]) nm1
        refine ⟨ln2, nm2, ?_⟩
        rw [← Nat.add_assoc, List.append_assoc, h1, h2]
        simp [ValveDataObject.text_image.items]

theorem text_object_body (I : Impl) (d : Nat) (cs : List ValveDataObject)
    (IH : ∀ x ∈ cs, ∀ bytes, x.valid I = true → x.all_strings reparsable = true →
        _SerializeAsText I x (d + 1) = .ok bytes →
        ∃ k, 1 ≤ k ∧ k ≤ bytes.length ∧ ∀ f, bytes.length ≤ f + k → ∀ R ln c nm, ∃ ln' nm',
          _ParseTextObject.loop I (f + k) ⟨bytes ++ R, false⟩ ln c false nm
            = _ParseTextObject.loop I f ⟨R, false⟩ ln' (c ++ [x.text_image I]) false nm')
    (body : Bytes) (hv : ValveDataObject.valid.items I cs = true)
    (hs : ValveDataObject.all_strings.items reparsable cs = true)
    (hb : _SerializeAsText.items I cs (d + 1) = .ok body) (f : Nat) (hf : body.length + 2 ≤ f)
    (name R : Bytes) (ln : Nat) :
    ∃ ln', _ParseTextObject I f ⟨body ++ indent d ++ [125, 10] ++ R, false⟩ name ln
      = .ok (.mk name (I.hash name) (._Collection (ValveDataObject.text_image.items I cs))
          .Object, ⟨R, false⟩, ln') := by
  obtain ⟨n, hn, hQ⟩ := text_items_of I (d + 1) cs IH body hv hs hb
  obtain ⟨g, rfl⟩ : ∃ g, f = (g + 1 + n) + 1 := ⟨f - 2 - n, by omega⟩
  obtain ⟨ln1, nm1, h1⟩ := hQ (g + 1) (by omega) (indent d ++ [125, 10] ++ R) ln [] []
  rw [_ParseTextObject]
  refine ⟨(ln1 + 1) % 2 ^ 32, ?_⟩
  have e : body ++ indent d ++ [125, 10] ++ R = body ++ (indent d ++ [125, 10] ++ R) := by simp
  rw [e, h1, text_loop_close]
  simp

/-- One item of a serialized collection is read back as its text image.  A printed
`float` has to be `reparsable`, unless the tree is a text tree, which holds no
`float`. -/
theorem text_item (I : Impl) (t : ValveDataObject) :
    ((∀ v, reparsable (I.showFloat v) = true) ∨ t.text_tree I = true) →
    ∀ d bytes, t.valid I = true → t.all_strings reparsable = true →
        _SerializeAsText I t d = .ok bytes →
        ∃ k, 1 ≤ k ∧ k ≤ bytes.length ∧ ∀ f, bytes.length ≤ f + k → ∀ R ln c nm, ∃ ln' nm',
          _ParseTextObject.loop I (f + k) ⟨bytes ++ R, false⟩ ln c false nm
            = _ParseTextObject.loop I f ⟨R, false⟩ ln' (c ++ [t.text_image I]) false nm' := by
  induction t using ValveDataObject.induction_on with
  | step name hash u ty IH =>
    intro hF d bytes hv hs hser
    cases ty <;> cases u <;>
      simp only [ValveDataObject.valid, Bool.and_eq_true, decide_eq_true_eq, Bool.false_eq_true,
        and_false] at hv
    all_goals obtain ⟨hh, hv⟩ := hv
    all_goals subst hh
    all_goals simp only [ValveDataObject.all_strings, Bool.and_eq_true] at hs
    all_goals simp only [_SerializeAsText] at hser
    case step.Object._Collection.intro cs =>
      split at hser
      · simp at hser
      · rename_i body hbody
        simp only [Except.ok.injEq] at hser
        subst hser
        refine ⟨2, by omega, by simp; omega, ?_⟩
        intro f hf R ln c nm
        simp only [List.length_append, List.length_cons, List.length_nil, length_indent] at hf
        have hitem : ∀ x ∈ cs, (∀ v, reparsable (I.showFloat v) = true) ∨ x.text_tree I = true := by
          intro x hx
          rcases hF with hF | hF
          · exact Or.inl hF
          · simp only [ValveDataObject.text_tree, Bool.and_eq_true] at hF
            exact Or.inr (text_tree_items_mem I cs hF.2 x hx)
        obtain ⟨ln', hchild⟩ := text_object_body I d cs
          (fun x hx => IH cs rfl x hx (hitem x hx) (d + 1)) body
          hv hs.2 hbody f (by omega) name R (((ln + 1) % 2 ^ 32 + 1) % 2 ^ 32)
        have e : indent d ++ [34] ++ name ++ [34] ++ [10] ++ indent d ++ [123, 10] ++ body
              ++ indent d ++ [125, 10] ++ R
            = indent d ++ [34] ++ name ++ [34] ++ [10]
              ++ (indent d ++ [123, 10] ++ (body ++ indent d ++ [125, 10] ++ R)) := by
          simp
        refine ⟨ln', [], ?_⟩
        rw [e, text_loop_header I (f + 1) d ln name _ nm c hs.1, text_loop_open, hchild]
        simp [ValveDataObject.text_image]
    case step.String._String.intro v =>
      simp only [Except.ok.injEq] at hser
      subst hser
      refine ⟨1, le_refl _, by simp; omega, ?_⟩
      intro f _ R ln c nm
      exact ⟨(ln + 1) % 2 ^ 32, name, by
        rw [text_loop_leaf I f d ln name (v) R nm c hs.1 (hs.2)]
        simp [ValveDataObject.text_image, ValveDataObject.new_string]⟩
    case step.Int32._Int32.intro v =>
      simp only [Except.ok.injEq] at hser
      subst hser
      refine ⟨1, le_refl _, by simp; omega, ?_⟩
      intro f _ R ln c nm
      exact ⟨(ln + 1) % 2 ^ 32, name, by
        rw [text_loop_leaf I f d ln name (put_signed v) R nm c hs.1
          (reparsable_of_text_safe _ (text_safe_put_signed v))]
        simp [ValveDataObject.text_image, ValveDataObject.new_string]⟩
    case step.Float._Float.intro v =>
      simp only [Except.ok.injEq] at hser
      subst hser
      refine ⟨1, le_refl _, by simp; omega, ?_⟩
      intro f _ R ln c nm
      exact ⟨(ln + 1) % 2 ^ 32, name, by
        rw [text_loop_leaf I f d ln name (I.showFloat v) R nm c hs.1
          (hF.resolve_right (by simp [ValveDataObject.text_tree]) v)]
        simp [ValveDataObject.text_image, ValveDataObject.new_string]⟩
    case step.Pointer._Pointer.intro v =>
      simp only [Except.ok.injEq] at hser
      subst hser
      refine ⟨1, le_refl _, by simp; omega, ?_⟩
      intro f _ R ln c nm
      exact ⟨(ln + 1) % 2 ^ 32, name, by
        rw [text_loop_leaf I f d ln name (put_unsigned v) R nm c hs.1
          (reparsable_of_text_safe _ (text_safe_put_unsigned v))]
        simp [ValveDataObject.text_image, ValveDataObject.new_string]⟩
    case step.Color._Color.intro v =>
      simp only [Except.ok.injEq] at hser
      subst hser
      refine ⟨1, le_refl _, by simp; omega, ?_⟩
      intro f _ R ln c nm
      exact ⟨(ln + 1) % 2 ^ 32, name, by
        rw [text_loop_leaf I f d ln name (put_unsigned v) R nm c hs.1
          (reparsable_of_text_safe _ (text_safe_put_unsigned v))]
        simp [ValveDataObject.text_image, ValveDataObject.new_string]⟩
    case step.UInt64._UInt64.intro v =>
      simp only [Except.ok.injEq] at hser
      subst hser
      refine ⟨1, le_refl _, by simp; omega, ?_⟩
      intro f _ R ln c nm
      exact ⟨(ln + 1) % 2 ^ 32, name, by
        rw [text_loop_leaf I f d ln name (put_unsigned v) R nm c hs.1
          (reparsable_of_text_safe _ (text_safe_put_unsigned v))]
        simp [ValveDataObject.text_image, ValveDataObject.new_string]⟩
    case step.Int64._Int64.intro v =>
      simp only [Except.ok.injEq] at hser
      subst hser
      refine ⟨1, le_refl _, by simp; omega, ?_⟩
      intro f _ R ln c nm
      exact ⟨(ln + 1) % 2 ^ 32, name, by
        rw [text_loop_leaf I f d ln name (put_signed v) R nm c hs.1
          (reparsable_of_text_safe _ (text_safe_put_signed v))]
        simp [ValveDataObject.text_image, ValveDataObject.new_string]⟩

theorem SerializeAsText_items_ok (I : Impl) (d : Nat) (cs : List ValveDataObject)
    (h : ∀ x ∈ cs, ∃ bytes, _SerializeAsText I x d = .ok bytes) :
    ∃ bytes, _SerializeAsText.items I cs d = .ok bytes := by
  induction cs with
  | nil => exact ⟨[], rfl⟩
  | cons t cs ih =>
    obtain ⟨b1, h1⟩ := h t (List.mem_cons_self _ _)
    obtain ⟨b2, h2⟩ := ih (fun x hx => h x (List.mem_cons_of_mem _ hx))
    exact ⟨b1 ++ b2, by rw [_SerializeAsText.items, h1, h2]⟩

theorem SerializeAsText_ok_of_valid (I : Impl) (t : ValveDataObject) :
    t.valid I = true → ∀ d, ∃ bytes, _SerializeAsText I t d = .ok bytes := by
  induction t using ValveDataObject.induction_on with
  | step name hash u ty IH =>
    intro hv d
    cases ty <;> cases u <;>
      simp only [ValveDataObject.valid, Bool.and_eq_true, decide_eq_true_eq, Bool.false_eq_true,
        and_false] at hv
    case step.Object._Collection cs =>
      obtain ⟨body, hb⟩ := SerializeAsText_items_ok I (d + 1) cs
        (fun x hx => IH cs rfl x hx (valid_items_mem I cs hv.2 x hx) (d + 1))
      exact ⟨_, by simp only [_SerializeAsText, hb]; rfl⟩
    all_goals exact ⟨_, by simp only [_SerializeAsText]; rfl⟩

theorem all_strings_mono (p q : Bytes → Bool) (hpq : ∀ s, p s = true → q s = true)
    (t : ValveDataObject) : t.all_strings p = true → t.all_strings q = true := by
  induction t using ValveDataObject.induction_on with
  | step name hash u ty IH =>
    intro h
    have hitems : ∀ cs : List ValveDataObject,
        (∀ x ∈ cs, x.all_strings p = true → x.all_strings q = true) →
        ValveDataObject.all_strings.items p cs = true →
        ValveDataObject.all_strings.items q cs = true := by
      intro cs
      induction cs with
      | nil => intro _ _; rfl
      | cons x cs ihc =>
        intro hx hc
        simp only [ValveDataObject.all_strings.items, Bool.and_eq_true] at hc ⊢
        exact ⟨hx x (List.mem_cons_self _ _) hc.1,
          ihc (fun y hy => hx y (List.mem_cons_of_mem _ hy)) hc.2⟩
    cases u <;> simp only [ValveDataObject.all_strings, Bool.and_eq_true, and_true] at h ⊢
    case _String s => exact ⟨hpq _ h.1, hpq _ h.2⟩
    case _Collection cs => exact ⟨hpq _ h.1, hitems cs (IH cs rfl) h.2⟩
    all_goals exact hpq _ h

/-- The text round trip on a tree whose names, strings and printed floats are
`reparsable` (the last is not asked of a text tree): `ParseObject` returns the
text image of the tree. -/
theorem text_round_trip_core (I : Impl) (t : ValveDataObject) (chunk_size : Nat)
    (hF : (∀ v, reparsable (I.showFloat v) = true) ∨ t.text_tree I = true)
    (hT : t._Type = .Object) (hne : t._Name ≠ []) (hv : t.valid I = true)
    (hs : t.all_strings reparsable = true) :
    ∃ bytes, SerializeAsText I t = .ok bytes
      ∧ ParseObject I bytes chunk_size = .ok (t.text_image I) := by
  obtain ⟨bytes, hser⟩ := SerializeAsText_ok_of_valid I t hv 0
  refine ⟨bytes, by simp [SerializeAsText, hT, hser], ?_⟩
  obtain ⟨name, hash, u, ty⟩ := t
  simp only [ValveDataObject._Type, ValveDataObject._Name] at hT hne
  subst hT
  cases u <;>
    simp only [ValveDataObject.valid, Bool.and_eq_true, decide_eq_true_eq, Bool.false_eq_true,
      and_false] at hv
  rename_i cs
  obtain ⟨hh, hv⟩ := hv
  subst hh
  simp only [ValveDataObject.all_strings, Bool.and_eq_true] at hs
  simp only [_SerializeAsText] at hser
  split at hser
  · simp at hser
  · rename_i body hbody
    simp only [Except.ok.injEq] at hser
    have e : bytes = [34] ++ name ++ [34] ++ [10]
        ++ ([123, 10] ++ (body ++ indent 0 ++ [125, 10] ++ [])) := by
      rw [← hser]; simp [indent]
    have hitem : ∀ x ∈ cs, (∀ v, reparsable (I.showFloat v) = true) ∨ x.text_tree I = true := by
      intro x hx
      rcases hF with hF | hF
      · exact Or.inl hF
      · simp only [ValveDataObject.text_tree, Bool.and_eq_true] at hF
        exact Or.inr (text_tree_items_mem I cs hF.2 x hx)
    obtain ⟨ln', hchild⟩ := text_object_body I 0 cs
      (fun x hx => text_item I x (hitem x hx) 1) body hv hs.2 hbody
      (2 * (body ++ indent 0 ++ [125, 10] ++ []).length + 2)
      (by simp only [List.length_append]; omega) name [] ((((0 + 1) % 2 ^ 32) + 1) % 2 ^ 32)
    have h4 : ¬ bytes.length < 4 := by
      rw [e]; simp only [List.length_append, List.length_cons, List.length_nil]; omega
    have hm : ¬ (bytes.take 4 = BinaryVDFMagic) := by
      rw [e]; simp [BinaryVDFMagic, List.take_succ_cons]
    have h0 : ¬ (bytes.getD 0 0 = 0) := by
      rw [e]; simp
    obtain ⟨f, hf⟩ : ∃ f, bytes.length + 1 = f + 1 + 1 + 1 := ⟨bytes.length - 2, by omega⟩
    rw [ParseObject]
    simp only [h4, if_false, hm, h0, hf]
    rw [e, text_root_name I _ 0 name _ _ hs.1, text_root_open I _ _ name _ _ hne, hchild]
    simp only []
    rw [text_root_end]
    simp [ValveDataObject.text_image]

/-- C2, amended: for a tree with an `Object` root of non-empty name whose nodes are
objects, strings and scalars in the state the public interface builds, and whose
names and string values are `reparsable` (no CR, no LF, and
`Details::ParseString` reads the string back whole from between two quotes:
UTF-8 sequences and backslashes that do not hide the closing quote are
allowed), `SerializeAsText` succeeds and `ParseObject` returns the text image
of the tree: same names and child order, objects and strings unchanged, every
scalar turned into the string of its printed characters.  The characters
printed for a float are taken to be `reparsable` too, unless the tree holds
objects and strings only. -/
theorem text_round_trip_as_strings (I : Impl) (t : ValveDataObject) (chunk_size : Nat)
    (hF : (∀ v, reparsable (I.showFloat v) = true) ∨ t.text_tree I = true)
    (hT : t._Type = .Object) (hne : t._Name ≠ []) (hv : t.valid I = true)
    (hs : t.all_strings reparsable = true) :
    ∃ bytes, SerializeAsText I t = .ok bytes
      ∧ ParseObject I bytes chunk_size = .ok (t.text_image I) :=
  text_round_trip_core I t chunk_size hF hT hne hv hs

/-- Witness of the amended C2: the tree of the binary test, written as text and
parsed again, is its text image (the `Int32` child `-1337` comes back as the
string `-1337`); so is the tree `tree_utf8_backslash`, whose names and strings
hold a three-byte UTF-8 sequence and backslashes. -/
theorem text_round_trip_as_strings_witness :
    (∃ bytes, SerializeAsText Impl.sample (sample_tree Impl.sample) = .ok bytes
      ∧ ParseObject Impl.sample bytes (10 * 1024)
          = .ok ((sample_tree Impl.sample).text_image Impl.sample))
    ∧ ValveDataObject.text_image Impl.sample
          (ValveDataObject.new_int32 Impl.sample (ascii "Int32Key") (-1337))
        = ValveDataObject.new_string Impl.sample (ascii "Int32Key") (ascii "-1337")
    ∧ (∃ bytes, SerializeAsText Impl.sample (tree_utf8_backslash Impl.sample) = .ok bytes
      ∧ ParseObject Impl.sample bytes (10 * 1024)
          = .ok ((tree_utf8_backslash Impl.sample).text_image Impl.sample))
    ∧ (tree_utf8_backslash Impl.sample).text_image Impl.sample
        = tree_utf8_backslash Impl.sample :=
  ⟨text_round_trip_as_strings Impl.sample (sample_tree Impl.sample) (10 * 1024)
    (Or.inl (fun _ => rfl)) rfl (by decide) (by rfl) (by rfl), by rfl,
   text_round_trip_as_strings Impl.sample (tree_utf8_backslash Impl.sample) (10 * 1024)
    (Or.inr (by rfl)) rfl (by decide) (by rfl) (by rfl), by rfl⟩

/-! ## Independence of the line ending -/

theorem text_loop_eq_line (I : Impl) (f : Nat) (is : istream) (ln : Nat) (c : ValveCollection)
    (io : Bool) (nm : Bytes) :
    _ParseTextObject.loop I (f + 1) is ln c io nm
      = if (Details.getline is).2.fail then .ok (c, (Details.getline is).2, ln)
        else
          match Details.SkipSpaces (Details.getline is).1 0 (Details.getline is).1.length with
          | .error x => .error x
          | .ok (s, e) =>
            match _ParseTextObject.line I (Details.getline is).1 ((ln + 1) % 2 ^ 32) c io nm s e
              with
            | .throw x => .error x
            | .stop => .ok (c, (Details.getline is).2, (ln + 1) % 2 ^ 32)
            | .next c' io' nm' =>
              _ParseTextObject.loop I f (Details.getline is).2 ((ln + 1) % 2 ^ 32) c' io' nm'
            | .descend nm' =>
              match _ParseTextObject I f (Details.getline is).2 nm' ((ln + 1) % 2 ^ 32) with
              | .error x => .error x
              | .ok (child, is', ln') =>
                _ParseTextObject.loop I f is' ln' (c ++ [child]) false [] := by
  rw [_ParseTextObject.loop]
  generalize Details.getline is = g
  obtain ⟨buffer, is'⟩ := g
  unfold _ParseTextObject.line
  by_cases hfail : is'.fail = true
  · simp only [hfail, if_true]
  · simp only [hfail, if_false]
    cases hS : Details.SkipSpaces buffer 0 buffer.length with
    | error x => rfl
    | ok p =>
      obtain ⟨s, e⟩ := p
      simp only []
      by_cases h1 : s = e
      · simp only [h1, if_true]
      · simp only [h1, if_false]
        by_cases h2 : buffer.getD s 0 = 125
        · simp only [h2, if_true]
        · simp only [h2, if_false]
          cases io
          · simp only [Bool.not_false, if_true]
            cases hP : Details.ParseString buffer s e nm with
            | error x => rfl
            | ok q =>
              obtain ⟨err, b, nm'⟩ := q
              simp only []
              by_cases e1 : err = -1
              · simp only [e1, if_true]
              by_cases e2 : err = -2
              · simp only [e2, if_true]; rfl
              by_cases e3 : err = -3
              · simp only [e3, if_true]; rfl
              simp only [e1, e2, e3, if_false]
              cases hS2 : Details.SkipSpaces buffer b e with
              | error x => rfl
              | ok p2 =>
                obtain ⟨s2, e2'⟩ := p2
                simp only []
                by_cases h3 : buffer.getD s2 0 = 34
                · simp only [h3, if_true]
                  cases hP2 : Details.ParseString buffer s2 e2' [] with
                  | error x => rfl
                  | ok q2 =>
                    obtain ⟨err2, b2, tmp⟩ := q2
                    simp only []
                    by_cases f1 : err2 = -1
                    · simp only [f1, if_true]
                    by_cases f2 : err2 = -2
                    · simp only [f2, if_true]; rfl
                    by_cases f3 : err2 = -3
                    · simp only [f3, if_true]; rfl
                    simp only [f1, f2, f3, if_false]
                    cases hS3 : Details.SkipSpaces buffer b2 e2' with
                    | error x => rfl
                    | ok p3 =>
                      obtain ⟨s3, e3'⟩ := p3
                      simp only []
                      by_cases h4 : s3 = e3'
                      · simp only [h4, ne_eq, not_true_eq_false, if_false]
                      · simp only [ne_eq, h4, not_false_eq_true, if_true]
                · simp only [h3, if_false]
                  by_cases h4 : s2 = e2'
                  · simp only [h4, ne_eq, not_true_eq_false, if_false]
                  · simp only [ne_eq, h4, not_false_eq_true, if_true]
          · simp only [Bool.not_true, Bool.false_eq_true, if_false]
            by_cases h3 : buffer.getD s 0 = 123
            · simp only [h3, ne_eq, not_true_eq_false, if_false]
              cases hS2 : Details.SkipSpaces buffer (s + 1) e with
              | error x => rfl
              | ok p2 =>
                obtain ⟨s2, e2'⟩ := p2
                simp only []
                by_cases h4 : s2 = e2'
                · simp only [h4, ne_eq, not_true_eq_false, if_false]
                · simp only [ne_eq, h4, not_false_eq_true, if_true]
            · simp only [ne_eq, h3, not_false_eq_true, if_true]

theorem text_eq_line (I : Impl) (f : Nat) (is : istream) (ln : Nat) (nm : Bytes)
    (po : ValveDataObject) :
    ParseObject.text I (f + 1) is ln nm po
      = if (Details.getline is).2.fail then .ok po
        else
          match Details.SkipSpaces (Details.getline is).1 0 (Details.getline is).1.length with
          | .error x => .error x
          | .ok (s, e) =>
            match ParseObject.text_line (Details.getline is).1 ((ln + 1) % 2 ^ 32) nm s e with
            | .throw x => .error x
            | .stop => .ok po
            | .next _ _ nm' =>
              ParseObject.text I f (Details.getline is).2 ((ln + 1) % 2 ^ 32) nm' po
            | .descend nm' =>
              match _ParseTextObject I (2 * (Details.getline is).2.data.length + 2)
                  (Details.getline is).2 nm' ((ln + 1) % 2 ^ 32) with
              | .error x => .error x
              | .ok (o, is', ln') => ParseObject.text I f is' ln' [] o := by
  rw [ParseObject.text]
  generalize Details.getline is = g
  obtain ⟨buffer, is'⟩ := g
  unfold ParseObject.text_line
  by_cases hfail : is'.fail = true
  · simp only [hfail, if_true]
  · simp only [hfail, if_false]
    cases hS : Details.SkipSpaces buffer 0 buffer.length with
    | error x => rfl
    | ok p =>
      obtain ⟨s, e⟩ := p
      simp only []
      by_cases h1 : s = e
      · simp only [h1, if_true]
      · simp only [h1, if_false]
        cases hie : nm.isEmpty
        · simp only [Bool.false_eq_true, if_false]
          by_cases h3 : buffer.getD s 0 = 123
          · simp only [h3, ne_eq, not_true_eq_false, if_false]
            cases hS2 : Details.SkipSpaces buffer (s + 1) e with
            | error x => rfl
            | ok p2 =>
              obtain ⟨s2, e2'⟩ := p2
              simp only []
              by_cases h4 : s2 = e2'
              · simp only [h4, ne_eq, not_true_eq_false, if_false]
              · simp only [ne_eq, h4, not_false_eq_true, if_true]
          · simp only [ne_eq, h3, not_false_eq_true, if_true]
        · simp only [if_true]
          cases hP : Details.ParseString buffer s e nm with
          | error x => rfl
          | ok q =>
            obtain ⟨err, b, nm'⟩ := q
            simp only []
            by_cases e1 : err = -1
            · simp only [e1, if_true]
            by_cases e2 : err = -2
            · simp only [e2, if_true]; rfl
            by_cases e3 : err = -3
            · simp only [e3, if_true]; rfl
            simp only [e1, e2, e3, if_false]
            cases hS2 : Details.SkipSpaces buffer b e with
            | error x => rfl
            | ok p2 =>
              obtain ⟨s2, e2'⟩ := p2
              simp only []
              by_cases h4 : s2 = e2'
              · simp only [h4, ne_eq, not_true_eq_false, if_false]
              · simp only [ne_eq, h4, not_false_eq_true, if_true]

/-! ### The trimming and string functions read the buffer only below the end cursor -/

theorem getD_append_lt (l x : Bytes) (i : Nat) (hi : i < l.length) :
    (l ++ x).getD i 0 = l.getD i 0 := by
  rw [List.getD_append _ _ _ _ hi]

theorem SkipSpaces_front_local (l x : Bytes) (e fuel s : Nat) (he : e ≤ l.length) (hs : s ≤ e) :
    Details.SkipSpaces.front (l ++ x) e fuel s = Details.SkipSpaces.front l e fuel s := by
  induction fuel generalizing s with
  | zero => rfl
  | succ fuel ih =>
    rw [Details.SkipSpaces.front, Details.SkipSpaces.front]
    by_cases h : s = e
    · simp only [h, if_true]
    · simp only [h, if_false]
      rw [getD_append_lt l x s (by omega), ih (s + 1) (by omega)]

theorem SkipSpaces_back_local (l x : Bytes) (s e : Nat) (he : e ≤ l.length) :
    Details.SkipSpaces.back (l ++ x) s e = Details.SkipSpaces.back l s e := by
  induction e with
  | zero => rfl
  | succ e ih =>
    rw [Details.SkipSpaces.back, Details.SkipSpaces.back]
    by_cases h : e = s
    · simp only [h, if_true]
    · simp only [h, if_false]
      rw [getD_append_lt l x e (by omega), ih (by omega)]

theorem SkipSpaces_front_bound (buf : Bytes) (e fuel s : Nat) (hs : s ≤ e) :
    s ≤ Details.SkipSpaces.front buf e fuel s ∧ Details.SkipSpaces.front buf e fuel s ≤ e := by
  induction fuel generalizing s with
  | zero => exact ⟨le_refl _, hs⟩
  | succ fuel ih =>
    rw [Details.SkipSpaces.front]
    by_cases h : s = e
    · simp only [h, if_true, le_refl, and_self]
    · simp only [h, if_false]
      split
      · exact ⟨le_refl _, hs⟩
      · have := ih (s + 1) (by omega)
        omega

theorem SkipSpaces_back_bound (buf : Bytes) (s e e' : Nat)
    (h : Details.SkipSpaces.back buf s e = .ok e') : e' ≤ e := by
  induction e with
  | zero => simp [Details.SkipSpaces.back] at h
  | succ e ih =>
    rw [Details.SkipSpaces.back] at h
    split at h
    · simp only [Except.ok.injEq] at h; omega
    · dsimp only at h
      split at h
      · simp only [Except.ok.injEq] at h; omega
      · have := ih h
        omega

theorem SkipSpaces_local (l x : Bytes) (s e : Nat) (he : e ≤ l.length) :
    Details.SkipSpaces (l ++ x) s e = Details.SkipSpaces l s e := by
  rw [Details.SkipSpaces, Details.SkipSpaces]
  by_cases h : e < s
  · simp only [h, true_or, if_true]
  · have h1 : ¬ (e < s ∨ (l ++ x).length < e) := by
      simp only [List.length_append]; omega
    have h2 : ¬ (e < s ∨ l.length < e) := by omega
    simp only [h1, h2, if_false]
    rw [SkipSpaces_front_local l x e _ s he (by omega), SkipSpaces_back_local l x _ e he]

theorem SkipSpaces_bound (buf : Bytes) (s e s' e' : Nat)
    (h : Details.SkipSpaces buf s e = .ok (s', e')) : s' ≤ e ∧ e' ≤ e := by
  rw [Details.SkipSpaces] at h
  split at h
  · simp at h
  · rename_i hc
    dsimp only at h
    split at h
    · simp at h
    · rename_i e2 hb
      simp only [Except.ok.injEq, Prod.mk.injEq] at h
      obtain ⟨rfl, rfl⟩ := h
      exact ⟨(SkipSpaces_front_bound buf e (e - s) s (by omega)).2, SkipSpaces_back_bound _ _ _ _ hb⟩

theorem take_drop_append_local (l x : Bytes) (ss k : Nat) (h : ss + k ≤ l.length) :
    ((l ++ x).drop ss).take k = (l.drop ss).take k := by
  rw [List.drop_append_of_le_length (by omega), List.take_append_of_le_length]
  simp only [List.length_drop]
  omega

theorem ParseString_first_local (l x : Bytes) (e fuel b : Nat) (he : Bool)
    (hel : e ≤ l.length) (hb : b ≤ e) :
    Details.ParseString.first (l ++ x) e fuel b he = Details.ParseString.first l e fuel b he := by
  induction fuel generalizing b he with
  | zero => rfl
  | succ fuel ih =>
    rw [Details.ParseString.first, Details.ParseString.first]
    by_cases h : b = e
    · simp only [h, if_true]
    · simp only [h, if_false]
      rw [getD_append_lt l x b (by omega), ih (b + 1) false (by omega),
        ih (b + 1) true (by omega), ih (b + 1) he (by omega)]

theorem ParseString_first_start (buf : Bytes) (e fuel b : Nat) (he : Bool) (b1 ss : Nat)
    (he1 : Bool) (h : Details.ParseString.first buf e fuel b he = (b1, he1, some ss)) :
    ss = b1 := by
  induction fuel generalizing b he with
  | zero => simp [Details.ParseString.first] at h
  | succ fuel ih =>
    rw [Details.ParseString.first] at h
    split at h
    · simp at h
    · dsimp only at h
      split at h
      · exact ih _ _ h
      · split at h
        · exact ih _ _ h
        · split at h
          · simp only [Prod.mk.injEq, Option.some.injEq] at h
            omega
          · exact ih _ _ h

theorem ParseString_second_local (l x : Bytes) (e ss : Nat) (str : Bytes) (fuel b : Nat)
    (he : Bool) (hel : e ≤ l.length) (hs : ss ≤ b) :
    Details.ParseString.second (l ++ x) e ss str fuel b he
      = Details.ParseString.second l e ss str fuel b he := by
  induction fuel generalizing b he with
  | zero => rfl
  | succ fuel ih =>
    rw [Details.ParseString.second, Details.ParseString.second]
    by_cases h1 : b = e
    · simp only [h1, if_true]
    · by_cases h2 : e < b
      · simp only [h1, h2, if_false, if_true]
      · simp only [h1, h2, if_false]
        rw [getD_append_lt l x b (by omega), ih (b + 1) true (by omega),
          ih (b + 1) false (by omega), ih (b + 1) he (by omega), ih (b + 1 + 1) he (by omega),
          ih (b + 1 + 2) he (by omega), ih (b + 1 + 3) he (by omega),
          take_drop_append_local l x ss (b + 1 - 1 - ss) (by omega)]

theorem ParseString_local (l x : Bytes) (b e : Nat) (str : Bytes) (hel : e ≤ l.length) :
    Details.ParseString (l ++ x) b e str = Details.ParseString l b e str := by
  rw [Details.ParseString, Details.ParseString]
  by_cases h : e < b
  · simp only [h, true_or, if_true]
  · have h1 : ¬ (e < b ∨ (l ++ x).length < e) := by
      simp only [List.length_append]; omega
    have h2 : ¬ (e < b ∨ l.length < e) := by omega
    simp only [h1, h2, if_false]
    rw [ParseString_first_local l x e _ b false hel (by omega)]
    cases hf : Details.ParseString.first l e (e - b) b false with
    | mk b1 r =>
      obtain ⟨he1, oss⟩ := r
      cases oss with
      | none => rfl
      | some ss =>
        have := ParseString_first_start l e _ b false b1 ss he1 hf
        simp only []
        rw [ParseString_second_local l x e ss str _ b1 he1 hel (by omega)]

/-- A byte compared with a quote or a brace reads the same in `l ++ x` and in `l`
up to the end of `l`, where the first yields a CR or LF and the second the
terminating NUL. -/
theorem getD_eq_iff_local (l x : Bytes) (i v : Nat) (hi : i ≤ l.length)
    (hx : ∀ b ∈ x, b = 10 ∨ b = 13) (hv : v ≠ 10 ∧ v ≠ 13 ∧ v ≠ 0) :
    (l ++ x).getD i 0 = v ↔ l.getD i 0 = v := by
  rcases Nat.lt_or_ge i l.length with h | h
  · rw [getD_append_lt l x i h]
  · have hil : i = l.length := by omega
    subst hil
    have h1 : l.getD l.length 0 = 0 := by
      rw [List.getD_eq_default _ _ (le_refl _)]
    rw [h1]
    cases x with
    | nil =>
      simp only [List.append_nil, h1]
    | cons a x =>
      rw [getD_append_at]
      have := hx a (List.mem_cons_self _ _)
      constructor
      · intro h2; omega
      · intro h2; omega

/-- The body of the loop of `_ParseTextObject` on the window from `s` to `e` reads
a buffer `l ++ x` that ends with CR and LF bytes as it reads `l`, as long as the
window lies within `l`. -/
theorem ParseTextObject_line_local (I : Impl) (l x : Bytes) (ln : Nat) (c : ValveCollection)
    (io : Bool) (nm : Bytes) (s e : Nat) (he : e ≤ l.length) (hs : s ≤ l.length)
    (hx : ∀ b ∈ x, b = 10 ∨ b = 13) :
    _ParseTextObject.line I (l ++ x) ln c io nm s e = _ParseTextObject.line I l ln c io nm s e := by
  unfold _ParseTextObject.line
  simp only [ne_eq, getD_eq_iff_local l x s 125 hs hx (by decide),
    getD_eq_iff_local l x s 123 hs hx (by decide), ParseString_local l x s e nm he,
    SkipSpaces_local l x (s + 1) e he]
  by_cases h1 : s = e
  · simp only [h1, if_true]
  · simp only [h1, if_false]
    by_cases h2 : l.getD s 0 = 125
    · simp only [h2, if_true]
    · simp only [h2, if_false]
      cases io
      · simp only [Bool.not_false, if_true]
        cases hP : Details.ParseString l s e nm with
        | error y => rfl
        | ok q =>
          obtain ⟨err, b, nm'⟩ := q
          simp only []
          by_cases e1 : err = -1
          · simp only [e1, if_true]
          by_cases e2 : err = -2
          · simp only [e2, if_true]
          by_cases e3 : err = -3
          · simp only [e3, if_true]
          simp only [e1, e2, e3, if_false]
          rw [SkipSpaces_local l x b e he]
          cases hS2 : Details.SkipSpaces l b e with
          | error y => rfl
          | ok p2 =>
            obtain ⟨s2, e2'⟩ := p2
            obtain ⟨hb1, hb2⟩ := SkipSpaces_bound l b e s2 e2' hS2
            simp only [getD_eq_iff_local l x s2 34 (by omega) hx (by decide),
              ParseString_local l x s2 e2' [] (by omega)]
            by_cases h3 : l.getD s2 0 = 34
            · simp only [h3, if_true]
              cases hP2 : Details.ParseString l s2 e2' [] with
              | error y => rfl
              | ok q2 =>
                obtain ⟨err2, b2, tmp⟩ := q2
                simp only []
                by_cases f1 : err2 = -1
                · simp only [f1, if_true]
                by_cases f2 : err2 = -2
                · simp only [f2, if_true]
                by_cases f3 : err2 = -3
                · simp only [f3, if_true]
                simp only [f1, f2, f3, if_false]
                rw [SkipSpaces_local l x b2 e2' (by omega)]
            · simp only [h3, if_false]
      · simp only [Bool.not_true, Bool.false_eq_true, if_false]

/-- The body of the loop of the text branch of `ParseObject`, likewise. -/
theorem ParseObject_text_line_local (l x : Bytes) (ln : Nat) (nm : Bytes) (s e : Nat)
    (he : e ≤ l.length) (hs : s ≤ l.length) (hx : ∀ b ∈ x, b = 10 ∨ b = 13) :
    ParseObject.text_line (l ++ x) ln nm s e = ParseObject.text_line l ln nm s e := by
  unfold ParseObject.text_line
  simp only [ne_eq, getD_eq_iff_local l x s 123 hs hx (by decide),
    ParseString_local l x s e nm he, SkipSpaces_local l x (s + 1) e he]
  by_cases h1 : s = e
  · simp only [h1, if_true]
  · simp only [h1, if_false]
    cases hie : nm.isEmpty
    · simp only [Bool.false_eq_true, if_false]
    · simp only [if_true]
      cases hP : Details.ParseString l s e nm with
      | error y => rfl
      | ok q =>
        obtain ⟨err, b, nm'⟩ := q
        simp only []
        by_cases e1 : err = -1
        · simp only [e1, if_true]
        by_cases e2 : err = -2
        · simp only [e2, if_true]
        by_cases e3 : err = -3
        · simp only [e3, if_true]
        simp only [e1, e2, e3, if_false]
        rw [SkipSpaces_local l x b e he]

theorem is_eol_cases (eol : Bytes) (h : is_eol eol = true) :
    eol = [10] ∨ eol = [13] ∨ eol = [13, 10] := by
  simp only [is_eol, Bool.or_eq_true, beq_iff_eq] at h
  rcases h with (h | h) | h
  · exact Or.inl h
  · exact Or.inr (Or.inl h)
  · exact Or.inr (Or.inr h)

theorem lines_ok_cons (l : Bytes) (ls : List Bytes) :
    lines_ok (l :: ls) = true ↔ (10 ∉ l ∧ 13 ∉ l) ∧ lines_ok ls = true := by
  simp only [lines_ok, List.all_cons, Bool.and_eq_true, List.all_eq_true, decide_eq_true_eq]
  constructor
  · rintro ⟨h1, h2⟩
    exact ⟨⟨fun h => (h1 10 h).1 rfl, fun h => (h1 13 h).2 rfl⟩, h2⟩
  · rintro ⟨⟨h1, h2⟩, h3⟩
    exact ⟨fun b hb => ⟨fun h => h1 (h ▸ hb), fun h => h2 (h ▸ hb)⟩, h3⟩

theorem SkipSpaces_front_eol (l : Bytes) (a : Nat) (x : Bytes) (E fuel fuel' s : Nat)
    (ha : a = 10 ∨ a = 13) (hE : l.length < E) (hs : s ≤ l.length) (hf : l.length - s < fuel)
    (hf' : l.length - s ≤ fuel') :
    Details.SkipSpaces.front (l ++ a :: x) E fuel s
      = Details.SkipSpaces.front l l.length fuel' s := by
  induction fuel generalizing s fuel' with
  | zero => omega
  | succ fuel ih =>
    rw [Details.SkipSpaces.front]
    have h1 : s ≠ E := by omega
    simp only [h1, if_false]
    rcases Nat.lt_or_ge s l.length with h | h
    · obtain ⟨g, rfl⟩ : ∃ g, fuel' = g + 1 := ⟨fuel' - 1, by omega⟩
      rw [Details.SkipSpaces.front]
      have h2 : s ≠ l.length := by omega
      simp only [h2, if_false]
      rw [getD_append_lt l (a :: x) s h, ih g (s + 1) (by omega) (by omega) (by omega)]
    · have hsl : s = l.length := by omega
      subst hsl
      rw [getD_append_at, SkipSpaces_front_end]
      have : a ≠ 32 ∧ a ≠ 9 := by omega
      simp only [ne_eq, this, not_false_eq_true, and_self, if_true]

theorem SkipSpaces_back_at (l : Bytes) (p : Nat) (hp : p < l.length) (h10 : 10 ∉ l)
    (h13 : 13 ∉ l) (x : Bytes) :
    Details.SkipSpaces.back (l ++ x) p l.length = .ok l.length := by
  apply SkipSpaces_back_stop _ _ _ (by omega)
  rw [getD_append_lt l x _ (by omega)]
  exact getD_not_eol l _ (by omega) h10 h13

theorem SkipSpaces_back_eol (l eol : Bytes) (p : Nat) (heol : is_eol eol = true)
    (hp : p ≤ l.length) (h10 : 10 ∉ l) (h13 : 13 ∉ l) :
    Details.SkipSpaces.back (l ++ eol) p (l ++ eol).length
      = .ok (if p < l.length then l.length else l.length + 1) := by
  have one : ∀ (a : Nat) (x : Bytes), (a = 10 ∨ a = 13) →
      Details.SkipSpaces.back (l ++ a :: x) p (l.length + 1)
        = .ok (if p < l.length then l.length else l.length + 1) := by
    intro a x ha
    rw [Details.SkipSpaces.back]
    by_cases h : l.length = p
    · subst h
      simp only [if_true, lt_self_iff_false, if_false]
    · have hlt : p < l.length := by omega
      simp only [h, if_false, getD_append_at, hlt, if_true]
      have : ¬ (a ≠ 10 ∧ a ≠ 13) := by omega
      simp only [this, if_false]
      exact SkipSpaces_back_at l p hlt h10 h13 _
  rcases is_eol_cases eol heol with rfl | rfl | rfl
  · simpa using one 10 [] (Or.inl rfl)
  · simpa using one 13 [] (Or.inr rfl)
  · have hlen : (l ++ [13, 10]).length = l.length + 1 + 1 := by simp
    rw [hlen, Details.SkipSpaces.back]
    have h1 : l.length + 1 ≠ p := by omega
    have h2 : (l ++ [13, 10]).getD (l.length + 1) 0 = 10 := by
      have := getD_append_at (l ++ [13]) [] 10 0
      simpa using this
    simp only [h1, if_false, h2, ne_eq, not_true_eq_false, false_and]
    exact one 13 [10] (Or.inr rfl)

/-- Trimming a whole line `l ++ eol`: the start stops at the first byte of `l` that
is not blank, the end at the end of `l`, or, on a line of blanks only, one byte
behind it. -/
theorem SkipSpaces_whole_line (l eol : Bytes) (heol : is_eol eol = true) (h10 : 10 ∉ l)
    (h13 : 13 ∉ l) :
    Details.SkipSpaces (l ++ eol) 0 (l ++ eol).length
      = .ok (Details.SkipSpaces.front l l.length l.length 0,
          if Details.SkipSpaces.front l l.length l.length 0 < l.length then l.length
          else l.length + 1) := by
  obtain ⟨a, x, hax, ha⟩ : ∃ a x, eol = a :: x ∧ (a = 10 ∨ a = 13) := by
    rcases is_eol_cases eol heol with rfl | rfl | rfl
    · exact ⟨10, [], rfl, Or.inl rfl⟩
    · exact ⟨13, [], rfl, Or.inr rfl⟩
    · exact ⟨13, [10], rfl, Or.inr rfl⟩
  have hlen : l.length < (l ++ eol).length := by rw [hax]; simp
  have hf := SkipSpaces_front_eol l a x (l ++ eol).length ((l ++ eol).length - 0) l.length 0 ha
    hlen (Nat.zero_le _) (by omega) (by omega)
  rw [← hax] at hf
  have hb := SkipSpaces_back_eol l eol (Details.SkipSpaces.front l l.length l.length 0) heol
    (SkipSpaces_front_bound l l.length l.length 0 (Nat.zero_le _)).2 h10 h13
  rw [Details.SkipSpaces]
  simp only [Nat.not_lt_zero, lt_self_iff_false, or_self, if_false, hf, hb]

theorem ParseString_blank (l : Bytes) (a : Nat) (x nm : Bytes) (ha : a = 10 ∨ a = 13) :
    Details.ParseString (l ++ a :: x) l.length (l.length + 1) nm
      = .ok (-1, l.length + 1, nm) := by
  rw [Details.ParseString]
  have h1 : ¬ (l.length + 1 < l.length ∨ (l ++ a :: x).length < l.length + 1) := by
    simp only [List.length_append, List.length_cons]; omega
  have h2 : l.length + 1 - l.length = 0 + 1 := by omega
  simp only [h1, if_false, h2]
  rw [Details.ParseString.first]
  have h3 : l.length ≠ l.length + 1 := by omega
  have h4 : a ≠ 92 := by omega
  have h5 : a ≠ 34 := by omega
  simp only [h3, if_false, getD_append_at, Bool.false_eq_true, h4, h5, Details.ParseString.first]

theorem line_blank (I : Impl) (l : Bytes) (a : Nat) (x : Bytes) (ln : Nat) (c : ValveCollection)
    (io : Bool) (nm : Bytes) (ha : a = 10 ∨ a = 13) :
    _ParseTextObject.line I (l ++ a :: x) ln c io nm l.length (l.length + 1)
      = if io then .throw (at_line "Expected object start at line " ln)
        else .throw (at_line "Expected item key start at line " ln) := by
  unfold _ParseTextObject.line
  have h3 : l.length ≠ l.length + 1 := by omega
  have h4 : a ≠ 125 := by omega
  have h5 : a ≠ 123 := by omega
  cases io
  · simp only [h3, if_false, getD_append_at, h4, Bool.not_false, if_true,
      ParseString_blank l a x nm ha, Bool.false_eq_true]
  · simp only [h3, if_false, getD_append_at, h4, Bool.not_true, Bool.false_eq_true, ne_eq, h5,
      not_false_eq_true, if_true]

theorem text_line_blank (l : Bytes) (a : Nat) (x : Bytes) (ln : Nat) (nm : Bytes)
    (ha : a = 10 ∨ a = 13) :
    ParseObject.text_line (l ++ a :: x) ln nm l.length (l.length + 1)
      = if nm.isEmpty then .throw (at_line "Expected object key start at line " ln)
        else .throw (at_line "Expected object start at line " ln) := by
  unfold ParseObject.text_line
  have h3 : l.length ≠ l.length + 1 := by omega
  have h5 : a ≠ 123 := by omega
  cases hie : nm.isEmpty
  · simp only [h3, if_false, getD_append_at, Bool.false_eq_true, ne_eq, h5,
      not_false_eq_true, if_true]
  · simp only [h3, if_false, if_true, ParseString_blank l a x nm ha]

theorem eol_bytes (eol : Bytes) (heol : is_eol eol = true) :
    (∃ a x, eol = a :: x ∧ (a = 10 ∨ a = 13)) ∧ ∀ b ∈ eol, b = 10 ∨ b = 13 := by
  rcases is_eol_cases eol heol with rfl | rfl | rfl
  · exact ⟨⟨10, [], rfl, Or.inl rfl⟩, by simp⟩
  · exact ⟨⟨13, [], rfl, Or.inr rfl⟩, by simp⟩
  · exact ⟨⟨13, [10], rfl, Or.inr rfl⟩, by simp⟩

/-- One line gives the same trimmed window and the same loop bodies whatever ends
it. -/
theorem line_eol_independent (I : Impl) (l eol1 eol2 : Bytes) (h1 : is_eol eol1 = true)
    (h2 : is_eol eol2 = true) (h10 : 10 ∉ l) (h13 : 13 ∉ l) :
    ∃ s e, Details.SkipSpaces (l ++ eol1) 0 (l ++ eol1).length = .ok (s, e)
      ∧ Details.SkipSpaces (l ++ eol2) 0 (l ++ eol2).length = .ok (s, e)
      ∧ (∀ ln c io nm, _ParseTextObject.line I (l ++ eol1) ln c io nm s e
          = _ParseTextObject.line I (l ++ eol2) ln c io nm s e)
      ∧ (∀ ln nm, ParseObject.text_line (l ++ eol1) ln nm s e
          = ParseObject.text_line (l ++ eol2) ln nm s e) := by
  refine ⟨_, _, SkipSpaces_whole_line l eol1 h1 h10 h13, SkipSpaces_whole_line l eol2 h2 h10 h13,
    ?_, ?_⟩
  · intro ln c io nm
    have hp := (SkipSpaces_front_bound l l.length l.length 0 (Nat.zero_le _)).2
    by_cases hlt : Details.SkipSpaces.front l l.length l.length 0 < l.length
    · simp only [hlt, if_true]
      rw [ParseTextObject_line_local I l eol1 ln c io nm _ _ (le_refl _) hp (eol_bytes eol1 h1).2,
        ParseTextObject_line_local I l eol2 ln c io nm _ _ (le_refl _) hp (eol_bytes eol2 h2).2]
    · have hpe : Details.SkipSpaces.front l l.length l.length 0 = l.length := by omega
      simp only [hpe, lt_self_iff_false, if_false]
      obtain ⟨⟨a1, x1, rfl, ha1⟩, -⟩ := eol_bytes eol1 h1
      obtain ⟨⟨a2, x2, rfl, ha2⟩, -⟩ := eol_bytes eol2 h2
      rw [line_blank I l a1 x1 ln c io nm ha1, line_blank I l a2 x2 ln c io nm ha2]
  · intro ln nm
    have hp := (SkipSpaces_front_bound l l.length l.length 0 (Nat.zero_le _)).2
    by_cases hlt : Details.SkipSpaces.front l l.length l.length 0 < l.length
    · simp only [hlt, if_true]
      rw [ParseObject_text_line_local l eol1 ln nm _ _ (le_refl _) hp (eol_bytes eol1 h1).2,
        ParseObject_text_line_local l eol2 ln nm _ _ (le_refl _) hp (eol_bytes eol2 h2).2]
    · have hpe : Details.SkipSpaces.front l l.length l.length 0 = l.length := by omega
      simp only [hpe, lt_self_iff_false, if_false]
      obtain ⟨⟨a1, x1, rfl, ha1⟩, -⟩ := eol_bytes eol1 h1
      obtain ⟨⟨a2, x2, rfl, ha2⟩, -⟩ := eol_bytes eol2 h2
      rw [text_line_blank l a1 x1 ln nm ha1, text_line_blank l a2 x2 ln nm ha2]

theorem getline_loop_eol (l eol R buffer : Bytes) (heol : is_eol eol = true) (h10 : 10 ∉ l)
    (h13 : 13 ∉ l) (hR : eol = [13] → R.head? ≠ some 10) :
    Details.getline.loop (l ++ eol ++ R) buffer = (buffer ++ l ++ eol, ⟨R, false⟩) := by
  induction l generalizing buffer with
  | nil =>
    rcases is_eol_cases eol heol with rfl | rfl | rfl
    · rw [Details.getline.loop.eq_def]
      simp [Details.is_cr, Details.is_lf]
    · rw [Details.getline.loop.eq_def]
      cases R with
      | nil => simp [Details.is_cr, Details.is_lf]
      | cons r R =>
        have : r ≠ 10 := by
          intro h; apply hR rfl; simp [h]
        simp [Details.is_cr, Details.is_lf, this]
    · rw [Details.getline.loop.eq_def]
      simp [Details.is_cr, Details.is_lf]
  | cons c l ih =>
    have hc10 : c ≠ 10 := fun h => h10 (by simp [h])
    have hc13 : c ≠ 13 := fun h => h13 (by simp [h])
    rw [List.cons_append, List.cons_append, Details.getline.loop.eq_def]
    simp only [Details.is_cr, Details.is_lf, beq_iff_eq, hc10, hc13, if_false]
    rw [ih _ (fun h => h10 (List.mem_cons_of_mem _ h)) (fun h => h13 (List.mem_cons_of_mem _ h))]
    simp

theorem head_terminate_lines (eol : Bytes) (ls : List Bytes) (heol : is_eol eol = true)
    (hls : lines_ok ls = true) (h13 : eol = [13]) :
    (terminate_lines eol ls).head? ≠ some 10 := by
  subst h13
  cases ls with
  | nil => simp [terminate_lines]
  | cons l ls =>
    obtain ⟨⟨h10, -⟩, -⟩ := (lines_ok_cons l ls).1 hls
    cases l with
    | nil => simp [terminate_lines]
    | cons a l =>
      simp only [terminate_lines, List.cons_append, List.head?_cons, ne_eq, Option.some.injEq]
      intro h
      exact h10 (by simp [h])

theorem getline_terminate_lines (l eol : Bytes) (ls : List Bytes) (heol : is_eol eol = true)
    (hls : lines_ok (l :: ls) = true) :
    Details.getline ⟨terminate_lines eol (l :: ls), false⟩
      = (l ++ eol, ⟨terminate_lines eol ls, false⟩) := by
  obtain ⟨⟨h10, h13⟩, hls'⟩ := (lines_ok_cons l ls).1 hls
  simp only [Details.getline, Bool.false_eq_true, if_false, terminate_lines]
  rw [getline_loop_eol l eol _ [] heol h10 h13 (head_terminate_lines eol ls heol hls')]
  simp

theorem text_results_agree_mono {α : Type} (eol1 eol2 : Bytes) (n m : Nat) (hnm : n ≤ m)
    (r1 r2 : Except Exn (α × istream × Nat)) (h : text_results_agree eol1 eol2 n r1 r2) :
    text_results_agree eol1 eol2 m r1 r2 := by
  rcases h with h | ⟨a, ln, ls, fl, h1, h2, h3, h4⟩
  · exact Or.inl h
  · exact Or.inr ⟨a, ln, ls, fl, by omega, h2, h3, h4⟩

/-- The loop of `_ParseTextObject` on the same lines terminated in two ways: the
results agree. -/
theorem text_loop_eol (I : Impl) (eol1 eol2 : Bytes) (h1 : is_eol eol1 = true)
    (h2 : is_eol eol2 = true) (n : Nat) :
    ∀ (ls : List Bytes), ls.length ≤ n → lines_ok ls = true → ∀ (fl : Bool) (f1 f2 : Nat),
      2 * ls.length + 1 ≤ f1 → 2 * ls.length + 1 ≤ f2 →
      ∀ (ln : Nat) (c : ValveCollection) (io : Bool) (nm : Bytes),
        text_results_agree eol1 eol2 ls.length
          (_ParseTextObject.loop I f1 ⟨terminate_lines eol1 ls, fl⟩ ln c io nm)
          (_ParseTextObject.loop I f2 ⟨terminate_lines eol2 ls, fl⟩ ln c io nm) := by
  induction n with
  | zero =>
    intro ls hn hls fl f1 f2 hf1 hf2 ln c io nm
    have hnil : ls = [] := List.length_eq_zero.1 (by omega)
    subst hnil
    obtain ⟨g1, rfl⟩ : ∃ g, f1 = g + 1 := ⟨f1 - 1, by omega⟩
    obtain ⟨g2, rfl⟩ : ∃ g, f2 = g + 1 := ⟨f2 - 1, by omega⟩
    rw [text_loop_eq_line, text_loop_eq_line]
    cases fl
    · refine Or.inr ⟨c, ln, [], true, le_refl _, rfl, ?_, ?_⟩ <;>
        simp [terminate_lines, Details.getline, Details.getline.loop]
    · refine Or.inr ⟨c, ln, [], true, le_refl _, rfl, ?_, ?_⟩ <;>
        simp [terminate_lines, Details.getline]
  | succ n ih =>
    intro ls hn hls fl f1 f2 hf1 hf2 ln c io nm
    obtain ⟨g1, rfl⟩ : ∃ g, f1 = g + 1 := ⟨f1 - 1, by omega⟩
    obtain ⟨g2, rfl⟩ : ∃ g, f2 = g + 1 := ⟨f2 - 1, by omega⟩
    rw [text_loop_eq_line, text_loop_eq_line]
    cases fl
    · cases ls with
      | nil =>
        refine Or.inr ⟨c, ln, [], true, le_refl _, rfl, ?_, ?_⟩ <;>
          simp [terminate_lines, Details.getline, Details.getline.loop]
      | cons l ls2 =>
        obtain ⟨⟨h10, h13⟩, hls2⟩ := (lines_ok_cons l ls2).1 hls
        simp only [List.length_cons] at hn hf1 hf2 ⊢
        rw [getline_terminate_lines l eol1 ls2 h1 hls, getline_terminate_lines l eol2 ls2 h2 hls]
        obtain ⟨s, e, hs1, hs2, hline, -⟩ := line_eol_independent I l eol1 eol2 h1 h2 h10 h13
        simp only [Bool.false_eq_true, if_false, hs1, hs2]
        rw [← hline]
        cases hA : _ParseTextObject.line I (l ++ eol1) ((ln + 1) % 2 ^ 32) c io nm s e with
        | throw x => exact Or.inl ⟨x, rfl, rfl⟩
        | stop =>
          exact Or.inr ⟨c, (ln + 1) % 2 ^ 32, ls2, false, by omega, hls2, rfl, rfl⟩
        | next c' io' nm' =>
          exact text_results_agree_mono _ _ _ _ (by omega) _ _
            (ih ls2 (by omega) hls2 false g1 g2 (by omega) (by omega) _ c' io' nm')
        | descend nm' =>
          simp only []
          obtain ⟨k1, rfl⟩ : ∃ g, g1 = g + 1 := ⟨g1 - 1, by omega⟩
          obtain ⟨k2, rfl⟩ : ∃ g, g2 = g + 1 := ⟨g2 - 1, by omega⟩
          rw [_ParseTextObject, _ParseTextObject]
          rcases ih ls2 (by omega) hls2 false k1 k2 (by omega) (by omega) ((ln + 1) % 2 ^ 32) []
              false [] with ⟨x, hx1, hx2⟩ | ⟨c2, ln2, ls3, fl3, hl3, hls3, hr1, hr2⟩
          · rw [hx1, hx2]
            exact Or.inl ⟨x, rfl, rfl⟩
          · rw [hr1, hr2]
            simp only []
            exact text_results_agree_mono _ _ _ _ (by omega) _ _
              (ih ls3 (by omega) hls3 fl3 (k1 + 1) (k2 + 1) (by omega) (by omega) ln2 _ false [])
    · refine Or.inr ⟨c, ln, ls, true, le_refl _, hls, ?_, ?_⟩ <;> simp [Details.getline]

/-- The function `_ParseTextObject` on the same lines terminated in two ways: the
results agree. -/
theorem ParseTextObject_eol (I : Impl) (eol1 eol2 : Bytes) (h1 : is_eol eol1 = true)
    (h2 : is_eol eol2 = true) (ls : List Bytes) (hls : lines_ok ls = true) (fl : Bool)
    (f1 f2 : Nat) (hf1 : 2 * ls.length + 2 ≤ f1) (hf2 : 2 * ls.length + 2 ≤ f2)
    (nm : Bytes) (ln : Nat) :
    text_results_agree eol1 eol2 ls.length
      (_ParseTextObject I f1 ⟨terminate_lines eol1 ls, fl⟩ nm ln)
      (_ParseTextObject I f2 ⟨terminate_lines eol2 ls, fl⟩ nm ln) := by
  obtain ⟨g1, rfl⟩ : ∃ g, f1 = g + 1 := ⟨f1 - 1, by omega⟩
  obtain ⟨g2, rfl⟩ : ∃ g, f2 = g + 1 := ⟨f2 - 1, by omega⟩
  rw [_ParseTextObject, _ParseTextObject]
  rcases text_loop_eol I eol1 eol2 h1 h2 ls.length ls (le_refl _) hls fl g1 g2 (by omega)
      (by omega) ln [] false [] with ⟨x, hx1, hx2⟩ | ⟨c2, ln2, ls3, fl3, hl3, hls3, hr1, hr2⟩
  · rw [hx1, hx2]
    exact Or.inl ⟨x, rfl, rfl⟩
  · rw [hr1, hr2]
    exact Or.inr ⟨_, ln2, ls3, fl3, hl3, hls3, rfl, rfl⟩

theorem length_eol_pos (eol : Bytes) (h : is_eol eol = true) : 1 ≤ eol.length := by
  rcases is_eol_cases eol h with rfl | rfl | rfl <;> simp

theorem length_terminate_lines_ge (eol : Bytes) (h : is_eol eol = true) (ls : List Bytes) :
    ls.length ≤ (terminate_lines eol ls).length := by
  induction ls with
  | nil => simp [terminate_lines]
  | cons l ls ih =>
    have := length_eol_pos eol h
    simp only [terminate_lines, List.length_cons, List.length_append]
    omega

/-- The top-level text loop of `ParseObject` on the same lines terminated in two
ways gives the same result. -/
theorem text_eol (I : Impl) (eol1 eol2 : Bytes) (h1 : is_eol eol1 = true)
    (h2 : is_eol eol2 = true) (n : Nat) :
    ∀ (ls : List Bytes), ls.length ≤ n → lines_ok ls = true → ∀ (fl : Bool) (f1 f2 : Nat),
      ls.length + 1 ≤ f1 → ls.length + 1 ≤ f2 →
      ∀ (ln : Nat) (nm : Bytes) (po : ValveDataObject),
        ParseObject.text I f1 ⟨terminate_lines eol1 ls, fl⟩ ln nm po
          = ParseObject.text I f2 ⟨terminate_lines eol2 ls, fl⟩ ln nm po := by
  induction n with
  | zero =>
    intro ls hn hls fl f1 f2 hf1 hf2 ln nm po
    have hnil : ls = [] := List.length_eq_zero.1 (by omega)
    subst hnil
    obtain ⟨g1, rfl⟩ : ∃ g, f1 = g + 1 := ⟨f1 - 1, by omega⟩
    obtain ⟨g2, rfl⟩ : ∃ g, f2 = g + 1 := ⟨f2 - 1, by omega⟩
    rw [text_eq_line, text_eq_line]
    cases fl <;> simp [terminate_lines, Details.getline, Details.getline.loop]
  | succ n ih =>
    intro ls hn hls fl f1 f2 hf1 hf2 ln nm po
    obtain ⟨g1, rfl⟩ : ∃ g, f1 = g + 1 := ⟨f1 - 1, by omega⟩
    obtain ⟨g2, rfl⟩ : ∃ g, f2 = g + 1 := ⟨f2 - 1, by omega⟩
    rw [text_eq_line, text_eq_line]
    cases fl
    · cases ls with
      | nil => simp [terminate_lines, Details.getline, Details.getline.loop]
      | cons l ls2 =>
        obtain ⟨⟨h10, h13⟩, hls2⟩ := (lines_ok_cons l ls2).1 hls
        simp only [List.length_cons] at hn hf1 hf2
        rw [getline_terminate_lines l eol1 ls2 h1 hls, getline_terminate_lines l eol2 ls2 h2 hls]
        obtain ⟨s, e, hs1, hs2, -, hline⟩ := line_eol_independent I l eol1 eol2 h1 h2 h10 h13
        simp only [Bool.false_eq_true, if_false, hs1, hs2]
        rw [← hline]
        cases hA : ParseObject.text_line (l ++ eol1) ((ln + 1) % 2 ^ 32) nm s e with
        | throw x => rfl
        | stop => rfl
        | next c' io' nm' =>
          exact ih ls2 (by omega) hls2 false g1 g2 (by omega) (by omega) _ nm' po
        | descend nm' =>
          simp only []
          have hl1 := length_terminate_lines_ge eol1 h1 ls2
          have hl2 := length_terminate_lines_ge eol2 h2 ls2
          rcases ParseTextObject_eol I eol1 eol2 h1 h2 ls2 hls2 false
              (2 * (terminate_lines eol1 ls2).length + 2)
              (2 * (terminate_lines eol2 ls2).length + 2) (by omega) (by omega) nm'
              ((ln + 1) % 2 ^ 32) with ⟨x, hx1, hx2⟩ | ⟨o, ln2, ls3, fl3, hl3, hls3, hr1, hr2⟩
          · rw [hx1, hx2]
          · rw [hr1, hr2]
            exact ih ls3 (by omega) hls3 fl3 g1 g2 (by omega) (by omega) ln2 [] o
    · simp [Details.getline]

/-- The three sniffing tests of `ParseObject` that send a document to the text
parser hold for the lines terminated by any line ending when they hold for
the lines terminated by `\n`. -/
theorem sniff_eol (eol : Bytes) (h : is_eol eol = true) (ls : List Bytes)
    (h4 : 4 ≤ (terminate_lines [10] ls).length)
    (hm : (terminate_lines [10] ls).take 4 ≠ BinaryVDFMagic)
    (h0 : (terminate_lines [10] ls).getD 0 0 ≠ 0) :
    ¬ (terminate_lines eol ls).length < 4
      ∧ (terminate_lines eol ls).take 4 ≠ BinaryVDFMagic
      ∧ (terminate_lines eol ls).getD 0 0 ≠ 0 := by
  have hlen : ∀ ls : List Bytes,
      (terminate_lines [10] ls).length ≤ (terminate_lines eol ls).length := by
    intro ls
    induction ls with
    | nil => simp [terminate_lines]
    | cons l ls ih =>
      have := length_eol_pos eol h
      simp only [terminate_lines, List.length_cons, List.length_append, List.length_nil]
      omega
  refine ⟨by have := hlen ls; omega, ?_, ?_⟩
  · cases ls with
    | nil => simp [terminate_lines] at h4
    | cons l ls2 =>
      intro hmag
      by_cases hl : 4 ≤ l.length
      · apply hm
        rw [← hmag]
        simp only [terminate_lines, List.append_assoc]
        rw [List.take_append_of_le_length hl, List.take_append_of_le_length hl]
      · have hget : ((terminate_lines eol (l :: ls2)).take 4).getD l.length 0
            = eol.getD 0 0 := by
          rw [List.getD_eq_getElem?_getD, List.getElem?_take_of_lt (by omega)]
          simp only [terminate_lines, List.append_assoc]
          rw [List.getElem?_append_right (le_refl _)]
          have := length_eol_pos eol h
          rw [Nat.sub_self, List.getElem?_append_left (by omega)]
          rw [List.getD_eq_getElem?_getD]
        rw [hmag] at hget
        have hl4 : l.length < 4 := by omega
        rcases is_eol_cases eol h with rfl | rfl | rfl <;>
          (revert hget; generalize l.length = k at hl4; interval_cases k <;> decide)
  · cases ls with
    | nil => simp [terminate_lines] at h4
    | cons l ls2 =>
      cases l with
      | nil =>
        rcases is_eol_cases eol h with rfl | rfl | rfl <;> simp [terminate_lines]
      | cons b l2 =>
        simpa [terminate_lines] using h0

/-- On lines that `ParseObject` sniffs as text, the documents obtained by
terminating every line with `\r` or with `\r\n` give the same result of the
model as the one terminated with `\n`. -/
theorem ParseObject_eol_eq (I : Impl) (lines : List Bytes) (chunk_size : Nat)
    (hlines : lines_ok lines = true)
    (h4 : 4 ≤ (terminate_lines [10] lines).length)
    (hmagic : (terminate_lines [10] lines).take 4 ≠ BinaryVDFMagic)
    (h0 : (terminate_lines [10] lines).getD 0 0 ≠ 0) :
    ParseObject I (terminate_lines [13] lines) chunk_size
        = ParseObject I (terminate_lines [10] lines) chunk_size
      ∧ ParseObject I (terminate_lines [13, 10] lines) chunk_size
        = ParseObject I (terminate_lines [10] lines) chunk_size := by
  have key : ∀ eol : Bytes, is_eol eol = true →
      ParseObject I (terminate_lines eol lines) chunk_size
        = ParseObject I (terminate_lines [10] lines) chunk_size := by
    intro eol heol
    have hlf : is_eol [10] = true := by decide
    obtain ⟨a1, a2, a3⟩ := sniff_eol eol heol lines h4 hmagic h0
    obtain ⟨b1, b2, b3⟩ := sniff_eol [10] hlf lines h4 hmagic h0
    unfold ParseObject
    rw [if_neg a1, if_neg a2, if_neg a3, if_neg b1, if_neg b2, if_neg b3]
    exact text_eol I eol [10] heol hlf lines.length lines (le_refl _) hlines false _ _
      (by have := length_terminate_lines_ge eol heol lines; omega)
      (by have := length_terminate_lines_ge [10] hlf lines; omega) 0 [] _
  exact ⟨key [13] (by decide), key [13, 10] (by decide)⟩

/-! ## The name-hash invariant -/

theorem hash_in_sync_items_append (I : Impl) (c1 c2 : List ValveDataObject) :
    ValveDataObject.hash_in_sync.items I (c1 ++ c2)
      = (ValveDataObject.hash_in_sync.items I c1 && ValveDataObject.hash_in_sync.items I c2) := by
  induction c1 with
  | nil => simp [ValveDataObject.hash_in_sync.items]
  | cons x c1 ih => simp [ValveDataObject.hash_in_sync.items, ih, Bool.and_assoc]

theorem hash_in_sync_mk (I : Impl) (n : Bytes) (c : List ValveDataObject) :
    ValveDataObject.hash_in_sync I (.mk n (I.hash n) (._Collection c) .Object)
      = ValveDataObject.hash_in_sync.items I c := by
  simp [ValveDataObject.hash_in_sync]

/-- A successful copy is equal to the original. -/
theorem copy_eq (t : ValveDataObject) : ∀ o, t.copy = .ok o → o = t := by
  induction t using ValveDataObject.induction_on with
  | _ name hash u ty ih =>
    intro o h
    have hitems : ∀ c : List ValveDataObject, (∀ x ∈ c, ∀ o, x.copy = .ok o → o = x) →
        ∀ c2, ValveDataObject.copy.items c = .ok c2 → c2 = c := by
      intro c
      induction c with
      | nil => intro _ c2 h; simp [ValveDataObject.copy.items] at h; exact h
      | cons x c ihc =>
        intro hx c2 h
        rw [ValveDataObject.copy.items] at h
        cases hcx : x.copy with
        | error e => rw [hcx] at h; cases h
        | ok x2 =>
          rw [hcx] at h
          cases hcc : ValveDataObject.copy.items c with
          | error e => rw [hcc] at h; cases h
          | ok c3 =>
            rw [hcc] at h
            simp only [Except.ok.injEq] at h
            rw [← h, hx x (List.mem_cons_self _ _) x2 hcx,
              ihc (fun y hy => hx y (List.mem_cons_of_mem _ hy)) c3 hcc]
    cases ty <;> cases u <;> simp only [ValveDataObject.copy] at h <;>
      first
      | (cases h; done)
      | (simp only [Except.ok.injEq] at h; exact h.symm)
      | skip
    rename_i c
    cases hcc : ValveDataObject.copy.items c with
    | error e => rw [hcc] at h; cases h
    | ok c3 =>
      rw [hcc] at h
      simp only [Except.ok.injEq] at h
      rw [← h, hitems c (ih c rfl) c3 hcc]

theorem hash_in_sync_new_string (I : Impl) (k v : Bytes) :
    (ValveDataObject.new_string I k v).hash_in_sync I = true := by
  simp [ValveDataObject.new_string, ValveDataObject.hash_in_sync]

/-- Case analysis on what one line of `_ParseTextObject` does: the collection of
a `next` is the collection before, with at most one string node appended. -/
theorem line_cases (I : Impl) (buffer : Bytes) (ln : Nat) (c : ValveCollection) (io : Bool)
    (nm : Bytes) (s e : Nat) (P : LineAction → Prop) (h1 : ∀ x, P (.throw x)) (h2 : P .stop)
    (h3 : ∀ nm2, P (.descend nm2)) (h4 : ∀ io2 nm2, P (.next c io2 nm2))
    (h5 : ∀ k v io2 nm2, P (.next (c ++ [ValveDataObject.new_string I k v]) io2 nm2)) :
    P (_ParseTextObject.line I buffer ln c io nm s e) := by
  unfold _ParseTextObject.line
  by_cases c1 : s = e
  · rw [if_pos c1]; apply h4
  rw [if_neg c1]
  by_cases c2 : buffer.getD s 0 = 125
  · rw [if_pos c2]; exact h2
  rw [if_neg c2]
  cases io
  · rw [if_pos (by rfl)]
    cases hS : Details.ParseString buffer s e nm with
    | error x => apply h1
    | ok p =>
      obtain ⟨err, ls, onm⟩ := p
      simp only []
      repeat' split
      all_goals first
        | apply h1
        | apply h4
        | apply h5
  · rw [if_neg (by simp)]
    repeat' split
    all_goals first
      | apply h1
      | apply h3

/-- One line of `_ParseTextObject` keeps the invariant of the collection. -/
theorem line_next_sync (I : Impl) (buffer : Bytes) (ln : Nat) (c : ValveCollection) (io : Bool)
    (nm : Bytes) (s e : Nat) (c2 : ValveCollection) (io2 : Bool) (nm2 : Bytes)
    (h : _ParseTextObject.line I buffer ln c io nm s e = .next c2 io2 nm2)
    (hc : ValveDataObject.hash_in_sync.items I c = true) :
    ValveDataObject.hash_in_sync.items I c2 = true := by
  revert h
  refine line_cases I buffer ln c io nm s e
    (fun a => a = .next c2 io2 nm2 → ValveDataObject.hash_in_sync.items I c2 = true)
    ?_ ?_ ?_ ?_ ?_
  · intro x h; cases h
  · intro h; cases h
  · intro x h; cases h
  · intro _ _ h; cases h; exact hc
  · intro k v _ _ h; cases h
    simp [hash_in_sync_items_append, hc, ValveDataObject.hash_in_sync.items,
      hash_in_sync_new_string]

/-- The loop of `_ParseTextObject` and the function itself keep the invariant. -/
theorem text_loop_sync (I : Impl) : ∀ (f : Nat),
    (∀ is ln c io nm r, ValveDataObject.hash_in_sync.items I c = true →
      _ParseTextObject.loop I f is ln c io nm = .ok r →
      ValveDataObject.hash_in_sync.items I r.1 = true)
    ∧ (∀ is nm ln r, _ParseTextObject I f is nm ln = .ok r →
      ValveDataObject.hash_in_sync I r.1 = true) := by
  intro f
  induction f with
  | zero =>
    constructor
    · intro is ln c io nm r _ h; rw [_ParseTextObject.loop] at h; cases h
    · intro is nm ln r h; rw [_ParseTextObject] at h; cases h
  | succ f ih =>
    constructor
    · intro is ln c io nm r hc h
      rw [text_loop_eq_line] at h
      split at h
      · cases h; exact hc
      · split at h
        · cases h
        · rename_i s e hS
          revert h
          cases hA : _ParseTextObject.line I (Details.getline is).1 ((ln + 1) % 2 ^ 32) c io nm s e with
          | throw x => intro h; cases h
          | stop => intro h; cases h; exact hc
          | next c2 io2 nm2 =>
            intro h
            exact ih.1 _ _ _ _ _ _ (line_next_sync I _ _ _ _ _ _ _ _ _ _ hA hc) h
          | descend nm2 =>
            intro h
            simp only [] at h
            split at h
            · cases h
            · rename_i child is2 ln2 hchild
              refine ih.1 _ _ _ _ _ _ ?_ h
              have := ih.2 _ _ _ _ hchild
              simp [hash_in_sync_items_append, hc, ValveDataObject.hash_in_sync.items, this]
    · intro is nm ln r h
      rw [_ParseTextObject] at h
      split at h
      · cases h
      · rename_i c2 is2 ln2 hl
        cases h
        have := ih.1 _ _ _ _ _ _ (by rfl) hl
        simpa [hash_in_sync_mk] using this

/-- Case analysis on one step of the loop of `_ParseBinaryObject`: it fails,
returns with the collection it has, goes on with the same collection, or goes
on with one more item, which is a leaf or the result of the nested call. -/
theorem binary_loop_cases (I : Impl) (oe : BinaryNodeType) (chunk f : Nat) (is : istream)
    (win : Bytes) (c : ValveCollection) (st : Nat) (pk tr : Bool) (ik tmp : Bytes)
    (P : Except Exn (ValveCollection × istream × Bytes) → Prop)
    (herr : ∀ x, P (.error x))
    (hret : ∀ is2 win2, P (.ok (c, is2, win2)))
    (hsame : ∀ is2 win2 st2 pk2 tr2 ik2 tmp2,
      P (_ParseBinaryObject.loop I oe chunk f is2 win2 c st2 pk2 tr2 ik2 tmp2))
    (hleaf : ∀ is2 win2 st2 x, ValveDataObject.is_leaf I x = true →
      P (_ParseBinaryObject.loop I oe chunk f is2 win2 (c ++ [x]) st2 false false [] []))
    (hchild : ∀ is1 name win1 child is2 win2 st2,
      _ParseBinaryObject I oe chunk f is1 name win1 = .ok (child, is2, win2) →
      P (_ParseBinaryObject.loop I oe chunk f is2 win2 (c ++ [child]) st2 false false [] [])) :
    P (_ParseBinaryObject.loop I oe chunk (f + 1) is win c st pk tr ik tmp) := by
  cases win with
  | nil =>
    rw [_ParseBinaryObject.loop]
    simp only []
    split
    · apply hsame
    · apply hret
  | cons b0 rest =>
    rw [_ParseBinaryObject.loop]
    cases tr
    · rw [if_pos (by rfl)]; apply hsame
    rw [if_neg (by simp)]
    by_cases e1 : st = BinaryNodeType.ObjectEnd.toByte ∨ st = BinaryNodeType.AlternativeEnd.toByte
    · rw [if_pos e1]; apply hret
    rw [if_neg e1]
    cases pk
    · rw [if_pos (by rfl)]
      cases hS : Details.ParseBinaryString I (b0 :: rest) ik with
      | error x => apply herr
      | ok p =>
        obtain ⟨err, w, k⟩ := p
        simp only []
        split
        · apply herr
        · apply hsame
    rw [if_neg (by simp)]
    by_cases s0 : st = BinaryNodeType.Object.toByte
    · rw [if_pos s0]
      cases hC : _ParseBinaryObject I oe chunk f is ik (b0 :: rest) with
      | error x => apply herr
      | ok p =>
        obtain ⟨child, is2, win2⟩ := p
        exact hchild _ _ _ _ _ _ _ hC
    rw [if_neg s0]
    by_cases s1 : st = BinaryNodeType.String.toByte
    · rw [if_pos s1]
      cases hS : Details.ParseBinaryString I (b0 :: rest) tmp with
      | error x => apply herr
      | ok p =>
        obtain ⟨err, w, k⟩ := p
        simp only []
        split
        · apply herr
        · split
          · exact hleaf _ _ _ _ (by simp [ValveDataObject.is_leaf, ValveDataObject.new_string, ValveDataObject.new_int32, ValveDataObject.new_float, ValveDataObject.new_pointer, ValveDataObject.new_color, ValveDataObject.new_int64, ValveDataObject.new_uint64])
          · apply hsame
    rw [if_neg s1]
    by_cases s2 : st = BinaryNodeType.Int32.toByte
    · rw [if_pos s2]
      cases hS : Details.ReadBinaryBytes (b0 :: rest) tmp 4 with
      | error x => apply herr
      | ok p =>
        obtain ⟨w, k⟩ := p
        simp only []
        split
        · exact hleaf _ _ _ _ (by simp [ValveDataObject.is_leaf, ValveDataObject.new_string, ValveDataObject.new_int32, ValveDataObject.new_float, ValveDataObject.new_pointer, ValveDataObject.new_color, ValveDataObject.new_int64, ValveDataObject.new_uint64])
        · apply hsame
    rw [if_neg s2]
    by_cases s3 : st = BinaryNodeType.Float.toByte
    · rw [if_pos s3]
      cases hS : Details.ReadBinaryBytes (b0 :: rest) tmp 4 with
      | error x => apply herr
      | ok p =>
        obtain ⟨w, k⟩ := p
        simp only []
        split
        · exact hleaf _ _ _ _ (by simp [ValveDataObject.is_leaf, ValveDataObject.new_string, ValveDataObject.new_int32, ValveDataObject.new_float, ValveDataObject.new_pointer, ValveDataObject.new_color, ValveDataObject.new_int64, ValveDataObject.new_uint64])
        · apply hsame
    rw [if_neg s3]
    by_cases s4 : st = BinaryNodeType.Pointer.toByte
    · rw [if_pos s4]
      cases hS : Details.ReadBinaryBytes (b0 :: rest) tmp 4 with
      | error x => apply herr
      | ok p =>
        obtain ⟨w, k⟩ := p
        simp only []
        split
        · exact hleaf _ _ _ _ (by simp [ValveDataObject.is_leaf, ValveDataObject.new_string, ValveDataObject.new_int32, ValveDataObject.new_float, ValveDataObject.new_pointer, ValveDataObject.new_color, ValveDataObject.new_int64, ValveDataObject.new_uint64])
        · apply hsame
    rw [if_neg s4]
    by_cases s6 : st = BinaryNodeType.Color.toByte
    · rw [if_pos s6]
      cases hS : Details.ReadBinaryBytes (b0 :: rest) tmp 4 with
      | error x => apply herr
      | ok p =>
        obtain ⟨w, k⟩ := p
        simp only []
        split
        · exact hleaf _ _ _ _ (by simp [ValveDataObject.is_leaf, ValveDataObject.new_string, ValveDataObject.new_int32, ValveDataObject.new_float, ValveDataObject.new_pointer, ValveDataObject.new_color, ValveDataObject.new_int64, ValveDataObject.new_uint64])
        · apply hsame
    rw [if_neg s6]
    by_cases s10 : st = BinaryNodeType.Int64.toByte
    · rw [if_pos s10]
      cases hS : Details.ReadBinaryBytes (b0 :: rest) tmp 8 with
      | error x => apply herr
      | ok p =>
        obtain ⟨w, k⟩ := p
        simp only []
        split
        · exact hleaf _ _ _ _ (by simp [ValveDataObject.is_leaf, ValveDataObject.new_string, ValveDataObject.new_int32, ValveDataObject.new_float, ValveDataObject.new_pointer, ValveDataObject.new_color, ValveDataObject.new_int64, ValveDataObject.new_uint64])
        · apply hsame
    rw [if_neg s10]
    by_cases s7 : st = BinaryNodeType.UInt64.toByte
    · rw [if_pos s7]
      cases hS : Details.ReadBinaryBytes (b0 :: rest) tmp 8 with
      | error x => apply herr
      | ok p =>
        obtain ⟨w, k⟩ := p
        simp only []
        split
        · exact hleaf _ _ _ _ (by simp [ValveDataObject.is_leaf, ValveDataObject.new_string, ValveDataObject.new_int32, ValveDataObject.new_float, ValveDataObject.new_pointer, ValveDataObject.new_color, ValveDataObject.new_int64, ValveDataObject.new_uint64])
        · apply hsame
    rw [if_neg s7]
    apply herr

theorem hash_in_sync_new (I : Impl) : (ValveDataObject.new I).hash_in_sync I = true := by
  simp [ValveDataObject.new, ValveDataObject.hash_in_sync]

theorem hash_in_sync_of_is_leaf (I : Impl) (x : ValveDataObject)
    (h : ValveDataObject.is_leaf I x = true) : x.hash_in_sync I = true := by
  obtain ⟨n, hh, u, t⟩ := x
  cases t <;> cases u <;> simp_all [ValveDataObject.is_leaf, ValveDataObject.hash_in_sync]

/-- The text loop of `ParseObject` keeps the invariant. -/
theorem text_sync (I : Impl) : ∀ (f : Nat) (is : istream) (ln : Nat) (nm : Bytes)
    (po r : ValveDataObject), po.hash_in_sync I = true →
    ParseObject.text I f is ln nm po = .ok r → r.hash_in_sync I = true := by
  intro f
  induction f with
  | zero => intro is ln nm po r _ h; rw [ParseObject.text] at h; cases h
  | succ f ih =>
    intro is ln nm po r hpo h
    rw [text_eq_line] at h
    split at h
    · cases h; exact hpo
    · split at h
      · cases h
      · rename_i s e hS
        revert h
        cases hA : ParseObject.text_line (Details.getline is).1 ((ln + 1) % 2 ^ 32) nm s e with
        | throw x => intro h; cases h
        | stop => intro h; cases h; exact hpo
        | next c2 io2 nm2 => intro h; exact ih _ _ _ _ _ hpo h
        | descend nm2 =>
          intro h
          simp only [] at h
          split at h
          · cases h
          · rename_i o is2 ln2 ho
            exact ih _ _ _ _ _ ((text_loop_sync I _).2 _ _ _ _ ho) h

/-- The loop of `_ParseBinaryObject` and the function itself keep the invariant. -/
theorem binary_loop_sync (I : Impl) (oe : BinaryNodeType) (chunk : Nat) : ∀ (f : Nat),
    (∀ is win c st pk tr ik tmp r, ValveDataObject.hash_in_sync.items I c = true →
      _ParseBinaryObject.loop I oe chunk f is win c st pk tr ik tmp = .ok r →
      ValveDataObject.hash_in_sync.items I r.1 = true)
    ∧ (∀ is nm win r, _ParseBinaryObject I oe chunk f is nm win = .ok r →
      ValveDataObject.hash_in_sync I r.1 = true) := by
  intro f
  induction f with
  | zero =>
    constructor
    · intro is win c st pk tr ik tmp r _ h; rw [_ParseBinaryObject.loop] at h; cases h
    · intro is nm win r h; rw [_ParseBinaryObject] at h; cases h
  | succ f ih =>
    constructor
    · intro is win c st pk tr ik tmp r hc
      refine binary_loop_cases I oe chunk f is win c st pk tr ik tmp
        (fun res => res = .ok r → ValveDataObject.hash_in_sync.items I r.1 = true)
        ?_ ?_ ?_ ?_ ?_
      · intro x h; cases h
      · intro is2 win2 h; cases h; exact hc
      · intro is2 win2 st2 pk2 tr2 ik2 tmp2 h
        exact ih.1 _ _ _ _ _ _ _ _ _ hc h
      · intro is2 win2 st2 x hx h
        refine ih.1 _ _ _ _ _ _ _ _ _ ?_ h
        simp [hash_in_sync_items_append, hc, ValveDataObject.hash_in_sync.items,
          hash_in_sync_of_is_leaf I x hx]
      · intro is1 name win1 child is2 win2 st2 hchild h
        refine ih.1 _ _ _ _ _ _ _ _ _ ?_ h
        have := ih.2 _ _ _ _ hchild
        simp [hash_in_sync_items_append, hc, ValveDataObject.hash_in_sync.items, this]
    · intro is nm win r h
      rw [_ParseBinaryObject] at h
      split at h
      · split at h
        · cases h
        · rename_i c2 is2 win2 hl
          cases h
          have := ih.1 _ _ _ _ _ _ _ _ _ (by rfl) hl
          simpa [hash_in_sync_mk] using this
      · cases h
        simp [hash_in_sync_mk, ValveDataObject.hash_in_sync.items]

/-- The loop of the binary branch of `ParseObject` keeps the invariant. -/
theorem binary_root_sync (I : Impl) (chunk : Nat) (oe : BinaryNodeType) : ∀ (f : Nat)
    (is : istream) (nm : Bytes) (po r : ValveDataObject), po.hash_in_sync I = true →
    ParseObject.binary_loop I chunk oe f is nm po = .ok r → r.hash_in_sync I = true := by
  intro f
  induction f with
  | zero => intro is nm po r _ h; rw [ParseObject.binary_loop] at h; cases h
  | succ f ih =>
    intro is nm po r hpo h
    rw [ParseObject.binary_loop] at h
    simp only [] at h
    split at h
    · split at h
      · cases h
      · split at h
        · cases h
        · split at h
          · split at h
            · cases h
            · rename_i o is2 w2 ho
              exact ih _ _ _ _ ((binary_loop_sync I oe chunk _).2 _ _ _ _ ho) h
          · exact ih _ _ _ _ hpo h
    · cases h; exact hpo

/-- Every node `ParseObject` returns satisfies the invariant. -/
theorem ParseObject_sync (I : Impl) (input : Bytes) (chunk : Nat) (o : ValveDataObject)
    (h : ParseObject I input chunk = .ok o) : o.hash_in_sync I = true := by
  unfold ParseObject at h
  have hbin : ∀ oe is, ParseObject.binary I chunk oe is = .ok o → o.hash_in_sync I = true := by
    intro oe is hb
    unfold ParseObject.binary at hb
    simp only [] at hb
    split at hb
    · cases hb
    · split at hb
      · cases hb
      · exact binary_root_sync I chunk oe _ _ _ _ _ (hash_in_sync_new I) hb
  split at h
  · cases h
  · split at h
    · exact hbin _ _ h
    · split at h
      · exact hbin _ _ h
      · exact text_sync I _ _ _ _ _ _ (hash_in_sync_new I) h

theorem hash_in_sync_swap (I : Impl) (n1 n2 : Bytes) (h1 h2 : Nat)
    (u1 u2 : Payload ValveDataObject) (t1 t2 : ObjectType)
    (ha : ValveDataObject.hash_in_sync I (.mk n1 h1 u1 t1) = true)
    (hb : ValveDataObject.hash_in_sync I (.mk n2 h2 u2 t2) = true) :
    ValveDataObject.hash_in_sync I (.mk n1 h1 u2 t2) = true := by
  unfold ValveDataObject.hash_in_sync at ha hb ⊢
  rw [Bool.and_eq_true] at ha hb ⊢
  exact ⟨ha.1, hb.2⟩

theorem hash_in_sync_scalar (I : Impl) (n : Bytes) (h : Nat) (u1 u2 : Payload ValveDataObject)
    (t1 t2 : ObjectType) (ha : ValveDataObject.hash_in_sync I (.mk n h u1 t1) = true)
    (ht : t2 ≠ .Object) : ValveDataObject.hash_in_sync I (.mk n h u2 t2) = true := by
  unfold ValveDataObject.hash_in_sync at ha ⊢
  rw [Bool.and_eq_true] at ha ⊢
  refine ⟨ha.1, ?_⟩
  cases t2 <;> first | (exact absurd rfl ht) | rfl

/-- C11: the name-hash invariant holds for every node the public interface
builds.  Every constructor returns a node whose stored hash is the hash of its
name (and whose items satisfy the invariant when the argument does); the `Name`
setters, copy and move construction, copy and move assignment and every value
assignment keep it, for both nodes where two are involved; and every node that
`ParseObject` returns, from text or from binary, satisfies it together with
all its descendants. -/
theorem name_hash_invariant (I : Impl) :
    ((ValveDataObject.new I).hash_in_sync I = true
      ∧ (∀ key, (ValveDataObject.new_object I key).hash_in_sync I = true)
      ∧ (∀ key v, (ValveDataObject.new_string I key v).hash_in_sync I = true)
      ∧ (∀ key v, (ValveDataObject.new_int32 I key v).hash_in_sync I = true)
      ∧ (∀ key v, (ValveDataObject.new_float I key v).hash_in_sync I = true)
      ∧ (∀ key v, (ValveDataObject.new_pointer I key v).hash_in_sync I = true)
      ∧ (∀ key v, (ValveDataObject.new_color I key v).hash_in_sync I = true)
      ∧ (∀ key v, (ValveDataObject.new_int64 I key v).hash_in_sync I = true)
      ∧ (∀ key v, (ValveDataObject.new_uint64 I key v).hash_in_sync I = true))
    ∧ (∀ (key : Bytes) (other o : ValveDataObject), other.hash_in_sync I = true →
        ValveDataObject.new_object_copy I key other = .ok o → o.hash_in_sync I = true)
    ∧ (∀ (key : Bytes) (other : ValveDataObject), other.hash_in_sync I = true →
        (ValveDataObject.new_object_move I key other).1.hash_in_sync I = true
        ∧ (ValveDataObject.new_object_move I key other).2.hash_in_sync I = true)
    ∧ (∀ other o : ValveDataObject, other.hash_in_sync I = true → other.copy = .ok o → o.hash_in_sync I = true)
    ∧ (∀ other : ValveDataObject, other.hash_in_sync I = true →
        other.move.1.hash_in_sync I = true ∧ other.move.2.hash_in_sync I = true)
    ∧ (∀ (o : ValveDataObject) (value : Bytes), o.hash_in_sync I = true → (o.set_Name I value).hash_in_sync I = true)
    ∧ (∀ a b : ValveDataObject, a.hash_in_sync I = true → b.hash_in_sync I = true →
        (a.assign_move b).1.hash_in_sync I = true ∧ (a.assign_move b).2.hash_in_sync I = true)
    ∧ (∀ a b o : ValveDataObject, a.hash_in_sync I = true → b.hash_in_sync I = true →
        a.assign_copy b = .ok o → o.hash_in_sync I = true)
    ∧ (∀ o : ValveDataObject, o.hash_in_sync I = true →
        o.assign_nullptr.hash_in_sync I = true
        ∧ (∀ v, (o.assign_string v).hash_in_sync I = true)
        ∧ (∀ v, (o.assign_int32 v).hash_in_sync I = true)
        ∧ (∀ v, (o.assign_pointer v).hash_in_sync I = true)
        ∧ (∀ v, (o.assign_color v).hash_in_sync I = true)
        ∧ (∀ v, (o.assign_float v).hash_in_sync I = true)
        ∧ (∀ v, (o.assign_int64 v).hash_in_sync I = true)
        ∧ (∀ v, (o.assign_uint64 v).hash_in_sync I = true))
    ∧ (∀ input chunk_size o, ParseObject I input chunk_size = .ok o →
        o.hash_in_sync I = true) := by
  have hmove : ∀ a b : ValveDataObject, a.hash_in_sync I = true → b.hash_in_sync I = true →
      (a.assign_move b).1.hash_in_sync I = true ∧ (a.assign_move b).2.hash_in_sync I = true := by
    intro a b ha hb
    obtain ⟨n1, h1, u1, t1⟩ := a
    obtain ⟨n2, h2, u2, t2⟩ := b
    exact ⟨hash_in_sync_swap I _ _ _ _ _ _ _ _ ha hb, hash_in_sync_swap I _ _ _ _ _ _ _ _ hb ha⟩
  have hmv : ∀ other : ValveDataObject, other.hash_in_sync I = true →
      other.move.1.hash_in_sync I = true ∧ other.move.2.hash_in_sync I = true := by
    intro other ho
    refine hmove _ other ?_ ho
    obtain ⟨n, h, u, t⟩ := other
    exact hash_in_sync_scalar I n h u .uninit t .None ho (by decide)
  have hcopy : ∀ other o : ValveDataObject, other.hash_in_sync I = true → other.copy = .ok o →
      o.hash_in_sync I = true := by
    intro other o ho hc
    rw [copy_eq other o hc]; exact ho
  refine ⟨⟨hash_in_sync_new I, ?_, ?_, ?_, ?_, ?_, ?_, ?_, ?_⟩, ?_, ?_, hcopy, hmv, ?_, hmove,
    ?_, ?_, fun input chunk o h => ParseObject_sync I input chunk o h⟩
  · intro key; simp [ValveDataObject.new_object, ValveDataObject.hash_in_sync,
      ValveDataObject.hash_in_sync.items]
  · intro key v; simp [ValveDataObject.new_string, ValveDataObject.hash_in_sync]
  · intro key v; simp [ValveDataObject.new_int32, ValveDataObject.hash_in_sync]
  · intro key v; simp [ValveDataObject.new_float, ValveDataObject.hash_in_sync]
  · intro key v; simp [ValveDataObject.new_pointer, ValveDataObject.hash_in_sync]
  · intro key v; simp [ValveDataObject.new_color, ValveDataObject.hash_in_sync]
  · intro key v; simp [ValveDataObject.new_int64, ValveDataObject.hash_in_sync]
  · intro key v; simp [ValveDataObject.new_uint64, ValveDataObject.hash_in_sync]
  · intro key other o ho h
    unfold ValveDataObject.new_object_copy at h
    split at h
    · cases h
    · rename_i item hc
      cases h
      simp [ValveDataObject.hash_in_sync, ValveDataObject.hash_in_sync.items, hcopy other item ho hc]
  · intro key other ho
    refine ⟨?_, (hmv other ho).2⟩
    have h1 := (hmv other ho).1
    unfold ValveDataObject.new_object_move
    rw [hash_in_sync_mk]
    simp [ValveDataObject.hash_in_sync.items, h1]
  · intro o value ho
    obtain ⟨n, h, u, t⟩ := o
    exact hash_in_sync_swap I value n (I.hash value) h .uninit u .None t
      (by simp [ValveDataObject.hash_in_sync]) ho
  · intro a b o ha hb h
    unfold ValveDataObject.assign_copy at h
    split at h
    · cases h
    · rename_i tmp hc
      cases h
      exact (hmove a tmp ha (hcopy b tmp hb hc)).1
  · intro o ho
    obtain ⟨n, h, u, t⟩ := o
    refine ⟨?_, ?_, ?_, ?_, ?_, ?_, ?_, ?_⟩
    · exact hash_in_sync_scalar I n h u u t .None ho (by decide)
    · intro v; exact hash_in_sync_scalar I n h u _ t .String ho (by decide)
    · intro v; exact hash_in_sync_scalar I n h u _ t .Int32 ho (by decide)
    · intro v; exact hash_in_sync_scalar I n h u _ t .Int32 ho (by decide)
    · intro v; exact hash_in_sync_scalar I n h u _ t .Int32 ho (by decide)
    · intro v; exact hash_in_sync_scalar I n h u _ t .Float ho (by decide)
    · intro v; exact hash_in_sync_scalar I n h u _ t .Int64 ho (by decide)
    · intro v; exact hash_in_sync_scalar I n h u _ t .UInt64 ho (by decide)

/-- Witness of C11: the text document `"r"`, `{`, `"k" "5"`, `}` parses to a root
that satisfies the invariant, and so does the node after `Name("x")` and after
an assignment. -/
theorem name_hash_invariant_witness :
    ParseObject Impl.sample
        [34, 114, 34, 10, 123, 10, 9, 34, 107, 34, 9, 9, 34, 53, 34, 10, 125, 10] (10 * 1024)
      = .ok (.mk [114] (Impl.sample.hash [114])
          (._Collection [ValveDataObject.new_string Impl.sample [107] [53]]) .Object)
    ∧ (ValveDataObject.mk [114] (Impl.sample.hash [114])
          (._Collection [ValveDataObject.new_string Impl.sample [107] [53]])
          .Object).hash_in_sync Impl.sample = true
    ∧ ((ValveDataObject.new_string Impl.sample [107] [53]).set_Name Impl.sample
          [120]).hash_in_sync Impl.sample = true
    ∧ ((ValveDataObject.new_string Impl.sample [107] [53]).assign_int32 7).hash_in_sync
          Impl.sample = true :=
  ⟨by rfl,
    (name_hash_invariant Impl.sample).2.2.2.2.2.2.2.2.2
      [34, 114, 34, 10, 123, 10, 9, 34, 107, 34, 9, 9, 34, 53, 34, 10, 125, 10] (10 * 1024) _
      (by rfl),
    (name_hash_invariant Impl.sample).2.2.2.2.2.1 _ [120]
      ((name_hash_invariant Impl.sample).1.2.2.1 [107] [53]),
    ((name_hash_invariant Impl.sample).2.2.2.2.2.2.2.2.1 _
      ((name_hash_invariant Impl.sample).1.2.2.1 [107] [53])).2.2.1 7⟩

/-! ## Format sniffing and the terminator of the binary form -/

/-- C12: when the first four bytes of the stream are `56 42 4B 56`, `ParseObject`
returns what the binary branch returns on the bytes from offset 8 (with
`AlternativeEnd` as the expected terminator), and the result is the same
whatever the four bytes at the offsets 4 to 7 are. -/
theorem magic_skips_eight_bytes (I : Impl) (input : Bytes) (chunk_size : Nat)
    (hmagic : input.take 4 = BinaryVDFMagic) :
    ParseObject I input chunk_size
        = ParseObject.binary I chunk_size .AlternativeEnd ⟨input.drop 8, false⟩
    ∧ ∀ crc1 crc2 body : Bytes, crc1.length = 4 → crc2.length = 4 →
        input = BinaryVDFMagic ++ crc1 ++ body →
        ParseObject I (BinaryVDFMagic ++ crc2 ++ body) chunk_size
          = ParseObject I input chunk_size := by
  have hgen : ∀ inp : Bytes, inp.take 4 = BinaryVDFMagic →
      ParseObject I inp chunk_size
        = ParseObject.binary I chunk_size .AlternativeEnd ⟨inp.drop 8, false⟩ := by
    intro inp hm
    have hlen : ¬ inp.length < 4 := by
      have := congrArg List.length hm
      simp only [List.length_take, BinaryVDFMagic, List.length_cons, List.length_nil] at this
      omega
    unfold ParseObject
    rw [if_neg hlen, if_pos hm]
  refine ⟨hgen input hmagic, ?_⟩
  intro crc1 crc2 body h1 h2 hin
  have hm2 : (BinaryVDFMagic ++ crc2 ++ body).take 4 = BinaryVDFMagic := by
    simp [BinaryVDFMagic]
  have hd : ∀ crc : Bytes, crc.length = 4 → (BinaryVDFMagic ++ crc ++ body).drop 8 = body := by
    intro crc hc
    have : (BinaryVDFMagic ++ crc).length = 8 := by simp [BinaryVDFMagic, hc]
    rw [← this, List.drop_left]
  rw [hgen _ hm2, hgen _ hmagic, hin, hd crc1 h1, hd crc2 h2]

/-- Witness of C12: the header `VBKV`, four arbitrary bytes, and the empty root
`R` closed by `0B`. -/
theorem magic_skips_eight_bytes_witness :
    ([86, 66, 75, 86, 1, 2, 3, 4, 0, 82, 0, 11] : Bytes).take 4 = BinaryVDFMagic
    ∧ ParseObject Impl.sample [86, 66, 75, 86, 1, 2, 3, 4, 0, 82, 0, 11] (10 * 1024)
        = ParseObject.binary Impl.sample (10 * 1024) .AlternativeEnd ⟨[0, 82, 0, 11], false⟩
    ∧ ParseObject Impl.sample [86, 66, 75, 86, 1, 2, 3, 4, 0, 82, 0, 11] (10 * 1024)
        = .ok (ValveDataObject.new_object Impl.sample [82]) :=
  ⟨by decide,
    (magic_skips_eight_bytes Impl.sample [86, 66, 75, 86, 1, 2, 3, 4, 0, 82, 0, 11] (10 * 1024)
      (by decide)).1,
    by rfl⟩

/-- C13: on a stream of at least four bytes that does not start with the magic,
`ParseObject` runs the binary branch on the whole stream (expecting
`ObjectEnd`) when the first byte is `0x00`, and the text branch on the whole
stream otherwise: the four sniffed bytes are parsed again. -/
theorem no_magic_parses_from_offset_zero (I : Impl) (input : Bytes) (chunk_size : Nat)
    (h4 : 4 ≤ input.length) (hmagic : input.take 4 ≠ BinaryVDFMagic) :
    (input.getD 0 0 = 0 →
      ParseObject I input chunk_size
        = ParseObject.binary I chunk_size .ObjectEnd ⟨input, false⟩)
    ∧ (input.getD 0 0 ≠ 0 →
      ParseObject I input chunk_size
        = ParseObject.text I (input.length + 1) ⟨input, false⟩ 0 [] (ValveDataObject.new I)) := by
  have hlen : ¬ input.length < 4 := by omega
  constructor
  · intro h0
    unfold ParseObject
    rw [if_neg hlen, if_neg hmagic, if_pos h0]
  · intro h0
    unfold ParseObject
    rw [if_neg hlen, if_neg hmagic, if_neg h0]

/-- Witness of C13: the legacy binary document `00 "R" 00 08`, whose four bytes
are all parsed by the binary branch, and the text document `"r"`, `{`, `}`. -/
theorem no_magic_parses_from_offset_zero_witness :
    (4 ≤ ([0, 82, 0, 8] : Bytes).length ∧ ([0, 82, 0, 8] : Bytes).take 4 ≠ BinaryVDFMagic)
    ∧ ParseObject Impl.sample [0, 82, 0, 8] (10 * 1024)
        = ParseObject.binary Impl.sample (10 * 1024) .ObjectEnd ⟨[0, 82, 0, 8], false⟩
    ∧ ParseObject Impl.sample [0, 82, 0, 8] (10 * 1024)
        = .ok (ValveDataObject.new_object Impl.sample [82])
    ∧ ParseObject Impl.sample [34, 114, 34, 10, 123, 10, 125, 10] (10 * 1024)
        = .ok (ValveDataObject.new_object Impl.sample [114]) :=
  ⟨⟨by decide, by decide⟩,
    (no_magic_parses_from_offset_zero Impl.sample [0, 82, 0, 8] (10 * 1024) (by decide)
      (by decide)).1 (by decide),
    by rfl, by rfl⟩

/-- The binary functions do not look at `object_end`. -/
theorem binary_object_end_irrelevant (I : Impl) (chunk : Nat) (oe1 oe2 : BinaryNodeType) :
    ∀ fuel : Nat,
      _ParseBinaryObject I oe1 chunk fuel = _ParseBinaryObject I oe2 chunk fuel
      ∧ _ParseBinaryObject.loop I oe1 chunk fuel = _ParseBinaryObject.loop I oe2 chunk fuel := by
  intro fuel
  induction fuel with
  | zero =>
    constructor
    · funext is name win
      rw [_ParseBinaryObject, _ParseBinaryObject]
    · funext is win c st pk tr ik tmp
      rw [_ParseBinaryObject.loop, _ParseBinaryObject.loop]
  | succ f ih =>
    constructor
    · funext is name win
      rw [_ParseBinaryObject, _ParseBinaryObject, ih.2]
    · funext is win c st pk tr ik tmp
      cases win with
      | nil => rw [_ParseBinaryObject.loop, _ParseBinaryObject.loop, ih.2]
      | cons b0 rest => rw [_ParseBinaryObject.loop, _ParseBinaryObject.loop, ih.1, ih.2]

theorem binary_root_object_end_irrelevant (I : Impl) (chunk : Nat) (oe1 oe2 : BinaryNodeType) :
    ∀ (fuel : Nat) (is : istream) (nm : Bytes) (po : ValveDataObject),
      ParseObject.binary_loop I chunk oe1 fuel is nm po
        = ParseObject.binary_loop I chunk oe2 fuel is nm po := by
  intro fuel
  induction fuel with
  | zero => intro is nm po; rw [ParseObject.binary_loop, ParseObject.binary_loop]
  | succ f ih =>
    intro is nm po
    rw [ParseObject.binary_loop, ParseObject.binary_loop]
    simp only [(binary_object_end_irrelevant I chunk oe1 oe2 _).1, ih]

theorem read_nil_fail (is : istream) (chunk : Nat) (hchunk : 0 < chunk)
    (hw : (is.read chunk).1 = []) : (is.read chunk).2.fail = true := by
  unfold istream.read at hw ⊢
  cases hf : is.fail
  · rw [hf] at hw
    by_cases hn : chunk ≤ is.data.length
    · rw [if_neg (by simp), if_pos hn] at hw
      have := congrArg List.length hw
      simp only [List.length_take, List.length_nil] at this
      omega
    · rw [if_neg (by simp), if_neg hn]
  · rw [if_pos rfl]; exact hf

/-- C14: the binary decoder does not depend on the terminator it is told to
expect.  `_ParseBinaryObject` returns the same result for any two values of
`object_end`, and so does the binary branch of `ParseObject`; a tag `08` or
`0B` read where a type is expected makes the loop return with the collection it
has, whatever `object_end` is (when the tag is the last byte of the window, the
window is refilled first); and a legacy document of at least four bytes gives
the same result with the header `VBKV` and four more bytes in front of it. -/
theorem terminator_tolerance (I : Impl) (chunk : Nat) (oe1 oe2 : BinaryNodeType) :
    (∀ fuel is name win,
      _ParseBinaryObject I oe1 chunk fuel is name win
        = _ParseBinaryObject I oe2 chunk fuel is name win)
    ∧ (∀ is, ParseObject.binary I chunk oe1 is = ParseObject.binary I chunk oe2 is)
    ∧ (∀ (tag : Nat), tag = 8 ∨ tag = 11 →
        ∀ fuel is b1 rest c st pk ik tmp,
          _ParseBinaryObject.loop I oe1 chunk (fuel + 2) is (tag :: b1 :: rest) c st pk false ik tmp
            = .ok (c, is, b1 :: rest))
    ∧ (∀ (tag : Nat), tag = 8 ∨ tag = 11 → 0 < chunk →
        ∀ fuel is c st pk ik tmp,
          _ParseBinaryObject.loop I oe1 chunk (fuel + 3) is [tag] c st pk false ik tmp
            = .ok (c, (is.read chunk).2, (is.read chunk).1))
    ∧ (∀ crc body : Bytes, crc.length = 4 → 4 ≤ body.length → body.getD 0 0 = 0 →
        ParseObject I (BinaryVDFMagic ++ crc ++ body) chunk = ParseObject I body chunk) := by
  have hroot : ∀ (o1 o2 : BinaryNodeType) (is : istream),
      ParseObject.binary I chunk o1 is = ParseObject.binary I chunk o2 is := by
    intro o1 o2 is
    unfold ParseObject.binary
    simp only [binary_root_object_end_irrelevant I chunk o1 o2]
  have hend : ∀ tag : Nat, tag = 8 ∨ tag = 11 →
      (tag = BinaryNodeType.ObjectEnd.toByte ∨ tag = BinaryNodeType.AlternativeEnd.toByte) := by
    intro tag h; simpa [BinaryNodeType.toByte] using h
  have hclose : ∀ (tag : Nat), tag = 8 ∨ tag = 11 → ∀ (fuel : Nat) (is : istream)
      (b1 : Nat) (rest : Bytes) (c : ValveCollection) (pk : Bool) (ik tmp : Bytes),
      _ParseBinaryObject.loop I oe1 chunk (fuel + 1) is (b1 :: rest) c tag pk true ik tmp
        = .ok (c, is, b1 :: rest) := by
    intro tag htag fuel is b1 rest c pk ik tmp
    rw [_ParseBinaryObject.loop]
    rw [if_neg (by simp), if_pos (hend tag htag)]
  refine ⟨fun fuel is name win => by rw [(binary_object_end_irrelevant I chunk oe1 oe2 fuel).1],
    hroot oe1 oe2, ?_, ?_, ?_⟩
  · intro tag htag fuel is b1 rest c st pk ik tmp
    rw [loop_step_type, hclose tag htag]
  · intro tag htag hchunk fuel is c st pk ik tmp
    rw [loop_step_type, _ParseBinaryObject.loop]
    simp only []
    cases hw : (is.read chunk).1 with
    | nil =>
      have hfail := read_nil_fail is chunk hchunk hw
      rw [if_neg (by simp [hfail])]
    | cons b1 rest =>
      rw [if_pos (by simp)]
      rw [hclose tag htag]
  · intro crc body hcrc h4 h0
    have hnm : body.take 4 ≠ BinaryVDFMagic := by
      intro h
      have : (body.take 4).getD 0 0 = 0x56 := by rw [h]; rfl
      obtain ⟨b0, w, rfl⟩ : ∃ b0 w, body = b0 :: w := by
        cases body with
        | nil => simp at h4
        | cons b0 w => exact ⟨b0, w, rfl⟩
      simp at this h0
      omega
    have hm2 : (BinaryVDFMagic ++ crc ++ body).take 4 = BinaryVDFMagic := by
      simp [BinaryVDFMagic]
    have hd : (BinaryVDFMagic ++ crc ++ body).drop 8 = body := by
      have : (BinaryVDFMagic ++ crc).length = 8 := by simp [BinaryVDFMagic, hcrc]
      rw [← this, List.drop_left]
    have hl2 : ¬ (BinaryVDFMagic ++ crc ++ body).length < 4 := by
      simp [BinaryVDFMagic]
    unfold ParseObject
    rw [if_neg hl2, if_pos hm2, hd, if_neg (by omega), if_neg hnm, if_pos h0]
    exact hroot _ _ _

/-- Witness of C14: the legacy document `00 "R" 00 08` with and without the
header; under the header the root is closed by `08`, not by the `0B` the
parser was told to expect. -/
theorem terminator_tolerance_witness :
    ParseObject Impl.sample (BinaryVDFMagic ++ [0, 0, 0, 0] ++ [0, 82, 0, 8]) 4
      = ParseObject Impl.sample [0, 82, 0, 8] 4
    ∧ ParseObject Impl.sample [0, 82, 0, 8] 4 = .ok (ValveDataObject.new_object Impl.sample [82])
    ∧ ParseObject Impl.sample [0, 82, 0, 11] 4
        = .ok (ValveDataObject.new_object Impl.sample [82]) :=
  ⟨(terminator_tolerance Impl.sample 4 .ObjectEnd .AlternativeEnd).2.2.2.2 [0, 0, 0, 0]
      [0, 82, 0, 8] (by decide) (by decide) (by decide),
    by rfl, by rfl⟩

/-! ## The format of the binary output -/

theorem well_typed_items_mem (cs : List ValveDataObject)
    (h : ValveDataObject.well_typed.items cs = true) : ∀ x ∈ cs, x.well_typed = true := by
  induction cs with
  | nil => intro x hx; cases hx
  | cons t cs ih =>
    simp only [ValveDataObject.well_typed.items, Bool.and_eq_true] at h
    intro x hx
    rcases List.mem_cons.1 hx with rfl | hx
    · exact h.1
    · exact ih h.2 x hx

theorem SerializeAsBinary_items_wire (oe : BinaryNodeType) (cs : List ValveDataObject)
    (h : ∀ x ∈ cs, _SerializeAsBinary oe x = .ok (wire_encoding oe.toByte x)) :
    _SerializeAsBinary.items oe cs = .ok (wire_encoding.items oe.toByte cs) := by
  induction cs with
  | nil => rfl
  | cons t cs ih =>
    rw [_SerializeAsBinary.items, h t (List.mem_cons_self _ _),
      ih (fun x hx => h x (List.mem_cons_of_mem _ hx))]
    rfl

/-- On a tree of objects, strings and scalars `_SerializeAsBinary` emits
`wire_encoding`. -/
theorem SerializeAsBinary_eq_wire (oe : BinaryNodeType) (t : ValveDataObject) :
    t.well_typed = true → _SerializeAsBinary oe t = .ok (wire_encoding oe.toByte t) := by
  induction t using ValveDataObject.induction_on with
  | step name hash u ty IH =>
    intro hv
    cases ty <;> cases u <;>
      simp only [ValveDataObject.well_typed, Bool.false_eq_true] at hv
    case step.Object._Collection cs =>
      have hb := SerializeAsBinary_items_wire oe cs
        (fun x hx => IH cs rfl x hx (well_typed_items_mem cs hv x hx))
      simp only [_SerializeAsBinary, hb, wire_encoding, ObjectType.toByte, List.append_assoc]
    all_goals
      simp only [_SerializeAsBinary, Payload.raw, wire_encoding, ObjectType.toByte,
        List.append_assoc, Nat.le_refl, if_true]

/-- C16: on a node whose type is one of `Object`, `String`, `Int32`, `Float`,
`Pointer`, `Color`, `UInt64`, `Int64` (and so for its descendants),
`_SerializeAsBinary` emits the encoding the specification describes: tag, name,
NUL, and the payload; the children of an object in order, followed by the one
terminator byte. -/
theorem binary_node_encoding (oe : BinaryNodeType) (t : ValveDataObject)
    (h : t.well_typed = true) :
    _SerializeAsBinary oe t = .ok (wire_encoding oe.toByte t) :=
  SerializeAsBinary_eq_wire oe t h

/-- Witness of C16: the root `R` with the `Int32` item `i = -1337`, the string
`s = v` and the empty object `o`, closed by `08` and by `0B`. -/
theorem binary_node_encoding_witness :
    (ValveDataObject.mk [82] (Impl.sample.hash [82])
        (._Collection [ValveDataObject.new_int32 Impl.sample [105] (-1337),
          ValveDataObject.new_string Impl.sample [115] [118],
          ValveDataObject.new_object Impl.sample [111]]) .Object).well_typed = true
    ∧ _SerializeAsBinary .ObjectEnd
        (.mk [82] (Impl.sample.hash [82])
          (._Collection [ValveDataObject.new_int32 Impl.sample [105] (-1337),
            ValveDataObject.new_string Impl.sample [115] [118],
            ValveDataObject.new_object Impl.sample [111]]) .Object)
      = .ok [0, 82, 0, 2, 105, 0, 0xC7, 0xFA, 0xFF, 0xFF, 1, 115, 0, 118, 0, 0, 111, 0, 8, 8]
    ∧ _SerializeAsBinary .AlternativeEnd
        (.mk [82] (Impl.sample.hash [82])
          (._Collection [ValveDataObject.new_int32 Impl.sample [105] (-1337),
            ValveDataObject.new_string Impl.sample [115] [118],
            ValveDataObject.new_object Impl.sample [111]]) .Object)
      = .ok [0, 82, 0, 2, 105, 0, 0xC7, 0xFA, 0xFF, 0xFF, 1, 115, 0, 118, 0, 0, 111, 0, 11, 11] :=
  ⟨by decide,
    (binary_node_encoding .ObjectEnd _ (by decide)).trans (congrArg Except.ok (by decide)),
    (binary_node_encoding .AlternativeEnd _ (by decide)).trans (congrArg Except.ok (by decide))⟩

theorem SerializeAsBinary_items_length (oe1 oe2 : BinaryNodeType) (cs : List ValveDataObject)
    (h : ∀ x ∈ cs, ∀ b1, _SerializeAsBinary oe1 x = .ok b1 →
      ∃ b2, _SerializeAsBinary oe2 x = .ok b2 ∧ b2.length = b1.length) :
    ∀ b1, _SerializeAsBinary.items oe1 cs = .ok b1 →
      ∃ b2, _SerializeAsBinary.items oe2 cs = .ok b2 ∧ b2.length = b1.length := by
  induction cs with
  | nil =>
    intro b1 h1
    rw [_SerializeAsBinary.items] at h1
    cases h1
    exact ⟨[], rfl, rfl⟩
  | cons t cs ih =>
    intro b1 h1
    rw [_SerializeAsBinary.items] at h1
    cases ht : _SerializeAsBinary oe1 t with
    | error x => rw [ht] at h1; cases h1
    | ok bt =>
      rw [ht] at h1
      cases hc : _SerializeAsBinary.items oe1 cs with
      | error x => rw [hc] at h1; cases h1
      | ok bc =>
        rw [hc] at h1
        cases h1
        obtain ⟨bt2, ht2, hl2⟩ := h t (List.mem_cons_self _ _) bt ht
        obtain ⟨bc2, hc2, hl3⟩ := ih (fun x hx => h x (List.mem_cons_of_mem _ hx)) bc hc
        refine ⟨bt2 ++ bc2, ?_, ?_⟩
        · rw [_SerializeAsBinary.items, ht2, hc2]
        · simp only [List.length_append, hl2, hl3]

/-- The length of the output of `_SerializeAsBinary` does not depend on the
terminator, and neither does its success. -/
theorem SerializeAsBinary_length (oe1 oe2 : BinaryNodeType) (t : ValveDataObject) :
    ∀ b1, _SerializeAsBinary oe1 t = .ok b1 →
      ∃ b2, _SerializeAsBinary oe2 t = .ok b2 ∧ b2.length = b1.length := by
  induction t using ValveDataObject.induction_on with
  | step name hash u ty IH =>
    intro b1 h1
    cases ty
    case Object =>
      cases u
      case _Collection cs =>
        simp only [_SerializeAsBinary] at h1
        cases hc : _SerializeAsBinary.items oe1 cs with
        | error x => rw [hc] at h1; cases h1
        | ok bc =>
          rw [hc] at h1
          cases h1
          obtain ⟨bc2, hc2, hl⟩ := SerializeAsBinary_items_length oe1 oe2 cs
            (fun x hx => IH cs rfl x hx) bc hc
          refine ⟨_, by simp only [_SerializeAsBinary, hc2]; rfl, ?_⟩
          simp only [List.length_append, hl, List.length_cons, List.length_nil]
      all_goals (simp only [_SerializeAsBinary] at h1; cases h1)
    all_goals exact ⟨b1, by simpa only [_SerializeAsBinary] using h1, rfl⟩

/-- C15: the two forms of the binary output of an `Object` root.  A version of at
most 1 writes no header: the output is the encoding of the root, which starts
with the byte `00`; a version of at least 2 writes the eight bytes
`56 42 4B 56 00 00 00 00` and then the encoding of the root.  One form
succeeds when the other does, and then the headered one is exactly eight
bytes longer.  On a tree of objects, strings and scalars the first is the
encoding in which every object is closed by `08`, the second the header
followed by the same encoding with every object closed by `0B`. -/
theorem binary_version_forms (o : ValveDataObject) (hT : o._Type = .Object) :
    (∀ v : Int, v ≤ 1 → SerializeAsBinary o v = _SerializeAsBinary .ObjectEnd o)
    ∧ (∀ v : Int, 2 ≤ v →
        SerializeAsBinary o v
          = match _SerializeAsBinary .AlternativeEnd o with
            | .error x => .error x
            | .ok body => .ok ([0x56, 0x42, 0x4B, 0x56, 0, 0, 0, 0] ++ body))
    ∧ (∀ (v1 v2 : Int) (out1 : Bytes), v1 ≤ 1 → 2 ≤ v2 → SerializeAsBinary o v1 = .ok out1 →
        out1.head? = some 0
        ∧ ∃ body2, SerializeAsBinary o v2 = .ok ([0x56, 0x42, 0x4B, 0x56, 0, 0, 0, 0] ++ body2)
            ∧ body2.head? = some 0
            ∧ ([0x56, 0x42, 0x4B, 0x56, 0, 0, 0, 0] ++ body2).length = out1.length + 8)
    ∧ (o.well_typed = true → ∀ v1 v2 : Int, v1 ≤ 1 → 2 ≤ v2 →
        SerializeAsBinary o v1 = .ok (wire_encoding 8 o)
        ∧ SerializeAsBinary o v2
            = .ok ([0x56, 0x42, 0x4B, 0x56, 0, 0, 0, 0] ++ wire_encoding 11 o)) := by
  have hT2 : ¬ o._Type ≠ .Object := by simp [hT]
  have h1 : ∀ v : Int, v ≤ 1 → SerializeAsBinary o v = _SerializeAsBinary .ObjectEnd o := by
    intro v hv
    unfold SerializeAsBinary
    rw [if_neg hT2]
    simp only [hv, if_true, not_lt.2 hv, gt_iff_lt, if_false, List.nil_append]
    cases _SerializeAsBinary .ObjectEnd o <;> rfl
  have h2 : ∀ v : Int, 2 ≤ v →
      SerializeAsBinary o v
        = match _SerializeAsBinary .AlternativeEnd o with
          | .error x => .error x
          | .ok body => .ok ([0x56, 0x42, 0x4B, 0x56, 0, 0, 0, 0] ++ body) := by
    intro v hv
    unfold SerializeAsBinary
    rw [if_neg hT2]
    have hv1 : ¬ v ≤ 1 := by omega
    have hv2 : v > 1 := by omega
    simp only [hv1, hv2, if_true, if_false]
    cases _SerializeAsBinary .AlternativeEnd o <;> rfl
  refine ⟨h1, h2, ?_, ?_⟩
  · intro v1 v2 out1 hv1 hv2 hs
    rw [h1 v1 hv1] at hs
    obtain ⟨w, hw⟩ := SerializeAsBinary_object_head .ObjectEnd o out1 hT hs
    obtain ⟨b2, hb2, hl⟩ := SerializeAsBinary_length .ObjectEnd .AlternativeEnd o out1 hs
    obtain ⟨w2, hw2⟩ := SerializeAsBinary_object_head .AlternativeEnd o b2 hT hb2
    refine ⟨by rw [hw]; rfl, b2, ?_, by rw [hw2]; rfl, ?_⟩
    · rw [h2 v2 hv2, hb2]
    · simp only [List.length_append, hl, List.length_cons, List.length_nil]
      omega
  · intro hw v1 v2 hv1 hv2
    constructor
    · rw [h1 v1 hv1, SerializeAsBinary_eq_wire .ObjectEnd o hw]; rfl
    · rw [h2 v2 hv2, SerializeAsBinary_eq_wire .AlternativeEnd o hw]; rfl

/-- Witness of C15: the root `R` with an `Int32`, a string and an empty object,
in the legacy and in the headered form. -/
theorem binary_version_forms_witness :
    SerializeAsBinary
        (.mk [82] (Impl.sample.hash [82])
          (._Collection [ValveDataObject.new_int32 Impl.sample [105] (-1337),
            ValveDataObject.new_string Impl.sample [115] [118],
            ValveDataObject.new_object Impl.sample [111]]) .Object) 0
      = .ok [0, 82, 0, 2, 105, 0, 0xC7, 0xFA, 0xFF, 0xFF, 1, 115, 0, 118, 0, 0, 111, 0, 8, 8]
    ∧ SerializeAsBinary
        (.mk [82] (Impl.sample.hash [82])
          (._Collection [ValveDataObject.new_int32 Impl.sample [105] (-1337),
            ValveDataObject.new_string Impl.sample [115] [118],
            ValveDataObject.new_object Impl.sample [111]]) .Object) 2
      = .ok [0x56, 0x42, 0x4B, 0x56, 0, 0, 0, 0,
          0, 82, 0, 2, 105, 0, 0xC7, 0xFA, 0xFF, 0xFF, 1, 115, 0, 118, 0, 0, 111, 0, 11, 11] :=
  ⟨((binary_version_forms
        (.mk [82] (Impl.sample.hash [82])
          (._Collection [ValveDataObject.new_int32 Impl.sample [105] (-1337),
            ValveDataObject.new_string Impl.sample [115] [118],
            ValveDataObject.new_object Impl.sample [111]]) .Object) rfl).2.2.2 (by decide) 0 2 (by decide) (by decide)).1.trans
      (congrArg Except.ok (by decide)),
    ((binary_version_forms
        (.mk [82] (Impl.sample.hash [82])
          (._Collection [ValveDataObject.new_int32 Impl.sample [105] (-1337),
            ValveDataObject.new_string Impl.sample [115] [118],
            ValveDataObject.new_object Impl.sample [111]]) .Object) rfl).2.2.2 (by decide) 0 2 (by decide) (by decide)).2.trans
      (congrArg Except.ok (by decide))⟩

/-! ## The format of the text output -/

theorem render_lines_append (a b : List (Nat × Bytes)) :
    render_lines (a ++ b) = render_lines a ++ render_lines b := by
  induction a with
  | nil => rfl
  | cons p a ih =>
    obtain ⟨d, body⟩ := p
    show render_lines ((d, body) :: (a ++ b)) = _
    simp only [render_lines, ih, List.append_assoc]

theorem SerializeAsText_items_lines (I : Impl) (d : Nat) (cs : List ValveDataObject)
    (h : ∀ x ∈ cs, _SerializeAsText I x d = .ok (render_lines (text_lines I x d))) :
    _SerializeAsText.items I cs d = .ok (render_lines (text_lines.items I cs d)) := by
  induction cs with
  | nil => rfl
  | cons t cs ih =>
    rw [_SerializeAsText.items, h t (List.mem_cons_self _ _),
      ih (fun x hx => h x (List.mem_cons_of_mem _ hx))]
    simp only [text_lines.items, render_lines_append]

/-- On a tree of objects, strings and scalars `_SerializeAsText` emits the lines
of `text_lines`, each with its tabs and its `\n`. -/
theorem SerializeAsText_eq_lines (I : Impl) (t : ValveDataObject) :
    t.well_typed = true → ∀ d, _SerializeAsText I t d = .ok (render_lines (text_lines I t d)) := by
  induction t using ValveDataObject.induction_on with
  | step name hash u ty IH =>
    intro hv d
    cases ty <;> cases u <;>
      simp only [ValveDataObject.well_typed, Bool.false_eq_true] at hv
    case step.Object._Collection cs =>
      have hb := SerializeAsText_items_lines I (d + 1) cs
        (fun x hx => IH cs rfl x hx (well_typed_items_mem cs hv x hx) (d + 1))
      simp only [_SerializeAsText, hb, text_lines, List.append_eq, render_lines_append,
        render_lines, quoted, List.append_assoc, List.cons_append, List.nil_append,
        List.append_nil]
    all_goals
      simp only [_SerializeAsText, text_lines, render_lines, quoted,
        List.append_assoc, List.cons_append, List.nil_append, List.append_nil]

theorem split_lines_go_line (l rest cur : Bytes) (h : 10 ∉ l) :
    split_lines.go (l ++ 10 :: rest) cur = (cur ++ l) :: split_lines.go rest [] := by
  induction l generalizing cur with
  | nil => simp [split_lines.go]
  | cons b l ih =>
    have hb : b ≠ 10 := fun hb => h (by simp [hb])
    have hl : 10 ∉ l := fun hl => h (List.mem_cons_of_mem _ hl)
    rw [List.cons_append, split_lines.go, if_neg hb, ih _ hl]
    simp

theorem split_lines_render (ls : List (Nat × Bytes)) (h : ∀ p ∈ ls, 10 ∉ p.2) :
    split_lines (render_lines ls) = ls.map (fun p => indent p.1 ++ p.2) := by
  unfold split_lines
  induction ls with
  | nil => rfl
  | cons p ls ih =>
    obtain ⟨d, body⟩ := p
    have hb : 10 ∉ indent d ++ body := by
      intro hm
      rcases List.mem_append.1 hm with hm | hm
      · exact not_mem_indent d 10 (by decide) hm
      · exact h (d, body) (List.mem_cons_self _ _) hm
    have : render_lines ((d, body) :: ls) = (indent d ++ body) ++ 10 :: render_lines ls := by
      simp only [render_lines, List.append_assoc, List.cons_append, List.nil_append]
    rw [this, split_lines_go_line _ _ _ hb, ih (fun q hq => h q (List.mem_cons_of_mem _ hq))]
    simp

theorem leading_tabs_indent (d b : Nat) (rest : Bytes) (hb : b ≠ 9) :
    leading_tabs (indent d ++ b :: rest) = d := by
  have hb9 : (b == 9) = false := by simp [hb]
  unfold leading_tabs indent
  induction d with
  | zero => simp [List.takeWhile, hb9]
  | succ d ih =>
    simp only [List.replicate_succ, List.cons_append, List.takeWhile, beq_self_eq_true,
      List.length_cons, List.append_eq, ih]

theorem no_lf_iff (s : Bytes) : no_lf s = true ↔ 10 ∉ s := by
  unfold no_lf
  simp only [List.all_eq_true, decide_eq_true_eq]
  constructor
  · intro h hm; exact h 10 hm rfl
  · intro h b hb hb10; exact h (hb10 ▸ hb)

theorem not_mem_quoted (s : Bytes) (h : 10 ∉ s) : 10 ∉ quoted s := by
  unfold quoted
  simp only [List.mem_append, List.mem_singleton, not_or]
  exact ⟨⟨by decide, h⟩, by decide⟩

theorem not_mem_leaf_line (name value : Bytes) (hn : 10 ∉ name) (hv : 10 ∉ value) :
    10 ∉ quoted name ++ [9, 9] ++ quoted value := by
  simp only [List.mem_append, not_or]
  exact ⟨⟨not_mem_quoted name hn, by decide⟩, not_mem_quoted value hv⟩

/-- A line is well formed: it starts with a byte that is not a tab and holds no
`\n`. -/
theorem text_lines_ok (I : Impl) (hF : ∀ v, no_lf (I.showFloat v) = true) (t : ValveDataObject) :
    t.well_typed = true → t.all_strings no_lf = true → ∀ d, ∀ p ∈ text_lines I t d,
      (∃ b rest, p.2 = b :: rest ∧ b ≠ 9) ∧ 10 ∉ p.2 := by
  induction t using ValveDataObject.induction_on with
  | step name hash u ty IH =>
    intro hv hs d p hp
    have hitems : ∀ cs : List ValveDataObject,
        (∀ x ∈ cs, x.well_typed = true → x.all_strings no_lf = true → ∀ d, ∀ p ∈ text_lines I x d,
          (∃ b rest, p.2 = b :: rest ∧ b ≠ 9) ∧ 10 ∉ p.2) →
        ValveDataObject.well_typed.items cs = true →
        ValveDataObject.all_strings.items no_lf cs = true →
        ∀ d, ∀ p ∈ text_lines.items I cs d, (∃ b rest, p.2 = b :: rest ∧ b ≠ 9) ∧ 10 ∉ p.2 := by
      intro cs
      induction cs with
      | nil => intro _ _ _ d p hp; simp [text_lines.items] at hp
      | cons x cs ihc =>
        intro hx hw hst d p hp
        simp only [text_lines.items, List.mem_append] at hp
        rcases hp with hp | hp
        · exact hx x (List.mem_cons_self _ _) (well_typed_items_mem _ hw x (List.mem_cons_self _ _))
            (all_strings_items_mem _ _ hst x (List.mem_cons_self _ _)) d p hp
        · simp only [ValveDataObject.well_typed.items, ValveDataObject.all_strings.items,
            Bool.and_eq_true] at hw hst
          exact ihc (fun y hy => hx y (List.mem_cons_of_mem _ hy)) hw.2 hst.2 d p hp
    have hsigned : ∀ v : Int, 10 ∉ put_signed v :=
      fun v => (text_safe_not_mem _ (text_safe_put_signed v)).1
    have hunsigned : ∀ v : Nat, 10 ∉ put_unsigned v :=
      fun v => (text_safe_not_mem _ (text_safe_put_unsigned v)).1
    cases ty <;> cases u <;>
      simp only [ValveDataObject.well_typed, Bool.false_eq_true] at hv <;>
      simp only [ValveDataObject.all_strings, Bool.and_eq_true, no_lf_iff, and_true] at hs <;>
      simp only [text_lines, List.mem_singleton, List.mem_append, List.mem_cons,
        List.not_mem_nil, or_false] at hp
    case step.Object._Collection cs =>
      rcases hp with ((rfl | rfl) | hp) | rfl
      · exact ⟨⟨34, _, rfl, by decide⟩, not_mem_quoted _ hs.1⟩
      · exact ⟨⟨123, _, rfl, by decide⟩, by simp⟩
      · exact hitems cs (IH cs rfl) hv hs.2 (d + 1) p hp
      · exact ⟨⟨125, _, rfl, by decide⟩, by simp⟩
    case step.String._String s =>
      subst hp
      exact ⟨⟨34, _, rfl, by decide⟩, not_mem_leaf_line _ _ hs.1 hs.2⟩
    case step.Float._Float v =>
      subst hp
      exact ⟨⟨34, _, rfl, by decide⟩, not_mem_leaf_line _ _ hs ((no_lf_iff _).1 (hF v))⟩
    case step.Int32._Int32 v =>
      subst hp
      exact ⟨⟨34, _, rfl, by decide⟩, not_mem_leaf_line _ _ hs (hsigned v)⟩
    case step.Int64._Int64 v =>
      subst hp
      exact ⟨⟨34, _, rfl, by decide⟩, not_mem_leaf_line _ _ hs (hsigned v)⟩
    all_goals
      subst hp
      exact ⟨⟨34, _, rfl, by decide⟩, not_mem_leaf_line _ _ hs (hunsigned _)⟩

/-- C17 as stated fails: the string `a\nb` of the item `k` at depth 1 is written
raw, so the output of `SerializeAsText` has five lines where the tree has four,
and the line `b"` starts with no tab. -/
theorem text_lines_counterexample :
    (tree_with_lf Impl.sample).well_typed = true
    ∧ SerializeAsText Impl.sample (tree_with_lf Impl.sample)
        = .ok [34, 114, 34, 10, 123, 10, 9, 34, 107, 34, 9, 9, 34, 97, 10, 98, 34, 10, 125, 10]
    ∧ split_lines [34, 114, 34, 10, 123, 10, 9, 34, 107, 34, 9, 9, 34, 97, 10, 98, 34, 10, 125, 10]
        = [[34, 114, 34], [123], [9, 34, 107, 34, 9, 9, 34, 97], [98, 34], [125]]
    ∧ (split_lines
          [34, 114, 34, 10, 123, 10, 9, 34, 107, 34, 9, 9, 34, 97, 10, 98, 34, 10, 125, 10]).map
        leading_tabs = [0, 0, 1, 0, 0]
    ∧ (text_lines Impl.sample (tree_with_lf Impl.sample) 0).map Prod.fst = [0, 0, 1, 0] := by
  refine ⟨by decide, by rfl, by decide, by decide, by decide⟩

/-- C17, amended: on a tree of objects, strings and scalars, `_SerializeAsText` at
depth `d` emits the lines the specification describes (`text_lines`), each as
its tabs, its content and `\n`; and when no name and no string value holds a
`\n` (nor does a printed `float`), these are the lines of the output, and each
starts with exactly as many tabs as its nesting depth. -/
theorem text_lines_start_with_depth_tabs (I : Impl) (t : ValveDataObject) (d : Nat)
    (hw : t.well_typed = true) :
    _SerializeAsText I t d = .ok (render_lines (text_lines I t d))
    ∧ (t.all_strings no_lf = true → (∀ v, no_lf (I.showFloat v) = true) →
        split_lines (render_lines (text_lines I t d))
          = (text_lines I t d).map (fun p => indent p.1 ++ p.2)
        ∧ (∀ p ∈ text_lines I t d, ∃ b rest, p.2 = b :: rest ∧ b ≠ 9)
        ∧ (split_lines (render_lines (text_lines I t d))).map leading_tabs
          = (text_lines I t d).map Prod.fst) := by
  refine ⟨SerializeAsText_eq_lines I t hw d, ?_⟩
  intro hs hF
  have hok := text_lines_ok I hF t hw hs d
  have hsplit := split_lines_render (text_lines I t d) (fun p hp => (hok p hp).2)
  refine ⟨hsplit, fun p hp => (hok p hp).1, ?_⟩
  rw [hsplit, List.map_map]
  apply List.map_congr_left
  intro p hp
  obtain ⟨b, rest, hb, hb9⟩ := (hok p hp).1
  simp only [Function.comp, hb]
  exact leading_tabs_indent p.1 b rest hb9

/-- Witness of the amended C17: the root `r` with the object `o` holding the
`Int32` item `i = -5`; the seven lines start with 0, 0, 1, 1, 2, 1, 0 tabs. -/
theorem text_lines_start_with_depth_tabs_witness :
    _SerializeAsText Impl.sample
        (.mk [114] (Impl.sample.hash [114])
          (._Collection [.mk [111] (Impl.sample.hash [111])
            (._Collection [ValveDataObject.new_int32 Impl.sample [105] (-5)]) .Object]) .Object) 0
      = .ok (render_lines (text_lines Impl.sample
        (.mk [114] (Impl.sample.hash [114])
          (._Collection [.mk [111] (Impl.sample.hash [111])
            (._Collection [ValveDataObject.new_int32 Impl.sample [105] (-5)]) .Object]) .Object) 0))
    ∧ (split_lines (render_lines (text_lines Impl.sample
        (.mk [114] (Impl.sample.hash [114])
          (._Collection [.mk [111] (Impl.sample.hash [111])
            (._Collection [ValveDataObject.new_int32 Impl.sample [105] (-5)]) .Object]) .Object) 0))).map leading_tabs
      = (text_lines Impl.sample
        (.mk [114] (Impl.sample.hash [114])
          (._Collection [.mk [111] (Impl.sample.hash [111])
            (._Collection [ValveDataObject.new_int32 Impl.sample [105] (-5)]) .Object]) .Object) 0).map Prod.fst
    ∧ (text_lines Impl.sample
        (.mk [114] (Impl.sample.hash [114])
          (._Collection [.mk [111] (Impl.sample.hash [111])
            (._Collection [ValveDataObject.new_int32 Impl.sample [105] (-5)]) .Object]) .Object) 0).map Prod.fst
      = [0, 0, 1, 1, 2, 1, 0]
    ∧ render_lines (text_lines Impl.sample
        (.mk [114] (Impl.sample.hash [114])
          (._Collection [.mk [111] (Impl.sample.hash [111])
            (._Collection [ValveDataObject.new_int32 Impl.sample [105] (-5)]) .Object]) .Object) 0)
      = [34, 114, 34, 10, 123, 10, 9, 34, 111, 34, 10, 9, 123, 10,
          9, 9, 34, 105, 34, 9, 9, 34, 45, 53, 34, 10, 9, 125, 10, 125, 10] :=
  ⟨(text_lines_start_with_depth_tabs Impl.sample
        (.mk [114] (Impl.sample.hash [114])
          (._Collection [.mk [111] (Impl.sample.hash [111])
            (._Collection [ValveDataObject.new_int32 Impl.sample [105] (-5)]) .Object]) .Object) 0 (by decide)).1,
    ((text_lines_start_with_depth_tabs Impl.sample
        (.mk [114] (Impl.sample.hash [114])
          (._Collection [.mk [111] (Impl.sample.hash [111])
            (._Collection [ValveDataObject.new_int32 Impl.sample [105] (-5)]) .Object]) .Object) 0 (by decide)).2 (by decide) (fun _ => rfl)).2.2,
    by decide, by decide⟩

/-! ## Only objects are serialized -/

theorem coherent_items_mem (cs : List ValveDataObject)
    (h : ValveDataObject.coherent.items cs = true) : ∀ x ∈ cs, x.coherent = true := by
  induction cs with
  | nil => intro x hx; cases hx
  | cons t cs ih =>
    simp only [ValveDataObject.coherent.items, Bool.and_eq_true] at h
    intro x hx
    rcases List.mem_cons.1 hx with rfl | hx
    · exact h.1
    · exact ih h.2 x hx

theorem SerializeAsBinary_ok_of_coherent (oe : BinaryNodeType) (t : ValveDataObject) :
    t.coherent = true → ∃ bytes, _SerializeAsBinary oe t = .ok bytes := by
  induction t using ValveDataObject.induction_on with
  | step name hash u ty IH =>
    intro hv
    cases ty <;> cases u <;>
      simp only [ValveDataObject.coherent, Bool.false_eq_true] at hv
    case step.Object._Collection cs =>
      obtain ⟨body, hb⟩ := SerializeAsBinary_items_ok oe cs
        (fun x hx => IH cs rfl x hx (coherent_items_mem cs hv x hx))
      exact ⟨_, by simp only [_SerializeAsBinary, hb]; rfl⟩
    all_goals exact ⟨_, by simp only [_SerializeAsBinary, Payload.raw, le_refl, if_true]; rfl⟩

theorem SerializeAsText_ok_of_coherent (I : Impl) (t : ValveDataObject) :
    t.coherent = true → ∀ d, ∃ bytes, _SerializeAsText I t d = .ok bytes := by
  induction t using ValveDataObject.induction_on with
  | step name hash u ty IH =>
    intro hv d
    cases ty <;> cases u <;>
      simp only [ValveDataObject.coherent, Bool.false_eq_true] at hv
    case step.Object._Collection cs =>
      obtain ⟨body, hb⟩ := SerializeAsText_items_ok I (d + 1) cs
        (fun x hx => IH cs rfl x hx (coherent_items_mem cs hv x hx) (d + 1))
      exact ⟨_, by simp only [_SerializeAsText, hb]; rfl⟩
    all_goals exact ⟨_, by simp only [_SerializeAsText]; rfl⟩

/-- C18: on a node whose type is not `Object`, `SerializeAsText` and
`SerializeAsBinary` (for every version) throw the `SerializeException` and
return no bytes; on an `Object` node whose union members are the ones the
types name, both return bytes. -/
theorem only_objects_serialize (I : Impl) (o : ValveDataObject) :
    (o._Type ≠ .Object →
      SerializeAsText I o = .error (.SerializeException what_serialize)
      ∧ ∀ version, SerializeAsBinary o version = .error (.SerializeException what_serialize))
    ∧ (o._Type = .Object → o.coherent = true →
      (∃ bytes, SerializeAsText I o = .ok bytes)
      ∧ ∀ version, ∃ bytes, SerializeAsBinary o version = .ok bytes) := by
  constructor
  · intro hT
    exact ⟨by unfold SerializeAsText; rw [if_pos hT],
      fun version => by unfold SerializeAsBinary; rw [if_pos hT]⟩
  · intro hT hc
    have hT2 : ¬ o._Type ≠ .Object := by simp [hT]
    constructor
    · unfold SerializeAsText
      rw [if_neg hT2]
      exact SerializeAsText_ok_of_coherent I o hc 0
    · intro version
      unfold SerializeAsBinary
      rw [if_neg hT2]
      simp only []
      obtain ⟨b, hb⟩ := SerializeAsBinary_ok_of_coherent
        (if version ≤ 1 then BinaryNodeType.ObjectEnd else BinaryNodeType.AlternativeEnd) o hc
      rw [hb]
      exact ⟨_, rfl⟩

/-- Witness of C18: a string node is refused by both serializers; the object `R`
holding it and a node of type `None` is written by both. -/
theorem only_objects_serialize_witness :
    (SerializeAsText Impl.sample (ValveDataObject.new_string Impl.sample [115] [118])
        = .error (.SerializeException what_serialize)
      ∧ ∀ version, SerializeAsBinary (ValveDataObject.new_string Impl.sample [115] [118]) version
        = .error (.SerializeException what_serialize))
    ∧ ((∃ bytes, SerializeAsText Impl.sample
          (.mk [82] (Impl.sample.hash [82])
            (._Collection [ValveDataObject.new_string Impl.sample [115] [118],
              ValveDataObject.new Impl.sample]) .Object) = .ok bytes)
      ∧ ∀ version, ∃ bytes, SerializeAsBinary
          (.mk [82] (Impl.sample.hash [82])
            (._Collection [ValveDataObject.new_string Impl.sample [115] [118],
              ValveDataObject.new Impl.sample]) .Object) version = .ok bytes) :=
  ⟨(only_objects_serialize Impl.sample _).1 (by decide),
    (only_objects_serialize Impl.sample _).2 rfl (by decide)⟩

/-! ## Decoding of one binary record -/

theorem ParseBinaryString_loop_plain (cs : Bool) (s rest : Bytes) (n fuel : Nat)
    (hs : ∀ b ∈ s, b ≠ 0 ∧ (b < 128 ∨ cs = true)) (hf : s.length < fuel) :
    Details.ParseBinaryString.loop cs fuel (s ++ 0 :: rest) n = .ok (0, n + s.length + 1) := by
  induction s generalizing n fuel with
  | nil =>
    obtain ⟨f, rfl⟩ : ∃ f, fuel = f + 1 := ⟨fuel - 1, by simp at hf; omega⟩
    rw [List.nil_append, Details.ParseBinaryString.loop]
    simp
  | cons b s ih =>
    obtain ⟨hb0, hb1⟩ := hs b (List.mem_cons_self _ _)
    obtain ⟨f, rfl⟩ : ∃ f, fuel = f + 1 := ⟨fuel - 1, by simp at hf; omega⟩
    have hrec := ih (n + 1) f (fun x hx => hs x (List.mem_cons_of_mem _ hx))
      (by simp at hf; omega)
    rw [List.cons_append, Details.ParseBinaryString.loop]
    by_cases h128 : b < 128
    · rw [if_pos h128, if_neg hb0, hrec]
      simp only [List.length_cons]
      congr 2
      omega
    · have hcs : cs = true := hb1.resolve_left h128
      rw [if_neg h128, if_pos hcs, hrec]
      simp only [List.length_cons]
      congr 2
      omega

theorem ParseBinaryString_plain (I : Impl) (s rest str : Bytes)
    (hs : ∀ b ∈ s, b ≠ 0 ∧ (b < 128 ∨ I.charSigned = true)) :
    Details.ParseBinaryString I (s ++ 0 :: rest) str = .ok (0, rest, str ++ s) := by
  have h := ParseBinaryString_loop_plain I.charSigned s rest 0 (s ++ 0 :: rest).length hs
    (by simp)
  rw [Details.ParseBinaryString, h]
  simp

/-- A line `getline` returns with the stream still good is a text without CR and
LF followed by one of the three line endings. -/
theorem getline_loop_shape (data : Bytes) : ∀ buffer : Bytes,
    (Details.getline.loop data buffer).2.fail = false →
    ∃ l eol, (Details.getline.loop data buffer).1 = buffer ++ l ++ eol ∧ 10 ∉ l ∧ 13 ∉ l
      ∧ is_eol eol = true := by
  induction data with
  | nil => intro buffer h; simp [Details.getline.loop] at h
  | cons c data ih =>
    intro buffer h
    rw [Details.getline.loop.eq_def] at h ⊢
    simp only [] at h ⊢
    by_cases hcr : Details.is_cr c = true
    · have hc : c = 13 := by simpa [Details.is_cr] using hcr
      simp only [hcr, if_true] at h ⊢
      cases data with
      | nil => exact ⟨[], [13], by simp [hc], by simp, by simp, by decide⟩
      | cons c2 data2 =>
        simp only [] at h ⊢
        by_cases hlf : Details.is_lf c2 = true
        · have hc2 : c2 = 10 := by simpa [Details.is_lf] using hlf
          simp only [hlf, if_true]
          exact ⟨[], [13, 10], by simp [hc, hc2], by simp, by simp, by decide⟩
        · simp only [hlf, Bool.false_eq_true, if_false]
          exact ⟨[], [13], by simp [hc], by simp, by simp, by decide⟩
    · simp only [hcr, Bool.false_eq_true, if_false] at h ⊢
      by_cases hlf : Details.is_lf c = true
      · have hc : c = 10 := by simpa [Details.is_lf] using hlf
        simp only [hlf, if_true]
        exact ⟨[], [10], by simp [hc], by simp, by simp, by decide⟩
      · simp only [hlf, Bool.false_eq_true, if_false] at h ⊢
        obtain ⟨l, eol, h1, h10, h13, heol⟩ := ih (buffer ++ [c]) h
        have hc10 : c ≠ 10 := by simpa [Details.is_lf] using hlf
        have hc13 : c ≠ 13 := by simpa [Details.is_cr] using hcr
        refine ⟨c :: l, eol, by rw [h1]; simp, ?_, ?_, heol⟩
        · simp only [List.mem_cons, not_or]; exact ⟨fun h => hc10 h.symm, h10⟩
        · simp only [List.mem_cons, not_or]; exact ⟨fun h => hc13 h.symm, h13⟩

theorem getline_shape (is : istream) (h : (Details.getline is).2.fail = false) :
    ∃ l eol, (Details.getline is).1 = l ++ eol ∧ 10 ∉ l ∧ 13 ∉ l ∧ is_eol eol = true := by
  unfold Details.getline at h ⊢
  by_cases hf : is.fail = true
  · rw [if_pos hf] at h; rw [hf] at h; cases h
  · rw [if_neg hf] at h ⊢
    obtain ⟨l, eol, h1, h2⟩ := getline_loop_shape is.data [] h
    exact ⟨l, eol, by rw [h1]; simp, h2⟩

/-- A string `ParseString` returns from a buffer without CR and LF is
`reparsable`. -/
theorem ParseString_reparsable (l : Bytes) (b e : Nat) (str : Bytes) (b2 : Nat) (s : Bytes)
    (h10 : 10 ∉ l) (h13 : 13 ∉ l) (h : Details.ParseString l b e str = .ok (0, b2, s)) :
    reparsable s = true := by
  obtain ⟨hq, -, -, hle, hmem⟩ := ParseString_ok l b e str b2 s h
  refine (reparsable_iff s).2 ⟨hq, ?_, ?_⟩
  · intro hx
    obtain ⟨i, -, hi, hg⟩ := hmem 10 hx
    exact (getD_not_eol l i (by omega) h10 h13).1 hg
  · intro hx
    obtain ⟨i, -, hi, hg⟩ := hmem 13 hx
    exact (getD_not_eol l i (by omega) h10 h13).2 hg

theorem second_code (buf : Bytes) (e ss : Nat) (str : Bytes) :
    ∀ (fuel b : Nat) (he : Bool) (code : Int) (b2 : Nat) (r : Bytes),
      Details.ParseString.second buf e ss str fuel b he = .ok (code, b2, r) →
      code = 0 ∨ code = -2 ∨ code = -3 := by
  intro fuel
  induction fuel with
  | zero =>
    intro b he code b2 r h
    rw [Details.ParseString.second] at h
    split at h
    · cases h; exact Or.inr (Or.inl rfl)
    · split at h <;> cases h
  | succ fuel ih =>
    intro b he code b2 r h
    by_cases h1 : b = e
    · rw [Details.ParseString.second, if_pos h1] at h; cases h; exact Or.inr (Or.inl rfl)
    by_cases h2 : e < b
    · rw [Details.ParseString.second, if_neg h1, if_pos h2] at h; cases h
    rw [second_step buf e ss str fuel b he (by omega)] at h
    cases ha : Details.ParseString.advance (buf.getD b 0) he with
    | none => rw [ha] at h; cases h; exact Or.inl rfl
    | some p =>
      obtain ⟨j, he2⟩ := p
      rw [ha] at h
      simp only [] at h
      split at h
      · cases h; exact Or.inr (Or.inr rfl)
      · exact ih _ _ _ _ _ h

/-- The return value of `ParseString` is 0, -1, -2 or -3. -/
theorem ParseString_code (buf : Bytes) (b e : Nat) (str : Bytes) (code : Int) (b2 : Nat)
    (r : Bytes) (h : Details.ParseString buf b e str = .ok (code, b2, r)) :
    code = 0 ∨ code = -1 ∨ code = -2 ∨ code = -3 := by
  rw [Details.ParseString] at h
  split at h
  · cases h
  · split at h
    · cases h; exact Or.inr (Or.inl rfl)
    · rcases second_code _ _ _ _ _ _ _ _ _ _ h with h0 | h2 | h3
      · exact Or.inl h0
      · exact Or.inr (Or.inr (Or.inl h2))
      · exact Or.inr (Or.inr (Or.inr h3))

/-- Case analysis on a line of `_ParseTextObject` read from a buffer without CR
and LF: the strings it takes from the line are `reparsable`. -/
theorem line_cases_clean (I : Impl) (l : Bytes) (ln : Nat) (c : ValveCollection) (io : Bool)
    (nm : Bytes) (s e : Nat) (h10 : 10 ∉ l) (h13 : 13 ∉ l) (P : LineAction → Prop)
    (h1 : ∀ x, P (.throw x)) (h2 : P .stop) (h3 : io = true → P (.descend nm))
    (h4 : P (.next c io nm))
    (h5 : ∀ k v, reparsable k = true → reparsable v = true →
      P (.next (c ++ [ValveDataObject.new_string I k v]) false k))
    (h6 : ∀ k, reparsable k = true → P (.next c true k)) :
    P (_ParseTextObject.line I l ln c io nm s e) := by
  unfold _ParseTextObject.line
  by_cases c1 : s = e
  · rw [if_pos c1]; exact h4
  rw [if_neg c1]
  by_cases c2 : l.getD s 0 = 125
  · rw [if_pos c2]; exact h2
  rw [if_neg c2]
  cases io
  · rw [if_pos (by rfl)]
    cases hS : Details.ParseString l s e nm with
    | error x => apply h1
    | ok p =>
      obtain ⟨err, ls, k⟩ := p
      simp only []
      by_cases e1 : err = -1
      · rw [if_pos e1]; apply h1
      rw [if_neg e1]
      by_cases e2 : err = -2
      · rw [if_pos e2]; apply h1
      rw [if_neg e2]
      by_cases e3 : err = -3
      · rw [if_pos e3]; apply h1
      rw [if_neg e3]
      have herr : err = 0 := by
        rcases ParseString_code _ _ _ _ _ _ _ hS with h | h | h | h
        · exact h
        · exact absurd h e1
        · exact absurd h e2
        · exact absurd h e3
      subst herr
      have hk := ParseString_reparsable l s e nm ls k h10 h13 hS
      cases hS2 : Details.SkipSpaces l ls e with
      | error x => apply h1
      | ok q =>
        obtain ⟨ls2, le2⟩ := q
        simp only []
        by_cases c3 : l.getD ls2 0 = 34
        · rw [if_pos c3]
          cases hS3 : Details.ParseString l ls2 le2 [] with
          | error x => apply h1
          | ok p3 =>
            obtain ⟨err3, ls3, v⟩ := p3
            simp only []
            by_cases f1 : err3 = -1
            · rw [if_pos f1]; apply h1
            rw [if_neg f1]
            by_cases f2 : err3 = -2
            · rw [if_pos f2]; apply h1
            rw [if_neg f2]
            by_cases f3 : err3 = -3
            · rw [if_pos f3]; apply h1
            rw [if_neg f3]
            have herr3 : err3 = 0 := by
              rcases ParseString_code _ _ _ _ _ _ _ hS3 with h | h | h | h
              · exact h
              · exact absurd h f1
              · exact absurd h f2
              · exact absurd h f3
            subst herr3
            have hv := ParseString_reparsable l ls2 le2 [] ls3 v h10 h13 hS3
            cases hS4 : Details.SkipSpaces l ls3 le2 with
            | error x => apply h1
            | ok q4 =>
              obtain ⟨ls4, le4⟩ := q4
              simp only []
              split
              · apply h1
              · exact h5 k v hk hv
        · rw [if_neg c3]
          split
          · apply h1
          · exact h6 k hk
  · rw [if_neg (by simp)]
    repeat' split
    all_goals first
      | apply h1
      | exact h3 rfl

/-- Case analysis on a line of the text branch of `ParseObject` read from a
buffer without CR and LF. -/
theorem text_line_cases_clean (l : Bytes) (ln : Nat) (nm : Bytes) (s e : Nat) (h10 : 10 ∉ l)
    (h13 : 13 ∉ l) (P : LineAction → Prop) (h1 : ∀ x, P (.throw x))
    (h3 : nm.isEmpty = false → P (.descend nm)) (h4 : P (.next [] false nm))
    (h6 : ∀ k, reparsable k = true → P (.next [] false k)) :
    P (ParseObject.text_line l ln nm s e) := by
  unfold ParseObject.text_line
  by_cases c1 : s = e
  · rw [if_pos c1]; exact h4
  rw [if_neg c1]
  cases hie : nm.isEmpty
  · rw [if_neg (by simp)]
    repeat' split
    all_goals first
      | apply h1
      | exact h3 hie
  · rw [if_pos rfl]
    cases hS : Details.ParseString l s e nm with
    | error x => apply h1
    | ok p =>
      obtain ⟨err, ls, k⟩ := p
      simp only []
      by_cases e1 : err = -1
      · rw [if_pos e1]; apply h1
      rw [if_neg e1]
      by_cases e2 : err = -2
      · rw [if_pos e2]; apply h1
      rw [if_neg e2]
      by_cases e3 : err = -3
      · rw [if_pos e3]; apply h1
      rw [if_neg e3]
      have herr : err = 0 := by
        rcases ParseString_code _ _ _ _ _ _ _ hS with h | h | h | h
        · exact h
        · exact absurd h e1
        · exact absurd h e2
        · exact absurd h e3
      subst herr
      have hk := ParseString_reparsable l s e nm ls k h10 h13 hS
      repeat' split
      all_goals first
        | apply h1
        | exact h6 k hk

/-- The window of a line that `getline` returned: it lies in the text of the line,
or it is the one byte that ends the line. -/
theorem SkipSpaces_getline (is : istream) (hfail : (Details.getline is).2.fail = false)
    (s e : Nat)
    (hS : Details.SkipSpaces (Details.getline is).1 0 (Details.getline is).1.length
      = .ok (s, e)) :
    ∃ l eol, (Details.getline is).1 = l ++ eol ∧ 10 ∉ l ∧ 13 ∉ l ∧ is_eol eol = true
      ∧ ((s < l.length ∧ e = l.length) ∨ (s = l.length ∧ e = l.length + 1)) := by
  obtain ⟨l, eol, hb, h10, h13, heol⟩ := getline_shape is hfail
  refine ⟨l, eol, hb, h10, h13, heol, ?_⟩
  rw [hb, SkipSpaces_whole_line l eol heol h10 h13] at hS
  simp only [Except.ok.injEq, Prod.mk.injEq] at hS
  obtain ⟨hs, he⟩ := hS
  have hbound := (SkipSpaces_front_bound l l.length l.length 0 (Nat.zero_le _)).2
  rw [hs] at he hbound
  by_cases hlt : s < l.length
  · rw [if_pos hlt] at he
    exact Or.inl ⟨hlt, he.symm⟩
  · rw [if_neg hlt] at he
    exact Or.inr ⟨by omega, he.symm⟩

/-- Case analysis on a line of `_ParseTextObject` as the loop reads it from the
stream. -/
theorem line_cases_stream (I : Impl) (is : istream) (ln : Nat) (c : ValveCollection) (io : Bool)
    (nm : Bytes) (s e : Nat) (hfail : (Details.getline is).2.fail = false)
    (hS : Details.SkipSpaces (Details.getline is).1 0 (Details.getline is).1.length
      = .ok (s, e))
    (P : LineAction → Prop)
    (h1 : ∀ x, P (.throw x)) (h2 : P .stop) (h3 : io = true → P (.descend nm))
    (h4 : P (.next c io nm))
    (h5 : ∀ k v, reparsable k = true → reparsable v = true →
      P (.next (c ++ [ValveDataObject.new_string I k v]) false k))
    (h6 : ∀ k, reparsable k = true → P (.next c true k)) :
    P (_ParseTextObject.line I (Details.getline is).1 ln c io nm s e) := by
  obtain ⟨l, eol, hb, h10, h13, heol, hw⟩ := SkipSpaces_getline is hfail s e hS
  obtain ⟨⟨a, x, hax, ha⟩, hx⟩ := eol_bytes eol heol
  rw [hb]
  rcases hw with ⟨hs, he⟩ | ⟨hs, he⟩
  · rw [ParseTextObject_line_local I l eol ln c io nm s e (by omega) (by omega) hx]
    exact line_cases_clean I l ln c io nm s e h10 h13 P h1 h2 h3 h4 h5 h6
  · rw [hs, he, hax, line_blank I l a x ln c io nm ha]
    split <;> apply h1

/-- Case analysis on a line of the text branch of `ParseObject` as the loop reads
it from the stream. -/
theorem text_line_cases_stream (is : istream) (ln : Nat) (nm : Bytes) (s e : Nat)
    (hfail : (Details.getline is).2.fail = false)
    (hS : Details.SkipSpaces (Details.getline is).1 0 (Details.getline is).1.length
      = .ok (s, e))
    (P : LineAction → Prop) (h1 : ∀ x, P (.throw x))
    (h3 : nm.isEmpty = false → P (.descend nm)) (h4 : P (.next [] false nm))
    (h6 : ∀ k, reparsable k = true → P (.next [] false k)) :
    P (ParseObject.text_line (Details.getline is).1 ln nm s e) := by
  obtain ⟨l, eol, hb, h10, h13, heol, hw⟩ := SkipSpaces_getline is hfail s e hS
  obtain ⟨⟨a, x, hax, ha⟩, hx⟩ := eol_bytes eol heol
  rw [hb]
  rcases hw with ⟨hs, he⟩ | ⟨hs, he⟩
  · rw [ParseObject_text_line_local l eol ln nm s e (by omega) (by omega) hx]
    exact text_line_cases_clean l ln nm s e h10 h13 P h1 h3 h4 h6
  · rw [hs, he, hax, text_line_blank l a x ln nm ha]
    split <;> apply h1

theorem text_tree_items_append (I : Impl) (c1 c2 : List ValveDataObject) :
    ValveDataObject.text_tree.items I (c1 ++ c2)
      = (ValveDataObject.text_tree.items I c1 && ValveDataObject.text_tree.items I c2) := by
  induction c1 with
  | nil => simp [ValveDataObject.text_tree.items]
  | cons x c1 ih => simp [ValveDataObject.text_tree.items, ih, Bool.and_assoc]

theorem text_tree_snoc (I : Impl) (c : List ValveDataObject) (x : ValveDataObject)
    (hc : ValveDataObject.text_tree.items I c = true) (hx : x.text_tree I = true) :
    ValveDataObject.text_tree.items I (c ++ [x]) = true := by
  rw [text_tree_items_append, hc]
  simp [ValveDataObject.text_tree.items, hx]

theorem text_tree_new_string (I : Impl) (k v : Bytes) (hk : reparsable k = true)
    (hv : reparsable v = true) : (ValveDataObject.new_string I k v).text_tree I = true := by
  simp [ValveDataObject.new_string, ValveDataObject.text_tree, hk, hv]

theorem text_tree_object (I : Impl) (name : Bytes) (c : List ValveDataObject)
    (hn : reparsable name = true) (hc : ValveDataObject.text_tree.items I c = true) :
    ValveDataObject.text_tree I (.mk name (I.hash name) (._Collection c) .Object) = true := by
  simp [ValveDataObject.text_tree, hn, hc]

/-- The loop of `_ParseTextObject` collects text trees, and the function returns
one. -/
theorem text_loop_tree (I : Impl) : ∀ (f : Nat),
    (∀ is ln c io nm r, ValveDataObject.text_tree.items I c = true →
      (io = true → reparsable nm = true) →
      _ParseTextObject.loop I f is ln c io nm = .ok r →
      ValveDataObject.text_tree.items I r.1 = true)
    ∧ (∀ is nm ln r, reparsable nm = true → _ParseTextObject I f is nm ln = .ok r →
      ValveDataObject.text_tree I r.1 = true ∧ r.1._Type = .Object ∧ r.1._Name = nm) := by
  intro f
  induction f with
  | zero =>
    constructor
    · intro is ln c io nm r _ _ h; rw [_ParseTextObject.loop] at h; cases h
    · intro is nm ln r _ h; rw [_ParseTextObject] at h; cases h
  | succ f ih =>
    constructor
    · intro is ln c io nm r hc hnm h
      rw [text_loop_eq_line] at h
      split at h
      · cases h; exact hc
      · rename_i hfail
        have hfail2 : (Details.getline is).2.fail = false := by simpa using hfail
        split at h
        · cases h
        · rename_i s e hS
          generalize hA : _ParseTextObject.line I (Details.getline is).1 ((ln + 1) % 2 ^ 32) c io
            nm s e = a at h
          revert hA
          refine line_cases_stream I is ((ln + 1) % 2 ^ 32) c io nm s e hfail2 hS
            (fun a2 => a2 = a → ValveDataObject.text_tree.items I r.1 = true) ?_ ?_ ?_ ?_ ?_ ?_
          · intro x hx; subst hx; cases h
          · intro hx; subst hx; cases h; exact hc
          · intro hio hx; subst hx
            simp only [] at h
            split at h
            · cases h
            · rename_i child is2 ln2 hchild
              exact ih.1 _ _ _ _ _ _
                (text_tree_snoc I c child hc (ih.2 _ _ _ _ (hnm hio) hchild).1)
                (fun hf => by cases hf) h
          · intro hx; subst hx
            exact ih.1 _ _ _ _ _ _ hc hnm h
          · intro k v hk hv hx; subst hx
            exact ih.1 _ _ _ _ _ _
              (text_tree_snoc I c _ hc (text_tree_new_string I k v hk hv))
              (fun hf => by cases hf) h
          · intro k hk hx; subst hx
            exact ih.1 _ _ _ _ _ _ hc (fun _ => hk) h
    · intro is nm ln r hnm h
      rw [_ParseTextObject] at h
      split at h
      · cases h
      · rename_i c2 is2 ln2 hl
        cases h
        have := ih.1 _ _ _ _ _ _ (by rfl) (fun hf => by cases hf) hl
        exact ⟨text_tree_object I nm c2 hnm this, rfl, rfl⟩

/-- The text loop of `ParseObject` returns the node it was given or an object
that is a text tree with a non-empty name. -/
theorem text_root_tree (I : Impl) : ∀ (f : Nat) (is : istream) (ln : Nat) (nm : Bytes)
    (po o : ValveDataObject), reparsable nm = true →
    (po._Type = .Object → po.text_tree I = true ∧ po._Name ≠ []) →
    ParseObject.text I f is ln nm po = .ok o →
    (o._Type = .Object → o.text_tree I = true ∧ o._Name ≠ []) := by
  intro f
  induction f with
  | zero => intro is ln nm po o _ _ h; rw [ParseObject.text] at h; cases h
  | succ f ih =>
    intro is ln nm po o hnm hpo h
    rw [text_eq_line] at h
    split at h
    · cases h; exact hpo
    · rename_i hfail
      have hfail2 : (Details.getline is).2.fail = false := by simpa using hfail
      split at h
      · cases h
      · rename_i s e hS
        generalize hA : ParseObject.text_line (Details.getline is).1 ((ln + 1) % 2 ^ 32) nm s e
          = a at h
        revert hA
        refine text_line_cases_stream is ((ln + 1) % 2 ^ 32) nm s e hfail2 hS
          (fun a2 => a2 = a → (o._Type = .Object → o.text_tree I = true ∧ o._Name ≠ []))
          ?_ ?_ ?_ ?_
        · intro x hx; subst hx; cases h
        · intro hie hx; subst hx
          simp only [] at h
          split at h
          · cases h
          · rename_i o2 is2 ln2 ho2
            obtain ⟨i1, i2, i3⟩ := (text_loop_tree I _).2 _ _ _ _ hnm ho2
            refine ih _ _ _ _ _ (by decide) ?_ h
            intro _
            refine ⟨i1, ?_⟩
            rw [i3]
            intro hnil
            rw [hnil] at hie
            cases hie
        · intro hx; subst hx
          exact ih _ _ _ _ _ hnm hpo h
        · intro k hk hx; subst hx
          exact ih _ _ _ _ _ hk hpo h

/-! ## The canonical text of a text document -/

/-- A text tree is `valid`, its names and strings are `reparsable`, and it is its
own text image. -/
theorem text_tree_facts (I : Impl) (t : ValveDataObject) :
    t.text_tree I = true →
      t.valid I = true ∧ t.all_strings reparsable = true ∧ t.text_image I = t := by
  induction t using ValveDataObject.induction_on with
  | step name hash u ty IH =>
    have hitems : ∀ cs : List ValveDataObject,
        (∀ x ∈ cs, x.text_tree I = true →
          x.valid I = true ∧ x.all_strings reparsable = true ∧ x.text_image I = x) →
        ValveDataObject.text_tree.items I cs = true →
          ValveDataObject.valid.items I cs = true
            ∧ ValveDataObject.all_strings.items reparsable cs = true
            ∧ ValveDataObject.text_image.items I cs = cs := by
      intro cs
      induction cs with
      | nil => intro _ _; exact ⟨rfl, rfl, rfl⟩
      | cons x cs ih =>
        intro hx h
        simp only [ValveDataObject.text_tree.items, Bool.and_eq_true] at h
        obtain ⟨a1, a2, a3⟩ := hx x (List.mem_cons_self _ _) h.1
        obtain ⟨b1, b2, b3⟩ := ih (fun y hy => hx y (List.mem_cons_of_mem _ hy)) h.2
        simp only [ValveDataObject.valid.items, ValveDataObject.all_strings.items,
          ValveDataObject.text_image.items, a1, a2, a3, b1, b2, b3, Bool.and_self, and_self]
    intro h
    cases ty <;> cases u <;>
      simp only [ValveDataObject.text_tree, Bool.and_eq_true, decide_eq_true_eq,
        Bool.false_eq_true, and_false] at h
    case Object._Collection cs =>
      obtain ⟨⟨hh, hn⟩, hc⟩ := h
      obtain ⟨b1, b2, b3⟩ := hitems cs (IH cs rfl) hc
      simp only [ValveDataObject.valid, ValveDataObject.all_strings,
        ValveDataObject.text_image, hh, hn, b1, b2, b3, decide_True, Bool.and_self, and_self]
    case String._String s =>
      obtain ⟨⟨hh, hn⟩, hc⟩ := h
      simp only [ValveDataObject.valid, ValveDataObject.all_strings,
        ValveDataObject.text_image, hh, hn, hc, decide_True, Bool.and_self, and_self]

/-- The text of a text tree with an `Object` root of non-empty name parses back to
the tree. -/
theorem text_tree_round_trip (I : Impl) (t : ValveDataObject) (chunk_size : Nat)
    (ht : t.text_tree I = true) (hT : t._Type = .Object) (hne : t._Name ≠ []) :
    ∃ bytes, SerializeAsText I t = .ok bytes ∧ ParseObject I bytes chunk_size = .ok t := by
  obtain ⟨hv, hs, him⟩ := text_tree_facts I t ht
  obtain ⟨bytes, h1, h2⟩ := text_round_trip_core I t chunk_size (Or.inr ht) hT hne hv hs
  rw [him] at h2
  exact ⟨bytes, h1, h2⟩

/-- A document that is not sniffed as binary and parses to an `Object` root gives a
text tree with a non-empty root name. -/
theorem ParseObject_text_tree (I : Impl) (d : Bytes) (chunk_size : Nat) (o : ValveDataObject)
    (hm : d.take 4 ≠ BinaryVDFMagic) (h0 : d.getD 0 0 ≠ 0)
    (hp : ParseObject I d chunk_size = .ok o) (hT : o._Type = .Object) :
    o.text_tree I = true ∧ o._Name ≠ [] := by
  rw [ParseObject] at hp
  split at hp
  · cases hp
  · exact text_root_tree I _ _ _ _ _ o (by decide)
      (by intro h; simp [ValveDataObject.new, ValveDataObject._Type] at h) hp hT

/-- C19: a document `d` that takes the text branch of `ParseObject` (its first four
bytes are not the binary magic and its first byte is not NUL) and parses into an
`Object` root `o` has a canonical text `t = SerializeAsText o`, and `t` is a
fixed point: parsing `t` gives the tree that parsing `d` gave, and serializing
that tree again gives `t` byte for byte. -/
theorem text_canonical_form_is_fixed_point (I : Impl) (d : Bytes) (chunk_size chunk_size2 : Nat)
    (o : ValveDataObject)
    (hm : d.take 4 ≠ BinaryVDFMagic) (h0 : d.getD 0 0 ≠ 0)
    (hp : ParseObject I d chunk_size = .ok o) (hT : o._Type = .Object) :
    ∃ t, SerializeAsText I o = .ok t
      ∧ ParseObject I t chunk_size2 = ParseObject I d chunk_size
      ∧ (ParseObject I t chunk_size2 >>= SerializeAsText I) = .ok t := by
  obtain ⟨ht, hne⟩ := ParseObject_text_tree I d chunk_size o hm h0 hp hT
  obtain ⟨t, h1, h2⟩ := text_tree_round_trip I o chunk_size2 ht hT hne
  refine ⟨t, h1, by rw [h2, hp], ?_⟩
  rw [h2]
  exact h1

/-- Witness of C19: a document with CR LF line ends and spaces for indentation
parses to the root `999999` of the test, with its two children, and its
canonical text is a fixed point. -/
theorem text_canonical_form_is_fixed_point_witness :
    ∃ t, SerializeAsText Impl.sample
          (.mk (ascii "999999") (Impl.sample.hash (ascii "999999"))
            (._Collection
              [.mk (ascii "ObjectKey") (Impl.sample.hash (ascii "ObjectKey"))
                  (._Collection
                    [ValveDataObject.new_string Impl.sample (ascii "ObjectEntry")
                      (ascii "ObjectEntryValue")])
                  .Object,
                ValveDataObject.new_string Impl.sample (ascii "Version") (ascii "8")])
            .Object) = .ok t
      ∧ ParseObject Impl.sample t 7
          = ParseObject Impl.sample
              (ascii ("\"999999\" \r\n\x7b\r\n  \"ObjectKey\"\r\n  \x7b\r\n"
                ++ "    \"ObjectEntry\" \"ObjectEntryValue\"\r\n  \x7d\r\n"
                ++ "  \"Version\"   \"8\"\r\n\x7d\r\n")) 1024
      ∧ (ParseObject Impl.sample t 7 >>= SerializeAsText Impl.sample) = .ok t :=
  text_canonical_form_is_fixed_point Impl.sample
    (ascii ("\"999999\" \r\n\x7b\r\n  \"ObjectKey\"\r\n  \x7b\r\n"
      ++ "    \"ObjectEntry\" \"ObjectEntryValue\"\r\n  \x7d\r\n"
      ++ "  \"Version\"   \"8\"\r\n\x7d\r\n")) 1024 7
    (.mk (ascii "999999") (Impl.sample.hash (ascii "999999"))
      (._Collection
        [.mk (ascii "ObjectKey") (Impl.sample.hash (ascii "ObjectKey"))
            (._Collection
              [ValveDataObject.new_string Impl.sample (ascii "ObjectEntry")
                (ascii "ObjectEntryValue")])
            .Object,
          ValveDataObject.new_string Impl.sample (ascii "Version") (ascii "8")])
      .Object)
    (by decide) (by decide) (by rfl) rfl

/-! ## The tag of the binary root -/

/-- The binary branch of `ParseObject` on the bytes that follow the sniffed header:
no byte gives the premature-end error, a first byte other than `00` the
root-type error, and the byte `00` starts the loop on the rest. -/
theorem ParseObject_binary_root (I : Impl) (chunk : Nat) (oe : BinaryNodeType) :
    ParseObject.binary I chunk oe ⟨[], false⟩
        = .error (.ParserException "Premature end of file while parsing root binary object")
    ∧ (∀ b rest, b ≠ 0 →
        ParseObject.binary I chunk oe ⟨b :: rest, false⟩
          = .error (.ParserException "Binary root item type is not an object"))
    ∧ (∀ rest,
        ParseObject.binary I chunk oe ⟨0 :: rest, false⟩
          = ParseObject.binary_loop I chunk oe (rest.length + 1) ⟨rest, false⟩ []
              (ValveDataObject.new I)) := by
  refine ⟨by rfl, ?_, ?_⟩
  · intro b rest hb
    simp [ParseObject.binary, istream.read, BinaryNodeType.toByte, hb]
  · intro rest
    simp [ParseObject.binary, istream.read, BinaryNodeType.toByte]

/-- C27: the tag of the root of a stream sniffed as binary.  After the header
`VBKV` the tag is the byte at offset 8: a stream of at most eight bytes fails
with the premature-end error, a byte other than `00` there fails with the
root-type error, and `00` starts the decoding of the root name at offset 9.
In the legacy form the stream is sniffed as binary because its byte at offset 0
is `00`, which is the tag: neither error is raised and the root name is
decoded from offset 1. -/
theorem binary_root_tag_must_be_object (I : Impl) (input : Bytes) (chunk_size : Nat)
    (h4 : 4 ≤ input.length) :
    (input.take 4 = BinaryVDFMagic →
      (input.length ≤ 8 →
        ParseObject I input chunk_size
          = .error (.ParserException "Premature end of file while parsing root binary object"))
      ∧ (8 < input.length → input.getD 8 0 ≠ 0 →
        ParseObject I input chunk_size
          = .error (.ParserException "Binary root item type is not an object"))
      ∧ (8 < input.length → input.getD 8 0 = 0 →
        ParseObject I input chunk_size
          = ParseObject.binary_loop I chunk_size .AlternativeEnd (input.length - 8)
              ⟨input.drop 9, false⟩ [] (ValveDataObject.new I)))
    ∧ (input.take 4 ≠ BinaryVDFMagic → input.getD 0 0 = 0 →
      ParseObject I input chunk_size
        = ParseObject.binary_loop I chunk_size .ObjectEnd input.length
            ⟨input.drop 1, false⟩ [] (ValveDataObject.new I)) := by
  have hlen : ¬ input.length < 4 := by omega
  constructor
  · intro hm
    have hP : ParseObject I input chunk_size
        = ParseObject.binary I chunk_size .AlternativeEnd ⟨input.drop 8, false⟩ := by
      unfold ParseObject
      rw [if_neg hlen, if_pos hm]
    have hcons : 8 < input.length → input.drop 8 = input.getD 8 0 :: input.drop 9 := by
      intro h8
      rw [List.getD_eq_getElem _ _ h8]
      exact List.drop_eq_getElem_cons h8
    refine ⟨?_, ?_, ?_⟩
    · intro h8
      rw [hP, List.drop_eq_nil_of_le h8]
      exact (ParseObject_binary_root I chunk_size .AlternativeEnd).1
    · intro h8 hb
      rw [hP, hcons h8]
      exact (ParseObject_binary_root I chunk_size .AlternativeEnd).2.1 _ _ hb
    · intro h8 hb
      rw [hP, hcons h8, hb, (ParseObject_binary_root I chunk_size .AlternativeEnd).2.2]
      have e : (input.drop 9).length + 1 = input.length - 8 := by
        rw [List.length_drop]; omega
      rw [e]
  · intro hm h0
    have hP : ParseObject I input chunk_size
        = ParseObject.binary I chunk_size .ObjectEnd ⟨input, false⟩ := by
      unfold ParseObject
      rw [if_neg hlen, if_neg hm, if_pos h0]
    have hcons : input = 0 :: input.drop 1 := by
      cases input with
      | nil => simp at h4
      | cons b rest =>
        simp only [List.getD_cons_zero] at h0
        rw [h0]; rfl
    rw [hP]
    conv_lhs => rw [hcons]
    rw [(ParseObject_binary_root I chunk_size .ObjectEnd).2.2]
    have e : (input.drop 1).length + 1 = input.length := by
      rw [List.length_drop]; omega
    rw [e]

/-- Witness of C27: the header alone, the header followed by the tag `01`, and the
headered and the legacy form of the empty root `R`. -/
theorem binary_root_tag_must_be_object_witness :
    ParseObject Impl.sample [86, 66, 75, 86, 0, 0, 0, 0] (10 * 1024)
        = .error (.ParserException "Premature end of file while parsing root binary object")
    ∧ ParseObject Impl.sample [86, 66, 75, 86, 0, 0, 0, 0, 1, 82, 0, 11] (10 * 1024)
        = .error (.ParserException "Binary root item type is not an object")
    ∧ ParseObject Impl.sample [86, 66, 75, 86, 0, 0, 0, 0, 0, 82, 0, 11] (10 * 1024)
        = .ok (ValveDataObject.new_object Impl.sample [82])
    ∧ ParseObject Impl.sample [0, 82, 0, 8] (10 * 1024)
        = .ok (ValveDataObject.new_object Impl.sample [82]) :=
  ⟨((binary_root_tag_must_be_object Impl.sample [86, 66, 75, 86, 0, 0, 0, 0] (10 * 1024)
      (by decide)).1 (by decide)).1 (by decide),
    ((binary_root_tag_must_be_object Impl.sample [86, 66, 75, 86, 0, 0, 0, 0, 1, 82, 0, 11]
      (10 * 1024) (by decide)).1 (by decide)).2.1 (by decide) (by decide),
    (((binary_root_tag_must_be_object Impl.sample [86, 66, 75, 86, 0, 0, 0, 0, 0, 82, 0, 11]
      (10 * 1024) (by decide)).1 (by decide)).2.2 (by decide) (by decide)).trans (by rfl),
    ((binary_root_tag_must_be_object Impl.sample [0, 82, 0, 8] (10 * 1024)
      (by decide)).2 (by decide) (by decide)).trans (by rfl)⟩

/-! ## The type of the root -/

/-- The node `_ParseTextObject` returns is an `Object`. -/
theorem ParseTextObject_type (I : Impl) (f : Nat) (is : istream) (nm : Bytes) (ln : Nat)
    (r : ValveDataObject × istream × Nat) (h : _ParseTextObject I f is nm ln = .ok r) :
    r.1._Type = .Object := by
  cases f with
  | zero => rw [_ParseTextObject] at h; cases h
  | succ f =>
    rw [_ParseTextObject] at h
    split at h
    · cases h
    · cases h; rfl

/-- The node `_ParseBinaryObject` returns is an `Object`. -/
theorem ParseBinaryObject_type (I : Impl) (oe : BinaryNodeType) (chunk f : Nat) (is : istream)
    (nm win : Bytes) (r : ValveDataObject × istream × Bytes)
    (h : _ParseBinaryObject I oe chunk f is nm win = .ok r) : r.1._Type = .Object := by
  cases f with
  | zero => rw [_ParseBinaryObject] at h; cases h
  | succ f =>
    rw [_ParseBinaryObject] at h
    split at h
    · split at h
      · cases h
      · cases h; rfl
    · cases h; rfl

/-- The text loop of `ParseObject` returns the node it was given or an `Object`. -/
theorem text_root_type (I : Impl) : ∀ (f : Nat) (is : istream) (ln : Nat) (nm : Bytes)
    (po r : ValveDataObject), (po._Type = .Object ∨ po = ValveDataObject.new I) →
    ParseObject.text I f is ln nm po = .ok r →
    (r._Type = .Object ∨ r = ValveDataObject.new I) := by
  intro f
  induction f with
  | zero => intro is ln nm po r _ h; rw [ParseObject.text] at h; cases h
  | succ f ih =>
    intro is ln nm po r hpo h
    rw [text_eq_line] at h
    split at h
    · cases h; exact hpo
    · split at h
      · cases h
      · rename_i s e hS
        revert h
        cases hA : ParseObject.text_line (Details.getline is).1 ((ln + 1) % 2 ^ 32) nm s e with
        | throw x => intro h; cases h
        | stop => intro h; cases h; exact hpo
        | next c2 io2 nm2 => intro h; exact ih _ _ _ _ _ hpo h
        | descend nm2 =>
          intro h
          simp only [] at h
          split at h
          · cases h
          · rename_i o is2 ln2 ho
            exact ih _ _ _ _ _ (Or.inl (ParseTextObject_type I _ _ _ _ _ ho)) h

/-- The binary loop of `ParseObject` returns the node it was given or an `Object`. -/
theorem binary_root_type (I : Impl) (chunk : Nat) (oe : BinaryNodeType) : ∀ (f : Nat)
    (is : istream) (nm : Bytes) (po r : ValveDataObject),
    (po._Type = .Object ∨ po = ValveDataObject.new I) →
    ParseObject.binary_loop I chunk oe f is nm po = .ok r →
    (r._Type = .Object ∨ r = ValveDataObject.new I) := by
  intro f
  induction f with
  | zero => intro is nm po r _ h; rw [ParseObject.binary_loop] at h; cases h
  | succ f ih =>
    intro is nm po r hpo h
    rw [ParseObject.binary_loop] at h
    simp only [] at h
    split at h
    · split at h
      · cases h
      · split at h
        · cases h
        · split at h
          · split at h
            · cases h
            · rename_i o is2 w2 ho
              exact ih _ _ _ _ (Or.inl (ParseBinaryObject_type I oe chunk _ _ _ _ _ ho)) h
          · exact ih _ _ _ _ hpo h
    · cases h; exact hpo

/-- C22 as stated fails: `ParseObject` returns the node it starts with,
`ValveDataObject()` of type `None`, when the stream ends before a root object
has been opened.  The text document that holds only the line `"ab"` and the
binary document `00 52 52 52`, whose root name has no NUL, are parsed without
an exception and the node returned has type `None`. -/
theorem root_type_counterexample :
    ParseObject Impl.sample (terminate_lines [10] [ascii "\"ab\""]) (10 * 1024)
        = .ok (ValveDataObject.new Impl.sample)
    ∧ ParseObject Impl.sample [0, 82, 82, 82] (10 * 1024) = .ok (ValveDataObject.new Impl.sample)
    ∧ (ValveDataObject.new Impl.sample).Type = .None
    ∧ (ValveDataObject.new Impl.sample).Type ≠ .Object := by
  refine ⟨by rfl, by rfl, by rfl, by decide⟩

/-- C22, amended: the node `ParseObject` returns, from text or from binary, has
type `Object`, or it is the node `ValveDataObject()` (empty name, type `None`)
the function starts with. -/
theorem root_is_object_or_initial (I : Impl) (input : Bytes) (chunk_size : Nat)
    (o : ValveDataObject) (h : ParseObject I input chunk_size = .ok o) :
    o.Type = .Object ∨ o = ValveDataObject.new I := by
  unfold ParseObject at h
  have hbin : ∀ oe is, ParseObject.binary I chunk_size oe is = .ok o →
      (o._Type = .Object ∨ o = ValveDataObject.new I) := by
    intro oe is hb
    unfold ParseObject.binary at hb
    simp only [] at hb
    split at hb
    · cases hb
    · split at hb
      · cases hb
      · exact binary_root_type I chunk_size oe _ _ _ _ _ (Or.inr rfl) hb
  split at h
  · cases h
  · split at h
    · exact hbin _ _ h
    · split at h
      · exact hbin _ _ h
      · exact text_root_type I _ _ _ _ _ _ (Or.inr rfl) h

/-- Witness of the amended C22: the document `"r"`, `{`, `}` gives an `Object`, the
document `"ab"` the initial node. -/
theorem root_is_object_or_initial_witness :
    ((ValveDataObject.new_object Impl.sample (ascii "r")).Type = .Object
      ∨ ValveDataObject.new_object Impl.sample (ascii "r") = ValveDataObject.new Impl.sample)
    ∧ ParseObject Impl.sample (terminate_lines [10] [ascii "\"r\"", [123], [125]]) (10 * 1024)
        = .ok (ValveDataObject.new_object Impl.sample (ascii "r"))
    ∧ ((ValveDataObject.new Impl.sample).Type = .Object
      ∨ ValveDataObject.new Impl.sample = ValveDataObject.new Impl.sample) :=
  ⟨root_is_object_or_initial Impl.sample (terminate_lines [10] [ascii "\"r\"", [123], [125]])
      (10 * 1024) _ (by rfl),
    by rfl,
    root_is_object_or_initial Impl.sample (terminate_lines [10] [ascii "\"ab\""])
      (10 * 1024) _ (by rfl)⟩

/-! ## Evaluations of the text parser and of the string scanner -/

/-- C28, what the code does: a blank line is not skipped.  `SkipSpaces` stops
moving the end cursor back when it is one byte after the start cursor, so a
line that holds only its line ending (after blanks or not) is never trimmed to
the empty line the test `line_start == line_end` looks for.  The document
`"r"`, `{`, `}` parses to the empty root `r`; with a blank line between `{` and
`}` (empty, or a space and a tab, with `\n` or `\r\n`) `ParseObject` throws
`Expected item key start at line 3`, and with an empty line between `"r"` and
`{` it throws `Expected object start at line 2`. -/
theorem blank_line_is_not_skipped :
    Details.SkipSpaces [10] 0 1 = .ok (0, 1)
    ∧ Details.SkipSpaces [32, 9, 13, 10] 0 4 = .ok (2, 3)
    ∧ ParseObject Impl.sample (terminate_lines [10] [ascii "\"r\"", [123], [125]]) (10 * 1024)
        = .ok (ValveDataObject.new_object Impl.sample (ascii "r"))
    ∧ ParseObject Impl.sample (terminate_lines [10] [ascii "\"r\"", [123], [], [125]])
          (10 * 1024)
        = .error (.ParserException "Expected item key start at line 3")
    ∧ ParseObject Impl.sample (terminate_lines [10] [ascii "\"r\"", [123], [32, 9], [125]])
          (10 * 1024)
        = .error (.ParserException "Expected item key start at line 3")
    ∧ ParseObject Impl.sample (terminate_lines [13, 10] [ascii "\"r\"", [123], [], [125]])
          (10 * 1024)
        = .error (.ParserException "Expected item key start at line 3")
    ∧ ParseObject Impl.sample (terminate_lines [10] [ascii "\"r\"", [], [123], [125]])
          (10 * 1024)
        = .error (.ParserException "Expected object start at line 2") := by
  refine ⟨by rfl, by rfl, by rfl, by rfl, by rfl, by rfl, by rfl⟩

/-- C29, what the code does: in the second loop of `ParseString` a backslash sets
`has_escape` also when it is itself escaped, so that the quote after two
backslashes does not close the string.  On the window `"a\\"` the function
returns -2 (no closing quote), not 0 with `a\\`; the quote after one backslash
is escaped, as the claim says; and the first loop, which looks for the opening
quote, does take the quote after two backslashes as unescaped.  In the line
`"k\\" "v"` of a document the key runs on to the quote in front of `v`, and the
line is rejected. -/
theorem quote_after_two_backslashes_stays_escaped :
    Details.ParseString [34, 97, 92, 92, 34] 0 5 [] = .ok (-2, 5, [])
    ∧ Details.ParseString [34, 97, 92, 34, 34] 0 5 [] = .ok (0, 5, [97, 92, 34])
    ∧ Details.ParseString [34, 97, 34] 0 3 [] = .ok (0, 3, [97])
    ∧ Details.ParseString [92, 92, 34, 97, 34] 0 5 [] = .ok (0, 5, [97])
    ∧ ParseObject Impl.sample
        (terminate_lines [10]
          [ascii "\"r\"", [123], [34, 107, 92, 92, 34, 32, 34, 118, 34], [125]]) (10 * 1024)
        = .error (.ParserException "Got datas after item key at line 3") := by
  refine ⟨by rfl, by rfl, by rfl, by rfl, by rfl⟩

/-- C30, what the code does: the tests for a truncated sequence are equalities on
the cursor.  A 2-byte lead that is the last byte of the window, a 3-byte lead
with one byte left and a 4-byte lead with two bytes left give -3 with the
cursor inside the window.  A 3-byte lead that is the last byte, and a 4-byte
lead with no byte or one byte left, pass the test: the cursor is moved past the
end of the window and the loop `while (b != e)` goes on reading there.  The
line `"k` followed by the byte `E0` of a document ends that way. -/
theorem truncated_lead_byte_moves_cursor_past_end :
    Details.ParseString [34, 0xC3] 0 2 [] = .ok (-3, 2, [])
    ∧ Details.ParseString [34, 0xE0, 0x80] 0 3 [] = .ok (-3, 2, [])
    ∧ Details.ParseString [34, 0xF0, 0x80, 0x80] 0 4 [] = .ok (-3, 2, [])
    ∧ Details.ParseString [34, 0xE0] 0 2 [] = .error .undefined
    ∧ Details.ParseString [34, 0xF0] 0 2 [] = .error .undefined
    ∧ Details.ParseString [34, 0xF0, 0x80] 0 3 [] = .error .undefined
    ∧ ParseObject Impl.sample
        (terminate_lines [10] [ascii "\"r\"", [123], [34, 107, 0xE0], [125]]) (10 * 1024)
        = .error .undefined
    ∧ ParseObject Impl.sample
        (terminate_lines [10] [ascii "\"r\"", [123], [34, 107, 0xC3], [125]]) (10 * 1024)
        = .error (.ParserException "Invalid codepoint at line 3") := by
  refine ⟨by rfl, by rfl, by rfl, by rfl, by rfl, by rfl, by rfl, by rfl⟩

/-! ## The lines of an object block -/

theorem blanks_cons (b : Nat) (w : Bytes) :
    blanks (b :: w) = true ↔ (b = 32 ∨ b = 9) ∧ blanks w = true := by
  simp [blanks]

theorem blanks_not_mem (w : Bytes) (hw : blanks w = true) (x : Nat) (hx : x ≠ 32 ∧ x ≠ 9) :
    x ∉ w := by
  intro h
  simp only [blanks, List.all_eq_true, Bool.or_eq_true, beq_iff_eq] at hw
  have := hw x h
  omega

/-- The first loop of `SkipSpaces` runs over blanks up to a byte that is not
blank, or to the end of the window. -/
theorem SkipSpaces_front_blanks (w : Bytes) : ∀ (pre rest : Bytes) (e fuel : Nat),
    blanks w = true → (∀ x post, rest = x :: post → x ≠ 32 ∧ x ≠ 9) →
    e = (pre ++ (w ++ rest)).length → w.length ≤ fuel → (rest = [] ∨ w.length < fuel) →
    Details.SkipSpaces.front (pre ++ (w ++ rest)) e fuel pre.length = pre.length + w.length := by
  induction w with
  | nil =>
    intro pre rest e fuel _ hr he _ hf
    cases rest with
    | nil =>
      simp only [List.append_nil] at he ⊢
      rw [he, SkipSpaces_front_end]; simp
    | cons x post =>
      obtain ⟨f, rfl⟩ : ∃ f, fuel = f + 1 := by
        rcases hf with h | h
        · cases h
        · exact ⟨fuel - 1, by simp at h; omega⟩
      rw [Details.SkipSpaces.front]
      have hne : pre.length ≠ e := by rw [he]; simp
      have hx := hr x post rfl
      simp only [List.nil_append, hne, if_false, getD_append_at, ne_eq, hx.1, hx.2,
        not_false_eq_true, and_self, if_true, List.length_nil, Nat.add_zero]
  | cons b w ih =>
    intro pre rest e fuel hw hr he hfl hf
    obtain ⟨hb, hw2⟩ := (blanks_cons b w).1 hw
    obtain ⟨f, rfl⟩ : ∃ f, fuel = f + 1 := ⟨fuel - 1, by simp at hfl; omega⟩
    rw [Details.SkipSpaces.front]
    have hne : pre.length ≠ e := by rw [he]; simp
    have hnb : ¬ (b ≠ 32 ∧ b ≠ 9) := by omega
    simp only [List.cons_append, hne, if_false, getD_append_at, hnb]
    have e1 : pre ++ b :: (w ++ rest) = (pre ++ [b]) ++ (w ++ rest) := by simp
    rw [e1]
    have := ih (pre ++ [b]) rest e f hw2 hr (by rw [he]; simp) (by simp at hfl; omega)
      (by rcases hf with h | h
          · exact Or.inl h
          · exact Or.inr (by simp at h; omega))
    simp only [List.length_append, List.length_singleton] at this
    rw [this]
    simp only [List.length_cons]
    omega

/-- Trimming inside a line without CR and LF, from a cursor in front of blanks:
the start moves over the blanks, the end stays at the end of the line. -/
theorem SkipSpaces_blanks (l pre w rest : Bytes) (hl : l = pre ++ (w ++ rest))
    (hne : 0 < l.length) (h10 : 10 ∉ l) (h13 : 13 ∉ l) (hw : blanks w = true)
    (hr : ∀ x post, rest = x :: post → x ≠ 32 ∧ x ≠ 9) :
    Details.SkipSpaces l pre.length l.length = .ok (pre.length + w.length, l.length) := by
  have hlen : l.length = pre.length + (w.length + rest.length) := by
    rw [hl]; simp
  have hb := SkipSpaces_back_stop l (pre.length + w.length) l.length hne
    (getD_not_eol l _ (by omega) h10 h13)
  have hf := SkipSpaces_front_blanks w pre rest l.length (l.length - pre.length) hw hr
    (by rw [hl]) (by omega)
    (by cases rest with
        | nil => exact Or.inl rfl
        | cons x post => right; simp only [List.length_cons] at hlen; omega)
  rw [← hl] at hf
  rw [Details.SkipSpaces]
  have hc : ¬ (l.length < pre.length ∨ l.length < l.length) := by omega
  simp only [hc, if_false, hf, hb]

/-- One iteration of the loop of `_ParseTextObject` on a stream whose next line is
`l` followed by a line ending, when `l` holds a byte that is not blank: the
body of the loop works on `l`, from its first byte that is not blank to its
end. -/
theorem text_loop_on_line (I : Impl) (f : Nat) (is is2 : istream) (l eol w0 post : Bytes)
    (x : Nat) (ln : Nat) (c : ValveCollection) (io : Bool) (nm : Bytes)
    (hg : Details.getline is = (l ++ eol, is2)) (hfail : is2.fail = false)
    (heol : is_eol eol = true) (h10 : 10 ∉ l) (h13 : 13 ∉ l)
    (hl : l = w0 ++ x :: post) (hw : blanks w0 = true) (hx : x ≠ 32 ∧ x ≠ 9) :
    _ParseTextObject.loop I (f + 1) is ln c io nm
      = match _ParseTextObject.line I l ((ln + 1) % 2 ^ 32) c io nm w0.length l.length with
        | .throw x => .error x
        | .stop => .ok (c, is2, (ln + 1) % 2 ^ 32)
        | .next c2 io2 nm2 => _ParseTextObject.loop I f is2 ((ln + 1) % 2 ^ 32) c2 io2 nm2
        | .descend nm2 =>
          match _ParseTextObject I f is2 nm2 ((ln + 1) % 2 ^ 32) with
          | .error x => .error x
          | .ok (child, is3, ln3) => _ParseTextObject.loop I f is3 ln3 (c ++ [child]) false [] := by
  have hlen : l.length = w0.length + post.length + 1 := by rw [hl]; simp; omega
  have hfr : Details.SkipSpaces.front l l.length l.length 0 = w0.length := by
    have := SkipSpaces_front_blanks w0 [] (x :: post) l.length l.length hw
      (by intro y p h; cases h; exact hx) (by rw [hl]; simp) (by omega) (Or.inr (by omega))
    simp only [List.nil_append, List.length_nil, Nat.zero_add] at this
    rw [← hl] at this
    exact this
  rw [text_loop_eq_line, hg]
  simp only [hfail, Bool.false_eq_true, if_false]
  rw [SkipSpaces_whole_line l eol heol h10 h13, hfr]
  have hlt : w0.length < l.length := by omega
  simp only [hlt, if_true]
  rw [ParseTextObject_line_local I l eol _ c io nm _ _ (le_refl _) (by omega)
    (eol_bytes eol heol).2]

theorem getD_length (l : Bytes) : l.getD l.length 0 = 0 := by
  rw [List.getD_eq_default _ _ (le_refl _)]

/-- A line whose first byte that is not blank is `}` ends the loop, whatever the
loop expects. -/
theorem line_close (I : Impl) (l w0 post : Bytes) (ln : Nat) (c : ValveCollection) (io : Bool)
    (nm : Bytes) (hl : l = w0 ++ 125 :: post) :
    _ParseTextObject.line I l ln c io nm w0.length l.length = .stop := by
  have hlen : l.length = w0.length + post.length + 1 := by rw [hl]; simp; omega
  have hne : w0.length ≠ l.length := by omega
  have hq : l.getD w0.length 0 = 125 := by rw [hl]; exact getD_append_at _ _ _ _
  unfold _ParseTextObject.line
  simp only [hne, if_false, hq, if_true]

/-- Where an object start is expected, a line whose first byte that is not blank
is neither `{` nor `}` is refused. -/
theorem line_no_object_start (I : Impl) (l w0 post : Bytes) (x : Nat) (ln : Nat)
    (c : ValveCollection) (nm : Bytes) (hl : l = w0 ++ x :: post) (h1 : x ≠ 123)
    (h2 : x ≠ 125) :
    _ParseTextObject.line I l ln c true nm w0.length l.length
      = .throw (at_line "Expected object start at line " ln) := by
  have hlen : l.length = w0.length + post.length + 1 := by rw [hl]; simp; omega
  have hne : w0.length ≠ l.length := by omega
  have hq : l.getD w0.length 0 = x := by rw [hl]; exact getD_append_at _ _ _ _
  unfold _ParseTextObject.line
  simp only [hne, if_false, hq, h1, h2, Bool.not_true, Bool.false_eq_true, ne_eq,
    not_false_eq_true, if_true]

/-- Where an object start is expected, a line that holds `{` between blanks opens
the object. -/
theorem line_object_start (I : Impl) (l w0 w1 : Bytes) (ln : Nat)
    (c : ValveCollection) (nm : Bytes) (hl : l = w0 ++ 123 :: w1) (h10 : 10 ∉ l)
    (h13 : 13 ∉ l) (hw1 : blanks w1 = true) :
    _ParseTextObject.line I l ln c true nm w0.length l.length = .descend nm := by
  have hlen : l.length = w0.length + w1.length + 1 := by rw [hl]; simp; omega
  have hne : w0.length ≠ l.length := by omega
  have hq : l.getD w0.length 0 = 123 := by rw [hl]; exact getD_append_at _ _ _ _
  have hs := SkipSpaces_blanks l (w0 ++ [123]) w1 [] (by rw [hl]; simp) (by omega) h10 h13 hw1
    (by intro x p h; cases h)
  have e1 : (w0 ++ [123]).length = w0.length + 1 := by simp
  have e2 : w0.length + 1 + w1.length = l.length := by omega
  rw [e1, e2] at hs
  unfold _ParseTextObject.line
  simp only [hne, if_false, hq, Bool.not_true, Bool.false_eq_true, ne_eq,
    not_true_eq_false, hs, if_true]
  simp

/-- Where an object start is expected, a byte that is not blank after `{` is
refused. -/
theorem line_object_start_trailing (I : Impl) (l w0 w1 rest : Bytes) (y : Nat) (ln : Nat)
    (c : ValveCollection) (nm : Bytes) (hl : l = w0 ++ 123 :: (w1 ++ y :: rest))
    (h10 : 10 ∉ l) (h13 : 13 ∉ l) (hw1 : blanks w1 = true) (hy : y ≠ 32 ∧ y ≠ 9) :
    _ParseTextObject.line I l ln c true nm w0.length l.length
      = .throw (at_line "Got datas after object start at line " ln) := by
  have hlen : l.length = w0.length + w1.length + rest.length + 2 := by rw [hl]; simp; omega
  have hne : w0.length ≠ l.length := by omega
  have hq : l.getD w0.length 0 = 123 := by rw [hl]; exact getD_append_at _ _ _ _
  have hs := SkipSpaces_blanks l (w0 ++ [123]) w1 (y :: rest) (by rw [hl]; simp) (by omega)
    h10 h13 hw1 (by intro x p h; cases h; exact hy)
  have e1 : (w0 ++ [123]).length = w0.length + 1 := by simp
  rw [e1] at hs
  have hne2 : w0.length + 1 + w1.length ≠ l.length := by omega
  unfold _ParseTextObject.line
  simp only [hne, if_false, hq, Bool.not_true, Bool.false_eq_true, ne_eq,
    not_true_eq_false, hs, hne2, not_false_eq_true, if_true]
  simp

/-- Where an item is expected, a line that holds only a quoted key between blanks
announces an object. -/
theorem line_key_only (I : Impl) (l w0 k w1 : Bytes) (ln : Nat) (c : ValveCollection)
    (nm : Bytes) (hl : l = w0 ++ 34 :: (k ++ 34 :: w1)) (h10 : 10 ∉ l) (h13 : 13 ∉ l)
    (hk : quotable k = true) (hw1 : blanks w1 = true) :
    _ParseTextObject.line I l ln c false nm w0.length l.length = .next c true k := by
  have hlen : l.length = w0.length + k.length + w1.length + 2 := by rw [hl]; simp; omega
  have hne : w0.length ≠ l.length := by omega
  have hq : l.getD w0.length 0 = 34 := by rw [hl]; exact getD_append_at _ _ _ _
  have hp := ParseString_quotable w0 k w1 nm l.length hk (by omega) (by rw [hl])
  rw [← hl] at hp
  have hs := SkipSpaces_blanks l (w0 ++ 34 :: (k ++ [34])) w1 [] (by rw [hl]; simp) (by omega)
    h10 h13 hw1 (by intro x p h; cases h)
  have e1 : (w0 ++ 34 :: (k ++ [34])).length = w0.length + k.length + 2 := by simp; omega
  have e2 : w0.length + k.length + 2 + w1.length = l.length := by omega
  rw [e1, e2] at hs
  unfold _ParseTextObject.line
  simp only [hne, if_false, hq, Bool.not_false, if_true, hp, hs, getD_length]
  simp

/-- Where an item is expected, a byte after the quoted key that is neither blank
nor a quote is refused. -/
theorem line_key_trailing (I : Impl) (l w0 k w1 rest : Bytes) (y : Nat) (ln : Nat)
    (c : ValveCollection) (nm : Bytes) (hl : l = w0 ++ 34 :: (k ++ 34 :: (w1 ++ y :: rest)))
    (h10 : 10 ∉ l) (h13 : 13 ∉ l) (hk : quotable k = true) (hw1 : blanks w1 = true)
    (hy : y ≠ 32 ∧ y ≠ 9) (hy2 : y ≠ 34) :
    _ParseTextObject.line I l ln c false nm w0.length l.length
      = .throw (at_line "Got datas after item key at line " ln) := by
  have hlen : l.length = w0.length + k.length + w1.length + rest.length + 3 := by
    rw [hl]; simp; omega
  have hne : w0.length ≠ l.length := by omega
  have hq : l.getD w0.length 0 = 34 := by rw [hl]; exact getD_append_at _ _ _ _
  have hp := ParseString_quotable w0 k (w1 ++ y :: rest) nm l.length hk (by omega) (by rw [hl])
  rw [← hl] at hp
  have hs := SkipSpaces_blanks l (w0 ++ 34 :: (k ++ [34])) w1 (y :: rest) (by rw [hl]; simp)
    (by omega) h10 h13 hw1 (by intro x p h; cases h; exact hy)
  have e1 : (w0 ++ 34 :: (k ++ [34])).length = w0.length + k.length + 2 := by simp; omega
  rw [e1] at hs
  have hq2 : l.getD (w0.length + k.length + 2 + w1.length) 0 = y := by
    have := getD_append_at (w0 ++ 34 :: (k ++ [34]) ++ w1) rest y 0
    have e3 : w0 ++ 34 :: (k ++ [34]) ++ w1 ++ y :: rest = l := by rw [hl]; simp
    have e4 : (w0 ++ 34 :: (k ++ [34]) ++ w1).length = w0.length + k.length + 2 + w1.length := by
      simp; omega
    rw [e3, e4] at this
    exact this
  have hne2 : w0.length + k.length + 2 + w1.length ≠ l.length := by omega
  unfold _ParseTextObject.line
  simp only [hne, if_false, hq, Bool.not_false, if_true, hp, hs, hq2, hy2, hne2, ne_eq,
    not_false_eq_true]
  simp

/-- Where an item is expected, a line that holds a quoted key and a quoted value
between blanks adds a string item. -/
theorem line_key_value (I : Impl) (l w0 k w1 v w2 : Bytes) (ln : Nat) (c : ValveCollection)
    (nm : Bytes) (hl : l = w0 ++ 34 :: (k ++ 34 :: (w1 ++ 34 :: (v ++ 34 :: w2))))
    (h10 : 10 ∉ l) (h13 : 13 ∉ l) (hk : quotable k = true) (hv : quotable v = true)
    (hw1 : blanks w1 = true) (hw2 : blanks w2 = true) :
    _ParseTextObject.line I l ln c false nm w0.length l.length
      = .next (c ++ [ValveDataObject.new_string I k v]) false k := by
  have hlen : l.length = w0.length + k.length + w1.length + v.length + w2.length + 4 := by
    rw [hl]; simp; omega
  have hne : w0.length ≠ l.length := by omega
  have hq : l.getD w0.length 0 = 34 := by rw [hl]; exact getD_append_at _ _ _ _
  have hp := ParseString_quotable w0 k (w1 ++ 34 :: (v ++ 34 :: w2)) nm l.length hk (by omega)
    (by rw [hl])
  rw [← hl] at hp
  have hs := SkipSpaces_blanks l (w0 ++ 34 :: (k ++ [34])) w1 (34 :: (v ++ 34 :: w2))
    (by rw [hl]; simp) (by omega) h10 h13 hw1 (by intro x p h; cases h; decide)
  have e1 : (w0 ++ 34 :: (k ++ [34])).length = w0.length + k.length + 2 := by simp; omega
  rw [e1] at hs
  have e3 : w0 ++ 34 :: (k ++ [34]) ++ w1 ++ 34 :: (v ++ 34 :: w2) = l := by rw [hl]; simp
  have e4 : (w0 ++ 34 :: (k ++ [34]) ++ w1).length = w0.length + k.length + 2 + w1.length := by
    simp; omega
  have hq2 : l.getD (w0.length + k.length + 2 + w1.length) 0 = 34 := by
    have := getD_append_at (w0 ++ 34 :: (k ++ [34]) ++ w1) (v ++ 34 :: w2) 34 0
    rw [e3, e4] at this
    exact this
  have hp2 := ParseString_quotable (w0 ++ 34 :: (k ++ [34]) ++ w1) v w2 [] l.length hv
    (by rw [e4]; omega) (by rw [e3])
  rw [e3, e4] at hp2
  have hs3 := SkipSpaces_blanks l (w0 ++ 34 :: (k ++ [34]) ++ w1 ++ 34 :: (v ++ [34])) w2 []
    (by rw [hl]; simp) (by omega) h10 h13 hw2 (by intro x p h; cases h)
  have e5 : (w0 ++ 34 :: (k ++ [34]) ++ w1 ++ 34 :: (v ++ [34])).length
      = w0.length + k.length + 2 + w1.length + v.length + 2 := by simp; omega
  have e6 : w0.length + k.length + 2 + w1.length + v.length + 2 + w2.length = l.length := by
    omega
  rw [e5, e6] at hs3
  unfold _ParseTextObject.line
  simp only [hne, if_false, hq, Bool.not_false, if_true, hp, hs, hq2, hp2, hs3]
  simp

/-- Where an item is expected, a byte that is not blank after the quoted value is
refused. -/
theorem line_value_trailing (I : Impl) (l w0 k w1 v w2 rest : Bytes) (y : Nat) (ln : Nat)
    (c : ValveCollection) (nm : Bytes)
    (hl : l = w0 ++ 34 :: (k ++ 34 :: (w1 ++ 34 :: (v ++ 34 :: (w2 ++ y :: rest)))))
    (h10 : 10 ∉ l) (h13 : 13 ∉ l) (hk : quotable k = true) (hv : quotable v = true)
    (hw1 : blanks w1 = true) (hw2 : blanks w2 = true) (hy : y ≠ 32 ∧ y ≠ 9) :
    _ParseTextObject.line I l ln c false nm w0.length l.length
      = .throw (at_line "Got datas after item value at line " ln) := by
  have hlen : l.length
      = w0.length + k.length + w1.length + v.length + w2.length + rest.length + 5 := by
    rw [hl]; simp; omega
  have hne : w0.length ≠ l.length := by omega
  have hq : l.getD w0.length 0 = 34 := by rw [hl]; exact getD_append_at _ _ _ _
  have hp := ParseString_quotable w0 k (w1 ++ 34 :: (v ++ 34 :: (w2 ++ y :: rest))) nm l.length
    hk (by omega) (by rw [hl])
  rw [← hl] at hp
  have hs := SkipSpaces_blanks l (w0 ++ 34 :: (k ++ [34])) w1
    (34 :: (v ++ 34 :: (w2 ++ y :: rest)))
    (by rw [hl]; simp) (by omega) h10 h13 hw1 (by intro x p h; cases h; decide)
  have e1 : (w0 ++ 34 :: (k ++ [34])).length = w0.length + k.length + 2 := by simp; omega
  rw [e1] at hs
  have e3 : w0 ++ 34 :: (k ++ [34]) ++ w1 ++ 34 :: (v ++ 34 :: (w2 ++ y :: rest)) = l := by
    rw [hl]; simp
  have e4 : (w0 ++ 34 :: (k ++ [34]) ++ w1).length = w0.length + k.length + 2 + w1.length := by
    simp; omega
  have hq2 : l.getD (w0.length + k.length + 2 + w1.length) 0 = 34 := by
    have := getD_append_at (w0 ++ 34 :: (k ++ [34]) ++ w1) (v ++ 34 :: (w2 ++ y :: rest)) 34 0
    rw [e3, e4] at this
    exact this
  have hp2 := ParseString_quotable (w0 ++ 34 :: (k ++ [34]) ++ w1) v (w2 ++ y :: rest) []
    l.length hv (by rw [e4]; omega) (by rw [e3])
  rw [e3, e4] at hp2
  have hs3 := SkipSpaces_blanks l (w0 ++ 34 :: (k ++ [34]) ++ w1 ++ 34 :: (v ++ [34])) w2
    (y :: rest) (by rw [hl]; simp) (by omega) h10 h13 hw2 (by intro x p h; cases h; exact hy)
  have e5 : (w0 ++ 34 :: (k ++ [34]) ++ w1 ++ 34 :: (v ++ [34])).length
      = w0.length + k.length + 2 + w1.length + v.length + 2 := by simp; omega
  rw [e5] at hs3
  have hne3 : w0.length + k.length + 2 + w1.length + v.length + 2 + w2.length ≠ l.length := by
    omega
  unfold _ParseTextObject.line
  simp only [hne, if_false, hq, Bool.not_false, if_true, hp, hs, hq2, hp2, hs3, hne3, ne_eq,
    not_false_eq_true]
  simp

/-- One iteration of the loop of `_ParseTextObject` on a stream whose next line
holds blanks only: the line is not skipped, it is refused. -/
theorem text_loop_on_blank_line (I : Impl) (f : Nat) (is is2 : istream) (l eol : Bytes)
    (ln : Nat) (c : ValveCollection) (io : Bool) (nm : Bytes)
    (hg : Details.getline is = (l ++ eol, is2)) (hfail : is2.fail = false)
    (heol : is_eol eol = true) (hw : blanks l = true) :
    _ParseTextObject.loop I (f + 1) is ln c io nm
      = if io then .error (at_line "Expected object start at line " ((ln + 1) % 2 ^ 32))
        else .error (at_line "Expected item key start at line " ((ln + 1) % 2 ^ 32)) := by
  have h10 : 10 ∉ l := blanks_not_mem l hw 10 (by decide)
  have h13 : 13 ∉ l := blanks_not_mem l hw 13 (by decide)
  have hfr : Details.SkipSpaces.front l l.length l.length 0 = l.length := by
    have := SkipSpaces_front_blanks l [] [] l.length l.length hw
      (by intro y p h; cases h) (by simp) (le_refl _) (Or.inl rfl)
    simpa using this
  obtain ⟨⟨a, x, hax, ha⟩, -⟩ := eol_bytes eol heol
  rw [text_loop_eq_line, hg]
  simp only [hfail, Bool.false_eq_true, if_false]
  rw [SkipSpaces_whole_line l eol heol h10 h13, hfr]
  simp only [lt_self_iff_false, if_false]
  rw [hax, line_blank I l a x _ c io nm ha]
  cases io <;> rfl

/-- C24: in the loop of `_ParseTextObject`, where an item is expected, let the next
line read be `l` followed by its line ending.  When `l` is a quoted key, a
quoted value and then a byte that is neither a space nor a tab (blanks allowed
in front of each), the loop throws `Got datas after item value` with the number
of the line; when `l` is a quoted key and then a byte that is neither a blank
nor a quote, it throws `Got datas after item key`.  Blanks alone after the
value are accepted: the string item is added and the loop goes on; blanks alone
after the key make the line an object header. -/
theorem trailing_data_is_refused (I : Impl) (f : Nat) (is is2 : istream) (l eol : Bytes)
    (ln : Nat) (c : ValveCollection) (nm : Bytes)
    (hg : Details.getline is = (l ++ eol, is2)) (hfail : is2.fail = false)
    (heol : is_eol eol = true) (h10 : 10 ∉ l) (h13 : 13 ∉ l)
    (w0 k w1 : Bytes) (hw0 : blanks w0 = true) (hk : quotable k = true)
    (hw1 : blanks w1 = true) :
    (∀ v w2 y rest, quotable v = true → blanks w2 = true → y ≠ 32 ∧ y ≠ 9 →
      l = w0 ++ quoted k ++ w1 ++ quoted v ++ w2 ++ y :: rest →
      _ParseTextObject.loop I (f + 1) is ln c false nm
        = .error (at_line "Got datas after item value at line " ((ln + 1) % 2 ^ 32)))
    ∧ (∀ y rest, y ≠ 32 ∧ y ≠ 9 → y ≠ 34 → l = w0 ++ quoted k ++ w1 ++ y :: rest →
      _ParseTextObject.loop I (f + 1) is ln c false nm
        = .error (at_line "Got datas after item key at line " ((ln + 1) % 2 ^ 32)))
    ∧ (∀ v w2, quotable v = true → blanks w2 = true →
      l = w0 ++ quoted k ++ w1 ++ quoted v ++ w2 →
      _ParseTextObject.loop I (f + 1) is ln c false nm
        = _ParseTextObject.loop I f is2 ((ln + 1) % 2 ^ 32)
            (c ++ [ValveDataObject.new_string I k v]) false k)
    ∧ (l = w0 ++ quoted k ++ w1 →
      _ParseTextObject.loop I (f + 1) is ln c false nm
        = _ParseTextObject.loop I f is2 ((ln + 1) % 2 ^ 32) c true k) := by
  refine ⟨?_, ?_, ?_, ?_⟩
  · intro v w2 y rest hv hw2 hy hl
    have hl2 : l = w0 ++ 34 :: (k ++ 34 :: (w1 ++ 34 :: (v ++ 34 :: (w2 ++ y :: rest)))) := by
      rw [hl]; simp [quoted]
    rw [text_loop_on_line I f is is2 l eol w0 _ 34 ln c false nm hg hfail heol h10 h13 hl2 hw0
      (by decide),
      line_value_trailing I l w0 k w1 v w2 rest y _ c nm hl2 h10 h13 hk hv hw1 hw2 hy]
  · intro y rest hy hy2 hl
    have hl2 : l = w0 ++ 34 :: (k ++ 34 :: (w1 ++ y :: rest)) := by
      rw [hl]; simp [quoted]
    rw [text_loop_on_line I f is is2 l eol w0 _ 34 ln c false nm hg hfail heol h10 h13 hl2 hw0
      (by decide),
      line_key_trailing I l w0 k w1 rest y _ c nm hl2 h10 h13 hk hw1 hy hy2]
  · intro v w2 hv hw2 hl
    have hl2 : l = w0 ++ 34 :: (k ++ 34 :: (w1 ++ 34 :: (v ++ 34 :: w2))) := by
      rw [hl]; simp [quoted]
    rw [text_loop_on_line I f is is2 l eol w0 _ 34 ln c false nm hg hfail heol h10 h13 hl2 hw0
      (by decide),
      line_key_value I l w0 k w1 v w2 _ c nm hl2 h10 h13 hk hv hw1 hw2]
  · intro hl
    have hl2 : l = w0 ++ 34 :: (k ++ 34 :: w1) := by
      rw [hl]; simp [quoted]
    rw [text_loop_on_line I f is is2 l eol w0 _ 34 ln c false nm hg hfail heol h10 h13 hl2 hw0
      (by decide),
      line_key_only I l w0 k w1 _ c nm hl2 h10 h13 hk hw1]

/-- Witness of C24: the lines `"k" "v" x` and ` "k" x` are refused, the line
`"k" "v"` followed by a space and a tab is accepted; and the document `"r"`,
`{`, `"k" "v" x`, `}` fails at line 3. -/
theorem trailing_data_is_refused_witness :
    _ParseTextObject.loop Impl.sample 1 ⟨ascii "\"k\" \"v\" x\n", false⟩ 6 [] false []
        = .error (at_line "Got datas after item value at line " 7)
    ∧ _ParseTextObject.loop Impl.sample 1 ⟨ascii " \"k\" x\r\n", false⟩ 6 [] false []
        = .error (at_line "Got datas after item key at line " 7)
    ∧ _ParseTextObject.loop Impl.sample 1 ⟨ascii "\"k\" \"v\" \t\n", false⟩ 6 [] false []
        = _ParseTextObject.loop Impl.sample 0 ⟨[], false⟩ 7
            [ValveDataObject.new_string Impl.sample (ascii "k") (ascii "v")] false (ascii "k")
    ∧ ParseObject Impl.sample
          (terminate_lines [10] [ascii "\"r\"", [123], ascii "\"k\" \"v\" x", [125]]) (10 * 1024)
        = .error (.ParserException "Got datas after item value at line 3") :=
  ⟨(trailing_data_is_refused Impl.sample 0 ⟨ascii "\"k\" \"v\" x\n", false⟩ ⟨[], false⟩
      (ascii "\"k\" \"v\" x") [10] 6 [] [] (by rfl) rfl (by decide) (by decide) (by decide)
      [] (ascii "k") [32] (by decide) (by rfl) (by decide)).1
      (ascii "v") [32] 120 [] (by rfl) (by decide) (by decide) (by rfl),
    (trailing_data_is_refused Impl.sample 0 ⟨ascii " \"k\" x\r\n", false⟩ ⟨[], false⟩
      (ascii " \"k\" x") [13, 10] 6 [] [] (by rfl) rfl (by decide) (by decide) (by decide)
      [32] (ascii "k") [32] (by decide) (by rfl) (by decide)).2.1
      120 [] (by decide) (by decide) (by rfl),
    (trailing_data_is_refused Impl.sample 0 ⟨ascii "\"k\" \"v\" \t\n", false⟩ ⟨[], false⟩
      (ascii "\"k\" \"v\" \t") [10] 6 [] [] (by rfl) rfl (by decide) (by decide) (by decide)
      [] (ascii "k") [32] (by decide) (by rfl) (by decide)).2.2.1
      (ascii "v") [32, 9] (by rfl) (by decide) (by rfl),
    by rfl⟩

/-- C25 fails on the code: in the loop of `_ParseTextObject` the test for `}`
comes before the test for the `{` that an object header expects.  In the
document `"r"`, `{`, `"k"`, `}` the line after the object header `"k"` does not
begin with `{`, yet no exception is raised: the `}` closes the root and the
header is dropped.  Any other first byte on that line is refused with
`Expected object start`, and so is the `}` itself after the header of the root,
in the loop of `ParseObject`, which has no test for `}`. -/
theorem closing_brace_after_header_is_accepted :
    ParseObject Impl.sample
        (terminate_lines [10] [ascii "\"r\"", [123], ascii "\"k\"", [125]]) (10 * 1024)
      = .ok (ValveDataObject.new_object Impl.sample (ascii "r"))
    ∧ ParseObject Impl.sample
        (terminate_lines [10] [ascii "\"r\"", [123], ascii "\"k\"", ascii "\"a\" \"b\"", [125]])
        (10 * 1024)
      = .error (.ParserException "Expected object start at line 4")
    ∧ ParseObject Impl.sample
        (terminate_lines [10] [ascii "\"r\"", [123], ascii "\"k\"", ascii "x", [125]])
        (10 * 1024)
      = .error (.ParserException "Expected object start at line 4")
    ∧ ParseObject Impl.sample
        (terminate_lines [10] [ascii "\"r\"", [125]]) (10 * 1024)
      = .error (.ParserException "Expected object start at line 2") := by
  refine ⟨by rfl, by rfl, by rfl, by rfl⟩

/-! ## The end of a binary stream -/

theorem ParseBinaryString_loop_unterminated (cs : Bool) (p : Bytes) (n fuel : Nat)
    (hp : ascii_no_nul p = true) (hf : p.length ≤ fuel) :
    Details.ParseBinaryString.loop cs fuel p n = .ok (-1, n + p.length) := by
  induction p generalizing n fuel with
  | nil => rw [Details.ParseBinaryString.loop]; simp
  | cons b p ih =>
    obtain ⟨⟨hb0, hb1⟩, hp⟩ := (ascii_no_nul_cons b p).1 hp
    have hb0' : b ≠ 0 := by omega
    obtain ⟨f, rfl⟩ : ∃ f, fuel = f + 1 := ⟨fuel - 1, by simp at hf; omega⟩
    rw [Details.ParseBinaryString.loop]
    simp only [hb1, if_true, hb0', if_false]
    rw [ih _ _ hp (by simp at hf; omega)]
    simp only [List.length_cons]
    congr 2
    omega

/-- On a window that holds a part of an ASCII string and not its NUL,
`ParseBinaryString` returns -1 and takes the whole window. -/
theorem ParseBinaryString_unterminated (I : Impl) (p str : Bytes) (hp : ascii_no_nul p = true)
    (hne : p ≠ []) :
    Details.ParseBinaryString I p str = .ok (-1, [], str ++ p.dropLast) := by
  have h := ParseBinaryString_loop_unterminated I.charSigned p 0 p.length hp (le_refl _)
  have hl : p.length ≠ 0 := by
    intro h0; exact hne (List.length_eq_zero.1 h0)
  rw [Details.ParseBinaryString, h]
  simp [hl, List.dropLast_eq_take]

theorem lines_wf_cons (l eol : Bytes) (ps : List (Bytes × Bytes)) (tail : Bytes) :
    lines_wf ((l, eol) :: ps) tail = true
      ↔ (10 ∉ l ∧ 13 ∉ l) ∧ is_eol eol = true
        ∧ (eol = [13] → (join_lines ps ++ tail).head? ≠ some 10) ∧ lines_wf ps tail = true := by
  simp only [lines_wf, Bool.and_eq_true, List.all_eq_true, decide_eq_true_eq, Bool.or_eq_true,
    bne_iff_ne, ne_eq]
  constructor
  · rintro ⟨⟨⟨h1, h2⟩, h3⟩, h4⟩
    refine ⟨⟨fun h => (h1 10 h).1 rfl, fun h => (h1 13 h).2 rfl⟩, h2, ?_, h4⟩
    intro he
    rcases h3 with h3 | h3
    · exact absurd he h3
    · exact h3
  · rintro ⟨⟨h1, h2⟩, h3, h4, h5⟩
    refine ⟨⟨⟨fun b hb => ⟨fun h => h1 (h ▸ hb), fun h => h2 (h ▸ hb)⟩, h3⟩, ?_⟩, h5⟩
    by_cases he : eol = [13]
    · exact Or.inr (h4 he)
    · exact Or.inl he

theorem head_join_lines_take (ps : List (Bytes × Bytes)) (tail : Bytes) (m : Nat)
    (h : (join_lines ps ++ tail).head? ≠ some 10) (hwf : lines_wf ps tail = true) :
    (join_lines (ps.take m) ++ []).head? ≠ some 10 := by
  cases m with
  | zero => simp [join_lines]
  | succ m =>
    cases ps with
    | nil => simp [join_lines]
    | cons p ps =>
      obtain ⟨l, eol⟩ := p
      obtain ⟨-, heol, -, -⟩ := (lines_wf_cons l eol ps tail).1 hwf
      obtain ⟨⟨a, x, hax, -⟩, -⟩ := eol_bytes eol heol
      subst hax
      simp only [List.take_succ_cons, join_lines, List.append_assoc] at h ⊢
      cases l with
      | nil => simpa using h
      | cons b l => simpa using h

theorem lines_wf_take (ps : List (Bytes × Bytes)) (tail : Bytes) (m : Nat)
    (h : lines_wf ps tail = true) : lines_wf (ps.take m) [] = true := by
  induction ps generalizing m with
  | nil => simp [lines_wf]
  | cons p ps ih =>
    obtain ⟨l, eol⟩ := p
    cases m with
    | zero => simp [lines_wf]
    | succ m =>
      obtain ⟨h1, h2, h3, h4⟩ := (lines_wf_cons l eol ps tail).1 h
      rw [List.take_succ_cons]
      exact (lines_wf_cons l eol _ []).2
        ⟨h1, h2, fun he => head_join_lines_take ps tail m (h3 he) h4, ih m h4⟩

theorem lines_wf_drop (ps : List (Bytes × Bytes)) (tail : Bytes) (j : Nat)
    (h : lines_wf ps tail = true) : lines_wf (ps.drop j) tail = true := by
  induction ps generalizing j with
  | nil => simpa using h
  | cons p ps ih =>
    obtain ⟨l, eol⟩ := p
    cases j with
    | zero => exact h
    | succ j =>
      obtain ⟨-, -, -, h4⟩ := (lines_wf_cons l eol ps tail).1 h
      exact ih j h4

theorem getline_join_lines (l eol : Bytes) (ps : List (Bytes × Bytes)) (tail : Bytes)
    (h : lines_wf ((l, eol) :: ps) tail = true) :
    Details.getline ⟨join_lines ((l, eol) :: ps) ++ tail, false⟩
      = (l ++ eol, ⟨join_lines ps ++ tail, false⟩) := by
  obtain ⟨⟨h10, h13⟩, heol, hcr, -⟩ := (lines_wf_cons l eol ps tail).1 h
  simp only [Details.getline, Bool.false_eq_true, if_false, join_lines, List.append_assoc]
  have := getline_loop_eol l eol (join_lines ps ++ tail) [] heol h10 h13 hcr
  simp only [List.append_assoc, List.nil_append] at this
  rw [this]

theorem getline_loop_tail (tail buffer : Bytes)
    (h : tail.all (fun b => decide (b ≠ 10 ∧ b ≠ 13)) = true) :
    Details.getline.loop tail buffer = (buffer ++ tail, ⟨[], true⟩) := by
  induction tail generalizing buffer with
  | nil => simp [Details.getline.loop]
  | cons b tail ih =>
    simp only [List.all_cons, Bool.and_eq_true, decide_eq_true_eq] at h
    rw [Details.getline.loop.eq_def]
    simp only [Details.is_cr, Details.is_lf, beq_iff_eq, h.1.1, h.1.2, if_false]
    rw [ih _ h.2]
    simp

/-- In front of bytes without a line ending the loop of `_ParseTextObject` returns
what it has: `getline` fails. -/
theorem text_loop_tail (I : Impl) (f : Nat) (tail : Bytes) (ln : Nat) (c : ValveCollection)
    (io : Bool) (nm : Bytes) (h : lines_wf [] tail = true) :
    _ParseTextObject.loop I (f + 1) ⟨tail, false⟩ ln c io nm = .ok (c, ⟨[], true⟩, ln) := by
  rw [text_loop_eq_line]
  simp only [lines_wf] at h
  simp [Details.getline, getline_loop_tail tail [] h]

/-- At the end of the stream the loop of `_ParseTextObject` returns what it has. -/
theorem text_loop_eof (I : Impl) (f : Nat) (fl : Bool) (ln : Nat) (c : ValveCollection)
    (io : Bool) (nm : Bytes) :
    _ParseTextObject.loop I (f + 1) ⟨[], fl⟩ ln c io nm = .ok (c, ⟨[], true⟩, ln) := by
  rw [text_loop_eq_line]
  cases fl <;> simp [Details.getline, Details.getline.loop]

theorem length_join_lines_ge (ps : List (Bytes × Bytes)) (tail : Bytes)
    (h : lines_wf ps tail = true) : ps.length ≤ (join_lines ps).length := by
  induction ps with
  | nil => simp
  | cons p ps ih =>
    obtain ⟨l, eol⟩ := p
    obtain ⟨-, heol, -, h4⟩ := (lines_wf_cons l eol ps tail).1 h
    have := length_eol_pos eol heol
    have := ih h4
    simp only [join_lines, List.length_cons, List.length_append]
    omega

theorem reports_line_at_line (what : Msg) (n : Nat) (h : what ∈ what_text_errors) :
    reports_line (at_line what n) n := by
  intro m hm
  simp only [at_line, Exn.ParserException.injEq] at hm
  exact ⟨what, h, hm.symm⟩

theorem SkipSpaces_back_error (buf : Bytes) (s e : Nat) (x : Exn)
    (h : Details.SkipSpaces.back buf s e = .error x) : x = .undefined := by
  induction e with
  | zero => simp only [Details.SkipSpaces.back, Except.error.injEq] at h; exact h.symm
  | succ e ih =>
    rw [Details.SkipSpaces.back] at h
    split at h
    · cases h
    · simp only [] at h
      split at h
      · cases h
      · exact ih h

theorem SkipSpaces_error (buf : Bytes) (s e : Nat) (x : Exn)
    (h : Details.SkipSpaces buf s e = .error x) : x = .undefined := by
  unfold Details.SkipSpaces at h
  split at h
  · cases h; rfl
  · simp only [] at h
    split at h
    · rename_i y hy
      cases h
      exact SkipSpaces_back_error _ _ _ _ hy
    · cases h

theorem ParseString_second_error (buf : Bytes) (e ss : Nat) (str : Bytes) (fuel b : Nat)
    (he : Bool) (x : Exn) (h : Details.ParseString.second buf e ss str fuel b he = .error x) :
    x = .undefined ∨ x = .out_of_fuel := by
  induction fuel generalizing b he with
  | zero =>
    rw [Details.ParseString.second] at h
    repeat' split at h
    all_goals first
      | (cases h; simp)
      | cases h
  | succ fuel ih =>
    rw [Details.ParseString.second] at h
    simp only [] at h
    repeat' split at h
    all_goals first
      | (cases h; simp)
      | exact ih _ _ h
      | cases h

theorem ParseString_error (buf : Bytes) (b e : Nat) (str : Bytes) (x : Exn)
    (h : Details.ParseString buf b e str = .error x) : x = .undefined ∨ x = .out_of_fuel := by
  unfold Details.ParseString at h
  split at h
  · cases h; simp
  · split at h
    · cases h
    · exact ParseString_second_error _ _ _ _ _ _ _ _ h

theorem reports_line_SkipSpaces (buf : Bytes) (s e : Nat) (x : Exn) (n : Nat)
    (h : Details.SkipSpaces buf s e = .error x) : reports_line x n := by
  intro m hm
  rw [SkipSpaces_error _ _ _ _ h] at hm
  cases hm

theorem reports_line_ParseString (buf : Bytes) (b e : Nat) (str : Bytes) (x : Exn) (n : Nat)
    (h : Details.ParseString buf b e str = .error x) : reports_line x n := by
  intro m hm
  rcases ParseString_error _ _ _ _ _ h with h | h <;> rw [h] at hm <;> cases hm

/-- An exception thrown on a line of `_ParseTextObject` carries the number of that
line. -/
theorem line_throw_reports (I : Impl) (buffer : Bytes) (ln : Nat) (c : ValveCollection)
    (io : Bool) (nm : Bytes) (s e : Nat) (x : Exn)
    (h : _ParseTextObject.line I buffer ln c io nm s e = .throw x) : reports_line x ln := by
  revert h
  unfold _ParseTextObject.line
  by_cases c1 : s = e
  · rw [if_pos c1]; intro h; cases h
  rw [if_neg c1]
  by_cases c2 : buffer.getD s 0 = 125
  · rw [if_pos c2]; intro h; cases h
  rw [if_neg c2]
  cases io
  · rw [if_pos (by rfl)]
    cases hS : Details.ParseString buffer s e nm with
    | error y =>
      intro h; cases h
      exact reports_line_ParseString _ _ _ _ _ _ hS
    | ok p =>
      obtain ⟨err, ls, onm⟩ := p
      simp only []
      repeat' split
      all_goals intro h
      all_goals first
        | (cases h; done)
        | (cases h; exact reports_line_at_line _ _ (by simp [what_text_errors]))
        | (cases h; exact reports_line_SkipSpaces _ _ _ _ _ (by assumption))
        | (cases h; exact reports_line_ParseString _ _ _ _ _ _ (by assumption))
  · rw [if_neg (by simp)]
    repeat' split
    all_goals intro h
    all_goals first
      | (cases h; done)
      | (cases h; exact reports_line_at_line _ _ (by simp [what_text_errors]))
      | (cases h; exact reports_line_SkipSpaces _ _ _ _ _ (by assumption))

/-- An exception thrown on a line of the text branch of `ParseObject` carries the
number of that line. -/
theorem text_line_throw_reports (buffer : Bytes) (ln : Nat) (nm : Bytes) (s e : Nat) (x : Exn)
    (h : ParseObject.text_line buffer ln nm s e = .throw x) : reports_line x ln := by
  revert h
  unfold ParseObject.text_line
  by_cases c1 : s = e
  · rw [if_pos c1]; intro h; cases h
  rw [if_neg c1]
  cases hn : nm.isEmpty
  · rw [if_neg (by simp)]
    repeat' split
    all_goals intro h
    all_goals first
      | (cases h; done)
      | (cases h; exact reports_line_at_line _ _ (by simp [what_text_errors]))
      | (cases h; exact reports_line_SkipSpaces _ _ _ _ _ (by assumption))
  · rw [if_pos rfl]
    cases hS : Details.ParseString buffer s e nm with
    | error y =>
      intro h; cases h
      exact reports_line_ParseString _ _ _ _ _ _ hS
    | ok p =>
      obtain ⟨err, ls, onm⟩ := p
      simp only []
      repeat' split
      all_goals intro h
      all_goals first
        | (cases h; done)
        | (cases h; exact reports_line_at_line _ _ (by simp [what_text_errors]))
        | (cases h; exact reports_line_SkipSpaces _ _ _ _ _ (by assumption))

theorem mod32_add (a i j : Nat) : ((a + i) % 2 ^ 32 + j) % 2 ^ 32 = (a + (i + j)) % 2 ^ 32 := by
  omega

/-- One iteration of the loop of `_ParseTextObject` on a document given by its
lines. -/
theorem text_loop_step (I : Impl) (f : Nat) (l eol : Bytes) (ps : List (Bytes × Bytes))
    (tail : Bytes) (ln : Nat) (c : ValveCollection) (io : Bool) (nm : Bytes)
    (h : lines_wf ((l, eol) :: ps) tail = true) :
    _ParseTextObject.loop I (f + 1) ⟨join_lines ((l, eol) :: ps) ++ tail, false⟩ ln c io nm
      = match _ParseTextObject.line I (l ++ eol) ((ln + 1) % 2 ^ 32) c io nm
            (Details.SkipSpaces.front l l.length l.length 0)
            (if Details.SkipSpaces.front l l.length l.length 0 < l.length then l.length
              else l.length + 1) with
        | .throw x => .error x
        | .stop => .ok (c, ⟨join_lines ps ++ tail, false⟩, (ln + 1) % 2 ^ 32)
        | .next c' io' nm' =>
          _ParseTextObject.loop I f ⟨join_lines ps ++ tail, false⟩ ((ln + 1) % 2 ^ 32) c' io' nm'
        | .descend nm' =>
          match _ParseTextObject I f ⟨join_lines ps ++ tail, false⟩ nm' ((ln + 1) % 2 ^ 32) with
          | .error x => .error x
          | .ok (child, is', ln') =>
            _ParseTextObject.loop I f is' ln' (c ++ [child]) false [] := by
  obtain ⟨⟨h10, h13⟩, heol, -, -⟩ := (lines_wf_cons l eol ps tail).1 h
  rw [text_loop_eq_line, getline_join_lines l eol ps tail h]
  simp only [Bool.false_eq_true, if_false]
  simp only [SkipSpaces_whole_line l eol heol h10 h13]

theorem mod32_step (a j : Nat) : ((a + 1) % 2 ^ 32 + j) % 2 ^ 32 = (a + (j + 1)) % 2 ^ 32 := by
  omega

theorem mod32_two (a j k t : Nat) (h : j + k + 1 = t) :
    (((a + 1) % 2 ^ 32 + j) % 2 ^ 32 + k) % 2 ^ 32 = (a + t) % 2 ^ 32 := by
  omega

theorem ParseTextObject_error (I : Impl) (g : Nat) (is : istream) (nm : Bytes) (ln : Nat)
    (x : Exn) (h : _ParseTextObject.loop I g is ln [] false [] = .error x) :
    _ParseTextObject I (g + 1) is nm ln = .error x := by
  rw [_ParseTextObject, h]

theorem ParseTextObject_ok (I : Impl) (g : Nat) (is : istream) (nm : Bytes) (ln : Nat)
    (c : ValveCollection) (is2 : istream) (ln2 : Nat)
    (h : _ParseTextObject.loop I g is ln [] false [] = .ok (c, is2, ln2)) :
    _ParseTextObject I (g + 1) is nm ln
      = .ok (.mk nm (I.hash nm) (._Collection c) .Object, is2, ln2) := by
  rw [_ParseTextObject, h]

/-- The loop of `_ParseTextObject` on a document given by its lines ends in one of
three ways: with an exception on line `j`, which carries the number of that line
and which every truncation of the document after `j` or more lines gives again;
at the `}` of line `j`, as do these truncations; or at the end of the stream. A
truncation to fewer lines is read to its end without an exception. -/
theorem text_loop_lines (I : Impl) (n : Nat) :
    ∀ (ps : List (Bytes × Bytes)) (tail : Bytes) (f ln : Nat) (c : ValveCollection) (io : Bool)
      (nm : Bytes), ps.length ≤ n → lines_wf ps tail = true → 2 * ps.length + 1 ≤ f →
      ln < 2 ^ 32 →
      (∃ x j, _ParseTextObject.loop I f ⟨join_lines ps ++ tail, false⟩ ln c io nm = .error x
          ∧ 1 ≤ j ∧ j ≤ ps.length ∧ reports_line x ((ln + j) % 2 ^ 32)
          ∧ ∀ m f2, m ≤ ps.length → 2 * m + 1 ≤ f2 →
            (j ≤ m → _ParseTextObject.loop I f2 ⟨join_lines (ps.take m), false⟩ ln c io nm
                = .error x)
            ∧ (m < j → ∃ a, _ParseTextObject.loop I f2 ⟨join_lines (ps.take m), false⟩ ln c io nm
                = .ok (a, ⟨[], true⟩, (ln + m) % 2 ^ 32)))
      ∨ (∃ a j, _ParseTextObject.loop I f ⟨join_lines ps ++ tail, false⟩ ln c io nm
            = .ok (a, ⟨join_lines (ps.drop j) ++ tail, false⟩, (ln + j) % 2 ^ 32)
          ∧ 1 ≤ j ∧ j ≤ ps.length
          ∧ ∀ m f2, m ≤ ps.length → 2 * m + 1 ≤ f2 →
            (j ≤ m → _ParseTextObject.loop I f2 ⟨join_lines (ps.take m), false⟩ ln c io nm
                = .ok (a, ⟨join_lines ((ps.take m).drop j), false⟩, (ln + j) % 2 ^ 32))
            ∧ (m < j → ∃ a, _ParseTextObject.loop I f2 ⟨join_lines (ps.take m), false⟩ ln c io nm
                = .ok (a, ⟨[], true⟩, (ln + m) % 2 ^ 32)))
      ∨ (∃ a, _ParseTextObject.loop I f ⟨join_lines ps ++ tail, false⟩ ln c io nm
            = .ok (a, ⟨[], true⟩, (ln + ps.length) % 2 ^ 32)
          ∧ ∀ m f2, m ≤ ps.length → 2 * m + 1 ≤ f2 →
            ∃ a, _ParseTextObject.loop I f2 ⟨join_lines (ps.take m), false⟩ ln c io nm
                = .ok (a, ⟨[], true⟩, (ln + m) % 2 ^ 32)) := by
  have hnil : ∀ (tail : Bytes) (f ln : Nat) (c : ValveCollection) (io : Bool) (nm : Bytes),
      lines_wf [] tail = true → 1 ≤ f → ln < 2 ^ 32 →
      ∃ a, _ParseTextObject.loop I f ⟨join_lines [] ++ tail, false⟩ ln c io nm
            = .ok (a, ⟨[], true⟩, (ln + ([] : List (Bytes × Bytes)).length) % 2 ^ 32)
          ∧ ∀ m f2, m ≤ ([] : List (Bytes × Bytes)).length → 2 * m + 1 ≤ f2 →
            ∃ a, _ParseTextObject.loop I f2
                ⟨join_lines (([] : List (Bytes × Bytes)).take m), false⟩ ln c io nm
                = .ok (a, ⟨[], true⟩, (ln + m) % 2 ^ 32) := by
    intro tail f ln c io nm hwf hf hln
    obtain ⟨g, rfl⟩ : ∃ g, f = g + 1 := ⟨f - 1, by omega⟩
    refine ⟨c, ?_, ?_⟩
    · simp only [join_lines, List.nil_append, List.length_nil, Nat.add_zero,
        Nat.mod_eq_of_lt hln]
      exact text_loop_tail I g tail ln c io nm hwf
    · intro m f2 hm hf2
      obtain ⟨g2, rfl⟩ : ∃ g, f2 = g + 1 := ⟨f2 - 1, by omega⟩
      have hm0 : m = 0 := by simpa using hm
      subst hm0
      refine ⟨c, ?_⟩
      simp only [List.take_nil, join_lines, Nat.add_zero, Nat.mod_eq_of_lt hln]
      exact text_loop_eof I g2 false ln c io nm
  induction n with
  | zero =>
    intro ps tail f ln c io nm hn hwf hf hln
    have hps : ps = [] := List.length_eq_zero.1 (by omega)
    subst hps
    exact Or.inr (Or.inr (hnil tail f ln c io nm hwf (by omega) hln))
  | succ n ih =>
    intro ps tail f ln c io nm hn hwf hf hln
    cases ps with
    | nil => exact Or.inr (Or.inr (hnil tail f ln c io nm hwf (by omega) hln))
    | cons p ps =>
      obtain ⟨l, eol⟩ := p
      simp only [List.length_cons] at hn hf
      obtain ⟨g, rfl⟩ : ∃ g, f = g + 1 := ⟨f - 1, by omega⟩
      have hwf2 : lines_wf ps tail = true := ((lines_wf_cons l eol ps tail).1 hwf).2.2.2
      have hmain := text_loop_step I g l eol ps tail ln c io nm hwf
      have htr := fun (m g2 : Nat) => text_loop_step I g2 l eol (ps.take m) [] ln c io nm
        (lines_wf_take ((l, eol) :: ps) tail (m + 1) hwf)
      simp only [List.append_nil] at htr
      have h0 : ∀ f2, 1 ≤ f2 →
          _ParseTextObject.loop I f2 ⟨join_lines (((l, eol) :: ps).take 0), false⟩ ln c io nm
            = .ok (c, ⟨[], true⟩, (ln + 0) % 2 ^ 32) := by
        intro f2 hf2
        obtain ⟨g2, rfl⟩ : ∃ g, f2 = g + 1 := ⟨f2 - 1, by omega⟩
        simp only [List.take_zero, join_lines, Nat.add_zero, Nat.mod_eq_of_lt hln]
        exact text_loop_eof I g2 false ln c io nm
      have hln1 : (ln + 1) % 2 ^ 32 < 2 ^ 32 := Nat.mod_lt _ (by norm_num)
      generalize hA : _ParseTextObject.line I (l ++ eol) ((ln + 1) % 2 ^ 32) c io nm _ _ = A
        at hmain htr
      cases A with
      | throw x =>
        simp only [] at hmain htr
        refine Or.inl ⟨x, 1, hmain, le_refl _, by simp, line_throw_reports _ _ _ _ _ _ _ _ _ hA, ?_⟩
        intro m f2 hm hf2
        cases m with
        | zero => exact ⟨fun h => absurd h (by omega), fun _ => ⟨c, h0 f2 (by omega)⟩⟩
        | succ m =>
          obtain ⟨g2, rfl⟩ : ∃ g, f2 = g + 1 := ⟨f2 - 1, by omega⟩
          exact ⟨fun _ => htr m g2, fun h => absurd h (by omega)⟩
      | stop =>
        simp only [] at hmain htr
        refine Or.inr (Or.inl ⟨c, 1, hmain, le_refl _, by simp, ?_⟩)
        intro m f2 hm hf2
        cases m with
        | zero => exact ⟨fun h => absurd h (by omega), fun _ => ⟨c, h0 f2 (by omega)⟩⟩
        | succ m =>
          obtain ⟨g2, rfl⟩ : ∃ g, f2 = g + 1 := ⟨f2 - 1, by omega⟩
          exact ⟨fun _ => htr m g2, fun h => absurd h (by omega)⟩
      | next c2 io2 nm2 =>
        simp only [] at hmain htr
        rcases ih ps tail g ((ln + 1) % 2 ^ 32) c2 io2 nm2 (by omega) hwf2 (by omega) hln1 with
          ⟨x, j, hr, hj1, hj2, hrep, htrunc⟩ | ⟨a, j, hr, hj1, hj2, htrunc⟩ | ⟨a, hr, htrunc⟩
        · rw [mod32_step] at hrep
          refine Or.inl ⟨x, j + 1, hmain.trans hr, by omega, by simp; omega, hrep, ?_⟩
          intro m f2 hm hf2
          cases m with
          | zero => exact ⟨fun h => absurd h (by omega), fun _ => ⟨c, h0 f2 (by omega)⟩⟩
          | succ m =>
            obtain ⟨g2, rfl⟩ : ∃ g, f2 = g + 1 := ⟨f2 - 1, by omega⟩
            have T := htrunc m g2 (by simpa using hm) (by omega)
            refine ⟨fun h => (htr m g2).trans (T.1 (by omega)), fun h => ?_⟩
            obtain ⟨a, ha⟩ := T.2 (by omega)
            exact ⟨a, (htr m g2).trans (by rw [ha, mod32_step])⟩
        · rw [mod32_step] at hr
          refine Or.inr (Or.inl ⟨a, j + 1, hmain.trans hr, by omega, by simp; omega, ?_⟩)
          intro m f2 hm hf2
          cases m with
          | zero => exact ⟨fun h => absurd h (by omega), fun _ => ⟨c, h0 f2 (by omega)⟩⟩
          | succ m =>
            obtain ⟨g2, rfl⟩ : ∃ g, f2 = g + 1 := ⟨f2 - 1, by omega⟩
            have T := htrunc m g2 (by simpa using hm) (by omega)
            refine ⟨fun h => (htr m g2).trans ?_, fun h => ?_⟩
            · rw [T.1 (by omega), mod32_step]
              rfl
            · obtain ⟨a, ha⟩ := T.2 (by omega)
              exact ⟨a, (htr m g2).trans (by rw [ha, mod32_step])⟩
        · rw [mod32_step] at hr
          refine Or.inr (Or.inr ⟨a, hmain.trans hr, ?_⟩)
          intro m f2 hm hf2
          cases m with
          | zero => exact ⟨c, h0 f2 (by omega)⟩
          | succ m =>
            obtain ⟨g2, rfl⟩ : ∃ g, f2 = g + 1 := ⟨f2 - 1, by omega⟩
            obtain ⟨a, ha⟩ := htrunc m g2 (by simpa using hm) (by omega)
            exact ⟨a, (htr m g2).trans (by rw [ha, mod32_step])⟩
      | descend nm2 =>
        simp only [] at hmain htr
        obtain ⟨g1, rfl⟩ : ∃ g1, g = g1 + 1 := ⟨g - 1, by omega⟩
        have heof : ∀ m g2 a3,
            _ParseTextObject.loop I g2 ⟨join_lines (ps.take m), false⟩ ((ln + 1) % 2 ^ 32) []
                false [] = .ok (a3, ⟨[], true⟩, ((ln + 1) % 2 ^ 32 + m) % 2 ^ 32) →
            ∃ a, _ParseTextObject.loop I (g2 + 1 + 1)
                ⟨join_lines (((l, eol) :: ps).take (m + 1)), false⟩ ln c io nm
              = .ok (a, ⟨[], true⟩, (ln + (m + 1)) % 2 ^ 32) := by
          intro m g2 a3 h
          refine ⟨c ++ [.mk nm2 (I.hash nm2) (._Collection a3) .Object],
            (htr m (g2 + 1)).trans ?_⟩
          rw [ParseTextObject_ok I g2 _ nm2 _ _ _ _ h]
          simp only []
          rw [text_loop_eof, mod32_step]
        have hcont : ∀ m g2 a3 j,
            _ParseTextObject.loop I g2 ⟨join_lines (ps.take m), false⟩ ((ln + 1) % 2 ^ 32) []
                false []
              = .ok (a3, ⟨join_lines ((ps.take m).drop j), false⟩,
                  ((ln + 1) % 2 ^ 32 + j) % 2 ^ 32) →
            _ParseTextObject.loop I (g2 + 1 + 1)
                ⟨join_lines (((l, eol) :: ps).take (m + 1)), false⟩ ln c io nm
              = _ParseTextObject.loop I (g2 + 1) ⟨join_lines ((ps.drop j).take (m - j)), false⟩
                  (((ln + 1) % 2 ^ 32 + j) % 2 ^ 32)
                  (c ++ [.mk nm2 (I.hash nm2) (._Collection a3) .Object]) false [] := by
          intro m g2 a3 j h
          refine (htr m (g2 + 1)).trans ?_
          rw [ParseTextObject_ok I g2 _ nm2 _ _ _ _ h]
          simp only []
          rw [List.drop_take]
        have herr : ∀ m g2 x,
            _ParseTextObject.loop I g2 ⟨join_lines (ps.take m), false⟩ ((ln + 1) % 2 ^ 32) []
                false [] = .error x →
            _ParseTextObject.loop I (g2 + 1 + 1)
                ⟨join_lines (((l, eol) :: ps).take (m + 1)), false⟩ ln c io nm = .error x := by
          intro m g2 x h
          refine (htr m (g2 + 1)).trans ?_
          rw [ParseTextObject_error I g2 _ nm2 _ _ h]
        rcases ih ps tail g1 ((ln + 1) % 2 ^ 32) [] false [] (by omega) hwf2 (by omega) hln1 with
          ⟨x, j, hr, hj1, hj2, hrep, htrunc⟩ | ⟨a, j, hr, hj1, hj2, htrunc⟩ | ⟨a, hr, htrunc⟩
        · rw [ParseTextObject_error I g1 _ nm2 _ _ hr] at hmain
          simp only [] at hmain
          rw [mod32_step] at hrep
          refine Or.inl ⟨x, j + 1, hmain, by omega, by simp; omega, hrep, ?_⟩
          intro m f2 hm hf2
          cases m with
          | zero => exact ⟨fun h => absurd h (by omega), fun _ => ⟨c, h0 f2 (by omega)⟩⟩
          | succ m =>
            obtain ⟨g2, rfl⟩ : ∃ g, f2 = g + 1 + 1 := ⟨f2 - 2, by omega⟩
            have T := htrunc m g2 (by simpa using hm) (by omega)
            refine ⟨fun h => herr m g2 x (T.1 (by omega)), fun h => ?_⟩
            obtain ⟨a, ha⟩ := T.2 (by omega)
            exact heof m g2 a ha
        · rw [ParseTextObject_ok I g1 _ nm2 _ _ _ _ hr] at hmain
          simp only [] at hmain
          have hlen : (ps.drop j).length = ps.length - j := List.length_drop j ps
          rcases ih (ps.drop j) tail (g1 + 1) (((ln + 1) % 2 ^ 32 + j) % 2 ^ 32)
              (c ++ [.mk nm2 (I.hash nm2) (._Collection a) .Object]) false []
              (by rw [hlen]; omega) (lines_wf_drop ps tail j hwf2) (by rw [hlen]; omega)
              (Nat.mod_lt _ (by norm_num)) with
            ⟨x, j2, hr2, hj21, hj22, hrep2, htrunc2⟩ | ⟨a2, j2, hr2, hj21, hj22, htrunc2⟩
              | ⟨a2, hr2, htrunc2⟩
          · rw [hlen] at hj22
            rw [mod32_two ln j j2 (j + j2 + 1) rfl] at hrep2
            refine Or.inl ⟨x, j + j2 + 1, hmain.trans hr2, by omega, by simp; omega, hrep2, ?_⟩
            intro m f2 hm hf2
            cases m with
            | zero => exact ⟨fun h => absurd h (by omega), fun _ => ⟨c, h0 f2 (by omega)⟩⟩
            | succ m =>
              obtain ⟨g2, rfl⟩ : ∃ g, f2 = g + 1 + 1 := ⟨f2 - 2, by omega⟩
              have hm2 : m ≤ ps.length := by simpa using hm
              have T := htrunc m g2 hm2 (by omega)
              by_cases hjm : j ≤ m
              · have e := hcont m g2 a j (T.1 hjm)
                have T2 := htrunc2 (m - j) (g2 + 1) (by rw [hlen]; omega) (by omega)
                refine ⟨fun h => e.trans (T2.1 (by omega)), fun h => ?_⟩
                obtain ⟨a4, ha4⟩ := T2.2 (by omega)
                exact ⟨a4, e.trans (ha4.trans
                  (by rw [mod32_two ln j (m - j) (m + 1) (by omega)]))⟩
              · obtain ⟨a4, ha4⟩ := T.2 (by omega)
                exact ⟨fun h => absurd h (by omega), fun _ => heof m g2 a4 ha4⟩
          · rw [hlen] at hj22
            rw [mod32_two ln j j2 (j + j2 + 1) rfl, List.drop_drop] at hr2
            refine Or.inr (Or.inl ⟨a2, j + j2 + 1, hmain.trans hr2, by omega, by simp; omega, ?_⟩)
            intro m f2 hm hf2
            cases m with
            | zero => exact ⟨fun h => absurd h (by omega), fun _ => ⟨c, h0 f2 (by omega)⟩⟩
            | succ m =>
              obtain ⟨g2, rfl⟩ : ∃ g, f2 = g + 1 + 1 := ⟨f2 - 2, by omega⟩
              have hm2 : m ≤ ps.length := by simpa using hm
              have T := htrunc m g2 hm2 (by omega)
              by_cases hjm : j ≤ m
              · have e := hcont m g2 a j (T.1 hjm)
                have T2 := htrunc2 (m - j) (g2 + 1) (by rw [hlen]; omega) (by omega)
                refine ⟨fun h => e.trans ((T2.1 (by omega)).trans ?_), fun h => ?_⟩
                · rw [mod32_two ln j j2 (j + j2 + 1) rfl, ← List.drop_take, List.drop_drop]
                  rfl
                · obtain ⟨a4, ha4⟩ := T2.2 (by omega)
                  exact ⟨a4, e.trans (ha4.trans
                    (by rw [mod32_two ln j (m - j) (m + 1) (by omega)]))⟩
              · obtain ⟨a4, ha4⟩ := T.2 (by omega)
                exact ⟨fun h => absurd h (by omega), fun _ => heof m g2 a4 ha4⟩
          · rw [hlen, mod32_two ln j (ps.length - j) (ps.length + 1) (by omega)] at hr2
            refine Or.inr (Or.inr ⟨a2, hmain.trans hr2, ?_⟩)
            intro m f2 hm hf2
            cases m with
            | zero => exact ⟨c, h0 f2 (by omega)⟩
            | succ m =>
              obtain ⟨g2, rfl⟩ : ∃ g, f2 = g + 1 + 1 := ⟨f2 - 2, by omega⟩
              have hm2 : m ≤ ps.length := by simpa using hm
              have T := htrunc m g2 hm2 (by omega)
              by_cases hjm : j ≤ m
              · have e := hcont m g2 a j (T.1 hjm)
                obtain ⟨a4, ha4⟩ := htrunc2 (m - j) (g2 + 1) (by rw [hlen]; omega) (by omega)
                exact ⟨a4, e.trans (ha4.trans
                  (by rw [mod32_two ln j (m - j) (m + 1) (by omega)]))⟩
              · obtain ⟨a4, ha4⟩ := T.2 (by omega)
                exact heof m g2 a4 ha4
        · rw [ParseTextObject_ok I g1 _ nm2 _ _ _ _ hr] at hmain
          simp only [] at hmain
          rw [text_loop_eof, mod32_step] at hmain
          refine Or.inr (Or.inr ⟨_, hmain, ?_⟩)
          intro m f2 hm hf2
          cases m with
          | zero => exact ⟨c, h0 f2 (by omega)⟩
          | succ m =>
            obtain ⟨g2, rfl⟩ : ∃ g, f2 = g + 1 + 1 := ⟨f2 - 2, by omega⟩
            obtain ⟨a3, ha3⟩ := htrunc m g2 (by simpa using hm) (by omega)
            exact heof m g2 a3 ha3

/-- One iteration of the loop of the text branch of `ParseObject` on a document
given by its lines. -/
theorem text_step (I : Impl) (f : Nat) (l eol : Bytes) (ps : List (Bytes × Bytes))
    (tail : Bytes) (ln : Nat) (nm : Bytes) (po : ValveDataObject)
    (h : lines_wf ((l, eol) :: ps) tail = true) :
    ParseObject.text I (f + 1) ⟨join_lines ((l, eol) :: ps) ++ tail, false⟩ ln nm po
      = match ParseObject.text_line (l ++ eol) ((ln + 1) % 2 ^ 32) nm
            (Details.SkipSpaces.front l l.length l.length 0)
            (if Details.SkipSpaces.front l l.length l.length 0 < l.length then l.length
              else l.length + 1) with
        | .throw x => .error x
        | .stop => .ok po
        | .next _ _ nm' =>
          ParseObject.text I f ⟨join_lines ps ++ tail, false⟩ ((ln + 1) % 2 ^ 32) nm' po
        | .descend nm' =>
          match _ParseTextObject I (2 * (join_lines ps ++ tail).length + 2)
              ⟨join_lines ps ++ tail, false⟩ nm' ((ln + 1) % 2 ^ 32) with
          | .error x => .error x
          | .ok (o, is', ln') => ParseObject.text I f is' ln' [] o := by
  obtain ⟨⟨h10, h13⟩, heol, -, -⟩ := (lines_wf_cons l eol ps tail).1 h
  rw [text_eq_line, getline_join_lines l eol ps tail h]
  simp only [Bool.false_eq_true, if_false]
  simp only [SkipSpaces_whole_line l eol heol h10 h13]

/-- In front of bytes without a line ending the text branch of `ParseObject`
returns the node it has: `getline` fails. -/
theorem text_tail (I : Impl) (f : Nat) (tail : Bytes) (ln : Nat) (nm : Bytes)
    (po : ValveDataObject) (h : lines_wf [] tail = true) :
    ParseObject.text I (f + 1) ⟨tail, false⟩ ln nm po = .ok po := by
  rw [text_eq_line]
  simp only [lines_wf] at h
  simp [Details.getline, getline_loop_tail tail [] h]

/-- At the end of the stream the text branch of `ParseObject` returns the node it
has. -/
theorem text_eof (I : Impl) (f : Nat) (fl : Bool) (ln : Nat) (nm : Bytes)
    (po : ValveDataObject) :
    ParseObject.text I (f + 1) ⟨[], fl⟩ ln nm po = .ok po := by
  rw [text_eq_line]
  cases fl <;> simp [Details.getline, Details.getline.loop]

/-- The text branch of `ParseObject` on a document given by its lines either ends
with an exception on line `j`, which carries the number of that line and which
every truncation of the document after `j` or more lines gives again, while a
truncation to fewer lines gives no exception; or it returns a node, as do all the
truncations. -/
theorem ParseObject_text_lines (I : Impl) (n : Nat) :
    ∀ (ps : List (Bytes × Bytes)) (tail : Bytes) (f ln : Nat) (nm : Bytes)
      (po : ValveDataObject), ps.length ≤ n → lines_wf ps tail = true → ps.length + 1 ≤ f →
      ln < 2 ^ 32 →
      (∃ x j, ParseObject.text I f ⟨join_lines ps ++ tail, false⟩ ln nm po = .error x
          ∧ 1 ≤ j ∧ j ≤ ps.length ∧ reports_line x ((ln + j) % 2 ^ 32)
          ∧ ∀ m f2, m ≤ ps.length → m + 1 ≤ f2 →
            (j ≤ m → ParseObject.text I f2 ⟨join_lines (ps.take m), false⟩ ln nm po = .error x)
            ∧ (m < j → ∃ o, ParseObject.text I f2 ⟨join_lines (ps.take m), false⟩ ln nm po
                = .ok o))
      ∨ (∃ o, ParseObject.text I f ⟨join_lines ps ++ tail, false⟩ ln nm po = .ok o
          ∧ ∀ m f2, m ≤ ps.length → m + 1 ≤ f2 →
            ∃ o2, ParseObject.text I f2 ⟨join_lines (ps.take m), false⟩ ln nm po = .ok o2) := by
  have hnil : ∀ (tail : Bytes) (f ln : Nat) (nm : Bytes) (po : ValveDataObject),
      lines_wf [] tail = true → 1 ≤ f →
      ∃ o, ParseObject.text I f ⟨join_lines [] ++ tail, false⟩ ln nm po = .ok o
          ∧ ∀ m f2, m ≤ ([] : List (Bytes × Bytes)).length → m + 1 ≤ f2 →
            ∃ o2, ParseObject.text I f2
                ⟨join_lines (([] : List (Bytes × Bytes)).take m), false⟩ ln nm po = .ok o2 := by
    intro tail f ln nm po hwf hf
    obtain ⟨g, rfl⟩ : ∃ g, f = g + 1 := ⟨f - 1, by omega⟩
    refine ⟨po, ?_, ?_⟩
    · simp only [join_lines, List.nil_append]
      exact text_tail I g tail ln nm po hwf
    · intro m f2 hm hf2
      obtain ⟨g2, rfl⟩ : ∃ g, f2 = g + 1 := ⟨f2 - 1, by omega⟩
      refine ⟨po, ?_⟩
      simp only [List.take_nil, join_lines]
      exact text_eof I g2 false ln nm po
  induction n with
  | zero =>
    intro ps tail f ln nm po hn hwf hf hln
    have hps : ps = [] := List.length_eq_zero.1 (by omega)
    subst hps
    exact Or.inr (hnil tail f ln nm po hwf (by omega))
  | succ n ih =>
    intro ps tail f ln nm po hn hwf hf hln
    cases ps with
    | nil => exact Or.inr (hnil tail f ln nm po hwf (by omega))
    | cons p ps =>
      obtain ⟨l, eol⟩ := p
      simp only [List.length_cons] at hn hf
      obtain ⟨g, rfl⟩ : ∃ g, f = g + 1 := ⟨f - 1, by omega⟩
      have hwf2 : lines_wf ps tail = true := ((lines_wf_cons l eol ps tail).1 hwf).2.2.2
      have hmain := text_step I g l eol ps tail ln nm po hwf
      have htr := fun (m g2 : Nat) => text_step I g2 l eol (ps.take m) [] ln nm po
        (lines_wf_take ((l, eol) :: ps) tail (m + 1) hwf)
      simp only [List.append_nil] at htr
      have h0 : ∀ f2, 1 ≤ f2 →
          ParseObject.text I f2 ⟨join_lines (((l, eol) :: ps).take 0), false⟩ ln nm po
            = .ok po := by
        intro f2 hf2
        obtain ⟨g2, rfl⟩ : ∃ g, f2 = g + 1 := ⟨f2 - 1, by omega⟩
        simp only [List.take_zero, join_lines]
        exact text_eof I g2 false ln nm po
      have hln1 : (ln + 1) % 2 ^ 32 < 2 ^ 32 := Nat.mod_lt _ (by norm_num)
      generalize hA : ParseObject.text_line (l ++ eol) ((ln + 1) % 2 ^ 32) nm _ _ = A
        at hmain htr
      cases A with
      | throw x =>
        simp only [] at hmain htr
        refine Or.inl ⟨x, 1, hmain, le_refl _, by simp, text_line_throw_reports _ _ _ _ _ _ hA,
          ?_⟩
        intro m f2 hm hf2
        cases m with
        | zero => exact ⟨fun h => absurd h (by omega), fun _ => ⟨po, h0 f2 (by omega)⟩⟩
        | succ m =>
          obtain ⟨g2, rfl⟩ : ∃ g, f2 = g + 1 := ⟨f2 - 1, by omega⟩
          exact ⟨fun _ => htr m g2, fun h => absurd h (by omega)⟩
      | stop =>
        simp only [] at hmain htr
        refine Or.inr ⟨po, hmain, ?_⟩
        intro m f2 hm hf2
        cases m with
        | zero => exact ⟨po, h0 f2 (by omega)⟩
        | succ m =>
          obtain ⟨g2, rfl⟩ : ∃ g, f2 = g + 1 := ⟨f2 - 1, by omega⟩
          exact ⟨po, htr m g2⟩
      | next c2 io2 nm2 =>
        simp only [] at hmain htr
        rcases ih ps tail g ((ln + 1) % 2 ^ 32) nm2 po (by omega) hwf2 (by omega) hln1 with
          ⟨x, j, hr, hj1, hj2, hrep, htrunc⟩ | ⟨o, hr, htrunc⟩
        · rw [mod32_step] at hrep
          refine Or.inl ⟨x, j + 1, hmain.trans hr, by omega, by simp; omega, hrep, ?_⟩
          intro m f2 hm hf2
          cases m with
          | zero => exact ⟨fun h => absurd h (by omega), fun _ => ⟨po, h0 f2 (by omega)⟩⟩
          | succ m =>
            obtain ⟨g2, rfl⟩ : ∃ g, f2 = g + 1 := ⟨f2 - 1, by omega⟩
            have T := htrunc m g2 (by simpa using hm) (by omega)
            refine ⟨fun h => (htr m g2).trans (T.1 (by omega)), fun h => ?_⟩
            obtain ⟨o, ho⟩ := T.2 (by omega)
            exact ⟨o, (htr m g2).trans ho⟩
        · refine Or.inr ⟨o, hmain.trans hr, ?_⟩
          intro m f2 hm hf2
          cases m with
          | zero => exact ⟨po, h0 f2 (by omega)⟩
          | succ m =>
            obtain ⟨g2, rfl⟩ : ∃ g, f2 = g + 1 := ⟨f2 - 1, by omega⟩
            obtain ⟨o2, ho2⟩ := htrunc m g2 (by simpa using hm) (by omega)
            exact ⟨o2, (htr m g2).trans ho2⟩
      | descend nm2 =>
        simp only [] at hmain htr
        obtain ⟨g1, rfl⟩ : ∃ g1, g = g1 + 1 := ⟨g - 1, by omega⟩
        have hfuel : ∀ m, m ≤ ps.length →
            2 * m + 1 ≤ 2 * (join_lines (ps.take m)).length + 1 := by
          intro m hm
          have := length_join_lines_ge (ps.take m) [] (lines_wf_take ps tail m hwf2)
          rw [List.length_take, Nat.min_eq_left hm] at this
          omega
        have heof : ∀ m g2 a3, m ≤ ps.length →
            _ParseTextObject.loop I (2 * (join_lines (ps.take m)).length + 1)
                ⟨join_lines (ps.take m), false⟩ ((ln + 1) % 2 ^ 32) [] false []
              = .ok (a3, ⟨[], true⟩, ((ln + 1) % 2 ^ 32 + m) % 2 ^ 32) →
            ∃ o, ParseObject.text I (g2 + 1 + 1)
                ⟨join_lines (((l, eol) :: ps).take (m + 1)), false⟩ ln nm po = .ok o := by
          intro m g2 a3 hm h
          refine ⟨.mk nm2 (I.hash nm2) (._Collection a3) .Object, (htr m (g2 + 1)).trans ?_⟩
          rw [ParseTextObject_ok I _ _ nm2 _ _ _ _ h]
          simp only []
          rw [text_eof]
        have hcont : ∀ m g2 a3 j,
            _ParseTextObject.loop I (2 * (join_lines (ps.take m)).length + 1)
                ⟨join_lines (ps.take m), false⟩ ((ln + 1) % 2 ^ 32) [] false []
              = .ok (a3, ⟨join_lines ((ps.take m).drop j), false⟩,
                  ((ln + 1) % 2 ^ 32 + j) % 2 ^ 32) →
            ParseObject.text I (g2 + 1 + 1)
                ⟨join_lines (((l, eol) :: ps).take (m + 1)), false⟩ ln nm po
              = ParseObject.text I (g2 + 1) ⟨join_lines ((ps.drop j).take (m - j)), false⟩
                  (((ln + 1) % 2 ^ 32 + j) % 2 ^ 32) []
                  (.mk nm2 (I.hash nm2) (._Collection a3) .Object) := by
          intro m g2 a3 j h
          refine (htr m (g2 + 1)).trans ?_
          rw [ParseTextObject_ok I _ _ nm2 _ _ _ _ h]
          simp only []
          rw [List.drop_take]
        have herr : ∀ m g2 x,
            _ParseTextObject.loop I (2 * (join_lines (ps.take m)).length + 1)
                ⟨join_lines (ps.take m), false⟩ ((ln + 1) % 2 ^ 32) [] false [] = .error x →
            ParseObject.text I (g2 + 1 + 1)
                ⟨join_lines (((l, eol) :: ps).take (m + 1)), false⟩ ln nm po = .error x := by
          intro m g2 x h
          refine (htr m (g2 + 1)).trans ?_
          rw [ParseTextObject_error I _ _ nm2 _ _ h]
        have hlj := length_join_lines_ge ps tail hwf2
        rcases text_loop_lines I ps.length ps tail (2 * (join_lines ps ++ tail).length + 1)
            ((ln + 1) % 2 ^ 32) [] false [] (le_refl _) hwf2
            (by rw [List.length_append]; omega) hln1 with
          ⟨x, j, hr, hj1, hj2, hrep, htrunc⟩ | ⟨a, j, hr, hj1, hj2, htrunc⟩ | ⟨a, hr, htrunc⟩
        · rw [ParseTextObject_error I _ _ nm2 _ _ hr] at hmain
          simp only [] at hmain
          rw [mod32_step] at hrep
          refine Or.inl ⟨x, j + 1, hmain, by omega, by simp; omega, hrep, ?_⟩
          intro m f2 hm hf2
          cases m with
          | zero => exact ⟨fun h => absurd h (by omega), fun _ => ⟨po, h0 f2 (by omega)⟩⟩
          | succ m =>
            obtain ⟨g2, rfl⟩ : ∃ g, f2 = g + 1 + 1 := ⟨f2 - 2, by omega⟩
            have hm2 : m ≤ ps.length := by simpa using hm
            have T := htrunc m _ hm2 (hfuel m hm2)
            refine ⟨fun h => herr m g2 x (T.1 (by omega)), fun h => ?_⟩
            obtain ⟨a, ha⟩ := T.2 (by omega)
            exact heof m g2 a hm2 ha
        · rw [ParseTextObject_ok I _ _ nm2 _ _ _ _ hr] at hmain
          simp only [] at hmain
          have hlen : (ps.drop j).length = ps.length - j := List.length_drop j ps
          rcases ih (ps.drop j) tail (g1 + 1) (((ln + 1) % 2 ^ 32 + j) % 2 ^ 32) []
              (.mk nm2 (I.hash nm2) (._Collection a) .Object)
              (by rw [hlen]; omega) (lines_wf_drop ps tail j hwf2) (by rw [hlen]; omega)
              (Nat.mod_lt _ (by norm_num)) with
            ⟨x, j2, hr2, hj21, hj22, hrep2, htrunc2⟩ | ⟨o, hr2, htrunc2⟩
          · rw [hlen] at hj22
            rw [mod32_two ln j j2 (j + j2 + 1) rfl] at hrep2
            refine Or.inl ⟨x, j + j2 + 1, hmain.trans hr2, by omega, by simp; omega, hrep2, ?_⟩
            intro m f2 hm hf2
            cases m with
            | zero => exact ⟨fun h => absurd h (by omega), fun _ => ⟨po, h0 f2 (by omega)⟩⟩
            | succ m =>
              obtain ⟨g2, rfl⟩ : ∃ g, f2 = g + 1 + 1 := ⟨f2 - 2, by omega⟩
              have hm2 : m ≤ ps.length := by simpa using hm
              have T := htrunc m _ hm2 (hfuel m hm2)
              by_cases hjm : j ≤ m
              · have e := hcont m g2 a j (T.1 hjm)
                have T2 := htrunc2 (m - j) (g2 + 1) (by rw [hlen]; omega) (by omega)
                refine ⟨fun h => e.trans (T2.1 (by omega)), fun h => ?_⟩
                obtain ⟨o4, ho4⟩ := T2.2 (by omega)
                exact ⟨o4, e.trans ho4⟩
              · obtain ⟨a4, ha4⟩ := T.2 (by omega)
                exact ⟨fun h => absurd h (by omega), fun _ => heof m g2 a4 hm2 ha4⟩
          · refine Or.inr ⟨o, hmain.trans hr2, ?_⟩
            intro m f2 hm hf2
            cases m with
            | zero => exact ⟨po, h0 f2 (by omega)⟩
            | succ m =>
              obtain ⟨g2, rfl⟩ : ∃ g, f2 = g + 1 + 1 := ⟨f2 - 2, by omega⟩
              have hm2 : m ≤ ps.length := by simpa using hm
              have T := htrunc m _ hm2 (hfuel m hm2)
              by_cases hjm : j ≤ m
              · have e := hcont m g2 a j (T.1 hjm)
                obtain ⟨o4, ho4⟩ := htrunc2 (m - j) (g2 + 1) (by rw [hlen]; omega) (by omega)
                exact ⟨o4, e.trans ho4⟩
              · obtain ⟨a4, ha4⟩ := T.2 (by omega)
                exact heof m g2 a4 hm2 ha4
        · rw [ParseTextObject_ok I _ _ nm2 _ _ _ _ hr] at hmain
          simp only [] at hmain
          rw [text_eof] at hmain
          refine Or.inr ⟨_, hmain, ?_⟩
          intro m f2 hm hf2
          cases m with
          | zero => exact ⟨po, h0 f2 (by omega)⟩
          | succ m =>
            obtain ⟨g2, rfl⟩ : ∃ g, f2 = g + 1 + 1 := ⟨f2 - 2, by omega⟩
            have hm2 : m ≤ ps.length := by simpa using hm
            obtain ⟨a3, ha3⟩ := htrunc m _ hm2 (hfuel m hm2)
            exact heof m g2 a3 hm2 ha3

theorem split_at_eol (input : Bytes) :
    input.all (fun b => decide (b ≠ 10 ∧ b ≠ 13)) = true
      ∨ ∃ l b rest, input = l ++ b :: rest ∧ 10 ∉ l ∧ 13 ∉ l ∧ (b = 10 ∨ b = 13) := by
  induction input with
  | nil => exact Or.inl rfl
  | cons a t ih =>
    by_cases ha : a = 10 ∨ a = 13
    · exact Or.inr ⟨[], a, t, rfl, by simp, by simp, ha⟩
    · rcases ih with ih | ⟨l, b, rest, h1, h2, h3, h4⟩
      · refine Or.inl ?_
        simp only [List.all_cons, Bool.and_eq_true, decide_eq_true_eq]
        exact ⟨⟨fun h => ha (Or.inl h), fun h => ha (Or.inr h)⟩, ih⟩
      · refine Or.inr ⟨a :: l, b, rest, by rw [h1]; rfl, ?_, ?_, h4⟩
        · simp only [List.mem_cons, not_or]
          exact ⟨fun h => ha (Or.inl h.symm), h2⟩
        · simp only [List.mem_cons, not_or]
          exact ⟨fun h => ha (Or.inr h.symm), h3⟩

/-- Every stream is cut into lines in the way `lines_wf` describes. -/
theorem exists_lines (n : Nat) : ∀ (input : Bytes), input.length ≤ n →
    ∃ ps tail, input = join_lines ps ++ tail ∧ lines_wf ps tail = true := by
  induction n using Nat.strong_induction_on with
  | _ n ih =>
    intro input hn
    rcases split_at_eol input with h | ⟨l, b, rest, h1, h2, h3, h4⟩
    · exact ⟨[], input, rfl, h⟩
    · have hlen : input.length = l.length + (rest.length + 1) := by
        rw [h1]; simp
      rcases h4 with rfl | rfl
      · obtain ⟨ps, tail, e, hwf⟩ := ih rest.length (by omega) rest (le_refl _)
        refine ⟨(l, [10]) :: ps, tail, ?_, ?_⟩
        · rw [h1, e]; simp [join_lines]
        · exact (lines_wf_cons l [10] ps tail).2 ⟨⟨h2, h3⟩, rfl, fun h => by simp at h, hwf⟩
      · cases rest with
        | nil =>
          refine ⟨[(l, [13])], [], by rw [h1]; simp [join_lines], ?_⟩
          exact (lines_wf_cons l [13] [] []).2 ⟨⟨h2, h3⟩, rfl, fun _ => by simp [join_lines], rfl⟩
        | cons c rest =>
          by_cases hc : c = 10
          · subst hc
            simp only [List.length_cons] at hlen
            obtain ⟨ps, tail, e, hwf⟩ := ih rest.length (by omega) rest (le_refl _)
            refine ⟨(l, [13, 10]) :: ps, tail, ?_, ?_⟩
            · rw [h1, e]; simp [join_lines]
            · exact (lines_wf_cons l [13, 10] ps tail).2
                ⟨⟨h2, h3⟩, rfl, fun h => by simp at h, hwf⟩
          · obtain ⟨ps, tail, e, hwf⟩ :=
              ih (c :: rest).length (by omega) (c :: rest) (le_refl _)
            refine ⟨(l, [13]) :: ps, tail, ?_, ?_⟩
            · rw [h1, e]; simp [join_lines]
            · refine (lines_wf_cons l [13] ps tail).2 ⟨⟨h2, h3⟩, rfl, fun _ => ?_, hwf⟩
              rw [← e]
              simpa using hc

/-- The text branch of `ParseObject` on a document given by its lines, from line 1
on: an exception carries the number of the line on which it is thrown. -/
theorem text_lines_from_start (I : Impl) (ps : List (Bytes × Bytes)) (tail : Bytes) (m : Msg)
    (hwf : lines_wf ps tail = true)
    (h : ParseObject.text I ((join_lines ps ++ tail).length + 1) ⟨join_lines ps ++ tail, false⟩
      0 [] (ValveDataObject.new I) = .error (.ParserException m)) :
    ∃ what k, what ∈ what_text_errors ∧ 1 ≤ k ∧ k ≤ ps.length
      ∧ m = what ++ toString (k % 2 ^ 32)
      ∧ ParseObject.text I ((join_lines (ps.take k)).length + 1)
          ⟨join_lines (ps.take k), false⟩ 0 [] (ValveDataObject.new I)
        = .error (.ParserException m)
      ∧ ∀ j, j < k → ∃ o, ParseObject.text I ((join_lines (ps.take j)).length + 1)
          ⟨join_lines (ps.take j), false⟩ 0 [] (ValveDataObject.new I) = .ok o := by
  have hfuel : ∀ j, j ≤ ps.length → j + 1 ≤ (join_lines (ps.take j)).length + 1 := by
    intro j hj
    have := length_join_lines_ge (ps.take j) [] (lines_wf_take ps tail j hwf)
    rw [List.length_take, Nat.min_eq_left hj] at this
    omega
  have hlj := length_join_lines_ge ps tail hwf
  rcases ParseObject_text_lines I ps.length ps tail ((join_lines ps ++ tail).length + 1) 0 []
      (ValveDataObject.new I) (le_refl _) hwf (by rw [List.length_append]; omega)
      (by norm_num) with
    ⟨x, k, hr, hk1, hk2, hrep, htrunc⟩ | ⟨o, hr, -⟩
  · rw [hr] at h
    injection h with hx
    subst hx
    obtain ⟨what, hw, hm⟩ := hrep m rfl
    rw [Nat.zero_add] at hm
    refine ⟨what, k, hw, hk1, hk2, hm, ?_, ?_⟩
    · exact (htrunc k _ hk2 (hfuel k hk2)).1 (le_refl _)
    · intro j hj
      exact (htrunc j _ (by omega) (hfuel j (by omega))).2 hj
  · rw [hr] at h
    cases h

theorem lines_wf_items (n : Nat) (ps : List (Bytes × Bytes)) (tail : Bytes)
    (h : lines_wf ps tail = true) :
    lines_wf (List.replicate n (ascii "\"k\" \"v\"", [10]) ++ ps) tail = true := by
  induction n with
  | zero => simpa using h
  | succ n ih =>
    rw [List.replicate_succ, List.cons_append, lines_wf_cons]
    exact ⟨⟨by decide, by decide⟩, by decide, (by intro h; cases h), ih⟩

theorem item_line_adds (ln : Nat) (c : ValveCollection) (nm : Bytes) :
    _ParseTextObject.line Impl.sample (ascii "\"k\" \"v\"" ++ [10]) ln c false nm
        (Details.SkipSpaces.front (ascii "\"k\" \"v\"") (ascii "\"k\" \"v\"").length
          (ascii "\"k\" \"v\"").length 0)
        (if Details.SkipSpaces.front (ascii "\"k\" \"v\"") (ascii "\"k\" \"v\"").length
            (ascii "\"k\" \"v\"").length 0 < (ascii "\"k\" \"v\"").length
          then (ascii "\"k\" \"v\"").length else (ascii "\"k\" \"v\"").length + 1)
      = .next (c ++ [ValveDataObject.new_string Impl.sample [107] [118]]) false [107] := by
  rfl

theorem bad_line_throws (ln : Nat) (c : ValveCollection) (nm : Bytes) :
    _ParseTextObject.line Impl.sample ([120] ++ [10]) ln c false nm
        (Details.SkipSpaces.front [120] ([120] : Bytes).length ([120] : Bytes).length 0)
        (if Details.SkipSpaces.front [120] ([120] : Bytes).length ([120] : Bytes).length 0
            < ([120] : Bytes).length
          then ([120] : Bytes).length else ([120] : Bytes).length + 1)
      = .throw (at_line "Expected item key start at line " ln) := by
  rfl

/-- The loop of `_ParseTextObject` over `n` item lines `"k" "v"`: the line
counter has advanced by `n` modulo `2 ^ 32` and the collection holds `n` more
strings. -/
theorem text_loop_items (ps : List (Bytes × Bytes)) (tail : Bytes)
    (h : lines_wf ps tail = true) (n : Nat) :
    ∀ (f ln : Nat) (c : ValveCollection) (nm : Bytes), ln < 2 ^ 32 →
      ∃ nm2, _ParseTextObject.loop Impl.sample (f + n)
          ⟨join_lines (List.replicate n (ascii "\"k\" \"v\"", [10]) ++ ps) ++ tail, false⟩
          ln c false nm
        = _ParseTextObject.loop Impl.sample f ⟨join_lines ps ++ tail, false⟩
            ((ln + n) % 2 ^ 32)
            (c ++ List.replicate n (ValveDataObject.new_string Impl.sample [107] [118]))
            false nm2 := by
  induction n with
  | zero =>
    intro f ln c nm hln
    refine ⟨nm, ?_⟩
    rw [Nat.add_zero, Nat.add_zero, Nat.mod_eq_of_lt hln]
    simp
  | succ n ih =>
    intro f ln c nm hln
    obtain ⟨nm2, h2⟩ := ih f ((ln + 1) % 2 ^ 32)
      (c ++ [ValveDataObject.new_string Impl.sample [107] [118]]) [107]
      (Nat.mod_lt _ (by decide))
    refine ⟨nm2, ?_⟩
    rw [List.replicate_succ, List.cons_append, ← Nat.add_assoc,
      text_loop_step Impl.sample (f + n) _ _ _ tail ln c false nm
        (by
          have := lines_wf_items (n + 1) ps tail h
          rwa [List.replicate_succ, List.cons_append] at this),
      item_line_adds]
    simp only []
    rw [h2, mod32_step, List.append_assoc, List.singleton_append, List.replicate_succ]

theorem lines_bad_after_eq (n : Nat) :
    lines_bad_after n = lines_items n ++ [([120], [10])] := by
  simp [lines_bad_after, lines_items]

theorem join_lines_append (ps qs : List (Bytes × Bytes)) :
    join_lines (ps ++ qs) = join_lines ps ++ join_lines qs := by
  induction ps with
  | nil => rfl
  | cons p ps ih =>
    obtain ⟨l, eol⟩ := p
    simp [join_lines, ih]

theorem length_join_items (n : Nat) :
    n ≤ (join_lines (List.replicate n (ascii "\"k\" \"v\"", [10]))).length := by
  induction n with
  | zero => exact Nat.zero_le _
  | succ n ih =>
    rw [List.replicate_succ, join_lines]
    simp only [List.length_append]
    have : 0 < (ascii "\"k\" \"v\"").length := by decide
    omega

/-- The text parser on the lines `"r"`, `{` and `n` items `"k" "v"` followed by
the lines `ps`: the loop of `_ParseTextObject` reaches `ps` with the line
counter `(2 + n) % 2 ^ 32` and `n` strings; its exception is the one of
`ParseObject`, and after its return the loop of `ParseObject` goes on with the
root `r`. -/
theorem text_after_items (n : Nat) (ps : List (Bytes × Bytes))
    (h : lines_wf ps [] = true) (chunk : Nat) :
    ∃ f g nm,
      (∃ x, _ParseTextObject.loop Impl.sample (g + 1) ⟨join_lines ps ++ [], false⟩
            ((2 + n) % 2 ^ 32)
            ([] ++ List.replicate n (ValveDataObject.new_string Impl.sample [107] [118]))
            false nm = .error x
          ∧ ParseObject Impl.sample
              (join_lines ((ascii "\"r\"", [10]) :: ([123], [10])
                :: (List.replicate n (ascii "\"k\" \"v\"", [10]) ++ ps))) chunk = .error x)
      ∨ (∃ c is2 ln2, _ParseTextObject.loop Impl.sample (g + 1) ⟨join_lines ps ++ [], false⟩
            ((2 + n) % 2 ^ 32)
            ([] ++ List.replicate n (ValveDataObject.new_string Impl.sample [107] [118]))
            false nm = .ok (c, is2, ln2)
          ∧ ParseObject Impl.sample
              (join_lines ((ascii "\"r\"", [10]) :: ([123], [10])
                :: (List.replicate n (ascii "\"k\" \"v\"", [10]) ++ ps))) chunk
            = ParseObject.text Impl.sample (f + 1) is2 ln2 []
                (.mk [114] (Impl.sample.hash [114]) (._Collection c) .Object)) := by
  have hwf : lines_wf (List.replicate n (ascii "\"k\" \"v\"", [10]) ++ ps) [] = true :=
    lines_wf_items n ps [] h
  have hwf2 : lines_wf (([123], [10]) :: (List.replicate n (ascii "\"k\" \"v\"", [10]) ++ ps)) []
      = true := by
    rw [lines_wf_cons]
    exact ⟨⟨by decide, by decide⟩, by decide, (by intro h; cases h), hwf⟩
  have hwf1 : lines_wf ((ascii "\"r\"", [10]) :: ([123], [10])
      :: (List.replicate n (ascii "\"k\" \"v\"", [10]) ++ ps)) [] = true := by
    rw [lines_wf_cons]
    exact ⟨⟨by decide, by decide⟩, by decide, (by intro h; cases h), hwf2⟩
  generalize hR : List.replicate n (ascii "\"k\" \"v\"", [10]) ++ ps = R at hwf hwf2 hwf1
  have hlen : n ≤ (join_lines R ++ []).length := by
    rw [← hR, join_lines_append]
    simp only [List.length_append]
    have := length_join_items n
    omega
  obtain ⟨g, hg⟩ : ∃ g, 2 * (join_lines R ++ []).length + 2 = ((g + 1) + n) + 1 :=
    ⟨2 * (join_lines R ++ []).length - n, by omega⟩
  obtain ⟨nm, hitems⟩ := text_loop_items ps [] h n (g + 1) 2 [] [] (by decide)
  rw [hR] at hitems
  have hdoc : join_lines ((ascii "\"r\"", [10]) :: ([123], [10]) :: R)
      = join_lines ((ascii "\"r\"", [10]) :: ([123], [10]) :: R) ++ [] := by simp
  have h4 : ¬ (join_lines ((ascii "\"r\"", [10]) :: ([123], [10]) :: R)).length < 4 := by
    simp [join_lines, ascii]
  have hm : ¬ (join_lines ((ascii "\"r\"", [10]) :: ([123], [10]) :: R)).take 4
      = BinaryVDFMagic := by
    simp [join_lines, ascii, BinaryVDFMagic, List.take_succ_cons]
  have h0 : ¬ (join_lines ((ascii "\"r\"", [10]) :: ([123], [10]) :: R)).getD 0 0 = 0 := by
    simp [join_lines, ascii]
  obtain ⟨f, hf⟩ : ∃ f, (join_lines ((ascii "\"r\"", [10]) :: ([123], [10]) :: R)).length + 1
      = ((f + 1) + 1) + 1 :=
    ⟨(join_lines ((ascii "\"r\"", [10]) :: ([123], [10]) :: R)).length - 2, by
      simp [join_lines, ascii]⟩
  have e1 : ParseObject.text_line (ascii "\"r\"" ++ [10]) ((0 + 1) % 2 ^ 32) []
      (Details.SkipSpaces.front (ascii "\"r\"") (ascii "\"r\"").length (ascii "\"r\"").length 0)
      (if Details.SkipSpaces.front (ascii "\"r\"") (ascii "\"r\"").length
          (ascii "\"r\"").length 0 < (ascii "\"r\"").length
        then (ascii "\"r\"").length else (ascii "\"r\"").length + 1)
      = .next [] false [114] := by rfl
  have e2 : ParseObject.text_line (([123] : Bytes) ++ [10]) (((0 + 1) % 2 ^ 32 + 1) % 2 ^ 32)
      [114]
      (Details.SkipSpaces.front [123] ([123] : Bytes).length ([123] : Bytes).length 0)
      (if Details.SkipSpaces.front [123] ([123] : Bytes).length ([123] : Bytes).length 0
          < ([123] : Bytes).length
        then ([123] : Bytes).length else ([123] : Bytes).length + 1)
      = .descend [114] := by rfl
  have e3 : ((0 + 1) % 2 ^ 32 + 1) % 2 ^ 32 = 2 := by decide
  refine ⟨f, g, nm, ?_⟩
  cases hL : _ParseTextObject.loop Impl.sample (g + 1) ⟨join_lines ps ++ [], false⟩
      ((2 + n) % 2 ^ 32)
      ([] ++ List.replicate n (ValveDataObject.new_string Impl.sample [107] [118])) false nm with
  | error x =>
    refine Or.inl ⟨x, rfl, ?_⟩
    rw [ParseObject, if_neg h4, if_neg hm, if_neg h0, hf]
    nth_rewrite 1 [hdoc]
    rw [text_step Impl.sample _ _ _ _ [] 0 [] _ hwf1, e1]
    simp only []
    rw [text_step Impl.sample _ _ _ _ [] _ [114] _ hwf2, e2]
    simp only []
    rw [hg, _ParseTextObject, e3, hitems, hL]
  | ok v =>
    obtain ⟨c, is2, ln2⟩ := v
    refine Or.inr ⟨c, is2, ln2, rfl, ?_⟩
    rw [ParseObject, if_neg h4, if_neg hm, if_neg h0, hf]
    nth_rewrite 1 [hdoc]
    rw [text_step Impl.sample _ _ _ _ [] 0 [] _ hwf1, e1]
    simp only []
    rw [text_step Impl.sample _ _ _ _ [] _ [114] _ hwf2, e2]
    simp only []
    rw [hg, _ParseTextObject, e3, hitems, hL]

/-- The document of `lines_bad_after n`: the line `x`, the line `n + 3` of the
document, is refused with the number `(n + 3) % 2 ^ 32`. -/
theorem bad_after_items (n chunk : Nat) :
    ParseObject Impl.sample (join_lines (lines_bad_after n)) chunk
      = .error (at_line "Expected item key start at line " ((n + 3) % 2 ^ 32)) := by
  obtain ⟨f, g, nm, hcase⟩ := text_after_items n [([120], [10])] (by decide) chunk
  have hloop : _ParseTextObject.loop Impl.sample (g + 1)
      ⟨join_lines [(([120] : Bytes), ([10] : Bytes))] ++ [], false⟩ ((2 + n) % 2 ^ 32)
      ([] ++ List.replicate n (ValveDataObject.new_string Impl.sample [107] [118])) false nm
      = .error (at_line "Expected item key start at line " ((n + 3) % 2 ^ 32)) := by
    rw [text_loop_step Impl.sample g [120] [10] [] [] _ _ false nm (by decide), bad_line_throws]
    simp only []
    have e : ((2 + n) % 2 ^ 32 + 1) % 2 ^ 32 = (n + 3) % 2 ^ 32 := by omega
    rw [e]
  rcases hcase with ⟨x, hx, hp⟩ | ⟨c, is2, ln2, hx, -⟩
  · rw [hloop] at hx
    cases hx
    exact hp
  · rw [hloop] at hx
    cases hx

/-- The document of `lines_items n` parses: it is the root `r` with `n` strings. -/
theorem items_parse (n chunk : Nat) :
    ParseObject Impl.sample (join_lines (lines_items n)) chunk
      = .ok (.mk [114] (Impl.sample.hash [114])
          (._Collection (List.replicate n (ValveDataObject.new_string Impl.sample [107] [118])))
          .Object) := by
  obtain ⟨f, g, nm, hcase⟩ := text_after_items n [] (by rfl) chunk
  have hloop : _ParseTextObject.loop Impl.sample (g + 1)
      ⟨join_lines ([] : List (Bytes × Bytes)) ++ [], false⟩ ((2 + n) % 2 ^ 32)
      ([] ++ List.replicate n (ValveDataObject.new_string Impl.sample [107] [118])) false nm
      = .ok (List.replicate n (ValveDataObject.new_string Impl.sample [107] [118]),
          ⟨[], true⟩, (2 + n) % 2 ^ 32) := by
    have e : join_lines ([] : List (Bytes × Bytes)) ++ [] = [] := rfl
    rw [e, text_loop_eof, List.nil_append]
  have e2 : lines_items n = (ascii "\"r\"", [10]) :: ([123], [10])
      :: (List.replicate n (ascii "\"k\" \"v\"", [10]) ++ []) := by
    rw [List.append_nil, lines_items]
  rcases hcase with ⟨x, hx, -⟩ | ⟨c, is2, ln2, hx, hp⟩
  · rw [hloop] at hx
    cases hx
  · rw [hloop] at hx
    cases hx
    rw [e2, hp, text_eof]

theorem length_lines_items (n : Nat) : (lines_items n).length = n + 2 := by
  simp [lines_items]

theorem length_lines_bad_after (n : Nat) : (lines_bad_after n).length = n + 3 := by
  simp [lines_bad_after]

/-- C23 as stated fails where the line counter wraps.  `line_num` is a
`uint32_t`: in the document of `2 ^ 32` lines `"r"`, `{`, `2 ^ 32 - 3` items
`"k" "v"` and `x`, the first `2 ^ 32 - 1` lines alone parse, the last line is
the first malformed one, and the message ends with `at line 0`, not with
`at line 4294967296`.  The last conjunct is the step that wraps, by
evaluation: the loop of `_ParseTextObject` that has counted `2 ^ 32 - 1` lines
reports the next one as line 0. -/
theorem line_number_wraps :
    lines_bad_after (2 ^ 32 - 3) = lines_items (2 ^ 32 - 3) ++ [([120], [10])]
    ∧ (lines_items (2 ^ 32 - 3)).length = 2 ^ 32 - 1
    ∧ (lines_bad_after (2 ^ 32 - 3)).length = 2 ^ 32
    ∧ (∃ o, ParseObject Impl.sample (join_lines (lines_items (2 ^ 32 - 3))) (10 * 1024) = .ok o)
    ∧ ParseObject Impl.sample (join_lines (lines_bad_after (2 ^ 32 - 3))) (10 * 1024)
        = .error (.ParserException "Expected item key start at line 0")
    ∧ ParseObject Impl.sample (join_lines (lines_bad_after (2 ^ 32 - 3))) (10 * 1024)
        ≠ .error (at_line "Expected item key start at line " (2 ^ 32))
    ∧ _ParseTextObject.loop Impl.sample 2 ⟨[120, 10], false⟩ (2 ^ 32 - 1) [] false []
        = .error (.ParserException "Expected item key start at line 0") := by
  have hb := bad_after_items (2 ^ 32 - 3) (10 * 1024)
  have e : (2 ^ 32 - 3 + 3) % 2 ^ 32 = 0 := by norm_num
  rw [e] at hb
  refine ⟨lines_bad_after_eq _, ?_, ?_, ⟨_, items_parse _ _⟩, hb, ?_, by rfl⟩
  · rw [length_lines_items]
    norm_num
  · rw [length_lines_bad_after]
    norm_num
  · rw [hb]
    intro h
    cases h

/-- C23, amended: a `ParserException` of the text parser ends with the 1-based number
of the line on which it was detected, reduced modulo `2 ^ 32`. The stream is cut
into the lines `ps` that `getline` reads, each ended by `\n`, `\r` or `\r\n` and counted once across all
nesting levels. When `ParseObject` throws on a text document, the text of the
exception is one of the texts of the text parser, all of which end in `at line `,
followed by a number `k` such that the first `k` lines alone give the same
exception and fewer lines give none: line `k` is the first malformed one. The
counter is a `uint32_t`, so the number printed is `k` modulo `2 ^ 32`, which is `k`
for the first `2 ^ 32 - 1` lines of a document. -/
theorem text_error_reports_line (I : Impl) (input : Bytes) (chunk_size : Nat) (m : Msg)
    (h4 : 4 ≤ input.length) (hmagic : input.take 4 ≠ BinaryVDFMagic)
    (h0 : input.getD 0 0 ≠ 0)
    (h : ParseObject I input chunk_size = .error (.ParserException m)) :
    ∃ ps tail, input = join_lines ps ++ tail ∧ lines_wf ps tail = true
      ∧ ∃ what k, what ∈ what_text_errors ∧ 1 ≤ k ∧ k ≤ ps.length
        ∧ m = what ++ toString (k % 2 ^ 32) ∧ (k < 2 ^ 32 → m = what ++ toString k)
        ∧ ParseObject.text I ((join_lines (ps.take k)).length + 1)
            ⟨join_lines (ps.take k), false⟩ 0 [] (ValveDataObject.new I)
          = .error (.ParserException m)
        ∧ ∀ j, j < k → ∃ o, ParseObject.text I ((join_lines (ps.take j)).length + 1)
            ⟨join_lines (ps.take j), false⟩ 0 [] (ValveDataObject.new I) = .ok o := by
  obtain ⟨ps, tail, rfl, hwf⟩ := exists_lines input.length input (le_refl _)
  unfold ParseObject at h
  rw [if_neg (by omega), if_neg hmagic, if_neg h0] at h
  obtain ⟨what, k, hw, hk1, hk2, hm, ht, hj⟩ := text_lines_from_start I ps tail m hwf h
  exact ⟨ps, tail, rfl, hwf, what, k, hw, hk1, hk2, hm,
    fun hk => by rw [Nat.mod_eq_of_lt hk] at hm; exact hm, ht, hj⟩

theorem text_error_reports_line_witness :
    (4 ≤ doc_bad_line_7.length ∧ doc_bad_line_7.take 4 ≠ BinaryVDFMagic
      ∧ doc_bad_line_7.getD 0 0 ≠ 0
      ∧ ParseObject Impl.sample doc_bad_line_7 10240
        = .error (.ParserException "Expected item key start at line 7"))
    ∧ ∃ ps tail, doc_bad_line_7 = join_lines ps ++ tail ∧ lines_wf ps tail = true
      ∧ ∃ what k, what ∈ what_text_errors ∧ 1 ≤ k ∧ k ≤ ps.length
        ∧ "Expected item key start at line 7" = what ++ toString (k % 2 ^ 32)
        ∧ (k < 2 ^ 32 → "Expected item key start at line 7" = what ++ toString k)
        ∧ ParseObject.text Impl.sample ((join_lines (ps.take k)).length + 1)
            ⟨join_lines (ps.take k), false⟩ 0 [] (ValveDataObject.new Impl.sample)
          = .error (.ParserException "Expected item key start at line 7")
        ∧ ∀ j, j < k → ∃ o, ParseObject.text Impl.sample ((join_lines (ps.take j)).length + 1)
            ⟨join_lines (ps.take j), false⟩ 0 [] (ValveDataObject.new Impl.sample) = .ok o :=
  ⟨⟨by decide, by decide, by decide, by rfl⟩,
    text_error_reports_line Impl.sample doc_bad_line_7 10240 _ (by decide) (by decide)
      (by decide) (by rfl)⟩

/-! ## Streams shorter than four bytes -/

/-- C34: on a stream shorter than 4 bytes `ParseObject` throws `ParserException`
`Failed to read stream.`, whatever the bytes, the implementation and the chunk
size are: the read of the four sniffed bytes fails before anything else is
looked at. -/
theorem short_stream_is_refused (I : Impl) (input : Bytes) (chunk_size : Nat)
    (h : input.length < 4) :
    ParseObject I input chunk_size = .error (.ParserException "Failed to read stream.") := by
  rw [ParseObject, if_pos h]

/-- Witness of C34: the legacy binary encoding of an empty `Object` with an empty
name is the three bytes `00 00 08`, and `ParseObject` refuses them. -/
theorem short_stream_is_refused_witness :
    SerializeAsBinary (ValveDataObject.new_object Impl.sample []) 0 = .ok [0, 0, 8]
      ∧ ([0, 0, 8] : Bytes).length < 4
      ∧ ParseObject Impl.sample [0, 0, 8] (10 * 1024)
        = .error (.ParserException "Failed to read stream.") :=
  ⟨by rfl, by decide, short_stream_is_refused Impl.sample [0, 0, 8] (10 * 1024) (by decide)⟩

/-! ## Fixed-width accumulation -/

theorem ReadBinaryBytes_min (win buffer : Bytes) (max_size : Nat)
    (h : buffer.length ≤ max_size) :
    Details.ReadBinaryBytes win buffer max_size
      = .ok (win.drop (min win.length (max_size - buffer.length)),
          buffer ++ win.take (min win.length (max_size - buffer.length))) := by
  rw [Details.ReadBinaryBytes, if_neg (by omega)]
  by_cases c : win.length < max_size - buffer.length
  · simp only [c, if_true, Nat.min_eq_left (le_of_lt c)]
  · simp only [c, if_false, Nat.min_eq_right (not_lt.1 c)]

/-- C39: with an accumulator of length `l ≤ max_size` and a window of `n` bytes,
`ReadBinaryBytes` appends the first `min n (max_size - l)` bytes of the window and
moves the cursor by as many, so that the accumulator has `min (l + n) max_size`
bytes, never more than `max_size`; and the window given in two pieces to two
calls in a row leaves the accumulator and the total advance of the cursor of the
one call on the whole window. -/
theorem fixed_width_accumulation (win buffer : Bytes) (max_size : Nat)
    (h : buffer.length ≤ max_size) :
    Details.ReadBinaryBytes win buffer max_size
        = .ok (win.drop (min win.length (max_size - buffer.length)),
            buffer ++ win.take (min win.length (max_size - buffer.length)))
      ∧ (buffer ++ win.take (min win.length (max_size - buffer.length))).length
          = min (buffer.length + win.length) max_size
      ∧ (buffer ++ win.take (min win.length (max_size - buffer.length))).length ≤ max_size
      ∧ ∀ w1 w2, win = w1 ++ w2 →
        ∃ r1 b1 r2, Details.ReadBinaryBytes w1 buffer max_size = .ok (r1, b1)
          ∧ Details.ReadBinaryBytes w2 b1 max_size
            = .ok (r2, buffer ++ win.take (min win.length (max_size - buffer.length)))
          ∧ (w1.length - r1.length) + (w2.length - r2.length)
            = min win.length (max_size - buffer.length) := by
  refine ⟨ReadBinaryBytes_min win buffer max_size h, ?_, ?_, ?_⟩
  · simp only [List.length_append, List.length_take]
    omega
  · simp only [List.length_append, List.length_take]
    omega
  · intro w1 w2 hw
    subst hw
    have hb1 : (buffer ++ w1.take (min w1.length (max_size - buffer.length))).length
        ≤ max_size := by
      simp only [List.length_append, List.length_take]
      omega
    refine ⟨_, _, w2.drop (min w2.length (max_size
        - (buffer ++ w1.take (min w1.length (max_size - buffer.length))).length)),
      ReadBinaryBytes_min w1 buffer max_size h, ?_, ?_⟩
    · rw [ReadBinaryBytes_min w2 _ max_size hb1]
      simp only [List.length_append, List.length_take, List.append_assoc]
      by_cases c : w1.length ≤ max_size - buffer.length
      · have e1 : min w1.length (max_size - buffer.length) = w1.length := Nat.min_eq_left c
        rw [e1, Nat.min_self, List.take_length, List.take_append_eq_append_take]
        have e2 : min (w1.length + w2.length) (max_size - buffer.length) - w1.length
            = min w2.length (max_size - (buffer.length + w1.length)) := by omega
        have e3 : w1.take (min (w1.length + w2.length) (max_size - buffer.length)) = w1 :=
          List.take_of_length_le (by omega)
        rw [e2, e3]
      · have e1 : min w1.length (max_size - buffer.length) = max_size - buffer.length :=
          Nat.min_eq_right (by omega)
        have e2 : min (w1.length + w2.length) (max_size - buffer.length)
            = max_size - buffer.length := Nat.min_eq_right (by omega)
        have e4 : min (max_size - buffer.length) w1.length = max_size - buffer.length :=
          Nat.min_eq_left (by omega)
        have e3 : max_size - (buffer.length + (max_size - buffer.length)) = 0 := by omega
        rw [e1, e2, e4, e3, List.take_append_of_le_length (by omega)]
        simp
    · simp only [List.length_drop, List.length_append, List.length_take]
      omega

/-- Witness of C39: the four bytes of an `Int32` given as `78 56` and then `34 12`,
and the bytes of a window that holds more than the value. -/
theorem fixed_width_accumulation_witness :
    Details.ReadBinaryBytes [0x78, 0x56] [] 4 = .ok ([], [0x78, 0x56])
      ∧ Details.ReadBinaryBytes [0x34, 0x12, 0x08] [0x78, 0x56] 4
        = .ok ([0x08], [0x78, 0x56, 0x34, 0x12])
      ∧ Details.ReadBinaryBytes [0x78, 0x56, 0x34, 0x12, 0x08] [] 4
        = .ok ([0x08], [0x78, 0x56, 0x34, 0x12])
      ∧ ([0x78, 0x56] : Bytes).length ≤ 4
      ∧ Details.ReadBinaryBytes [0x34, 0x12, 0x08] [0x78, 0x56] 4
        = .ok (([0x34, 0x12, 0x08] : Bytes).drop
              (min ([0x34, 0x12, 0x08] : Bytes).length (4 - ([0x78, 0x56] : Bytes).length)),
            [0x78, 0x56] ++ ([0x34, 0x12, 0x08] : Bytes).take
              (min ([0x34, 0x12, 0x08] : Bytes).length (4 - ([0x78, 0x56] : Bytes).length))) :=
  ⟨by rfl, by rfl, by rfl, by decide,
    (fixed_width_accumulation [0x34, 0x12, 0x08] [0x78, 0x56] 4 (by decide)).1⟩

/-! ## A string read in two windows -/

/-- A NUL-free ASCII string read by `ParseBinaryString` in two windows, `s1` and
then `s2` and the NUL, comes back without the last byte of `s1`. -/
theorem ParseBinaryString_resumed (I : Impl) (s1 s2 str : Bytes)
    (h1 : ascii_no_nul s1 = true) (h2 : ascii_no_nul s2 = true) (hne : s1 ≠ []) :
    Details.ParseBinaryString I s1 str = .ok (-1, [], str ++ s1.dropLast)
      ∧ Details.ParseBinaryString I (s2 ++ [0]) (str ++ s1.dropLast)
        = .ok (0, [], str ++ s1.dropLast ++ s2)
      ∧ Details.ParseBinaryString I (s1 ++ s2 ++ [0]) str = .ok (0, [], str ++ (s1 ++ s2)) := by
  refine ⟨ParseBinaryString_unterminated I s1 str h1 hne,
    ParseBinaryString_ascii I s2 [] _ h2, ?_⟩
  have h12 : ascii_no_nul (s1 ++ s2) = true := by
    simp only [ascii_no_nul, List.all_append, Bool.and_eq_true] at h1 h2 ⊢
    exact ⟨h1, h2⟩
  exact ParseBinaryString_ascii I (s1 ++ s2) [] str h12

/-- C31, evaluation: the string `Val` read in the two windows `Va` and `l NUL`.  The
first call returns -1 and leaves the accumulator `V`, the second returns 0 and
leaves `Vl`, where one call on `Val NUL` leaves `Val`; so it is for the split
into `V` and `al NUL` (the accumulator ends as `al`) and for every
implementation. -/
theorem resumed_string_loses_a_byte (I : Impl) :
    Details.ParseBinaryString I [86, 97] [] = .ok (-1, [], [86])
      ∧ Details.ParseBinaryString I [108, 0] [86] = .ok (0, [], [86, 108])
      ∧ Details.ParseBinaryString I [86, 97, 108, 0] [] = .ok (0, [], [86, 97, 108])
      ∧ Details.ParseBinaryString I [86] [] = .ok (-1, [], [])
      ∧ Details.ParseBinaryString I [97, 108, 0] [] = .ok (0, [], [97, 108]) := by
  obtain ⟨a1, a2, a3⟩ := ParseBinaryString_resumed I [86, 97] [108] [] (by decide) (by decide)
    (by simp)
  obtain ⟨b1, b2, -⟩ := ParseBinaryString_resumed I [86] [97, 108] [] (by decide) (by decide)
    (by simp)
  exact ⟨a1, a2, a3, b1, b2⟩

/-! ## Copy assignment -/

theorem copy_items_ok (cs : List ValveDataObject) (h : ∀ x ∈ cs, x.copy = .ok x) :
    ValveDataObject.copy.items cs = .ok cs := by
  induction cs with
  | nil => rfl
  | cons x cs ih =>
    rw [ValveDataObject.copy.items, h x (List.mem_cons_self _ _)]
    simp only []
    rw [ih (fun y hy => h y (List.mem_cons_of_mem _ hy))]

/-- The copy constructor succeeds on a node whose union members are the ones the
types name, and the copy is equal to the original. -/
theorem copy_ok_of_coherent (t : ValveDataObject) : t.coherent = true → t.copy = .ok t := by
  induction t using ValveDataObject.induction_on with
  | step name hash u ty IH =>
    intro hv
    cases ty <;> cases u <;>
      simp only [ValveDataObject.coherent, Bool.false_eq_true] at hv <;>
      simp only [ValveDataObject.copy]
    case step.Object._Collection cs =>
      rw [copy_items_ok cs (fun x hx => IH cs rfl x hx (coherent_items_mem cs hv x hx))]

/-- C36: copy assignment `a = b` gives `a` the type and the payload of `b` (the
temporary copy of `b` is equal to `b`, children included) and leaves the name
and the name hash of `a` as they were; `b` is a `const&` and is not written. The
temporary ends with the name and hash of `b` and the old type and payload of
`a`, and is destroyed. -/
theorem copy_assignment_keeps_name (a b : ValveDataObject) (hb : b.coherent = true) :
    a.assign_copy b = .ok (.mk a._Name a._NameHash b._U b._Type)
      ∧ b.copy = .ok b
      ∧ (a.assign_move b).2 = .mk b._Name b._NameHash a._U a._Type
      ∧ ∀ r, a.assign_copy b = .ok r →
        r._Type = b._Type ∧ r._U = b._U ∧ r._Name = a._Name ∧ r._NameHash = a._NameHash := by
  have hc := copy_ok_of_coherent b hb
  have h1 : a.assign_copy b = .ok (.mk a._Name a._NameHash b._U b._Type) := by
    rw [ValveDataObject.assign_copy, hc]
    rfl
  refine ⟨h1, hc, rfl, ?_⟩
  intro r hr
  rw [h1] at hr
  injection hr with hr
  subst hr
  exact ⟨rfl, rfl, rfl, rfl⟩

/-- Witness of C36: the string `k = v` assigned to the object `r` that holds an
`Int32`: `r` keeps its name and becomes the string `v`. -/
theorem copy_assignment_keeps_name_witness :
    (ValveDataObject.new_string Impl.sample [107] [118]).coherent = true
      ∧ (ValveDataObject.mk [114] (Impl.sample.hash [114])
            (._Collection [ValveDataObject.new_int32 Impl.sample [105] 5]) .Object).assign_copy
          (ValveDataObject.new_string Impl.sample [107] [118])
        = .ok (.mk [114] (Impl.sample.hash [114]) (._String [118]) .String) :=
  ⟨by rfl, (copy_assignment_keeps_name
    (ValveDataObject.mk [114] (Impl.sample.hash [114])
      (._Collection [ValveDataObject.new_int32 Impl.sample [105] 5]) .Object)
    (ValveDataObject.new_string Impl.sample [107] [118]) (by rfl)).1⟩

/-! ## A child of type `None` in the text form -/

/-- C37: for a node of type `None` the text serializer writes the indentation and
the quoted name and nothing else, neither a value nor a line break. In the loop
over the children of an object the text of the next sibling follows at once, and
after the last child the indentation and the `}` of the object; when the name
holds no `\n` the bytes written for the child hold none, so that what follows
stands on the same line. -/
theorem none_child_written_without_value (I : Impl) (name : Bytes) (hash : Nat)
    (u : Payload ValveDataObject) (depth : Nat) :
    _SerializeAsText I (.mk name hash u .None) depth = .ok (indent depth ++ [34] ++ name ++ [34])
      ∧ (∀ rest b2, _SerializeAsText.items I rest depth = .ok b2 →
          _SerializeAsText.items I (.mk name hash u .None :: rest) depth
            = .ok (indent depth ++ [34] ++ name ++ [34] ++ b2))
      ∧ (∀ oname ohash, _SerializeAsText I
            (.mk oname ohash (._Collection [.mk name hash u .None]) .Object) depth
          = .ok (indent depth ++ [34] ++ oname ++ [34] ++ [10] ++ indent depth ++ [123, 10]
              ++ (indent (depth + 1) ++ [34] ++ name ++ [34]) ++ indent depth ++ [125, 10]))
      ∧ (10 ∉ name → 10 ∉ indent depth ++ [34] ++ name ++ [34]) := by
  have h1 : _SerializeAsText I (.mk name hash u .None) depth
      = .ok (indent depth ++ [34] ++ name ++ [34]) := by
    simp only [_SerializeAsText]
  refine ⟨h1, ?_, ?_, ?_⟩
  · intro rest b2 hr
    rw [_SerializeAsText.items, h1, hr]
  · intro oname ohash
    have h2 : _SerializeAsText I (.mk name hash u .None) (depth + 1)
        = .ok (indent (depth + 1) ++ [34] ++ name ++ [34]) := by
      simp only [_SerializeAsText]
    simp only [_SerializeAsText, _SerializeAsText.items, List.append_nil]
  · intro hn
    simp only [indent, List.mem_append, List.mem_replicate, List.mem_singleton, not_or]
    refine ⟨⟨⟨?_, by decide⟩, hn⟩, by decide⟩
    rintro ⟨-, h⟩
    exact absurd h (by decide)

/-- Witness of C37: the object `r` with the children `a` of type `None` and
`k = v` is written as the lines `"r"`, `{`, `<tab>"a"<tab>"k"<tab><tab>"v"`, `}`. -/
theorem none_child_written_without_value_witness :
    (10 ∉ ([97] : Bytes) → 10 ∉ indent 1 ++ [34] ++ [97] ++ [34])
      ∧ SerializeAsText Impl.sample
          (.mk [114] (Impl.sample.hash [114])
            (._Collection [.mk [97] (Impl.sample.hash [97]) .uninit .None,
              ValveDataObject.new_string Impl.sample [107] [118]]) .Object)
        = .ok (ascii "\"r\"\n\x7b\n\t\"a\"\t\"k\"\t\t\"v\"\n\x7d\n") :=
  ⟨(none_child_written_without_value Impl.sample [97] (Impl.sample.hash [97]) .uninit 1).2.2.2,
    by rfl⟩

/-! ## The restricted round trips -/

/-- C32: for a tree with an `Object` root whose nodes are objects, strings and
scalars of the eight kinds (in the state the public interface builds) and whose
names and string values are ASCII without NUL, and for the versions 0 and 2,
`SerializeAsBinary` succeeds, and when its output has at least four bytes and is
read in one chunk `ParseObject` returns the tree itself. The output of version 2
always has at least four bytes. -/
theorem restricted_binary_round_trip (I : Impl) (t : ValveDataObject) (version : Int)
    (chunk_size : Nat) (hver : version = 0 ∨ version = 2) (hT : t._Type = .Object)
    (hv : t.valid I = true) (hs : t.all_strings ascii_no_nul = true) :
    ∃ bytes, SerializeAsBinary t version = .ok bytes
      ∧ (4 ≤ bytes.length → bytes.length ≤ chunk_size →
          ParseObject I bytes chunk_size = .ok t)
      ∧ (version = 2 → 4 ≤ bytes.length) := by
  rcases hver with rfl | rfl
  · obtain ⟨doc, hdoc⟩ := SerializeAsBinary_ok_of_valid I .ObjectEnd t hv
    refine ⟨doc, ?_, ?_, ?_⟩
    · simp [SerializeAsBinary, hT, hdoc]
    · intro h4 hc
      obtain ⟨w, rfl⟩ := SerializeAsBinary_object_head _ t doc hT hdoc
      have hp := ParseObject_binary_of_serialized I .ObjectEnd chunk_size (Or.inl rfl) t _ hT hv
        hs hdoc hc
      have hm : ¬ ((0 :: w).take 4 = BinaryVDFMagic) := by
        simp [BinaryVDFMagic, List.take_succ_cons]
      simp only [ParseObject, not_lt.2 h4, if_false, hm, List.getD_cons_zero, if_true, hp]
    · intro h; exact absurd h (by decide)
  · obtain ⟨doc, hdoc⟩ := SerializeAsBinary_ok_of_valid I .AlternativeEnd t hv
    refine ⟨BinaryVDFMagic ++ [0, 0, 0, 0] ++ doc, ?_, ?_, ?_⟩
    · simp [SerializeAsBinary, hT, hdoc, le_encode]
    · intro h4 hc
      have hp := ParseObject_binary_of_serialized I .AlternativeEnd chunk_size (Or.inr rfl) t _
        hT hv hs hdoc (by simp only [List.length_append] at hc; omega)
      have hm : (BinaryVDFMagic ++ [0, 0, 0, 0] ++ doc).take 4 = BinaryVDFMagic := by
        simp [BinaryVDFMagic]
      have hd : (BinaryVDFMagic ++ [0, 0, 0, 0] ++ doc).drop 8 = doc := by
        simp [BinaryVDFMagic]
      simp only [ParseObject, not_lt.2 h4, if_false, hm, if_true, hd, hp]
    · intro _
      simp [BinaryVDFMagic]

/-- Witness of C32: the tree of the binary test in the legacy form and in the
headered form, each read in one chunk of 10 KiB. -/
theorem restricted_binary_round_trip_witness :
    (∃ bytes, SerializeAsBinary (sample_tree Impl.sample) 0 = .ok bytes
      ∧ (4 ≤ bytes.length → bytes.length ≤ 10 * 1024 →
          ParseObject Impl.sample bytes (10 * 1024) = .ok (sample_tree Impl.sample))
      ∧ ((0 : Int) = 2 → 4 ≤ bytes.length))
    ∧ (∃ bytes, SerializeAsBinary (sample_tree Impl.sample) 2 = .ok bytes
      ∧ (4 ≤ bytes.length → bytes.length ≤ 10 * 1024 →
          ParseObject Impl.sample bytes (10 * 1024) = .ok (sample_tree Impl.sample))
      ∧ ((2 : Int) = 2 → 4 ≤ bytes.length)) :=
  ⟨restricted_binary_round_trip Impl.sample (sample_tree Impl.sample) 0 (10 * 1024)
      (Or.inl rfl) rfl (by rfl) (by rfl),
    restricted_binary_round_trip Impl.sample (sample_tree Impl.sample) 2 (10 * 1024)
      (Or.inr rfl) rfl (by rfl) (by rfl)⟩

/-- A tree of objects and strings with every hash in sync and every name and
string `text_safe` is a tree as the text parser builds them. -/
theorem text_tree_of_safe (I : Impl) (t : ValveDataObject) :
    t.objects_and_strings = true → t.hash_in_sync I = true →
      t.all_strings text_safe = true → t.text_tree I = true := by
  induction t using ValveDataObject.induction_on with
  | step name hash u ty IH =>
    have hitems : ∀ cs : List ValveDataObject,
        (∀ x ∈ cs, x.objects_and_strings = true → x.hash_in_sync I = true →
          x.all_strings text_safe = true → x.text_tree I = true) →
        ValveDataObject.objects_and_strings.items cs = true →
        ValveDataObject.hash_in_sync.items I cs = true →
        ValveDataObject.all_strings.items text_safe cs = true →
          ValveDataObject.text_tree.items I cs = true := by
      intro cs
      induction cs with
      | nil => intro _ _ _ _; rfl
      | cons x cs ih =>
        intro hx hk hh hs
        simp only [ValveDataObject.objects_and_strings.items, ValveDataObject.hash_in_sync.items,
          ValveDataObject.all_strings.items, ValveDataObject.text_tree.items,
          Bool.and_eq_true] at hk hh hs ⊢
        exact ⟨hx x (List.mem_cons_self _ _) hk.1 hh.1 hs.1,
          ih (fun y hy => hx y (List.mem_cons_of_mem _ hy)) hk.2 hh.2 hs.2⟩
    intro hk hh hs
    cases ty <;> cases u <;>
      simp only [ValveDataObject.objects_and_strings, Bool.false_eq_true] at hk
    case step.Object._Collection cs =>
      simp only [ValveDataObject.hash_in_sync, ValveDataObject.all_strings,
        ValveDataObject.text_tree, Bool.and_eq_true, decide_eq_true_eq] at hh hs ⊢
      exact ⟨⟨hh.1, reparsable_of_text_safe _ hs.1⟩, hitems cs (IH cs rfl) hk hh.2 hs.2⟩
    case step.String._String s =>
      simp only [ValveDataObject.hash_in_sync, ValveDataObject.all_strings,
        ValveDataObject.text_tree, Bool.and_eq_true, decide_eq_true_eq] at hh hs ⊢
      exact ⟨⟨hh.1, reparsable_of_text_safe _ hs.1⟩, reparsable_of_text_safe _ hs.2⟩

/-- C33: for a tree with an `Object` root of non-empty name whose nodes are objects
and strings only (in the state the public interface builds: every stored hash is
the hash of the name) and whose names and string values are ASCII without quote,
backslash, CR and LF, `SerializeAsText` succeeds and `ParseObject` of its output
returns the tree itself, for every chunk size. -/
theorem restricted_text_round_trip (I : Impl) (t : ValveDataObject) (chunk_size : Nat)
    (hT : t._Type = .Object) (hne : t._Name ≠ []) (hk : t.objects_and_strings = true)
    (hh : t.hash_in_sync I = true) (hs : t.all_strings text_safe = true) :
    ∃ bytes, SerializeAsText I t = .ok bytes ∧ ParseObject I bytes chunk_size = .ok t :=
  text_tree_round_trip I t chunk_size (text_tree_of_safe I t hk hh hs) hT hne

/-- Witness of C33: the object `r` with the string `k = v` and the object `o`, which
holds the string `a = b` and an empty name for its second string. -/
theorem restricted_text_round_trip_witness :
    ∃ bytes,
      SerializeAsText Impl.sample
          (.mk (ascii "r") (Impl.sample.hash (ascii "r"))
            (._Collection [ValveDataObject.new_string Impl.sample (ascii "k") (ascii "v"),
              .mk (ascii "o") (Impl.sample.hash (ascii "o"))
                (._Collection [ValveDataObject.new_string Impl.sample (ascii "a") (ascii "b"),
                  ValveDataObject.new_string Impl.sample [] []]) .Object]) .Object)
        = .ok bytes
      ∧ ParseObject Impl.sample bytes (10 * 1024)
        = .ok (.mk (ascii "r") (Impl.sample.hash (ascii "r"))
            (._Collection [ValveDataObject.new_string Impl.sample (ascii "k") (ascii "v"),
              .mk (ascii "o") (Impl.sample.hash (ascii "o"))
                (._Collection [ValveDataObject.new_string Impl.sample (ascii "a") (ascii "b"),
                  ValveDataObject.new_string Impl.sample [] []]) .Object]) .Object) :=
  restricted_text_round_trip Impl.sample _ (10 * 1024) rfl (by decide) (by rfl) (by rfl)
    (by rfl)

/-! ## The bytes after the last line ending -/

theorem lines_wf_tail (ps : List (Bytes × Bytes)) (tail : Bytes) (h : lines_wf ps tail = true) :
    lines_wf [] tail = true := by
  induction ps with
  | nil => exact h
  | cons p ps ih =>
    obtain ⟨l, eol⟩ := p
    exact ih ((lines_wf_cons l eol ps tail).1 h).2.2.2

theorem head_join_lines_append (ps : List (Bytes × Bytes)) (t1 t2 : Bytes)
    (h : lines_wf ps t1 = true) (hne : ps ≠ []) :
    (join_lines ps ++ t2).head? = (join_lines ps ++ t1).head? := by
  cases ps with
  | nil => exact absurd rfl hne
  | cons p ps =>
    obtain ⟨l, eol⟩ := p
    obtain ⟨-, heol, -, -⟩ := (lines_wf_cons l eol ps t1).1 h
    obtain ⟨⟨a, x, hax, -⟩, -⟩ := eol_bytes eol heol
    subst hax
    simp only [join_lines, List.append_assoc]
    cases l with
    | nil => simp
    | cons b l => simp

/-- The lines of a document stay its lines when the bytes after the last line
ending are replaced by other bytes without CR and LF. -/
theorem lines_wf_retail (ps : List (Bytes × Bytes)) (t1 t2 : Bytes)
    (h : lines_wf ps t1 = true) (h2 : lines_wf [] t2 = true) : lines_wf ps t2 = true := by
  induction ps with
  | nil => exact h2
  | cons p ps ih =>
    obtain ⟨l, eol⟩ := p
    obtain ⟨hl, heol, hcr, hwf⟩ := (lines_wf_cons l eol ps t1).1 h
    refine (lines_wf_cons l eol ps t2).2 ⟨hl, heol, ?_, ih hwf⟩
    intro he
    cases ps with
    | nil =>
      simp only [join_lines, List.nil_append]
      simp only [lines_wf, List.all_eq_true, decide_eq_true_eq] at h2
      cases t2 with
      | nil => simp
      | cons b t2 =>
        simp only [List.head?_cons, ne_eq, Option.some.injEq]
        exact (h2 b (List.mem_cons_self _ _)).1
    | cons q ps =>
      rw [head_join_lines_append (q :: ps) t1 t2 hwf (by simp)]
      exact hcr he

/-- The loop of `_ParseTextObject` does not depend on the bytes after the last
line ending: two documents with the same lines give the same exception, stop at
the same `}` with the same collection, or both reach the end of the stream with
the same collection. -/
theorem text_loop_tail_independent (I : Impl) (n : Nat) :
    ∀ (ps : List (Bytes × Bytes)) (t1 t2 : Bytes) (f1 f2 ln : Nat) (c : ValveCollection)
      (io : Bool) (nm : Bytes), ps.length ≤ n → lines_wf ps t1 = true →
      lines_wf ps t2 = true → 2 * ps.length + 1 ≤ f1 → 2 * ps.length + 1 ≤ f2 →
      (∃ x, _ParseTextObject.loop I f1 ⟨join_lines ps ++ t1, false⟩ ln c io nm = .error x
          ∧ _ParseTextObject.loop I f2 ⟨join_lines ps ++ t2, false⟩ ln c io nm = .error x)
      ∨ (∃ a j ln2, _ParseTextObject.loop I f1 ⟨join_lines ps ++ t1, false⟩ ln c io nm
            = .ok (a, ⟨join_lines (ps.drop j) ++ t1, false⟩, ln2)
          ∧ _ParseTextObject.loop I f2 ⟨join_lines ps ++ t2, false⟩ ln c io nm
            = .ok (a, ⟨join_lines (ps.drop j) ++ t2, false⟩, ln2))
      ∨ (∃ a ln2, _ParseTextObject.loop I f1 ⟨join_lines ps ++ t1, false⟩ ln c io nm
            = .ok (a, ⟨[], true⟩, ln2)
          ∧ _ParseTextObject.loop I f2 ⟨join_lines ps ++ t2, false⟩ ln c io nm
            = .ok (a, ⟨[], true⟩, ln2)) := by
  have hnil : ∀ (t1 t2 : Bytes) (f1 f2 ln : Nat) (c : ValveCollection) (io : Bool)
      (nm : Bytes), lines_wf [] t1 = true → lines_wf [] t2 = true → 1 ≤ f1 → 1 ≤ f2 →
      ∃ a ln2, _ParseTextObject.loop I f1 ⟨join_lines [] ++ t1, false⟩ ln c io nm
            = .ok (a, ⟨[], true⟩, ln2)
          ∧ _ParseTextObject.loop I f2 ⟨join_lines [] ++ t2, false⟩ ln c io nm
            = .ok (a, ⟨[], true⟩, ln2) := by
    intro t1 t2 f1 f2 ln c io nm h1 h2 hf1 hf2
    obtain ⟨g1, rfl⟩ : ∃ g, f1 = g + 1 := ⟨f1 - 1, by omega⟩
    obtain ⟨g2, rfl⟩ : ∃ g, f2 = g + 1 := ⟨f2 - 1, by omega⟩
    exact ⟨c, ln, text_loop_tail I g1 t1 ln c io nm h1, text_loop_tail I g2 t2 ln c io nm h2⟩
  induction n with
  | zero =>
    intro ps t1 t2 f1 f2 ln c io nm hn h1 h2 hf1 hf2
    have hps : ps = [] := List.length_eq_zero.1 (by omega)
    subst hps
    exact Or.inr (Or.inr (hnil t1 t2 f1 f2 ln c io nm h1 h2 (by omega) (by omega)))
  | succ n ih =>
    intro ps t1 t2 f1 f2 ln c io nm hn h1 h2 hf1 hf2
    cases ps with
    | nil => exact Or.inr (Or.inr (hnil t1 t2 f1 f2 ln c io nm h1 h2 (by omega) (by omega)))
    | cons p ps =>
      obtain ⟨l, eol⟩ := p
      simp only [List.length_cons] at hn hf1 hf2
      obtain ⟨g1, rfl⟩ : ∃ g, f1 = g + 1 := ⟨f1 - 1, by omega⟩
      obtain ⟨g2, rfl⟩ : ∃ g, f2 = g + 1 := ⟨f2 - 1, by omega⟩
      have k1 : lines_wf ps t1 = true := ((lines_wf_cons l eol ps t1).1 h1).2.2.2
      have k2 : lines_wf ps t2 = true := ((lines_wf_cons l eol ps t2).1 h2).2.2.2
      have e1 := text_loop_step I g1 l eol ps t1 ln c io nm h1
      have e2 := text_loop_step I g2 l eol ps t2 ln c io nm h2
      generalize _ParseTextObject.line I (l ++ eol) ((ln + 1) % 2 ^ 32) c io nm _ _ = A
        at e1 e2
      cases A with
      | throw x =>
        simp only [] at e1 e2
        exact Or.inl ⟨x, e1, e2⟩
      | stop =>
        simp only [] at e1 e2
        exact Or.inr (Or.inl ⟨c, 1, _, e1, e2⟩)
      | next c2 io2 nm2 =>
        simp only [] at e1 e2
        rcases ih ps t1 t2 g1 g2 ((ln + 1) % 2 ^ 32) c2 io2 nm2 (by omega) k1 k2 (by omega)
            (by omega) with ⟨x, r1, r2⟩ | ⟨a, j, ln2, r1, r2⟩ | ⟨a, ln2, r1, r2⟩
        · exact Or.inl ⟨x, e1.trans r1, e2.trans r2⟩
        · exact Or.inr (Or.inl ⟨a, j + 1, ln2, e1.trans r1, e2.trans r2⟩)
        · exact Or.inr (Or.inr ⟨a, ln2, e1.trans r1, e2.trans r2⟩)
      | descend nm2 =>
        simp only [] at e1 e2
        obtain ⟨d1, rfl⟩ : ∃ d, g1 = d + 1 := ⟨g1 - 1, by omega⟩
        obtain ⟨d2, rfl⟩ : ∃ d, g2 = d + 1 := ⟨g2 - 1, by omega⟩
        rcases ih ps t1 t2 d1 d2 ((ln + 1) % 2 ^ 32) [] false [] (by omega) k1 k2 (by omega)
            (by omega) with ⟨x, r1, r2⟩ | ⟨a, j, ln2, r1, r2⟩ | ⟨a, ln2, r1, r2⟩
        · rw [ParseTextObject_error I d1 _ nm2 _ _ r1] at e1
          rw [ParseTextObject_error I d2 _ nm2 _ _ r2] at e2
          exact Or.inl ⟨x, e1, e2⟩
        · rw [ParseTextObject_ok I d1 _ nm2 _ _ _ _ r1] at e1
          rw [ParseTextObject_ok I d2 _ nm2 _ _ _ _ r2] at e2
          simp only [] at e1 e2
          have hlen : (ps.drop j).length ≤ ps.length := by
            rw [List.length_drop]; omega
          rcases ih (ps.drop j) t1 t2 (d1 + 1) (d2 + 1) ln2
              (c ++ [.mk nm2 (I.hash nm2) (._Collection a) .Object]) false [] (by omega)
              (lines_wf_drop ps t1 j k1) (lines_wf_drop ps t2 j k2) (by omega) (by omega) with
            ⟨x, s1, s2⟩ | ⟨a2, j2, ln3, s1, s2⟩ | ⟨a2, ln3, s1, s2⟩
          · exact Or.inl ⟨x, e1.trans s1, e2.trans s2⟩
          · rw [List.drop_drop] at s1 s2
            exact Or.inr (Or.inl ⟨a2, j + j2 + 1, ln3, e1.trans s1, e2.trans s2⟩)
          · exact Or.inr (Or.inr ⟨a2, ln3, e1.trans s1, e2.trans s2⟩)
        · rw [ParseTextObject_ok I d1 _ nm2 _ _ _ _ r1] at e1
          rw [ParseTextObject_ok I d2 _ nm2 _ _ _ _ r2] at e2
          simp only [] at e1 e2
          rw [text_loop_eof] at e1 e2
          exact Or.inr (Or.inr ⟨_, _, e1, e2⟩)

/-- The text branch of `ParseObject` does not depend on the bytes after the last
line ending. -/
theorem text_tail_independent (I : Impl) (n : Nat) :
    ∀ (ps : List (Bytes × Bytes)) (t1 t2 : Bytes) (f1 f2 ln : Nat) (nm : Bytes)
      (po : ValveDataObject), ps.length ≤ n → lines_wf ps t1 = true →
      lines_wf ps t2 = true → ps.length + 1 ≤ f1 → ps.length + 1 ≤ f2 →
      ParseObject.text I f1 ⟨join_lines ps ++ t1, false⟩ ln nm po
        = ParseObject.text I f2 ⟨join_lines ps ++ t2, false⟩ ln nm po := by
  have hnil : ∀ (t1 t2 : Bytes) (f1 f2 ln : Nat) (nm : Bytes) (po : ValveDataObject),
      lines_wf [] t1 = true → lines_wf [] t2 = true → 1 ≤ f1 → 1 ≤ f2 →
      ParseObject.text I f1 ⟨join_lines [] ++ t1, false⟩ ln nm po
        = ParseObject.text I f2 ⟨join_lines [] ++ t2, false⟩ ln nm po := by
    intro t1 t2 f1 f2 ln nm po h1 h2 hf1 hf2
    obtain ⟨g1, rfl⟩ : ∃ g, f1 = g + 1 := ⟨f1 - 1, by omega⟩
    obtain ⟨g2, rfl⟩ : ∃ g, f2 = g + 1 := ⟨f2 - 1, by omega⟩
    exact (text_tail I g1 t1 ln nm po h1).trans (text_tail I g2 t2 ln nm po h2).symm
  induction n with
  | zero =>
    intro ps t1 t2 f1 f2 ln nm po hn h1 h2 hf1 hf2
    have hps : ps = [] := List.length_eq_zero.1 (by omega)
    subst hps
    exact hnil t1 t2 f1 f2 ln nm po h1 h2 (by omega) (by omega)
  | succ n ih =>
    intro ps t1 t2 f1 f2 ln nm po hn h1 h2 hf1 hf2
    cases ps with
    | nil => exact hnil t1 t2 f1 f2 ln nm po h1 h2 (by omega) (by omega)
    | cons p ps =>
      obtain ⟨l, eol⟩ := p
      simp only [List.length_cons] at hn hf1 hf2
      obtain ⟨g1, rfl⟩ : ∃ g, f1 = g + 1 := ⟨f1 - 1, by omega⟩
      obtain ⟨g2, rfl⟩ : ∃ g, f2 = g + 1 := ⟨f2 - 1, by omega⟩
      have k1 : lines_wf ps t1 = true := ((lines_wf_cons l eol ps t1).1 h1).2.2.2
      have k2 : lines_wf ps t2 = true := ((lines_wf_cons l eol ps t2).1 h2).2.2.2
      have e1 := text_step I g1 l eol ps t1 ln nm po h1
      have e2 := text_step I g2 l eol ps t2 ln nm po h2
      generalize ParseObject.text_line (l ++ eol) ((ln + 1) % 2 ^ 32) nm _ _ = A at e1 e2
      cases A with
      | throw x =>
        simp only [] at e1 e2
        rw [e1, e2]
      | stop =>
        simp only [] at e1 e2
        rw [e1, e2]
      | next c2 io2 nm2 =>
        simp only [] at e1 e2
        rw [e1, e2]
        exact ih ps t1 t2 g1 g2 _ nm2 po (by omega) k1 k2 (by omega) (by omega)
      | descend nm2 =>
        simp only [] at e1 e2
        rw [e1, e2]
        have l1 := length_join_lines_ge ps t1 k1
        obtain ⟨d1, hd1⟩ : ∃ d, g1 = d + 1 := ⟨g1 - 1, by omega⟩
        obtain ⟨d2, hd2⟩ : ∃ d, g2 = d + 1 := ⟨g2 - 1, by omega⟩
        rcases text_loop_tail_independent I ps.length ps t1 t2
            (2 * (join_lines ps ++ t1).length + 1) (2 * (join_lines ps ++ t2).length + 1)
            ((ln + 1) % 2 ^ 32) [] false [] (le_refl _) k1 k2
            (by rw [List.length_append]; omega) (by rw [List.length_append]; omega) with
          ⟨x, r1, r2⟩ | ⟨a, j, ln2, r1, r2⟩ | ⟨a, ln2, r1, r2⟩
        · rw [ParseTextObject_error I _ _ nm2 _ _ r1, ParseTextObject_error I _ _ nm2 _ _ r2]
        · rw [ParseTextObject_ok I _ _ nm2 _ _ _ _ r1, ParseTextObject_ok I _ _ nm2 _ _ _ _ r2]
          simp only []
          have hlen : (ps.drop j).length ≤ ps.length := by
            rw [List.length_drop]; omega
          exact ih (ps.drop j) t1 t2 g1 g2 ln2 [] _ (by omega) (lines_wf_drop ps t1 j k1)
            (lines_wf_drop ps t2 j k2) (by omega) (by omega)
        · rw [ParseTextObject_ok I _ _ nm2 _ _ _ _ r1, ParseTextObject_ok I _ _ nm2 _ _ _ _ r2]
          simp only []
          rw [hd1, hd2, text_eof, text_eof]

/-- C35: an unterminated last line is not seen by the text parser. For a document
`d` of at least four bytes that takes the text branch of `ParseObject` and ends
with `\n` or `\r`, and for bytes `p` without CR and LF, `ParseObject` gives on
`d ++ p` the outcome it gives on `d`, node or exception: `getline` sets the
failbit on the bytes `p`, which end the stream without a line ending, and both
loops end there. -/
theorem unterminated_last_line_is_ignored (I : Impl) (d p : Bytes) (chunk_size : Nat)
    (h4 : 4 ≤ d.length) (hm : d.take 4 ≠ BinaryVDFMagic) (h0 : d.getD 0 0 ≠ 0)
    (hend : d.getLast? = some 10 ∨ d.getLast? = some 13)
    (hp : ∀ b ∈ p, b ≠ 10 ∧ b ≠ 13) :
    ParseObject I (d ++ p) chunk_size = ParseObject I d chunk_size := by
  obtain ⟨ps, tail, hd, hwf⟩ := exists_lines d.length d (le_refl _)
  have htail : tail = [] := by
    by_contra hne
    have hl : d.getLast? = tail.getLast? := by
      rw [hd, List.getLast?_append_of_ne_nil _ hne]
    have ht := lines_wf_tail ps tail hwf
    simp only [lines_wf, List.all_eq_true, decide_eq_true_eq] at ht
    rcases hend with h | h
    · rw [hl] at h
      exact (ht 10 (List.mem_of_getLast?_eq_some h)).1 rfl
    · rw [hl] at h
      exact (ht 13 (List.mem_of_getLast?_eq_some h)).2 rfl
  subst htail
  have hp2 : lines_wf [] p = true := by
    simp only [lines_wf, List.all_eq_true, decide_eq_true_eq]
    exact hp
  have hwf2 := lines_wf_retail ps [] p hwf hp2
  have hlen : 4 ≤ (d ++ p).length := by
    rw [List.length_append]; omega
  have htake : (d ++ p).take 4 = d.take 4 := List.take_append_of_le_length h4
  have hget : (d ++ p).getD 0 0 = d.getD 0 0 := by
    cases d with
    | nil => simp at h4
    | cons b d => rfl
  have hj := length_join_lines_ge ps [] hwf
  have e1 : ParseObject I (d ++ p) chunk_size
      = ParseObject.text I ((d ++ p).length + 1) ⟨d ++ p, false⟩ 0 [] (ValveDataObject.new I) := by
    rw [ParseObject, if_neg (not_lt.2 hlen), htake, if_neg hm, hget, if_neg h0]
  have e2 : ParseObject I d chunk_size
      = ParseObject.text I (d.length + 1) ⟨d, false⟩ 0 [] (ValveDataObject.new I) := by
    rw [ParseObject, if_neg (not_lt.2 h4), if_neg hm, if_neg h0]
  rw [e1, e2]
  have hdp : d ++ p = join_lines ps ++ p := by
    rw [hd, List.append_nil]
  have hl1 : ps.length + 1 ≤ (d ++ p).length + 1 := by
    rw [hdp, List.length_append]; omega
  have hl2 : ps.length + 1 ≤ d.length + 1 := by
    rw [hd, List.append_nil]; omega
  have key := text_tail_independent I ps.length ps p [] ((d ++ p).length + 1) (d.length + 1) 0
    [] (ValveDataObject.new I) (le_refl _) hwf2 hwf hl1 hl2
  rw [← hdp, ← hd] at key
  exact key

/-- Witness of C35: the document `"r"`, `{`, `"k" "v"`, `}` followed by the bytes
`"x`, and the same document without its last line followed by `}`: the closing
brace without a line ending is not read, and the root comes back all the same. -/
theorem unterminated_last_line_is_ignored_witness :
    ParseObject Impl.sample (ascii "\"r\"\n\x7b\n\"k\" \"v\"\n\x7d\n" ++ ascii "\"x") (10 * 1024)
        = ParseObject Impl.sample (ascii "\"r\"\n\x7b\n\"k\" \"v\"\n\x7d\n") (10 * 1024)
      ∧ ParseObject Impl.sample (ascii "\"r\"\n\x7b\n\"k\" \"v\"\n" ++ ascii "\x7d") (10 * 1024)
        = ParseObject Impl.sample (ascii "\"r\"\n\x7b\n\"k\" \"v\"\n") (10 * 1024)
      ∧ ParseObject Impl.sample (ascii "\"r\"\n\x7b\n\"k\" \"v\"\n") (10 * 1024)
        = .ok (.mk (ascii "r") (Impl.sample.hash (ascii "r"))
            (._Collection [ValveDataObject.new_string Impl.sample (ascii "k") (ascii "v")])
            .Object) :=
  ⟨unterminated_last_line_is_ignored Impl.sample _ _ (10 * 1024) (by decide) (by decide)
      (by decide) (by decide) (by decide),
    unterminated_last_line_is_ignored Impl.sample _ _ (10 * 1024) (by decide) (by decide)
      (by decide) (by decide) (by decide),
    by rfl⟩

/-! ## Termination of the binary decoder -/

/-- The loop of `ParseBinaryString` with a step for every byte of the window
returns a code, having moved the cursor when the window holds a byte, or the
cursor leaves the window, which takes an unsigned `char`. -/
theorem ParseBinaryString_loop_stops (cs : Bool) (fuel : Nat) :
    ∀ (win : Bytes) (n : Nat), win.length ≤ fuel →
      (∃ code n2, Details.ParseBinaryString.loop cs fuel win n = .ok (code, n2)
          ∧ (win ≠ [] → n < n2))
      ∨ (Details.ParseBinaryString.loop cs fuel win n = .error .undefined ∧ cs = false) := by
  induction fuel with
  | zero =>
    intro win n h
    have hw : win = [] := List.length_eq_zero.1 (by omega)
    subst hw
    exact Or.inl ⟨-1, n, by rw [Details.ParseBinaryString.loop], fun h => absurd rfl h⟩
  | succ fuel ih =>
    intro win n h
    cases win with
    | nil => exact Or.inl ⟨-1, n, by rw [Details.ParseBinaryString.loop], fun h => absurd rfl h⟩
    | cons c rest =>
      simp only [List.length_cons] at h
      have hrest : rest.length ≤ fuel := by omega
      have step : ∀ (w : Bytes) (k : Nat), w.length ≤ fuel → n < k →
          (∃ code n2, Details.ParseBinaryString.loop cs fuel w k = .ok (code, n2)
              ∧ (c :: rest ≠ [] → n < n2))
          ∨ (Details.ParseBinaryString.loop cs fuel w k = .error .undefined ∧ cs = false) := by
        intro w k hw hk
        rcases ih w k hw with ⟨code, n2, e, hn⟩ | ⟨e, hcs⟩
        · refine Or.inl ⟨code, n2, e, fun _ => ?_⟩
          cases w with
          | nil =>
            rw [Details.ParseBinaryString.loop] at e
            simp only [Except.ok.injEq, Prod.mk.injEq] at e
            omega
          | cons a w =>
            have := hn (by simp)
            omega
        · exact Or.inr ⟨e, hcs⟩
      rw [Details.ParseBinaryString.loop]
      by_cases c1 : c < 0x80
      · rw [if_pos c1]
        by_cases c0 : c = 0
        · rw [if_pos c0]
          exact Or.inl ⟨0, n + 1, rfl, fun _ => by omega⟩
        · rw [if_neg c0]
          exact step rest (n + 1) hrest (by omega)
      rw [if_neg c1]
      cases cs
      · rw [if_neg (by simp)]
        by_cases c5 : c >>> 5 = 0x6
        · rw [if_pos c5]
          by_cases l0 : rest.length = 0
          · rw [if_pos l0]
            exact Or.inl ⟨-2, n + 1, rfl, fun _ => by omega⟩
          · rw [if_neg l0]
            exact step (rest.drop 1) (n + 2) (by rw [List.length_drop]; omega) (by omega)
        rw [if_neg c5]
        by_cases c4 : c >>> 4 = 0xe
        · rw [if_pos c4]
          by_cases l1 : rest.length = 1
          · rw [if_pos l1]
            exact Or.inl ⟨-2, n + 1, rfl, fun _ => by omega⟩
          · rw [if_neg l1]
            by_cases l2 : rest.length < 2
            · rw [if_pos l2]
              exact Or.inr ⟨rfl, rfl⟩
            · rw [if_neg l2]
              exact step (rest.drop 2) (n + 3) (by rw [List.length_drop]; omega) (by omega)
        rw [if_neg c4]
        by_cases c3 : c >>> 3 = 0x1e
        · rw [if_pos c3]
          by_cases l2 : rest.length = 2
          · rw [if_pos l2]
            exact Or.inl ⟨-2, n + 1, rfl, fun _ => by omega⟩
          · rw [if_neg l2]
            by_cases l3 : rest.length < 3
            · rw [if_pos l3]
              exact Or.inr ⟨rfl, rfl⟩
            · rw [if_neg l3]
              exact step (rest.drop 3) (n + 4) (by rw [List.length_drop]; omega) (by omega)
        rw [if_neg c3]
        exact step rest (n + 1) hrest (by omega)
      · rw [if_pos rfl]
        exact step rest (n + 1) hrest (by omega)

/-- On a window that holds a byte `ParseBinaryString` returns a code and a shorter
window, or the cursor leaves the window, which takes an unsigned `char`. -/
theorem ParseBinaryString_stops (I : Impl) (win str : Bytes) (hw : win ≠ []) :
    (∃ code win2 str2, Details.ParseBinaryString I win str = .ok (code, win2, str2)
        ∧ win2.length < win.length)
      ∨ (Details.ParseBinaryString I win str = .error .undefined ∧ I.charSigned = false) := by
  have hl : 0 < win.length := List.length_pos.2 hw
  rw [Details.ParseBinaryString]
  rcases ParseBinaryString_loop_stops I.charSigned win.length win 0 (le_refl _) with
    ⟨code, n2, e, hn⟩ | ⟨e, hcs⟩
  · have hn2 := hn hw
    rw [e]
    simp only []
    by_cases c2 : code = -2
    · rw [if_pos c2]
      exact Or.inl ⟨_, _, _, rfl, by rw [List.length_drop]; omega⟩
    · rw [if_neg c2, if_neg (by omega)]
      exact Or.inl ⟨_, _, _, rfl, by rw [List.length_drop]; omega⟩
  · rw [e]
    exact Or.inr ⟨rfl, hcs⟩

/-- The outcome of `ReadBinaryBytes`: the window does not grow, and an accumulator
that is not full afterwards has taken a whole window that held a byte; the call
is undefined only on an accumulator longer than `max_size`. -/
theorem ReadBinaryBytes_stops (win tmp : Bytes) (max_size : Nat) (hw : win ≠ []) :
    (∃ win2 tmp2, Details.ReadBinaryBytes win tmp max_size = .ok (win2, tmp2)
        ∧ win2.length ≤ win.length ∧ tmp2.length ≤ max_size
        ∧ (tmp2.length ≠ max_size → win2.length < win.length))
      ∨ (Details.ReadBinaryBytes win tmp max_size = .error .undefined
        ∧ max_size < tmp.length) := by
  have hl : 0 < win.length := List.length_pos.2 hw
  by_cases h : max_size < tmp.length
  · exact Or.inr ⟨by rw [Details.ReadBinaryBytes, if_pos h], h⟩
  · rw [ReadBinaryBytes_min win tmp max_size (by omega)]
    refine Or.inl ⟨_, _, rfl, ?_, ?_, ?_⟩
    · rw [List.length_drop]; omega
    · simp only [List.length_append, List.length_take]; omega
    · simp only [List.length_append, List.length_take, List.length_drop]; omega

/-- A refill with a chunk size above 0 ends the loop or moves at least one byte
from the stream into the window. -/
theorem read_stops (is : istream) (chunk : Nat) (hc : 1 ≤ chunk) :
    ((is.read chunk).2.fail = true ∧ (is.read chunk).1 = []
        ∧ (is.read chunk).2.data.length ≤ is.data.length)
      ∨ 3 * (is.read chunk).2.data.length + 2 * (is.read chunk).1.length + 1
        ≤ 3 * is.data.length := by
  rw [istream.read]
  by_cases hf : is.fail = true
  · rw [if_pos hf]
    exact Or.inl ⟨hf, rfl, le_refl _⟩
  · rw [if_neg hf]
    by_cases hn : chunk ≤ is.data.length
    · rw [if_pos hn]
      refine Or.inr ?_
      simp only [List.length_drop, List.length_take]
      omega
    · rw [if_neg hn]
      cases hd : is.data with
      | nil => exact Or.inl ⟨rfl, rfl, by simp⟩
      | cons b d =>
        refine Or.inr ?_
        simp only [List.length_cons, List.length_nil]
        omega

theorem run_stops_ok {α : Type} (is : istream) (win : Bytes) (defined : Prop) (a : α)
    (is2 : istream) (win2 : Bytes)
    (h : 3 * is2.data.length + 2 * win2.length ≤ 3 * is.data.length + 2 * win.length) :
    run_stops is win defined (.ok (a, is2, win2)) := by
  refine ⟨by simp, ?_, fun _ => by simp⟩
  intro a3 is3 win3 e
  simp only [Except.ok.injEq, Prod.mk.injEq] at e
  obtain ⟨-, rfl, rfl⟩ := e
  exact h

theorem run_stops_throw {α : Type} (is : istream) (win : Bytes) (defined : Prop) (x : Exn)
    (h1 : x ≠ .out_of_fuel) (h2 : x ≠ .undefined) :
    run_stops is win defined (.error x : Except Exn (α × istream × Bytes)) := by
  refine ⟨?_, ?_, fun _ => ?_⟩
  · intro e; injection e with e; exact h1 e
  · intro a3 is3 win3 e; cases e
  · intro e; injection e with e; exact h2 e

theorem run_stops_undefined {α : Type} (is : istream) (win : Bytes) (defined : Prop)
    (h : ¬ defined) :
    run_stops is win defined (.error .undefined : Except Exn (α × istream × Bytes)) := by
  refine ⟨by simp, ?_, fun hd => absurd hd h⟩
  intro a3 is3 win3 e; cases e

theorem run_stops_mono {α : Type} (is is1 : istream) (win win1 : Bytes)
    (defined defined1 : Prop) (r : Except Exn (α × istream × Bytes))
    (h : run_stops is1 win1 defined1 r)
    (hm : 3 * is1.data.length + 2 * win1.length ≤ 3 * is.data.length + 2 * win.length)
    (hd : defined → defined1) : run_stops is win defined r := by
  obtain ⟨h1, h2, h3⟩ := h
  refine ⟨h1, ?_, fun d => h3 (hd d)⟩
  intro a3 is3 win3 e
  have := h2 a3 is3 win3 e
  omega

theorem run_stops_error {α β : Type} (is is1 : istream) (win win1 : Bytes)
    (defined defined1 : Prop) (x : Exn)
    (h : run_stops is1 win1 defined1 (.error x : Except Exn (α × istream × Bytes)))
    (hd : defined → defined1) :
    run_stops is win defined (.error x : Except Exn (β × istream × Bytes)) := by
  obtain ⟨h1, -, h3⟩ := h
  refine ⟨?_, ?_, fun d => ?_⟩
  · intro e; injection e with e; exact h1 (by rw [e])
  · intro a3 is3 win3 e; cases e
  · intro e; injection e with e; exact h3 (hd d) (by rw [e])

/-- The binary decoder stops. With a chunk size above 0 and a step budget of three
steps for a byte of the stream and two for a byte of the window (one more for a
tag that has been read, one more for a name that is complete), the loop of
`_ParseBinaryObject` and `_ParseBinaryObject` itself return or throw, and where
`char` is signed the cursor never leaves the window. -/
theorem binary_decoder_stops_core (I : Impl) (oe : BinaryNodeType) (chunk : Nat)
    (hc : 1 ≤ chunk) (f : Nat) :
    (∀ (is : istream) (win : Bytes) (c : ValveCollection) (st : Nat) (pk tr : Bool)
        (ik tmp : Bytes),
        3 * is.data.length + 2 * win.length + tr.toNat + pk.toNat + 1 ≤ f →
        run_stops is win
          (I.charSigned = true ∧ (tmp.length < 4
            ∨ (tr = true ∧ pk = true ∧ (st = 1 ∨ ((st = 7 ∨ st = 10) ∧ tmp.length < 8)))))
          (_ParseBinaryObject.loop I oe chunk f is win c st pk tr ik tmp))
      ∧ (∀ (is : istream) (name win : Bytes),
        3 * is.data.length + 2 * win.length + 2 ≤ f →
        run_stops is win (I.charSigned = true)
          (_ParseBinaryObject I oe chunk f is name win)) := by
  induction f with
  | zero =>
    exact ⟨fun is win c st pk tr ik tmp h => absurd h (by omega),
      fun is name win h => absurd h (by omega)⟩
  | succ f ih =>
    obtain ⟨ihL, ihP⟩ := ih
    constructor
    · intro is win c st pk tr ik tmp hΦ
      generalize hD : (I.charSigned = true ∧ (tmp.length < 4
        ∨ (tr = true ∧ pk = true ∧ (st = 1 ∨ ((st = 7 ∨ st = 10) ∧ tmp.length < 8))))) = D
      have hinv : D → (I.charSigned = true ∧ (tmp.length < 4
          ∨ (tr = true ∧ pk = true ∧ (st = 1 ∨ ((st = 7 ∨ st = 10) ∧ tmp.length < 8))))) := by
        intro d; rw [hD]; exact d
      clear hD
      have cont : ∀ (is2 : istream) (win2 : Bytes) (c2 : ValveCollection) (st2 : Nat)
          (pk2 tr2 : Bool) (ik2 tmp2 : Bytes),
          3 * is2.data.length + 2 * win2.length + tr2.toNat + pk2.toNat + 1 ≤ f →
          3 * is2.data.length + 2 * win2.length ≤ 3 * is.data.length + 2 * win.length →
          (D → (I.charSigned = true ∧ (tmp2.length < 4
              ∨ (tr2 = true ∧ pk2 = true
                ∧ (st2 = 1 ∨ ((st2 = 7 ∨ st2 = 10) ∧ tmp2.length < 8)))))) →
          run_stops is win D
            (_ParseBinaryObject.loop I oe chunk f is2 win2 c2 st2 pk2 tr2 ik2 tmp2) := by
        intro is2 win2 c2 st2 pk2 tr2 ik2 tmp2 h1 h2 h3
        exact run_stops_mono is is2 win win2 _ _ _
          (ihL is2 win2 c2 st2 pk2 tr2 ik2 tmp2 h1) h2 h3
      cases win with
      | nil =>
        rw [_ParseBinaryObject.loop]
        simp only []
        simp only [List.length_nil, Nat.mul_zero, Nat.add_zero] at hΦ cont ⊢
        rcases read_stops is chunk hc with ⟨hf, hw, hd⟩ | hdec
        · rw [if_neg (by simp [hf, hw])]
          exact run_stops_ok _ _ _ _ _ _ (by rw [hw]; simp; omega)
        · split
          · exact cont (is.read chunk).2 (is.read chunk).1 c st pk tr ik tmp (by omega) (by omega) hinv
          · exact run_stops_ok _ _ _ _ _ _ (by simp; omega)
      | cons b0 rest =>
        simp only [List.length_cons] at hΦ cont
        rw [_ParseBinaryObject.loop]
        cases tr
        · rw [if_pos (by rfl)]
          simp only [Bool.toNat_false, Nat.add_zero] at hΦ
          refine cont is rest c b0 pk true [] tmp (by simp only [Bool.toNat_true]; omega)
            (by omega) ?_
          intro d
          obtain ⟨hs, h | ⟨h, -⟩⟩ := hinv d
          · exact ⟨hs, Or.inl h⟩
          · cases h
        rw [if_neg (by simp)]
        simp only [Bool.toNat_true] at hΦ
        by_cases e1 : st = BinaryNodeType.ObjectEnd.toByte
            ∨ st = BinaryNodeType.AlternativeEnd.toByte
        · rw [if_pos e1]
          exact run_stops_ok _ _ _ _ _ _ (le_refl _)
        rw [if_neg e1]
        cases pk
        · rw [if_pos (by rfl)]
          simp only [Bool.toNat_false, Nat.add_zero] at hΦ
          rcases ParseBinaryString_stops I (b0 :: rest) ik (by simp) with
            ⟨code, win2, ik2, e, hlt⟩ | ⟨e, hcs⟩
          · rw [e]
            simp only []
            simp only [List.length_cons] at hlt
            by_cases c2 : code = -2
            · rw [if_pos c2]
              exact run_stops_throw _ _ _ _ (by simp) (by simp)
            · rw [if_neg c2]
              refine cont is win2 c st (code == 0) true ik2 tmp ?_ (by omega) ?_
              · have : (code == 0).toNat ≤ 1 := Bool.toNat_le _
                simp only [Bool.toNat_true]
                omega
              · intro d
                obtain ⟨hs, h | ⟨-, h, -⟩⟩ := hinv d
                · exact ⟨hs, Or.inl h⟩
                · cases h
          · rw [e]
            refine run_stops_undefined _ _ _ (fun d => ?_)
            have := (hinv d).1
            rw [hcs] at this
            cases this
        rw [if_neg (by simp)]
        simp only [Bool.toNat_true] at hΦ
        have fixed : ∀ (w : Nat) (mk : Bytes → ValveDataObject)
            (r : Except Exn (ValveCollection × istream × Bytes)),
            (w = 4 ∨ w = 8) → st ≠ 1 → (st = 7 ∨ st = 10 → w = 8) → (w = 8 → st = 7 ∨ st = 10) →
            (∀ x, Details.ReadBinaryBytes (b0 :: rest) tmp w = .error x → r = .error x) →
            (∀ win2 tmp2, Details.ReadBinaryBytes (b0 :: rest) tmp w = .ok (win2, tmp2) →
              tmp2.length = w →
              r = _ParseBinaryObject.loop I oe chunk f is win2 (c ++ [mk tmp2]) st false false
                [] []) →
            (∀ win2 tmp2, Details.ReadBinaryBytes (b0 :: rest) tmp w = .ok (win2, tmp2) →
              tmp2.length ≠ w →
              r = _ParseBinaryObject.loop I oe chunk f is win2 c st true true ik tmp2) →
            run_stops is (b0 :: rest) D r := by
          intro w mk r hw4 hst1 hst8 hw8 h1 h2 h3
          rcases ReadBinaryBytes_stops (b0 :: rest) tmp w (by simp) with
            ⟨win2, tmp2, e, hle, hmax, hlt⟩ | ⟨e, hbad⟩
          · simp only [List.length_cons] at hle hlt
            by_cases hfull : tmp2.length = w
            · rw [h2 win2 tmp2 e hfull]
              refine cont is win2 (c ++ [mk tmp2]) st false false [] []
                (by simp only [Bool.toNat_false]; omega) (by omega) ?_
              intro d
              exact ⟨(hinv d).1, Or.inl (by simp)⟩
            · rw [h3 win2 tmp2 e hfull]
              have := hlt hfull
              refine cont is win2 c st true true ik tmp2
                (by simp only [Bool.toNat_true]; omega) (by omega) ?_
              intro d
              refine ⟨(hinv d).1, ?_⟩
              by_cases h8 : w = 8
              · exact Or.inr ⟨rfl, rfl, Or.inr ⟨hw8 h8, by omega⟩⟩
              · exact Or.inl (by omega)
          · rw [h1 _ e]
            refine run_stops_undefined _ _ _ (fun d => ?_)
            obtain ⟨-, h | ⟨-, -, h | ⟨h7, h8⟩⟩⟩ := hinv d
            · omega
            · exact hst1 h
            · have := hst8 h7
              omega
        by_cases s0 : st = BinaryNodeType.Object.toByte
        · rw [if_pos s0]
          have hP := ihP is ik (b0 :: rest) (by simp only [List.length_cons]; omega)
          cases hC : _ParseBinaryObject I oe chunk f is ik (b0 :: rest) with
          | error x =>
            rw [hC] at hP
            exact run_stops_error _ _ _ _ _ _ x hP (fun d => (hinv d).1)
          | ok p =>
            obtain ⟨child, is2, win2⟩ := p
            rw [hC] at hP
            have hm := hP.2.1 child is2 win2 rfl
            simp only [List.length_cons] at hm
            simp only []
            refine cont is2 win2 (c ++ [child]) st false false [] []
              (by simp only [Bool.toNat_false]; omega) (by omega) ?_
            intro d
            exact ⟨(hinv d).1, Or.inl (by simp)⟩
        rw [if_neg s0]
        by_cases s1 : st = BinaryNodeType.String.toByte
        · rw [if_pos s1]
          have hst : st = BinaryNodeType.String.toByte := s1
          simp only [BinaryNodeType.toByte] at hst
          rcases ParseBinaryString_stops I (b0 :: rest) tmp (by simp) with
            ⟨code, win2, tmp2, e, hlt⟩ | ⟨e, hcs⟩
          · rw [e]
            simp only []
            simp only [List.length_cons] at hlt
            by_cases c2 : code = -2
            · rw [if_pos c2]
              exact run_stops_throw _ _ _ _ (by simp) (by simp)
            · rw [if_neg c2]
              by_cases c0 : code = 0
              · rw [if_pos c0]
                refine cont is win2 (c ++ [ValveDataObject.new_string I ik tmp2]) st false false
                  [] [] (by simp only [Bool.toNat_false]; omega) (by omega) ?_
                intro d
                exact ⟨(hinv d).1, Or.inl (by simp)⟩
              · rw [if_neg c0]
                refine cont is win2 c st true true ik tmp2
                  (by simp only [Bool.toNat_true]; omega) (by omega) ?_
                intro d
                exact ⟨(hinv d).1, Or.inr ⟨rfl, rfl, Or.inl hst⟩⟩
          · rw [e]
            refine run_stops_undefined _ _ _ (fun d => ?_)
            have := (hinv d).1
            rw [hcs] at this
            cases this
        rw [if_neg s1]
        have hst1 : st ≠ 1 := s1
        by_cases s2 : st = BinaryNodeType.Int32.toByte
        · rw [if_pos s2]
          have hst : st = BinaryNodeType.Int32.toByte := s2
          simp only [BinaryNodeType.toByte] at hst
          refine fixed 4 (fun t => ValveDataObject.new_int32 I ik (as_int32 t)) _ (by omega) (by omega) (by omega) (by omega)
            ?_ ?_ ?_
          · intro x hx
            rw [hx]
          · intro win2 tmp2 hx hfull
            rw [hx]
            simp only []
            rw [if_pos hfull]
          · intro win2 tmp2 hx hfull
            rw [hx]
            simp only []
            rw [if_neg hfull]
        rw [if_neg s2]
        by_cases s3 : st = BinaryNodeType.Float.toByte
        · rw [if_pos s3]
          have hst : st = BinaryNodeType.Float.toByte := s3
          simp only [BinaryNodeType.toByte] at hst
          refine fixed 4 (fun t => ValveDataObject.new_float I ik (le_decode t)) _ (by omega) (by omega) (by omega) (by omega)
            ?_ ?_ ?_
          · intro x hx
            rw [hx]
          · intro win2 tmp2 hx hfull
            rw [hx]
            simp only []
            rw [if_pos hfull]
          · intro win2 tmp2 hx hfull
            rw [hx]
            simp only []
            rw [if_neg hfull]
        rw [if_neg s3]
        by_cases s4 : st = BinaryNodeType.Pointer.toByte
        · rw [if_pos s4]
          have hst : st = BinaryNodeType.Pointer.toByte := s4
          simp only [BinaryNodeType.toByte] at hst
          refine fixed 4 (fun t => ValveDataObject.new_pointer I ik (le_decode t)) _ (by omega) (by omega) (by omega) (by omega)
            ?_ ?_ ?_
          · intro x hx
            rw [hx]
          · intro win2 tmp2 hx hfull
            rw [hx]
            simp only []
            rw [if_pos hfull]
          · intro win2 tmp2 hx hfull
            rw [hx]
            simp only []
            rw [if_neg hfull]
        rw [if_neg s4]
        by_cases s6 : st = BinaryNodeType.Color.toByte
        · rw [if_pos s6]
          have hst : st = BinaryNodeType.Color.toByte := s6
          simp only [BinaryNodeType.toByte] at hst
          refine fixed 4 (fun t => ValveDataObject.new_color I ik (le_decode t)) _ (by omega) (by omega) (by omega) (by omega)
            ?_ ?_ ?_
          · intro x hx
            rw [hx]
          · intro win2 tmp2 hx hfull
            rw [hx]
            simp only []
            rw [if_pos hfull]
          · intro win2 tmp2 hx hfull
            rw [hx]
            simp only []
            rw [if_neg hfull]
        rw [if_neg s6]
        by_cases s10 : st = BinaryNodeType.Int64.toByte
        · rw [if_pos s10]
          have hst : st = BinaryNodeType.Int64.toByte := s10
          simp only [BinaryNodeType.toByte] at hst
          refine fixed 8 (fun t => ValveDataObject.new_int64 I ik (as_int64 t)) _ (by omega) (by omega) (by omega) (by omega)
            ?_ ?_ ?_
          · intro x hx
            rw [hx]
          · intro win2 tmp2 hx hfull
            rw [hx]
            simp only []
            rw [if_pos hfull]
          · intro win2 tmp2 hx hfull
            rw [hx]
            simp only []
            rw [if_neg hfull]
        rw [if_neg s10]
        by_cases s7 : st = BinaryNodeType.UInt64.toByte
        · rw [if_pos s7]
          have hst : st = BinaryNodeType.UInt64.toByte := s7
          simp only [BinaryNodeType.toByte] at hst
          refine fixed 8 (fun t => ValveDataObject.new_uint64 I ik (le_decode t)) _ (by omega) (by omega) (by omega) (by omega)
            ?_ ?_ ?_
          · intro x hx
            rw [hx]
          · intro win2 tmp2 hx hfull
            rw [hx]
            simp only []
            rw [if_pos hfull]
          · intro win2 tmp2 hx hfull
            rw [hx]
            simp only []
            rw [if_neg hfull]
        rw [if_neg s7]
        exact run_stops_throw _ _ _ _ (by simp) (by simp)
    · intro is name win hΦ
      rw [_ParseBinaryObject]
      by_cases hcond : (!is.fail) = true ∨ win ≠ []
      · rw [if_pos hcond]
        have hL := ihL is win [] 0 false false [] []
          (by simp only [Bool.toNat_false]; omega)
        cases hC : _ParseBinaryObject.loop I oe chunk f is win [] 0 false false [] [] with
        | error x =>
          rw [hC] at hL
          exact run_stops_error _ _ _ _ _ _ x hL (fun d => ⟨d, Or.inl (by simp)⟩)
        | ok p =>
          obtain ⟨c, is2, win2⟩ := p
          rw [hC] at hL
          exact run_stops_ok _ _ _ _ _ _ (hL.2.1 c is2 win2 rfl)
      · rw [if_neg hcond]
        exact run_stops_ok _ _ _ _ _ _ (le_refl _)

/-- The loop of the binary branch of `ParseObject` stops: with a chunk size above 0
and one step for every byte of the stream it returns or throws, and where `char`
is signed the cursor never leaves the window. -/
theorem binary_loop_stops (I : Impl) (chunk : Nat) (oe : BinaryNodeType) (hc : 1 ≤ chunk)
    (f : Nat) :
    ∀ (is : istream) (nm : Bytes) (po : ValveDataObject), is.data.length + 1 ≤ f →
      ParseObject.binary_loop I chunk oe f is nm po ≠ .error .out_of_fuel
        ∧ (I.charSigned = true →
          ParseObject.binary_loop I chunk oe f is nm po ≠ .error .undefined) := by
  induction f with
  | zero => intro is nm po h; exact absurd h (by omega)
  | succ f ih =>
    intro is nm po hf
    rw [ParseObject.binary_loop]
    simp only []
    by_cases hcond : (!(is.read chunk).2.fail) = true ∨ (is.read chunk).1.length ≠ 0
    · rw [if_pos hcond]
      have hdec : 3 * (is.read chunk).2.data.length + 2 * (is.read chunk).1.length + 1
          ≤ 3 * is.data.length ∧ (is.read chunk).1 ≠ []
          ∧ (is.read chunk).2.data.length + (is.read chunk).1.length ≤ is.data.length := by
        revert hcond
        rw [istream.read]
        by_cases hfail : is.fail = true
        · rw [if_pos hfail]
          intro hcond
          simp [hfail] at hcond
        · rw [if_neg hfail]
          by_cases hn : chunk ≤ is.data.length
          · rw [if_pos hn]
            intro _
            simp only [List.length_drop, List.length_take]
            refine ⟨by omega, ?_, by omega⟩
            intro h
            have := congrArg List.length h
            simp only [List.length_take, List.length_nil] at this
            omega
          · rw [if_neg hn]
            intro hcond
            simp only [Bool.not_true, Bool.false_eq_true, false_or, ne_eq,
              List.length_eq_zero] at hcond
            have : 0 < is.data.length := List.length_pos.2 hcond
            simp only [List.length_nil]
            exact ⟨by omega, hcond, by omega⟩
      obtain ⟨hd1, hw, hd2⟩ := hdec
      rcases ParseBinaryString_stops I (is.read chunk).1 nm hw with
        ⟨code, win2, nm2, e, hlt⟩ | ⟨e, hcs⟩
      · rw [e]
        simp only []
        by_cases c2 : code = -2
        · rw [if_pos c2]
          exact ⟨by simp, fun _ => by simp⟩
        · rw [if_neg c2]
          by_cases c0 : code = 0
          · rw [if_pos c0]
            obtain ⟨p1, p2, p3⟩ := (binary_decoder_stops_core I oe chunk hc
              (3 * ((is.read chunk).2.data.length + win2.length) + 3)).2 (is.read chunk).2 nm2
              win2 (by omega)
            cases hC : _ParseBinaryObject I oe chunk
                (3 * ((is.read chunk).2.data.length + win2.length) + 3) (is.read chunk).2 nm2
                win2 with
            | error x =>
              rw [hC] at p1 p3
              simp only []
              refine ⟨?_, fun hs => ?_⟩
              · intro h; injection h with h; exact p1 (by rw [h])
              · intro h; injection h with h; exact p3 hs (by rw [h])
            | ok p =>
              obtain ⟨o, is2, win3⟩ := p
              have hm := p2 o is2 win3 hC
              simp only []
              exact ih is2 [] o (by omega)
          · rw [if_neg c0]
            exact ih (is.read chunk).2 nm2 po (by omega)
      · rw [e]
        refine ⟨by simp, fun hs => ?_⟩
        rw [hcs] at hs
        cases hs
    · rw [if_neg hcond]
      exact ⟨by simp, fun _ => by simp⟩

/-- On a stream that `ParseObject` sends to the binary decoder it returns or
throws, whatever the bytes are, for every chunk size above 0; where `char` is
signed the cursor never leaves the window. -/
theorem ParseObject_binary_stops (I : Impl) (input : Bytes) (chunk_size : Nat)
    (hc : 1 ≤ chunk_size) (hb : input.take 4 = BinaryVDFMagic ∨ input.getD 0 0 = 0) :
    ParseObject I input chunk_size ≠ .error .out_of_fuel
      ∧ (I.charSigned = true → ParseObject I input chunk_size ≠ .error .undefined) := by
  have hbin : ∀ (oe : BinaryNodeType) (is : istream),
      ParseObject.binary I chunk_size oe is ≠ .error .out_of_fuel
        ∧ (I.charSigned = true → ParseObject.binary I chunk_size oe is ≠ .error .undefined) := by
    intro oe is
    rw [ParseObject.binary]
    simp only []
    split
    · exact ⟨by simp, fun _ => by simp⟩
    · split
      · exact ⟨by simp, fun _ => by simp⟩
      · exact binary_loop_stops I chunk_size oe hc _ _ _ _ (le_refl _)
  rw [ParseObject]
  split
  · exact ⟨by simp, fun _ => by simp⟩
  · split
    · exact hbin _ _
    · rcases hb with hb | hb
      · rename_i h
        exact absurd hb h
      · rw [if_pos hb]
        exact hbin _ _

/-- C38, evaluation: where plain `char` is unsigned the binary decoder leaves the
window on a lead byte of a 3-byte or 4-byte UTF-8 sequence that is the last byte
of the window. The document `doc_euro`, whose name `€` is `E2 82 AC`, is parsed
when it is read in one chunk; with a chunk size of 4 the second window ends with
`E2`, `ParseBinaryString` moves the cursor two bytes past the end, and its loop
`while (b != e)` never meets its end again. So it is at the end of the stream
`00 52 00 01 E0`, which an implementation with a signed `char` parses. Apart from
that the decoder stops: for every implementation, every stream and window and
every chunk size above 0, `_ParseBinaryObject` with three steps for a byte of the
stream and two for a byte of the window returns or throws, and with a signed
`char` the cursor never leaves the window. -/
theorem binary_decoder_leaves_window_on_cut_lead_byte :
    ParseObject Impl.sample_unsigned doc_euro 4 = .error .undefined
      ∧ ParseObject Impl.sample_unsigned doc_euro (10 * 1024)
        = .ok (.mk [82] (Impl.sample_unsigned.hash [82])
            (._Collection [ValveDataObject.new_string Impl.sample_unsigned [0xE2, 0x82, 0xAC]
              [0x76]]) .Object)
      ∧ ParseObject Impl.sample_unsigned [0, 82, 0, 1, 0xE0] (10 * 1024) = .error .undefined
      ∧ ParseObject Impl.sample [0, 82, 0, 1, 0xE0] (10 * 1024)
        = .ok (.mk [82] (Impl.sample.hash [82]) (._Collection []) .Object)
      ∧ ∀ (I : Impl) (oe : BinaryNodeType) (chunk extra : Nat) (is : istream)
          (name win : Bytes),
          _ParseBinaryObject I oe (chunk + 1)
              (3 * is.data.length + 2 * win.length + 2 + extra) is name win
            ≠ .error .out_of_fuel
          ∧ (I.charSigned = false
            ∨ _ParseBinaryObject I oe (chunk + 1)
                (3 * is.data.length + 2 * win.length + 2 + extra) is name win
              ≠ .error .undefined) := by
  refine ⟨by rfl, by rfl, by rfl, by rfl, ?_⟩
  intro I oe chunk extra is name win
  obtain ⟨p1, -, p3⟩ := (binary_decoder_stops_core I oe (chunk + 1) (by omega)
    (3 * is.data.length + 2 * win.length + 2 + extra)).2 is name win (by omega)
  refine ⟨p1, ?_⟩
  cases h : I.charSigned
  · exact Or.inl rfl
  · exact Or.inr (p3 h)

/-! ## What the text parser can end with -/

/-- With as much fuel as bytes are left, the second loop of `ParseString` ends by
itself: it fails only where the cursor has passed the end of the window. -/
theorem ParseString_second_defined (buf : Bytes) (e ss : Nat) (str : Bytes) (fuel : Nat) :
    ∀ (b : Nat) (he : Bool) (x : Exn), e - b ≤ fuel →
      Details.ParseString.second buf e ss str fuel b he = .error x → x = .undefined := by
  induction fuel with
  | zero =>
    intro b he x hf h
    rw [Details.ParseString.second] at h
    repeat' split at h
    all_goals first
      | (cases h; rfl)
      | (exfalso; omega)
      | cases h
  | succ fuel ih =>
    intro b he x hf h
    rw [Details.ParseString.second] at h
    simp only [] at h
    repeat' split at h
    all_goals first
      | (cases h; rfl)
      | exact ih _ _ _ (by omega) h
      | cases h

/-- The function `ParseString` fails only where the cursor has passed the end of
the window. -/
theorem ParseString_defined (buf : Bytes) (b e : Nat) (str : Bytes) (x : Exn)
    (h : Details.ParseString buf b e str = .error x) : x = .undefined := by
  unfold Details.ParseString at h
  split at h
  · cases h; rfl
  · split at h
    · cases h
    · exact ParseString_second_defined _ _ _ _ _ _ _ _ (le_refl _) h

/-- What a line of `_ParseTextObject` throws is a `ParserException`, or the cursor
has left the line. -/
theorem line_throw_kind (I : Impl) (buffer : Bytes) (ln : Nat) (c : ValveCollection)
    (io : Bool) (nm : Bytes) (s e : Nat) (x : Exn)
    (h : _ParseTextObject.line I buffer ln c io nm s e = .throw x) :
    (∃ m, x = .ParserException m) ∨ x = .undefined := by
  revert h
  unfold _ParseTextObject.line
  by_cases c1 : s = e
  · rw [if_pos c1]; intro h; cases h
  rw [if_neg c1]
  by_cases c2 : buffer.getD s 0 = 125
  · rw [if_pos c2]; intro h; cases h
  rw [if_neg c2]
  cases io
  · rw [if_pos (by rfl)]
    cases hS : Details.ParseString buffer s e nm with
    | error y =>
      intro h; cases h
      exact Or.inr (ParseString_defined _ _ _ _ _ hS)
    | ok p =>
      obtain ⟨err, ls, onm⟩ := p
      simp only []
      repeat' split
      all_goals intro h
      all_goals first
        | (cases h; done)
        | (cases h; exact Or.inl ⟨_, rfl⟩)
        | (cases h; exact Or.inr (SkipSpaces_error _ _ _ _ (by assumption)))
        | (cases h; exact Or.inr (ParseString_defined _ _ _ _ _ (by assumption)))
  · rw [if_neg (by simp)]
    repeat' split
    all_goals intro h
    all_goals first
      | (cases h; done)
      | (cases h; exact Or.inl ⟨_, rfl⟩)
      | (cases h; exact Or.inr (SkipSpaces_error _ _ _ _ (by assumption)))

/-- What a line of the text branch of `ParseObject` throws is a `ParserException`,
or the cursor has left the line. -/
theorem text_line_throw_kind (buffer : Bytes) (ln : Nat) (nm : Bytes) (s e : Nat) (x : Exn)
    (h : ParseObject.text_line buffer ln nm s e = .throw x) :
    (∃ m, x = .ParserException m) ∨ x = .undefined := by
  revert h
  unfold ParseObject.text_line
  by_cases c1 : s = e
  · rw [if_pos c1]; intro h; cases h
  rw [if_neg c1]
  cases hn : nm.isEmpty
  · rw [if_neg (by simp)]
    repeat' split
    all_goals intro h
    all_goals first
      | (cases h; done)
      | (cases h; exact Or.inl ⟨_, rfl⟩)
      | (cases h; exact Or.inr (SkipSpaces_error _ _ _ _ (by assumption)))
  · rw [if_pos rfl]
    cases hS : Details.ParseString buffer s e nm with
    | error y =>
      intro h; cases h
      exact Or.inr (ParseString_defined _ _ _ _ _ hS)
    | ok p =>
      obtain ⟨err, ls, onm⟩ := p
      simp only []
      repeat' split
      all_goals intro h
      all_goals first
        | (cases h; done)
        | (cases h; exact Or.inl ⟨_, rfl⟩)
        | (cases h; exact Or.inr (SkipSpaces_error _ _ _ _ (by assumption)))

/-- The loop of `_ParseTextObject` on a document given by its lines, when it
fails, throws a `ParserException`, or the cursor has left a line: the fuel of
the model does not run out. -/
theorem text_loop_kind (I : Impl) (n : Nat) :
    ∀ (ps : List (Bytes × Bytes)) (tail : Bytes) (f ln : Nat) (c : ValveCollection) (io : Bool)
      (nm : Bytes), ps.length ≤ n → lines_wf ps tail = true → 2 * ps.length + 1 ≤ f →
      ln < 2 ^ 32 → ∀ x,
      _ParseTextObject.loop I f ⟨join_lines ps ++ tail, false⟩ ln c io nm = .error x →
      (∃ m, x = .ParserException m) ∨ x = .undefined := by
  have hnil : ∀ (tail : Bytes) (f ln : Nat) (c : ValveCollection) (io : Bool) (nm : Bytes),
      lines_wf [] tail = true → 1 ≤ f → ∀ x,
      _ParseTextObject.loop I f ⟨join_lines [] ++ tail, false⟩ ln c io nm = .error x →
      (∃ m, x = .ParserException m) ∨ x = .undefined := by
    intro tail f ln c io nm hwf hf x h
    obtain ⟨g, rfl⟩ : ∃ g, f = g + 1 := ⟨f - 1, by omega⟩
    simp only [join_lines, List.nil_append] at h
    rw [text_loop_tail I g tail ln c io nm hwf] at h
    cases h
  induction n with
  | zero =>
    intro ps tail f ln c io nm hn hwf hf hln x h
    have hps : ps = [] := List.length_eq_zero.1 (by omega)
    subst hps
    exact hnil tail f ln c io nm hwf (by omega) x h
  | succ n ih =>
    intro ps tail f ln c io nm hn hwf hf hln x h
    cases ps with
    | nil => exact hnil tail f ln c io nm hwf (by omega) x h
    | cons p ps =>
      obtain ⟨l, eol⟩ := p
      simp only [List.length_cons] at hn hf
      obtain ⟨g, rfl⟩ : ∃ g, f = g + 1 := ⟨f - 1, by omega⟩
      have hwf2 : lines_wf ps tail = true := ((lines_wf_cons l eol ps tail).1 hwf).2.2.2
      have hmain := text_loop_step I g l eol ps tail ln c io nm hwf
      have hln1 : (ln + 1) % 2 ^ 32 < 2 ^ 32 := Nat.mod_lt _ (by norm_num)
      generalize hA : _ParseTextObject.line I (l ++ eol) ((ln + 1) % 2 ^ 32) c io nm _ _ = A
        at hmain
      cases A with
      | throw y =>
        simp only [] at hmain
        rw [hmain] at h
        cases h
        exact line_throw_kind _ _ _ _ _ _ _ _ _ hA
      | stop =>
        simp only [] at hmain
        rw [hmain] at h
        cases h
      | next c2 io2 nm2 =>
        simp only [] at hmain
        rw [hmain] at h
        exact ih ps tail g _ c2 io2 nm2 (by omega) hwf2 (by omega) hln1 x h
      | descend nm2 =>
        simp only [] at hmain
        obtain ⟨g1, rfl⟩ : ∃ g1, g = g1 + 1 := ⟨g - 1, by omega⟩
        rw [hmain] at h
        rcases text_loop_lines I n ps tail g1 ((ln + 1) % 2 ^ 32) [] false [] (by omega) hwf2
            (by omega) hln1 with
          ⟨y, j, hr, -, -, -, -⟩ | ⟨a, j, hr, hj1, hj2, -⟩ | ⟨a, hr, -⟩
        · rw [ParseTextObject_error I g1 _ nm2 _ y hr] at h
          cases h
          exact ih ps tail g1 _ [] false [] (by omega) hwf2 (by omega) hln1 x hr
        · rw [ParseTextObject_ok I g1 _ nm2 _ _ _ _ hr] at h
          simp only [] at h
          exact ih (ps.drop j) tail (g1 + 1) _ _ false [] (by simp; omega)
            (lines_wf_drop ps tail j hwf2) (by simp; omega) (Nat.mod_lt _ (by norm_num)) x h
        · rw [ParseTextObject_ok I g1 _ nm2 _ _ _ _ hr] at h
          simp only [] at h
          rw [text_loop_eof] at h
          cases h

/-- The text branch of `ParseObject` on a document given by its lines, when it
fails, throws a `ParserException`, or the cursor has left a line. -/
theorem text_kind (I : Impl) (n : Nat) :
    ∀ (ps : List (Bytes × Bytes)) (tail : Bytes) (f ln : Nat) (nm : Bytes)
      (po : ValveDataObject), ps.length ≤ n → lines_wf ps tail = true → ps.length + 1 ≤ f →
      ln < 2 ^ 32 → ∀ x,
      ParseObject.text I f ⟨join_lines ps ++ tail, false⟩ ln nm po = .error x →
      (∃ m, x = .ParserException m) ∨ x = .undefined := by
  have hnil : ∀ (tail : Bytes) (f ln : Nat) (nm : Bytes) (po : ValveDataObject),
      lines_wf [] tail = true → 1 ≤ f → ∀ x,
      ParseObject.text I f ⟨join_lines [] ++ tail, false⟩ ln nm po = .error x →
      (∃ m, x = .ParserException m) ∨ x = .undefined := by
    intro tail f ln nm po hwf hf x h
    obtain ⟨g, rfl⟩ : ∃ g, f = g + 1 := ⟨f - 1, by omega⟩
    simp only [join_lines, List.nil_append] at h
    rw [text_tail I g tail ln nm po hwf] at h
    cases h
  induction n with
  | zero =>
    intro ps tail f ln nm po hn hwf hf hln x h
    have hps : ps = [] := List.length_eq_zero.1 (by omega)
    subst hps
    exact hnil tail f ln nm po hwf (by omega) x h
  | succ n ih =>
    intro ps tail f ln nm po hn hwf hf hln x h
    cases ps with
    | nil => exact hnil tail f ln nm po hwf (by omega) x h
    | cons p ps =>
      obtain ⟨l, eol⟩ := p
      simp only [List.length_cons] at hn hf
      obtain ⟨g, rfl⟩ : ∃ g, f = g + 1 := ⟨f - 1, by omega⟩
      have hwf2 : lines_wf ps tail = true := ((lines_wf_cons l eol ps tail).1 hwf).2.2.2
      have hmain := text_step I g l eol ps tail ln nm po hwf
      have hln1 : (ln + 1) % 2 ^ 32 < 2 ^ 32 := Nat.mod_lt _ (by norm_num)
      generalize hA : ParseObject.text_line (l ++ eol) ((ln + 1) % 2 ^ 32) nm _ _ = A at hmain
      cases A with
      | throw y =>
        simp only [] at hmain
        rw [hmain] at h
        cases h
        exact text_line_throw_kind _ _ _ _ _ _ hA
      | stop =>
        simp only [] at hmain
        rw [hmain] at h
        cases h
      | next c2 io2 nm2 =>
        simp only [] at hmain
        rw [hmain] at h
        exact ih ps tail g _ nm2 po (by omega) hwf2 (by omega) hln1 x h
      | descend nm2 =>
        simp only [] at hmain
        rw [hmain] at h
        have hlen := length_join_lines_ge ps tail hwf2
        obtain ⟨g1, hg1⟩ : ∃ g1, 2 * (join_lines ps ++ tail).length + 2 = g1 + 1 :=
          ⟨2 * (join_lines ps ++ tail).length + 1, rfl⟩
        have hg1le : 2 * ps.length + 1 ≤ g1 := by
          simp only [List.length_append] at hg1
          omega
        rw [hg1] at h
        rcases text_loop_lines I n ps tail g1 ((ln + 1) % 2 ^ 32) [] false [] (by omega) hwf2
            hg1le hln1 with
          ⟨y, j, hr, -, -, -, -⟩ | ⟨a, j, hr, hj1, hj2, -⟩ | ⟨a, hr, -⟩
        · rw [ParseTextObject_error I g1 _ nm2 _ y hr] at h
          cases h
          exact text_loop_kind I n ps tail g1 _ [] false [] (by omega) hwf2 hg1le hln1 x hr
        · rw [ParseTextObject_ok I g1 _ nm2 _ _ _ _ hr] at h
          simp only [] at h
          exact ih (ps.drop j) tail g _ [] _ (by simp; omega)
            (lines_wf_drop ps tail j hwf2) (by simp; omega) (Nat.mod_lt _ (by norm_num)) x h
        · rw [ParseTextObject_ok I g1 _ nm2 _ _ _ _ hr] at h
          simp only [] at h
          obtain ⟨g2, rfl⟩ : ∃ g2, g = g2 + 1 := ⟨g - 1, by omega⟩
          rw [text_eof] at h
          cases h

/-- On a document that `ParseObject` sends to the text parser it returns a node
or throws a `ParserException`, unless the cursor leaves a line. -/
theorem ParseObject_text_outcome (I : Impl) (input : Bytes) (chunk_size : Nat)
    (h4 : 4 ≤ input.length) (hmagic : input.take 4 ≠ BinaryVDFMagic)
    (h0 : input.getD 0 0 ≠ 0) :
    (∃ o, ParseObject I input chunk_size = .ok o)
      ∨ (∃ m, ParseObject I input chunk_size = .error (.ParserException m))
      ∨ ParseObject I input chunk_size = .error .undefined := by
  obtain ⟨ps, tail, rfl, hwf⟩ := exists_lines input.length input (le_refl _)
  have hlen := length_join_lines_ge ps tail hwf
  cases hP : ParseObject I (join_lines ps ++ tail) chunk_size with
  | ok o => exact Or.inl ⟨o, rfl⟩
  | error x =>
    have h := hP
    unfold ParseObject at h
    rw [if_neg (by omega), if_neg hmagic, if_neg h0] at h
    rcases text_kind I ps.length ps tail _ 0 [] _ (le_refl _) hwf
        (by simp only [List.length_append]; omega) (by norm_num) x h with ⟨m, hm⟩ | hu
    · exact Or.inr (Or.inl ⟨m, by rw [hm]⟩)
    · exact Or.inr (Or.inr (by rw [hu]))

/-- C4, amended: for every list of lines none of which contains a CR or LF byte,
whose `\n`-terminated document has at least four bytes, does not begin with
the byte 0x00 and does not begin with the magic `56 42 4B 56` (so that
`ParseObject` sniffs it as text), the three documents obtained by terminating
every line with `\n`, with `\r` or with `\r\n` give the same `ParseObject`
outcome: the same tree in all three, or the same `ParserException` in all
three.  The only other case is that the parser moves a cursor out of the line
it is parsing, where the behaviour of the C++ code is undefined; it then does
so in all three documents, and no outcome is stated. -/
theorem eol_independence_of_text_documents (I : Impl) (lines : List Bytes) (chunk_size : Nat)
    (hlines : lines_ok lines = true)
    (h4 : 4 ≤ (terminate_lines [10] lines).length)
    (hmagic : (terminate_lines [10] lines).take 4 ≠ BinaryVDFMagic)
    (h0 : (terminate_lines [10] lines).getD 0 0 ≠ 0) :
    (∃ o, ParseObject I (terminate_lines [10] lines) chunk_size = .ok o
        ∧ ParseObject I (terminate_lines [13] lines) chunk_size = .ok o
        ∧ ParseObject I (terminate_lines [13, 10] lines) chunk_size = .ok o)
      ∨ (∃ m, ParseObject I (terminate_lines [10] lines) chunk_size
            = .error (.ParserException m)
          ∧ ParseObject I (terminate_lines [13] lines) chunk_size
            = .error (.ParserException m)
          ∧ ParseObject I (terminate_lines [13, 10] lines) chunk_size
            = .error (.ParserException m))
      ∨ (ParseObject I (terminate_lines [10] lines) chunk_size = .error .undefined
          ∧ ParseObject I (terminate_lines [13] lines) chunk_size = .error .undefined
          ∧ ParseObject I (terminate_lines [13, 10] lines) chunk_size = .error .undefined) := by
  obtain ⟨e1, e2⟩ := ParseObject_eol_eq I lines chunk_size hlines h4 hmagic h0
  rw [e1, e2]
  rcases ParseObject_text_outcome I _ chunk_size h4 hmagic h0 with ⟨o, h⟩ | ⟨m, h⟩ | h
  · exact Or.inl ⟨o, h, h, h⟩
  · exact Or.inr (Or.inl ⟨m, h, h, h⟩)
  · exact Or.inr (Or.inr ⟨h, h, h⟩)

/-- The amended C4 at two documents: the lines `"r"`, `{`, `<TAB>"k"<TAB><TAB>"5"`,
`}` give the root `r` with the string `k = 5` with each of the three line
endings, and the lines `"r"`, `{`, `x`, `}` give the exception of line 3 with
each of them. -/
theorem eol_independence_of_text_documents_witness :
    (lines_ok [[34, 114, 34], [123], [9, 34, 107, 34, 9, 9, 34, 53, 34], [125]] = true
      ∧ 4 ≤ (terminate_lines [10]
          [[34, 114, 34], [123], [9, 34, 107, 34, 9, 9, 34, 53, 34], [125]]).length
      ∧ (terminate_lines [10]
          [[34, 114, 34], [123], [9, 34, 107, 34, 9, 9, 34, 53, 34], [125]]).take 4
          ≠ BinaryVDFMagic
      ∧ (terminate_lines [10]
          [[34, 114, 34], [123], [9, 34, 107, 34, 9, 9, 34, 53, 34], [125]]).getD 0 0 ≠ 0
      ∧ ParseObject Impl.sample (terminate_lines [10]
            [[34, 114, 34], [123], [9, 34, 107, 34, 9, 9, 34, 53, 34], [125]]) (10 * 1024)
          = .ok (tree_with_string Impl.sample [53])
      ∧ ParseObject Impl.sample (terminate_lines [13]
            [[34, 114, 34], [123], [9, 34, 107, 34, 9, 9, 34, 53, 34], [125]]) (10 * 1024)
          = .ok (tree_with_string Impl.sample [53])
      ∧ ParseObject Impl.sample (terminate_lines [13, 10]
            [[34, 114, 34], [123], [9, 34, 107, 34, 9, 9, 34, 53, 34], [125]]) (10 * 1024)
          = .ok (tree_with_string Impl.sample [53]))
    ∧ (ParseObject Impl.sample (terminate_lines [10] [[34, 114, 34], [123], [120], [125]])
          (10 * 1024)
        = .error (.ParserException "Expected item key start at line 3")
      ∧ ParseObject Impl.sample (terminate_lines [13] [[34, 114, 34], [123], [120], [125]])
          (10 * 1024)
        = .error (.ParserException "Expected item key start at line 3")
      ∧ ParseObject Impl.sample (terminate_lines [13, 10] [[34, 114, 34], [123], [120], [125]])
          (10 * 1024)
        = .error (.ParserException "Expected item key start at line 3")) := by
  have hlf : ParseObject Impl.sample (terminate_lines [10]
        [[34, 114, 34], [123], [9, 34, 107, 34, 9, 9, 34, 53, 34], [125]]) (10 * 1024)
      = .ok (tree_with_string Impl.sample [53]) := by rfl
  have hlf2 : ParseObject Impl.sample (terminate_lines [10] [[34, 114, 34], [123], [120], [125]])
        (10 * 1024)
      = .error (.ParserException "Expected item key start at line 3") := by rfl
  have T1 := eol_independence_of_text_documents Impl.sample
    [[34, 114, 34], [123], [9, 34, 107, 34, 9, 9, 34, 53, 34], [125]] (10 * 1024)
    (by decide) (by decide) (by decide) (by decide)
  have T2 := eol_independence_of_text_documents Impl.sample
    [[34, 114, 34], [123], [120], [125]] (10 * 1024)
    (by decide) (by decide) (by decide) (by decide)
  rw [hlf] at T1
  rw [hlf2] at T2
  have R1 : ParseObject Impl.sample (terminate_lines [13]
          [[34, 114, 34], [123], [9, 34, 107, 34, 9, 9, 34, 53, 34], [125]]) (10 * 1024)
        = .ok (tree_with_string Impl.sample [53])
      ∧ ParseObject Impl.sample (terminate_lines [13, 10]
          [[34, 114, 34], [123], [9, 34, 107, 34, 9, 9, 34, 53, 34], [125]]) (10 * 1024)
        = .ok (tree_with_string Impl.sample [53]) := by
    rcases T1 with ⟨o, a, b, c⟩ | ⟨m, a, b, c⟩ | ⟨a, b, c⟩
    · cases a; exact ⟨b, c⟩
    · cases a
    · cases a
  have R2 : ParseObject Impl.sample (terminate_lines [13] [[34, 114, 34], [123], [120], [125]])
          (10 * 1024)
        = .error (.ParserException "Expected item key start at line 3")
      ∧ ParseObject Impl.sample (terminate_lines [13, 10] [[34, 114, 34], [123], [120], [125]])
          (10 * 1024)
        = .error (.ParserException "Expected item key start at line 3") := by
    rcases T2 with ⟨o, a, b, c⟩ | ⟨m, a, b, c⟩ | ⟨a, b, c⟩
    · cases a
    · cases a; exact ⟨b, c⟩
    · cases a
  exact ⟨⟨by decide, by decide, by decide, by decide, hlf, R1.1, R1.2⟩, hlf2, R2.1, R2.2⟩

/-! ## The strings the binary form reads back where `char` is signed -/

/-- Where `char` is signed, the `nul_readable` strings are the strings without a
NUL byte. -/
theorem nul_readable_signed (I : Impl) (hI : I.charSigned = true) (s : Bytes) :
    nul_readable I s = true ↔ 0 ∉ s := by
  constructor
  · intro h h0
    have hloop := nul_readable_loop I s h
    rw [hI] at hloop
    have key : ∀ (s : Bytes) (fuel n : Nat), 0 ∈ s →
        Details.ParseBinaryString.loop true fuel (s ++ [0]) n ≠ .ok (0, n + s.length + 1) := by
      intro s
      induction s with
      | nil => intro fuel n h; cases h
      | cons c s ih =>
        intro fuel n hmem hl
        cases fuel with
        | zero => simp [Details.ParseBinaryString.loop] at hl
        | succ fuel =>
          rw [List.cons_append, Details.ParseBinaryString.loop] at hl
          simp only [List.length_cons] at hl
          have e1 : n + (s.length + 1) + 1 = n + 1 + s.length + 1 := by omega
          by_cases c0 : c = 0
          · subst c0
            simp at hl
          · have hmem2 : 0 ∈ s := by
              rcases List.mem_cons.1 hmem with h | h
              · exact absurd h.symm c0
              · exact h
            by_cases c1 : c < 0x80
            · rw [if_pos c1, if_neg c0, e1] at hl
              exact ih fuel (n + 1) hmem2 hl
            · rw [if_neg c1, if_pos trivial, e1] at hl
              exact ih fuel (n + 1) hmem2 hl
    exact key s _ 0 h0 hloop
  · intro h0
    unfold nul_readable
    rw [ParseBinaryString_plain I s [] [] (fun b hb => ⟨fun h => h0 (h ▸ hb), Or.inr hI⟩)]
    simp

end EasyVDF
